import Mathlib

/-!
Minefield reachability cache (`pkg/cache.go`).

A shallow embedding of the cache builder of `pkg/cache.go`: the SCC finder
`findCycles` (Tarjan), the seeding of the group maps `addCyclesToBindMap`, the
union DFS `cacheDFS` / `buildCache` and the driver `Cache`.

Conventions of the embedding.

* Node ids (`uint32`) are natural numbers; every conversion in the source
  (`uint32(id)`, `int(k)`) is between values that are ids already, so it is the
  identity.
* A `roaring.Bitmap` is a list of ids read as a set; `ToArray` enumerates it in
  ascending order without repetition.
* Go maps are association lists. The order of a `range` loop over a map is a
  parameter (`RangeOrder`): the theorems hold for every order.
* The recursive closures `tarjanDFS` and `cacheDFS` take a recursion budget
  (`fuel`); running out of it is reported as `Error.outOfFuel`, and the theorems
  show that a budget of `(N + 1) * (N + 1)` is never exhausted on a well-formed
  map with `N` nodes.
* A nil-pointer dereference (a node id missing from `allNodes`) is reported as
  `Error.nilDereference`.
* The group map `NativeKeyManagement` is declared outside `cache.go`; its `Get` and
  `Set` never fail. The definitions whose name ends in `Strict` are the same code on
  a group map that reports a key which is unbound or has no stored bitmap
  (`Error.missingKey`).
-/

namespace Minefield

set_option autoImplicit false

/-! ## Errors -/

/-- Error values: what a storage operation reports, the two ways `Cache` wraps an
error (`fmt.Errorf` with `%w` and with `%v`), a failed `strconv.Atoi`, a key that a
group map which checks its keys does not hold, and the two abnormal endings of the
embedding. -/
inductive Error where
  | storage (msg : String)
  | wrapW (context : String) (cause : Error)
  | wrapV (context : String) (cause : Error)
  | atoi (input : String)
  | missingKey (key : String)
  | nilDereference
  | outOfFuel
  deriving DecidableEq, Repr

/-! ## Bitmaps (`roaring.Bitmap`) -/

/-- A bitmap of ids, read as a set. -/
abbrev Bitmap := List Nat

namespace Bitmap

/-- `roaring.New()`. -/
def New : Bitmap := []

/-- `bm.Contains(x)`. -/
def Contains (b : Bitmap) (x : Nat) : Bool := decide (x ∈ b)

/-- `bm.Add(x)`: ordered insertion, nothing to do when `x` is present. -/
def Add : Bitmap → Nat → Bitmap
  | [], x => [x]
  | y :: ys, x => if x < y then x :: y :: ys else if x = y then y :: ys else y :: Add ys x

/-- `bm.Remove(x)`. -/
def Remove (b : Bitmap) (x : Nat) : Bitmap := b.filter (fun y => decide (y ≠ x))

/-- `a.Or(b)`: union. -/
def Or (a b : Bitmap) : Bitmap := b.foldl Add a

/-- `a.AndNot(b)`: difference. -/
def AndNot (a b : Bitmap) : Bitmap := a.filter (fun y => decide (y ∉ b))

/-- `bm.ToArray()`: the elements in ascending order, each once. -/
def ToArray (b : Bitmap) : List Nat := b.foldl Add []

/-- `bm.Clone()`. -/
def Clone (b : Bitmap) : Bitmap := b

end Bitmap

/-! ## Nodes and the node map -/

/-- The fields of `Node` that `cache.go` reads. -/
structure Node where
  ID : Nat
  Children : Bitmap
  Parents : Bitmap
  deriving DecidableEq, Repr

/-- `NodeCache`, as built by `NewNodeCache(id, allParents, allChildren)`. -/
structure NodeCache where
  nodeID : Nat
  allParents : Bitmap
  allChildren : Bitmap
  deriving DecidableEq, Repr

/-- `NewNodeCache`. -/
def NewNodeCache (id : Nat) (allParents allChildren : Bitmap) : NodeCache :=
  { nodeID := id, allParents := allParents, allChildren := allChildren }

/-- `map[uint32]*Node`. -/
abbrev NodeMap := List (Nat × Node)

/-- `allNodes[id]` (`none` is the nil pointer). -/
def NodeMap.get? : NodeMap → Nat → Option Node
  | [], _ => none
  | (k, nd) :: rest, id => if k = id then some nd else NodeMap.get? rest id

/-- `Direction`. -/
inductive Direction where
  | ChildrenDirection
  | ParentsDirection
  deriving DecidableEq, Repr

/-- The adjacency bitmap a direction selects. -/
def Node.next (nd : Node) : Direction → Bitmap
  | .ChildrenDirection => nd.Children
  | .ParentsDirection => nd.Parents

/-! ## `map[uint32]uint32` -/

/-- A Go map from ids to ids. -/
abbrev IdMap := List (Nat × Nat)

/-- `v, ok := m[k]`. -/
def IdMap.get? : IdMap → Nat → Option Nat
  | [], _ => none
  | (k, v) :: rest, id => if k = id then some v else IdMap.get? rest id

/-- `m[k]`, zero when the key is missing. -/
def IdMap.get (m : IdMap) (k : Nat) : Nat := (IdMap.get? m k).getD 0

/-- `m[k] = v`. -/
def IdMap.set : IdMap → Nat → Nat → IdMap
  | [], k, v => [(k, v)]
  | (k', v') :: rest, k, v => if k' = k then (k, v) :: rest else (k', v') :: IdMap.set rest k v

/-! ## Decimal keys (`strconv.Itoa`, `strconv.Atoi`) -/

/-- The decimal digit `d` as a character. -/
def digitChar (d : Nat) : Char := Char.ofNat (48 + d)

/-- Digits of `n`, most significant first, in front of `acc`. -/
def itoaAux : Nat → Nat → List Char → List Char
  | 0, _, acc => acc
  | fuel + 1, n, acc =>
    if n / 10 = 0 then digitChar (n % 10) :: acc
    else itoaAux fuel (n / 10) (digitChar (n % 10) :: acc)

/-- `strconv.Itoa` on a non-negative number. -/
def Itoa (n : Nat) : String := String.mk (itoaAux (n + 1) n [])

/-- Reads decimal digits. -/
def atoiAux : List Char → Nat → Option Nat
  | [], acc => some acc
  | c :: cs, acc =>
    if 48 ≤ c.toNat ∧ c.toNat ≤ 57 then atoiAux cs (acc * 10 + (c.toNat - 48)) else none

/-- `strconv.Atoi` on the keys `cache.go` handles, which are unsigned decimals: every
key it parses was written by `strconv.Itoa` from a node id. The leading sign and the
range check of `strconv.Atoi` are left out. -/
def Atoi (s : String) : Except Error Nat :=
  match s.data with
  | [] => .error (.atoi s)
  | c :: cs =>
    match atoiAux (c :: cs) 0 with
    | some n => .ok n
    | none => .error (.atoi s)

/-! ## The group-bitmap map (`NativeKeyManagement`) -/

/-- Modelled from the spec: `NativeKeyManagement` is declared outside `cache.go`.
Section 4.2 of the specification gives its contract: `bind(keys)` makes the first
key the canonical alias of all of them, `get` reads the canonical slot (an empty
bitmap when nothing was stored), `set` writes the canonical slot, and
`keys_and_values` lists every known key with the value read through it. -/
structure NativeKeyManagement where
  bindings : List (String × String)
  values : List (String × Bitmap)
  deriving DecidableEq, Repr

namespace NativeKeyManagement

/-- `NewNativeKeyManagement()`. -/
def New : NativeKeyManagement := { bindings := [], values := [] }

/-- The canonical alias recorded for a key. -/
def lookupBinding : List (String × String) → String → Option String
  | [], _ => none
  | (k, c) :: rest, key => if k = key then some c else lookupBinding rest key

/-- Records `c` as the canonical alias of `key`. -/
def setBinding : List (String × String) → String → String → List (String × String)
  | [], key, c => [(key, c)]
  | (k, c') :: rest, key, c =>
    if k = key then (k, c) :: rest else (k, c') :: setBinding rest key c

/-- The slot of a canonical key. -/
def lookupValue : List (String × Bitmap) → String → Option Bitmap
  | [], _ => none
  | (k, v) :: rest, key => if k = key then some v else lookupValue rest key

/-- Overwrites the slot of a canonical key. -/
def setValue : List (String × Bitmap) → String → Bitmap → List (String × Bitmap)
  | [], key, v => [(key, v)]
  | (k, v') :: rest, key, v =>
    if k = key then (k, v) :: rest else (k, v') :: setValue rest key v

/-- The canonical alias of a key: itself when the key is unbound. -/
def canonical (m : NativeKeyManagement) (key : String) : String :=
  (lookupBinding m.bindings key).getD key

/-- `BindKeys(keys)`: the first key becomes the canonical alias of every key. -/
def BindKeys (m : NativeKeyManagement) (keys : List String) :
    Except Error (String × NativeKeyManagement) :=
  match keys with
  | [] => .ok ("", m)
  | c :: _ => .ok (c, { m with bindings := keys.foldl (fun b k => setBinding b k c) m.bindings })

/-- `Get(key)`: a copy of the group's bitmap, empty when nothing was stored. -/
def Get (m : NativeKeyManagement) (key : String) : Except Error Bitmap :=
  .ok ((lookupValue m.values (m.canonical key)).getD Bitmap.New)

/-- `Set(key, value)`: writes the group's bitmap. -/
def Set (m : NativeKeyManagement) (key : String) (value : Bitmap) :
    Except Error NativeKeyManagement :=
  .ok { m with values := setValue m.values (m.canonical key) value }

/-- Every known key: the bound keys, then the keys written without a binding. -/
def allKeys (m : NativeKeyManagement) : List String :=
  let bound := m.bindings.map Prod.fst
  bound ++ (m.values.map Prod.fst).filter (fun k => decide (k ∉ bound))

/-- `GetAllKeysAndValues()`: parallel lists of keys and of the bitmaps read through
them. -/
def GetAllKeysAndValues (m : NativeKeyManagement) :
    Except Error (List String × List Bitmap) :=
  .ok (m.allKeys, m.allKeys.map (fun k => (lookupValue m.values (m.canonical k)).getD Bitmap.New))

end NativeKeyManagement

/-! ## `findCycles` -/

/-- The variables the closure `tarjanDFS` captures. The Go slice `stack` grows at
its end; here the top of the stack is the head of the list. -/
structure TarjanState where
  stack : List Nat
  currentTarjanID : Nat
  nodeToTarjanID : IdMap
  lowLink : IdMap
  inStack : Bitmap
  deriving DecidableEq, Repr

/-- The loop `for len(stack) > 0 { ... }` that pops a finished component. -/
def popComponent (nodeID : Nat) : List Nat → TarjanState → TarjanState
  | [], st => { st with stack := [] }
  | id :: rest, st =>
    let st' : TarjanState :=
      { st with
        stack := rest
        inStack := Bitmap.Remove st.inStack id
        lowLink := IdMap.set st.lowLink id (IdMap.get st.nodeToTarjanID nodeID) }
    if nodeID = id then st' else popComponent nodeID rest st'

/-- The loop `for _, nextNode := range nextNodes` of `tarjanDFS`; `dfs` is the
recursive call. -/
def tarjanLoop (dfs : Nat → TarjanState → Except Error TarjanState) (nodeID : Nat) :
    List Nat → TarjanState → Except Error TarjanState
  | [], st => .ok st
  | nextNode :: rest, st =>
    if (IdMap.get? st.nodeToTarjanID nextNode).isNone then
      match dfs nextNode st with
      | .error e => .error e
      | .ok st1 =>
        tarjanLoop dfs nodeID rest
          { st1 with
            lowLink := IdMap.set st1.lowLink nodeID
              (min (IdMap.get st1.lowLink nodeID) (IdMap.get st1.lowLink nextNode)) }
    else if Bitmap.Contains st.inStack nextNode then
      tarjanLoop dfs nodeID rest
        { st with
          lowLink := IdMap.set st.lowLink nodeID
            (min (IdMap.get st.lowLink nodeID) (IdMap.get st.nodeToTarjanID nextNode)) }
    else tarjanLoop dfs nodeID rest st

/-- The closure `tarjanDFS` of `findCycles`. -/
def tarjanDFS (direction : Direction) (allNodes : NodeMap) :
    Nat → Nat → TarjanState → Except Error TarjanState
  | 0, _, _ => .error .outOfFuel
  | fuel + 1, nodeID, st =>
    match NodeMap.get? allNodes nodeID with
    | none => .error .nilDereference
    | some currentNode =>
      let nextNodes := Bitmap.ToArray (currentNode.next direction)
      let st0 : TarjanState :=
        { stack := nodeID :: st.stack
          currentTarjanID := st.currentTarjanID + 1
          nodeToTarjanID := IdMap.set st.nodeToTarjanID nodeID (st.currentTarjanID + 1)
          lowLink := IdMap.set st.lowLink nodeID (st.currentTarjanID + 1)
          inStack := Bitmap.Add st.inStack nodeID }
      match tarjanLoop (tarjanDFS direction allNodes fuel) nodeID nextNodes st0 with
      | .error e => .error e
      | .ok st1 =>
        if IdMap.get st1.nodeToTarjanID nodeID = IdMap.get st1.lowLink nodeID then
          .ok (popComponent nodeID st1.stack st1)
        else .ok st1

/-- The loop `for id := 1; id < numOfNodes+1; id++` of `findCycles`, over the ids
still to visit. -/
def findCyclesLoop (direction : Direction) (allNodes : NodeMap) (fuel : Nat) :
    List Nat → TarjanState → Except Error TarjanState
  | [], st => .ok st
  | id :: rest, st =>
    if (IdMap.get? st.nodeToTarjanID id).isNone then
      match tarjanDFS direction allNodes fuel id st with
      | .error e => .error e
      | .ok st1 => findCyclesLoop direction allNodes fuel rest st1
    else findCyclesLoop direction allNodes fuel rest st

/-- `findCycles(storage, direction, numOfNodes, allNodes)`; the storage handle is
not used by the source. -/
def findCycles (fuel : Nat) (direction : Direction) (numOfNodes : Nat) (allNodes : NodeMap) :
    Except Error IdMap :=
  match findCyclesLoop direction allNodes fuel (List.range' 1 numOfNodes)
      { stack := [], currentTarjanID := 0, nodeToTarjanID := [], lowLink := [],
        inStack := Bitmap.New } with
  | .error e => .error e
  | .ok st => .ok st.lowLink

/-! ## `addCyclesToBindMap` -/

/-- `parentToKeys[v] = append(parentToKeys[v], key)`. -/
def appendKey : List (Nat × List String) → Nat → String → List (Nat × List String)
  | [], v, key => [(v, [key])]
  | (v', keys) :: rest, v, key =>
    if v' = v then (v', keys ++ [key]) :: rest else (v', keys) :: appendKey rest v key

/-- Go does not fix the order in which a `range` loop visits the entries of a map.
A `RangeOrder` gives the order of one run for the two maps `addCyclesToBindMap`
ranges over, `scc` and `parentToKeys`: any rearrangement of the entries. -/
structure RangeOrder where
  ids : IdMap → IdMap
  groups : List (Nat × List String) → List (Nat × List String)
  ids_perm : ∀ m, (ids m).Perm m
  groups_perm : ∀ g, (groups g).Perm g

/-- The order in which the entries are listed. -/
def RangeOrder.listed : RangeOrder :=
  { ids := fun m => m, groups := fun g => g, ids_perm := fun _ => List.Perm.refl _,
    groups_perm := fun _ => List.Perm.refl _ }

/-- The listed order for both directions. -/
def RangeOrder.listedBoth : Direction → RangeOrder := fun _ => RangeOrder.listed

/-- The first loop of `addCyclesToBindMap`, over the entries of `scc` in the order
they are visited: the keys grouped by value. -/
def parentToKeys (scc : IdMap) : List (Nat × List String) :=
  scc.foldl (fun acc kv => appendKey acc kv.2 (Itoa kv.1)) []

/-- The three bitmaps gathered for one group. -/
structure GroupAcc where
  keycache : Bitmap
  childrenCache : Bitmap
  parentCache : Bitmap
  deriving DecidableEq, Repr

/-- The loop `for _, key := range keysForAParent`. -/
def gatherGroup (allNodes : NodeMap) : List String → GroupAcc → Except Error GroupAcc
  | [], acc => .ok acc
  | key :: rest, acc =>
    match Atoi key with
    | .error e => .error e
    | .ok intkey =>
      match NodeMap.get? allNodes intkey with
      | none => .error .nilDereference
      | some node =>
        gatherGroup allNodes rest
          { childrenCache := Bitmap.Or acc.childrenCache node.Children
            parentCache := Bitmap.Or acc.parentCache node.Parents
            keycache := Bitmap.Add (Bitmap.Add acc.keycache intkey) node.ID }

/-- The three group maps `buildCache` threads through its helpers. -/
structure BindMaps where
  cache : NativeKeyManagement
  children : NativeKeyManagement
  parents : NativeKeyManagement
  deriving DecidableEq, Repr

/-- The body of the loop `for _, keysForAParent := range parentToKeys`. -/
def addGroup (allNodes : NodeMap) (keysForAParent : List String) (m : BindMaps) :
    Except Error BindMaps :=
  match m.cache.BindKeys keysForAParent with
  | .error e => .error e
  | .ok (_, cache1) =>
  match m.children.BindKeys keysForAParent with
  | .error e => .error e
  | .ok (_, children1) =>
  match m.parents.BindKeys keysForAParent with
  | .error e => .error e
  | .ok (_, parents1) =>
  match gatherGroup allNodes keysForAParent
      { keycache := Bitmap.New, childrenCache := Bitmap.New, parentCache := Bitmap.New } with
  | .error e => .error e
  | .ok acc =>
    let childrenCache := Bitmap.AndNot acc.childrenCache acc.keycache
    let parentCache := Bitmap.AndNot acc.parentCache acc.keycache
    match keysForAParent with
    | [] => .ok { cache := cache1, children := children1, parents := parents1 }
    | first :: _ =>
      match cache1.Set first acc.keycache with
      | .error e =>
        .error (.wrapW ("error setting value for key in cache " ++ first) e)
      | .ok cache2 =>
      match children1.Set first childrenCache with
      | .error e =>
        .error (.wrapW ("error setting value for key in grouped children relationship" ++ first) e)
      | .ok children2 =>
      match parents1.Set first parentCache with
      | .error e =>
        .error (.wrapW ("error setting value for key in grouped parent relationship" ++ first) e)
      | .ok parents2 => .ok { cache := cache2, children := children2, parents := parents2 }

/-- The second loop of `addCyclesToBindMap`. -/
def addGroups (allNodes : NodeMap) : List (Nat × List String) → BindMaps → Except Error BindMaps
  | [], m => .ok m
  | (_, keysForAParent) :: rest, m =>
    match addGroup allNodes keysForAParent m with
    | .error e => .error e
    | .ok m1 => addGroups allNodes rest m1

/-- `addCyclesToBindMap(storage, scc, cache, children, parents, allNodes)`; `ord` is
the order in which the two `range` loops visit their maps. -/
def addCyclesToBindMap (ord : RangeOrder) (scc : IdMap) (m : BindMaps) (allNodes : NodeMap) :
    Except Error BindMaps :=
  addGroups allNodes (ord.groups (parentToKeys (ord.ids scc))) m

/-! ## `cacheDFS` and `buildCache` -/

/-- `getTodoAndFutureNodes(children, parents, curNode, direction)`. -/
def getTodoAndFutureNodes (children parents : NativeKeyManagement) (curNode : Node)
    (direction : Direction) : Except Error (List Nat × List Nat) :=
  match direction with
  | .ChildrenDirection =>
    match children.Get (Itoa curNode.ID) with
    | .error e => .error e
    | .ok todoNodesBitmap =>
      match parents.Get (Itoa curNode.ID) with
      | .error e => .error e
      | .ok futureNodesBitmap =>
        .ok (Bitmap.ToArray todoNodesBitmap, Bitmap.ToArray futureNodesBitmap)
  | .ParentsDirection =>
    match parents.Get (Itoa curNode.ID) with
    | .error e => .error e
    | .ok todoNodesBitmap =>
      match children.Get (Itoa curNode.ID) with
      | .error e => .error e
      | .ok futureNodesBitmap =>
        .ok (Bitmap.ToArray todoNodesBitmap, Bitmap.ToArray futureNodesBitmap)

/-- `addToCache(bm, curElem, todoElem)`. -/
def addToCache (bm : NativeKeyManagement) (curElem todoElem : Nat) :
    Except Error NativeKeyManagement :=
  match bm.Get (Itoa curElem) with
  | .error e => .error (.wrapV "error getting value for curElem key from value" e)
  | .ok curElemVal =>
    match bm.Get (Itoa todoElem) with
    | .error e => .error (.wrapV "error getting value for curElem key" e)
    | .ok todoVal =>
      bm.Set (Itoa curElem) (Bitmap.Add (Bitmap.Or curElemVal todoVal) curElem)

/-- What `cacheDFS` mutates: the bitmap `alreadyCached` and the group map `cache`. -/
structure DFSState where
  alreadyCached : Bitmap
  cache : NativeKeyManagement
  deriving DecidableEq, Repr

/-- The loop `for _, id := range todoNodes` of `cacheDFS`; `dfs` is the recursive
call. -/
def todoLoop (dfs : Nat → DFSState → Except Error DFSState) (scc : IdMap)
    (curID nodeID : Nat) : List Nat → DFSState → Except Error DFSState
  | [], st => .ok st
  | id :: rest, st =>
    if ¬ (IdMap.get scc curID = IdMap.get scc id) then
      if Bitmap.Contains st.alreadyCached id then
        match addToCache st.cache nodeID id with
        | .error e => .error e
        | .ok cache1 => todoLoop dfs scc curID nodeID rest { st with cache := cache1 }
      else
        match dfs id st with
        | .error e => .error e
        | .ok st1 => todoLoop dfs scc curID nodeID rest st1
    else todoLoop dfs scc curID nodeID rest st

/-- The loop `for _, id := range futureNodes` of `cacheDFS`. -/
def futureLoop (dfs : Nat → DFSState → Except Error DFSState) :
    List Nat → DFSState → Except Error DFSState
  | [], st => .ok st
  | id :: rest, st =>
    match dfs id st with
    | .error e => .error e
    | .ok st1 => futureLoop dfs rest st1

/-- `cacheDFS(storage, nodeID, direction, scc, alreadyCached, cache, children,
parents, allNodes)`. -/
def cacheDFS (direction : Direction) (scc : IdMap) (children parents : NativeKeyManagement)
    (allNodes : NodeMap) : Nat → Nat → DFSState → Except Error DFSState
  | 0, _, _ => .error .outOfFuel
  | fuel + 1, nodeID, st =>
    match NodeMap.get? allNodes nodeID with
    | none => .error .nilDereference
    | some curNode =>
      if Bitmap.Contains st.alreadyCached curNode.ID then .ok st
      else
        match getTodoAndFutureNodes children parents curNode direction with
        | .error e => .error e
        | .ok (todoNodes, futureNodes) =>
          match todoLoop (cacheDFS direction scc children parents allNodes fuel) scc
              curNode.ID nodeID todoNodes st with
          | .error e => .error e
          | .ok st1 =>
            futureLoop (cacheDFS direction scc children parents allNodes fuel) futureNodes
              { st1 with alreadyCached := Bitmap.Add st1.alreadyCached nodeID }

/-- `buildCache(storage, uncachedNodes, direction, scc, allNodes)`. -/
def buildCache (ord : RangeOrder) (fuel : Nat) (uncachedNodes : List Nat)
    (direction : Direction) (scc : IdMap) (allNodes : NodeMap) :
    Except Error NativeKeyManagement :=
  match addCyclesToBindMap ord scc
      { cache := NativeKeyManagement.New, children := NativeKeyManagement.New,
        parents := NativeKeyManagement.New } allNodes with
  | .error e => .error e
  | .ok m =>
    match futureLoop (cacheDFS direction scc m.children m.parents allNodes fuel) uncachedNodes
        { alreadyCached := Bitmap.New, cache := m.cache } with
    | .error e => .error e
    | .ok st => .ok st.cache

/-! ## Storage -/

/-- The operations of the `Storage` interface that `Cache` invokes. -/
inductive StorageOp where
  | ToBeCached
  | GetAllKeys
  | GetNodes
  | SaveCaches
  | ClearCacheStack
  deriving DecidableEq, Repr

/-- Modelled from the spec: the `Storage` interface is declared outside `cache.go`;
section 6 of the specification lists its operations. Each one runs on a storage
state, may change it, and may fail. -/
structure Storage (σ : Type) where
  ToBeCached : σ → Except Error (List Nat) × σ
  GetAllKeys : σ → Except Error (List Nat) × σ
  GetNodes : List Nat → σ → Except Error NodeMap × σ
  SaveCaches : List NodeCache → σ → Option Error × σ
  ClearCacheStack : σ → Option Error × σ

/-- One entry of a storage trace: the operation invoked, whether it failed, and
for `SaveCaches` the records it was given. -/
structure StorageCall where
  op : StorageOp
  failed : Bool
  saved : List NodeCache
  deriving DecidableEq, Repr

/-- A storage that also records, in order, every operation invoked on it. -/
def Storage.traced {σ : Type} (s : Storage σ) : Storage (σ × List StorageCall) where
  ToBeCached := fun p =>
    let r := s.ToBeCached p.1
    (r.1, (r.2, p.2 ++ [⟨StorageOp.ToBeCached, !r.1.toBool, []⟩]))
  GetAllKeys := fun p =>
    let r := s.GetAllKeys p.1
    (r.1, (r.2, p.2 ++ [⟨StorageOp.GetAllKeys, !r.1.toBool, []⟩]))
  GetNodes := fun keys p =>
    let r := s.GetNodes keys p.1
    (r.1, (r.2, p.2 ++ [⟨StorageOp.GetNodes, !r.1.toBool, []⟩]))
  SaveCaches := fun caches p =>
    let r := s.SaveCaches caches p.1
    (r.1, (r.2, p.2 ++ [⟨StorageOp.SaveCaches, r.1.isSome, caches⟩]))
  ClearCacheStack := fun p =>
    let r := s.ClearCacheStack p.1
    (r.1, (r.2, p.2 ++ [⟨StorageOp.ClearCacheStack, r.1.isSome, []⟩]))

/-- Modelled from the spec: an in-memory storage as an explicit state, the nodes,
the stored `NodeCache` records, the to-be-cached list, and the operations that are
set to fail (with the error they report). -/
structure MemStorage where
  nodes : NodeMap
  caches : List (Nat × NodeCache)
  toBeCached : List Nat
  faults : List (StorageOp × Error)
  deriving DecidableEq, Repr

namespace MemStorage

/-- The error an operation is set to fail with, if any. -/
def fault (s : MemStorage) (op : StorageOp) : Option Error :=
  (s.faults.find? (fun p => decide (p.1 = op))).map Prod.snd

/-- The stored record of a node. -/
def lookupCache : List (Nat × NodeCache) → Nat → Option NodeCache
  | [], _ => none
  | (k, c) :: rest, id => if k = id then some c else lookupCache rest id

/-- Stores (or overwrites) the record of a node. -/
def storeCache : List (Nat × NodeCache) → NodeCache → List (Nat × NodeCache)
  | [], c => [(c.nodeID, c)]
  | (k, c') :: rest, c =>
    if k = c.nodeID then (k, c) :: rest else (k, c') :: storeCache rest c

/-- The stored record of a node. -/
def cacheOf (s : MemStorage) (id : Nat) : Option NodeCache := lookupCache s.caches id

/-- The operations of the in-memory storage: `SaveCaches` stores the whole batch or
nothing, `ClearCacheStack` empties the to-be-cached list. -/
def ops : Storage MemStorage where
  ToBeCached := fun s =>
    match s.fault .ToBeCached with
    | some e => (.error e, s)
    | none => (.ok s.toBeCached, s)
  GetAllKeys := fun s =>
    match s.fault .GetAllKeys with
    | some e => (.error e, s)
    | none => (.ok (s.nodes.map Prod.fst), s)
  GetNodes := fun keys s =>
    match s.fault .GetNodes with
    | some e => (.error e, s)
    | none => (.ok (keys.filterMap (fun k => (NodeMap.get? s.nodes k).map (fun nd => (k, nd)))), s)
  SaveCaches := fun caches s =>
    match s.fault .SaveCaches with
    | some e => (some e, s)
    | none => (none, { s with caches := caches.foldl storeCache s.caches })
  ClearCacheStack := fun s =>
    match s.fault .ClearCacheStack with
    | some e => (some e, s)
    | none => (none, { s with toBeCached := [] })

end MemStorage

/-! ## `Cache` -/

/-- The loop `for i := 0; i < len(cachedChildKeys); i++` of `Cache`. -/
def assembleCaches (cachedParents : NativeKeyManagement) :
    List String → List Bitmap → List NodeCache → Except Error (List NodeCache)
  | [], _, caches => .ok caches
  | _ :: _, [], _ => .error .nilDereference
  | childId :: keys, value :: values, caches =>
    match Atoi childId with
    | .error e => .error e
    | .ok childIntId =>
      let childBindValue := Bitmap.Remove (Bitmap.Clone value) childIntId
      match cachedParents.Get (Itoa childIntId) with
      | .error e => .error (.wrapV ("error getting value for key " ++ childId) e)
      | .ok tempValue =>
        let parentBindValue := Bitmap.Remove (Bitmap.Clone tempValue) childIntId
        assembleCaches cachedParents keys values
          (caches ++ [NewNodeCache childIntId parentBindValue childBindValue])

/-- The part of `Cache` between loading the nodes and saving: the records it
computes from the uncached list, the number of keys and the node map. -/
def computeCaches (ord : Direction → RangeOrder) (fuel : Nat) (uncachedNodes : List Nat)
    (numKeys : Nat) (allNodes : NodeMap) : Except Error (List NodeCache) :=
  match findCycles fuel .ChildrenDirection numKeys allNodes with
  | .error e => .error e
  | .ok childSCC =>
  match buildCache (ord .ChildrenDirection) fuel uncachedNodes .ChildrenDirection childSCC
      allNodes with
  | .error e => .error e
  | .ok cachedChildren =>
  match findCycles fuel .ParentsDirection numKeys allNodes with
  | .error e => .error e
  | .ok parentSCC =>
  match buildCache (ord .ParentsDirection) fuel uncachedNodes .ParentsDirection parentSCC
      allNodes with
  | .error e => .error e
  | .ok cachedParents =>
  match cachedChildren.GetAllKeysAndValues with
  | .error e => .error e
  | .ok (cachedChildKeys, cachedChildValues) =>
    assembleCaches cachedParents cachedChildKeys cachedChildValues []

/-- `Cache(storage)`: the returned error (`none` is `nil`) and the storage state it
leaves; `ord` is the order of the `range` loops in the two `buildCache` calls. -/
def Cache {σ : Type} (ord : Direction → RangeOrder) (storage : Storage σ) (fuel : Nat)
    (s : σ) : Option Error × σ :=
  match storage.ToBeCached s with
  | (.error e, s1) => (some e, s1)
  | (.ok uncachedNodes, s1) =>
    if uncachedNodes.length = 0 then (none, s1)
    else
      match storage.GetAllKeys s1 with
      | (.error e, s2) => (some (.wrapW "error getting keys" e), s2)
      | (.ok keys, s2) =>
        match storage.GetNodes keys s2 with
        | (.error e, s3) => (some (.wrapW "error getting all nodes" e), s3)
        | (.ok allNodes, s3) =>
          match computeCaches ord fuel uncachedNodes keys.length allNodes with
          | .error e => (some e, s3)
          | .ok caches =>
            match storage.SaveCaches caches s3 with
            | (some e, s4) => (some e, s4)
            | (none, s4) => storage.ClearCacheStack s4

/-! ## Well-formed node maps and reachability -/

/-- The keys of the map are exactly `1..N` (listed in ascending order), every node
is stored under its own id, and every id in an adjacency bitmap is in `1..N`. -/
def KeysInRange (N : Nat) (m : NodeMap) : Prop :=
  m.map Prod.fst = List.range' 1 N ∧
  ∀ p ∈ m, p.2.ID = p.1 ∧ (∀ c ∈ p.2.Children, 1 ≤ c ∧ c ≤ N) ∧
    (∀ c ∈ p.2.Parents, 1 ≤ c ∧ c ≤ N)

/-- The node invariant `b ∈ a.Children ⇔ a ∈ b.Parents`. -/
def Symmetric (m : NodeMap) : Prop :=
  ∀ p ∈ m, ∀ q ∈ m, (q.1 ∈ p.2.Children ↔ p.1 ∈ q.2.Parents)

/-- A well-formed node map with `N` nodes. -/
def WellFormed (N : Nat) (m : NodeMap) : Prop := KeysInRange N m ∧ Symmetric m

instance (N : Nat) (m : NodeMap) : Decidable (KeysInRange N m) := by
  unfold KeysInRange; infer_instance

instance (m : NodeMap) : Decidable (Symmetric m) := by
  unfold Symmetric; infer_instance

instance (N : Nat) (m : NodeMap) : Decidable (WellFormed N m) := by
  unfold WellFormed; infer_instance

/-- One edge of the graph in the chosen direction: `b` is in the adjacency bitmap
of node `a`. -/
def Edge (d : Direction) (m : NodeMap) (a b : Nat) : Prop :=
  ∃ nd, NodeMap.get? m a = some nd ∧ b ∈ nd.next d

/-- Reachable by zero or more edges. -/
def Reach (d : Direction) (m : NodeMap) : Nat → Nat → Prop :=
  Relation.ReflTransGen (Edge d m)

/-- Reachable by one or more edges. -/
def ReachPlus (d : Direction) (m : NodeMap) : Nat → Nat → Prop :=
  Relation.TransGen (Edge d m)

/-- In the same strongly connected component: each reaches the other. -/
def SameSCC (d : Direction) (m : NodeMap) (a b : Nat) : Prop :=
  Reach d m a b ∧ Reach d m b a

/-- Joined by a path that may follow child edges in either sense. -/
def Connected (m : NodeMap) : Nat → Nat → Prop :=
  Relation.ReflTransGen
    (fun a b => Edge .ChildrenDirection m a b ∨ Edge .ChildrenDirection m b a)

/-- Connected to a node of the uncached list. -/
def NearUncached (m : NodeMap) (uncached : List Nat) (n : Nat) : Prop :=
  ∃ u ∈ uncached, Connected m u n

/-! ## Example storages -/

/-- Three nodes, one edge `2 → 3`. -/
def exampleNodes : NodeMap :=
  [(1, ⟨1, [], []⟩), (2, ⟨2, [3], []⟩), (3, ⟨3, [], [2]⟩)]

/-- Only node 1 is waiting to be cached. -/
def exampleStorage : MemStorage :=
  { nodes := exampleNodes, caches := [], toBeCached := [1], faults := [] }

/-- The same storage with a failing `SaveCaches`. -/
def exampleFailingSave : MemStorage :=
  { nodes := exampleNodes, caches := [], toBeCached := [1],
    faults := [(.SaveCaches, .storage "disk full")] }

/-- Two nodes on a cycle `1 → 2 → 1`, both waiting to be cached. -/
def cycleStorage : MemStorage :=
  { nodes := [(1, ⟨1, [2], [2]⟩), (2, ⟨2, [1], [1]⟩)], caches := [], toBeCached := [1, 2],
    faults := [] }

/-! ## Invariants of `findCycles` -/

/-- The discovery index `nodeToTarjanID[v]`. -/
def TarjanState.num (s : TarjanState) (v : Nat) : Nat := IdMap.get s.nodeToTarjanID v

/-- The value `lowLink[v]`. -/
def TarjanState.low (s : TarjanState) (v : Nat) : Nat := IdMap.get s.lowLink v

/-- The node has a discovery index. -/
def TarjanState.Visited (s : TarjanState) (v : Nat) : Prop :=
  (IdMap.get? s.nodeToTarjanID v).isSome = true

/-- What holds of the variables of `findCycles` between two steps; `g` lists the
nodes whose `tarjanDFS` call is in progress. -/
structure TarjanInv (d : Direction) (m : NodeMap) (N : Nat) (g : List Nat)
    (s : TarjanState) : Prop where
  visited_range : ∀ v, s.Visited v → 1 ≤ v ∧ v ≤ N
  low_defined : ∀ v, s.Visited v → (IdMap.get? s.lowLink v).isSome = true
  low_visited : ∀ v, (IdMap.get? s.lowLink v).isSome = true → s.Visited v
  low_nodup : (s.lowLink.map Prod.fst).Nodup
  inStack_iff : ∀ v, v ∈ s.inStack ↔ v ∈ s.stack
  stack_visited : ∀ v ∈ s.stack, s.Visited v
  num_le : ∀ v, s.Visited v → s.num v ≤ s.currentTarjanID
  num_inj : ∀ u v, s.Visited u → s.Visited v → s.num u = s.num v → u = v
  stack_reach : ∀ x ∈ s.stack, ∀ y ∈ s.stack, s.num x ≤ s.num y → Reach d m x y
  stack_gray : ∀ y ∈ s.stack, ∃ x ∈ g, s.num x ≤ s.num y ∧ Reach d m y x
  gray_stack : ∀ x ∈ g, x ∈ s.stack
  black_closed : ∀ x, s.Visited x → x ∉ g → ∀ y, Edge d m x y → s.Visited y
  popped_root : ∀ v, s.Visited v → v ∉ s.stack →
    ∃ r, s.Visited r ∧ r ∉ s.stack ∧ s.low v = s.num r ∧ SameSCC d m v r
  popped_closed : ∀ v, s.Visited v → v ∉ s.stack → ∀ w, SameSCC d m v w →
    s.Visited w ∧ w ∉ s.stack ∧ s.low w = s.low v
  low_stack : ∀ v ∈ s.stack, s.low v ≤ s.num v ∧
    ∃ y ∈ s.stack, s.num y = s.low v ∧ Reach d m v y
  popped_le : ∀ v, s.Visited v → v ∉ s.stack → s.low v ≤ s.num v

/-- What a call `tarjanDFS(x)` started in state `s` guarantees of the state `s'` it
returns in. -/
structure TarjanPost (d : Direction) (m : NodeMap) (x : Nat) (s s' : TarjanState) : Prop where
  ext : ∃ s1, s'.stack = s1 ++ s.stack ∧ (∀ y ∈ s1, Reach d m x y ∧ ¬ s.Visited y) ∧
    ((x ∉ s'.stack ∧ s1 = [] ∧ s'.low x = s'.num x) ∨
     (x ∈ s1 ∧ ∀ u ∈ s1, ∀ z ∈ s.stack, Edge d m u z → s'.low x ≤ s'.num z))
  mono : ∀ v, s.Visited v → s'.Visited v ∧ s'.num v = s.num v ∧ s'.low v = s.low v
  visited_x : s'.Visited x
  cur_le : s.currentTarjanID ≤ s'.currentTarjanID
  fresh : ∀ v, ¬ s.Visited v → s'.Visited v → s.currentTarjanID < s'.num v

/-- What holds in the loop over the successors of `x`, after the successors `done`
have been handled; `s0` is the state in which `tarjanDFS(x)` was called. -/
structure TarjanLoopInv (d : Direction) (m : NodeMap) (N : Nat) (g : List Nat) (x : Nat)
    (s0 : TarjanState) (done : List Nat) (s : TarjanState) : Prop where
  inv : TarjanInv d m N (x :: g) s
  ext : ∃ s1, s.stack = s1 ++ x :: s0.stack ∧
    (∀ y ∈ s1, Reach d m x y ∧ ¬ s0.Visited y ∧ y ≠ x) ∧
    (∀ z ∈ s0.stack, (∀ u ∈ s1, Edge d m u z → s.low x ≤ s.num z) ∧
      (z ∈ done → s.low x ≤ s.num z))
  mono : ∀ v, s0.Visited v → s.Visited v ∧ s.num v = s0.num v ∧ s.low v = s0.low v
  num_x : s.Visited x ∧ s.num x = s0.currentTarjanID + 1
  cur_le : s0.currentTarjanID + 1 ≤ s.currentTarjanID
  fresh : ∀ v, ¬ s0.Visited v → s.Visited v → s0.currentTarjanID < s.num v
  done_visited : ∀ y ∈ done, s.Visited y
  x_new : ¬ s0.Visited x
  inv0 : TarjanInv d m N g s0

/-- How many of the nodes `1..N` have no discovery index yet. -/
def TarjanState.unvisited (s : TarjanState) (N : Nat) : Nat :=
  ((List.range' 1 N).filter (fun v => (IdMap.get? s.nodeToTarjanID v).isNone)).length

/-- The state `findCycles` starts from. -/
def TarjanState.init : TarjanState :=
  { stack := [], currentTarjanID := 0, nodeToTarjanID := [], lowLink := [],
    inStack := Bitmap.New }

/-- The state right after `tarjanDFS(x)` has numbered and pushed `x`. -/
def TarjanState.push (s : TarjanState) (x : Nat) : TarjanState :=
  { stack := x :: s.stack
    currentTarjanID := s.currentTarjanID + 1
    nodeToTarjanID := IdMap.set s.nodeToTarjanID x (s.currentTarjanID + 1)
    lowLink := IdMap.set s.lowLink x (s.currentTarjanID + 1)
    inStack := Bitmap.Add s.inStack x }

/-- Three nodes on a cycle `1 → 2 → 3 → 1`. -/
def triangleNodes : NodeMap :=
  [(1, ⟨1, [2], [3]⟩), (2, ⟨2, [3], [1]⟩), (3, ⟨3, [1], [2]⟩)]

/-! ## Reading the group maps -/

/-- The bitmap read through a key: what `Get` returns. -/
def NativeKeyManagement.view (m : NativeKeyManagement) (key : String) : Bitmap :=
  (NativeKeyManagement.lookupValue m.values (m.canonical key)).getD Bitmap.New

/-- The bindings are closed: a canonical alias is bound to itself, and a slot
exists only for a bound canonical alias. -/
structure NativeKeyManagement.Closed (m : NativeKeyManagement) : Prop where
  canon_self : ∀ key c, NativeKeyManagement.lookupBinding m.bindings key = some c →
    NativeKeyManagement.lookupBinding m.bindings c = some c
  value_bound : ∀ c v, NativeKeyManagement.lookupValue m.values c = some v →
    NativeKeyManagement.lookupBinding m.bindings c = some c

/-- The group map after `BindKeys(first :: rest)` followed by `Set(first, v)`. -/
def NativeKeyManagement.bindSet (m : NativeKeyManagement) (first : String) (rest : List String)
    (v : Bitmap) : NativeKeyManagement :=
  { bindings :=
      (first :: rest).foldl (fun b k => NativeKeyManagement.setBinding b k first) m.bindings
    values := NativeKeyManagement.setValue m.values first v }

/-- The three group maps have closed bindings, and the same bindings. -/
structure BindMaps.Closed (M : BindMaps) : Prop where
  cache : M.cache.Closed
  children : M.children.Closed
  parents : M.parents.Closed
  same_children : ∀ k, NativeKeyManagement.lookupBinding M.children.bindings k =
    NativeKeyManagement.lookupBinding M.cache.bindings k
  same_parents : ∀ k, NativeKeyManagement.lookupBinding M.parents.bindings k =
    NativeKeyManagement.lookupBinding M.cache.bindings k

/-- The keys gathered for the value `r` in `parentToKeys`. -/
def groupOf : List (Nat × List String) → Nat → List String
  | [], _ => []
  | (v, keys) :: rest, r => if v = r then keys else groupOf rest r

/-- What `addCyclesToBindMap` leaves in the three maps, for a map `scc` defined on
`1..N`: the keys of the nodes are bound, two nodes share a slot exactly when `scc`
gives them the same value, `cache` holds the members of the group, and `children`
and `parents` hold the group's adjacency with the members taken out. -/
structure SeededMaps (m : NodeMap) (N : Nat) (scc : IdMap) (M : BindMaps) : Prop where
  closed : M.Closed
  bound : ∀ key, (NativeKeyManagement.lookupBinding M.cache.bindings key).isSome = true ↔
    ∃ u, 1 ≤ u ∧ u ≤ N ∧ key = Itoa u
  canon : ∀ u v, 1 ≤ u → u ≤ N → 1 ≤ v → v ≤ N →
    (M.cache.canonical (Itoa u) = M.cache.canonical (Itoa v) ↔
      IdMap.get scc u = IdMap.get scc v)
  cache_view : ∀ u, 1 ≤ u → u ≤ N → ∀ x, x ∈ M.cache.view (Itoa u) ↔
    (1 ≤ x ∧ x ≤ N ∧ IdMap.get scc x = IdMap.get scc u)
  children_view : ∀ u, 1 ≤ u → u ≤ N → ∀ x, x ∈ M.children.view (Itoa u) ↔
    (∃ v, 1 ≤ v ∧ v ≤ N ∧ IdMap.get scc v = IdMap.get scc u ∧
      Edge .ChildrenDirection m v x) ∧ ¬ IdMap.get scc x = IdMap.get scc u
  parents_view : ∀ u, 1 ≤ u → u ≤ N → ∀ x, x ∈ M.parents.view (Itoa u) ↔
    (∃ v, 1 ≤ v ∧ v ≤ N ∧ IdMap.get scc v = IdMap.get scc u ∧
      Edge .ParentsDirection m v x) ∧ ¬ IdMap.get scc x = IdMap.get scc u

/-! ## Invariants of `buildCache` -/

/-- The other direction. -/
def Direction.opposite : Direction → Direction
  | .ChildrenDirection => .ParentsDirection
  | .ParentsDirection => .ChildrenDirection

/-- `x` is a collapsed neighbour of `u` in direction `d`: outside the group of `u`,
at the end of an edge that starts in the group. -/
def GroupEdge (d : Direction) (m : NodeMap) (N : Nat) (scc : IdMap) (u x : Nat) : Prop :=
  (∃ v, 1 ≤ v ∧ v ≤ N ∧ IdMap.get scc v = IdMap.get scc u ∧ Edge d m v x) ∧
    ¬ IdMap.get scc x = IdMap.get scc u

/-- How many of the nodes `1..N` are not marked in `alreadyCached`. -/
def DFSState.unmarked (st : DFSState) (N : Nat) : Nat :=
  ((List.range' 1 N).filter (fun v => !Bitmap.Contains st.alreadyCached v)).length

/-- What holds of `alreadyCached` and `cache` between two steps of `buildCache`;
`c0` is the seeded cache map and `uncached` the list `buildCache` starts from. -/
structure CacheInv (d : Direction) (m : NodeMap) (N : Nat) (scc : IdMap)
    (c0 : NativeKeyManagement) (uncached : List Nat) (st : DFSState) : Prop where
  bindings : st.cache.bindings = c0.bindings
  closed : st.cache.Closed
  marked_range : ∀ u ∈ st.alreadyCached, 1 ≤ u ∧ u ≤ N
  sound : ∀ u, 1 ≤ u → u ≤ N → ∀ x ∈ st.cache.view (Itoa u), Reach d m u x
  group : ∀ u x, 1 ≤ u → u ≤ N → 1 ≤ x → x ≤ N → IdMap.get scc u = IdMap.get scc x →
    x ∈ st.cache.view (Itoa u)
  complete : ∀ u ∈ st.alreadyCached, ∀ x, Reach d m u x → x ∈ st.cache.view (Itoa u)
  near : ∀ u ∈ st.alreadyCached, NearUncached m uncached u

/-- How a later state `st'` of `buildCache` relates to an earlier one `st`; the
nodes in `ex` are those whose call is still in progress. -/
structure CacheStep (d : Direction) (m : NodeMap) (N : Nat) (scc : IdMap) (ex : List Nat)
    (st st' : DFSState) : Prop where
  marked_mono : ∀ u ∈ st.alreadyCached, u ∈ st'.alreadyCached
  view_mono : ∀ u, 1 ≤ u → u ≤ N → ∀ x ∈ st.cache.view (Itoa u), x ∈ st'.cache.view (Itoa u)
  new_closed : ∀ u ∈ st'.alreadyCached, u ∈ st.alreadyCached ∨ u ∈ ex ∨
    ∀ f, (GroupEdge d m N scc u f ∨ GroupEdge d.opposite m N scc u f) →
      f ∈ st'.alreadyCached
  touched : ∀ u, 1 ≤ u → u ≤ N →
    (∀ x, x ∈ st'.cache.view (Itoa u) ↔ x ∈ st.cache.view (Itoa u)) ∨
    ∃ v, (v ∈ st'.alreadyCached ∨ v ∈ ex) ∧ IdMap.get scc u = IdMap.get scc v

/-- The setting of one `buildCache` run: a well-formed node map, the seeded maps,
and a map `scc` that tells the strongly connected components of the direction
apart. -/
structure CacheCtx (d : Direction) (m : NodeMap) (N : Nat) (scc : IdMap) (M : BindMaps) :
    Prop where
  wf : WellFormed N m
  seeded : SeededMaps m N scc M
  scc_iff : ∀ u v, 1 ≤ u → u ≤ N → 1 ≤ v → v ≤ N →
    (IdMap.get scc u = IdMap.get scc v ↔ SameSCC d m u v)

/-- Modelled from the spec: `SetDependency` is declared outside `cache.go`. By the
node invariant of section 3 (and `TestSetDependency`) setting the dependency
`a → b` adds `b` to the children of `a` and `a` to the parents of `b`. -/
def addEdge (m : NodeMap) (a b : Nat) : NodeMap :=
  m.map (fun p =>
    (p.1,
      { ID := p.2.ID
        Children := if p.1 = a then Bitmap.Add p.2.Children b else p.2.Children
        Parents := if p.1 = b then Bitmap.Add p.2.Parents a else p.2.Parents }))

/-- Four nodes with the single edge `3 → 4`, all waiting to be cached. -/
def pairStorage : MemStorage :=
  { nodes := [(1, ⟨1, [], []⟩), (2, ⟨2, [], []⟩), (3, ⟨3, [4], []⟩), (4, ⟨4, [], [3]⟩)],
    caches := [], toBeCached := [1, 2, 3, 4], faults := [] }

/-- The three-node storage with a failing `GetAllKeys`. -/
def exampleFailingKeys : MemStorage :=
  { nodes := exampleNodes, caches := [], toBeCached := [1],
    faults := [(.GetAllKeys, .storage "unavailable")] }

/-- Six nodes: the cycles `1 → 2 → 3 → 1` and `4 → 5 → 6 → 4` joined by the edge
`3 → 4`, all waiting to be cached. -/
def linkedCyclesStorage : MemStorage :=
  { nodes :=
      [(1, ⟨1, [2], [3]⟩), (2, ⟨2, [3], [1]⟩), (3, ⟨3, [1, 4], [2]⟩),
        (4, ⟨4, [5], [3, 6]⟩), (5, ⟨5, [6], [4]⟩), (6, ⟨6, [4], [5]⟩)],
    caches := [], toBeCached := [1, 2, 3, 4, 5, 6], faults := [] }

/-- Seven nodes: the cycles `1 → 2 → 3 → 1` and `4 → 5 → 6 → 7 → 4` joined by the
edges `3 → 4` and `7 → 2`, all waiting to be cached. -/
def figureEightStorage : MemStorage :=
  { nodes :=
      [(1, ⟨1, [2], [3]⟩), (2, ⟨2, [3], [1, 7]⟩), (3, ⟨3, [1, 4], [2]⟩),
        (4, ⟨4, [5], [3, 7]⟩), (5, ⟨5, [6], [4]⟩), (6, ⟨6, [7], [5]⟩),
        (7, ⟨7, [2, 4], [6]⟩)],
    caches := [], toBeCached := [1, 2, 3, 4, 5, 6, 7], faults := [] }

/-- Six nodes with the ids 1, 2, 3, 10, 11, 12. -/
def sparseStorage : MemStorage :=
  { nodes :=
      [(1, ⟨1, [2], [3]⟩), (2, ⟨2, [3], [1]⟩), (3, ⟨3, [1], [2]⟩),
        (10, ⟨10, [11], [12]⟩), (11, ⟨11, [12], [10]⟩), (12, ⟨12, [10], [11]⟩)],
    caches := [], toBeCached := [1, 2, 3, 10, 11, 12], faults := [] }

/-- Twelve nodes with the ids `1..12`: the cycles `1 → 2 → 3 → 1` and
`10 → 11 → 12 → 10`, the nodes `4..9` without edges, and the given to-be-cached
list. -/
def separateCyclesStorage (uncached : List Nat) : MemStorage :=
  { nodes :=
      [(1, ⟨1, [2], [3]⟩), (2, ⟨2, [3], [1]⟩), (3, ⟨3, [1], [2]⟩),
        (4, ⟨4, [], []⟩), (5, ⟨5, [], []⟩), (6, ⟨6, [], []⟩),
        (7, ⟨7, [], []⟩), (8, ⟨8, [], []⟩), (9, ⟨9, [], []⟩),
        (10, ⟨10, [11], [12]⟩), (11, ⟨11, [12], [10]⟩), (12, ⟨12, [10], [11]⟩)],
    caches := [], toBeCached := uncached, faults := [] }

/-- The ids in the adjacency bitmap of node `a`, none when `a` is not a node. -/
def successors (d : Direction) (m : NodeMap) (a : Nat) : List Nat :=
  match NodeMap.get? m a with
  | some nd => nd.next d
  | none => []

/-- The list is closed under the edges of the direction. -/
def ClosedUnder (d : Direction) (m : NodeMap) (S : List Nat) : Prop :=
  ∀ a ∈ S, ∀ b ∈ successors d m a, b ∈ S

instance (d : Direction) (m : NodeMap) (S : List Nat) : Decidable (ClosedUnder d m S) := by
  unfold ClosedUnder; infer_instance

/-- The nodes found from `n` by `k` rounds of following the raw adjacency; each
round adds the successors of what was found. It decides reachability on a concrete
graph once a round adds nothing. -/
def traverse (d : Direction) (m : NodeMap) : Nat → Nat → Bitmap
  | 0, n => [n]
  | k + 1, n =>
    (traverse d m k n).foldl (fun acc a => Bitmap.Or acc (successors d m a)) (traverse d m k n)

/-- Every bitmap stored in the group map lists its ids in ascending order, each
once. -/
def NativeKeyManagement.Ascending (km : NativeKeyManagement) : Prop :=
  ∀ c v, NativeKeyManagement.lookupValue km.values c = some v → v.Pairwise (· < ·)

/-- The entries in the reverse of the order they are listed in. -/
def RangeOrder.reversed : RangeOrder :=
  { ids := List.reverse, groups := List.reverse, ids_perm := fun m => List.reverse_perm m,
    groups_perm := fun g => List.reverse_perm g }

/-- Nodes 1 and 2 on a cycle, node 3 below node 2. -/
def tailedCycleNodes : NodeMap :=
  [(1, ⟨1, [2], [2]⟩), (2, ⟨2, [1, 3], [1]⟩), (3, ⟨3, [], [2]⟩)]

/-- The loop of a depth-first visit over the neighbours of a node: a neighbour that
was not seen yet is visited at once; `dfs` is the recursive visit. -/
def visitLoop (dfs : Nat → List Nat → List Nat) : List Nat → List Nat → List Nat
  | [], seen => seen
  | y :: rest, seen => visitLoop dfs rest (if y ∈ seen then seen else dfs y seen)

/-- A depth-first visit from `x`, which was not seen yet: `x` is put at the end of
the nodes seen so far, then its neighbours are taken in ascending order. -/
def visit (d : Direction) (m : NodeMap) : Nat → Nat → List Nat → List Nat
  | 0, _, seen => seen
  | fuel + 1, x, seen =>
    match NodeMap.get? m x with
    | none => seen
    | some nd => visitLoop (visit d m fuel) (Bitmap.ToArray (nd.next d)) (seen ++ [x])

/-- The order of first visit of a depth-first traversal that scans the start nodes
`1..N` ascending and the neighbours of a node ascending (`fuel` bounds the depth of
the visit): the reference the values of `findCycles` are compared with. -/
def discoveryOrder (fuel : Nat) (d : Direction) (m : NodeMap) (N : Nat) : List Nat :=
  (List.range' 1 N).foldl (fun seen id => if id ∈ seen then seen else visit d m fuel id seen) []

/-- The discovery index of a node: its 1-based position in the order of first
visit. -/
def discoveryIndex (fuel : Nat) (d : Direction) (m : NodeMap) (N : Nat) (u : Nat) : Nat :=
  (discoveryOrder fuel d m N).indexOf u + 1

/-- The indices handed out so far are `1, 2, ...` in the order the nodes entered
`nodeToTarjanID`, and no node entered twice. -/
def TarjanState.Numbered (s : TarjanState) : Prop :=
  s.nodeToTarjanID.map Prod.snd = List.range' 1 s.currentTarjanID ∧
    (s.nodeToTarjanID.map Prod.fst).Nodup

/-- Two nodes, one edge `1 → 2`. -/
def chainNodes : NodeMap := [(1, ⟨1, [2], []⟩), (2, ⟨2, [], [1]⟩)]

/-- Three nodes, one edge `1 → 3`; node 2 is isolated. -/
def isolatedNodes : NodeMap := [(1, ⟨1, [3], []⟩), (2, ⟨2, [], []⟩), (3, ⟨3, [], [1]⟩)]

/-- What holds of `alreadyCached` and `cache` between two steps of `buildCache` on
any node map with keys `1..N`; `c0` is the seeded cache map. -/
structure BuildInv (N : Nat) (c0 : NativeKeyManagement) (st : DFSState) : Prop where
  bindings : st.cache.bindings = c0.bindings
  closed : st.cache.Closed
  marked_range : ∀ u ∈ st.alreadyCached, 1 ≤ u ∧ u ≤ N

/-- Two nodes with the child edge `1 → 2` that node 2 does not record as a parent:
keys and adjacency ids are in `1..2`, the node invariant does not hold. -/
def oneWayNodes : NodeMap := [(1, ⟨1, [2], []⟩), (2, ⟨2, [], []⟩)]

/-- The three maps `addCyclesToBindMap` seeds for the chain `1 → 2`, where every
node is a group of its own. -/
def chainSeed : BindMaps :=
  { cache := { bindings := [("1", "1"), ("2", "2")], values := [("1", [1]), ("2", [2])] },
    children := { bindings := [("1", "1"), ("2", "2")], values := [("1", [2]), ("2", [])] },
    parents := { bindings := [("1", "1"), ("2", "2")], values := [("1", []), ("2", [1])] } }

/-- The cache maps that the writes of `cacheDFS` lead to from the map `c0`: `c0`
itself, and what `addToCache` returns on such a map. `cacheDFS` changes the cache
map nowhere else. -/
inductive CacheWritten (c0 : NativeKeyManagement) : NativeKeyManagement → Prop
  | start : CacheWritten c0 c0
  | write (c c1 : NativeKeyManagement) (cur todo : Nat) :
      CacheWritten c0 c → addToCache c cur todo = .ok c1 → CacheWritten c0 c1

/-- The storage with nodes 1 and 2 on a cycle and node 3 below node 2, and the given
to-be-cached list. -/
def tailedStorage (uncached : List Nat) : MemStorage :=
  { nodes := tailedCycleNodes, caches := [], toBeCached := uncached, faults := [] }

/-- The node with its `Children` and `Parents` bitmaps swapped. -/
def Node.swap (nd : Node) : Node :=
  { ID := nd.ID, Children := nd.Parents, Parents := nd.Children }

/-- The transposed node map: every node has its `Children` and `Parents` bitmaps
swapped. -/
def transpose (m : NodeMap) : NodeMap := m.map (fun p => (p.1, p.2.swap))

/-- The gathered bitmaps with `childrenCache` and `parentCache` swapped. -/
def GroupAcc.swap (a : GroupAcc) : GroupAcc :=
  { keycache := a.keycache, childrenCache := a.parentCache, parentCache := a.childrenCache }

/-- The three group maps with `children` and `parents` swapped. -/
def BindMaps.swap (M : BindMaps) : BindMaps :=
  { cache := M.cache, children := M.parents, parents := M.children }

/-- Two results agree: both are the same error, or both are values related by
`R`. -/
def SameOutcome {α : Type} (R : α → α → Prop) : Except Error α → Except Error α → Prop
  | .ok a, .ok b => R a b
  | .error e, .error e2 => e = e2
  | _, _ => False

/-- Two group maps that cannot be told apart through `Get` and `Set`: every key
reads the same bitmap in both, and two keys share a slot in one exactly when they do
in the other. -/
def NativeKeyManagement.SameSlots (a b : NativeKeyManagement) : Prop :=
  (∀ key, a.view key = b.view key) ∧
    ∀ k k2, a.canonical k = a.canonical k2 ↔ b.canonical k = b.canonical k2

/-- Two states of `cacheDFS` with the same marks and indistinguishable cache maps. -/
def DFSState.Same (s t : DFSState) : Prop :=
  s.alreadyCached = t.alreadyCached ∧ s.cache.SameSlots t.cache

/-- What `addCyclesToBindMap` leaves in the three maps for any map `scc` whose keys
are node ids: the key of `k` is bound exactly when `k` is a key of `scc`, the keys
with one value share a canonical key, which is one of them, `cache` holds the keys
with that value, and `children` and `parents` hold their adjacency with those keys
taken out. -/
structure GroupedMaps (m : NodeMap) (scc : IdMap) (M : BindMaps) : Prop where
  unbound : ∀ key, (∀ k r, (k, r) ∈ scc → key ≠ Itoa k) →
    NativeKeyManagement.lookupBinding M.cache.bindings key = none ∧
      M.cache.view key = [] ∧ M.children.view key = [] ∧ M.parents.view key = []
  bound : ∀ k r, (k, r) ∈ scc → ∃ c, (∃ k2, (k2, r) ∈ scc ∧ c = Itoa k2) ∧
    (∀ k2, (k2, r) ∈ scc →
      NativeKeyManagement.lookupBinding M.cache.bindings (Itoa k2) = some c) ∧
    (∀ x, x ∈ M.cache.view (Itoa k) ↔ (x, r) ∈ scc) ∧
    (∀ x, x ∈ M.children.view (Itoa k) ↔
      (∃ k2 nd, (k2, r) ∈ scc ∧ NodeMap.get? m k2 = some nd ∧ x ∈ nd.Children) ∧
        ¬ (x, r) ∈ scc) ∧
    (∀ x, x ∈ M.parents.view (Itoa k) ↔
      (∃ k2 nd, (k2, r) ∈ scc ∧ NodeMap.get? m k2 = some nd ∧ x ∈ nd.Parents) ∧
        ¬ (x, r) ∈ scc)

/-! ## The build on a group map that checks its keys -/

/-- Modelled from the spec: section 7 names as a failure of the build a `get` on a
key that is expected to be present after seeding. `GetStrict` is the `Get` of a group
map that reports such a key: it fails unless a bitmap is stored in the slot of the
key. -/
def NativeKeyManagement.GetStrict (m : NativeKeyManagement) (key : String) :
    Except Error Bitmap :=
  match NativeKeyManagement.lookupValue m.values (m.canonical key) with
  | some v => .ok v
  | none => .error (.missingKey key)

/-- Modelled from the spec: the `Set` of a group map that reports a key which was
never bound. -/
def NativeKeyManagement.SetStrict (m : NativeKeyManagement) (key : String) (value : Bitmap) :
    Except Error NativeKeyManagement :=
  match NativeKeyManagement.lookupBinding m.bindings key with
  | some c => .ok { m with values := NativeKeyManagement.setValue m.values c value }
  | none => .error (.missingKey key)

/-- Every bound key has a bitmap stored in its slot. -/
def NativeKeyManagement.Filled (m : NativeKeyManagement) : Prop :=
  ∀ key c, NativeKeyManagement.lookupBinding m.bindings key = some c →
    (NativeKeyManagement.lookupValue m.values c).isSome = true

/-- A group map in which the key `1` is bound and nothing is stored. -/
def boundEmptyMap : NativeKeyManagement := { bindings := [("1", "1")], values := [] }

/-! # Theorems -/

/-! ## Bitmaps -/

namespace Bitmap

theorem mem_Add (b : Bitmap) (x y : Nat) : y ∈ Add b x ↔ y = x ∨ y ∈ b := by
  induction b with
  | nil => simp [Add]
  | cons z zs ih =>
    unfold Add
    split_ifs with h1 h2
    · simp
    · subst h2; simp
    · simp [ih]; tauto

theorem mem_Remove (b : Bitmap) (x y : Nat) : y ∈ Remove b x ↔ y ∈ b ∧ y ≠ x := by
  simp [Remove]

theorem mem_Or (a b : Bitmap) (y : Nat) : y ∈ Or a b ↔ y ∈ a ∨ y ∈ b := by
  unfold Or
  induction b generalizing a with
  | nil => simp
  | cons z zs ih => simp [ih, mem_Add]; tauto

theorem mem_AndNot (a b : Bitmap) (y : Nat) : y ∈ AndNot a b ↔ y ∈ a ∧ y ∉ b := by
  simp [AndNot]

theorem mem_ToArray (b : Bitmap) (y : Nat) : y ∈ ToArray b ↔ y ∈ b := by
  have h := mem_Or [] b y
  simpa [Or, ToArray] using h

theorem Contains_iff (b : Bitmap) (x : Nat) : Contains b x = true ↔ x ∈ b := by
  simp [Contains]

theorem Contains_false_iff (b : Bitmap) (x : Nat) : Contains b x = false ↔ x ∉ b := by
  simp [Contains]

end Bitmap

/-! ## Id maps -/

theorem IdMap.get?_set (m : IdMap) (k v k' : Nat) :
    IdMap.get? (IdMap.set m k v) k' = if k = k' then some v else IdMap.get? m k' := by
  induction m with
  | nil => simp [IdMap.set, IdMap.get?]
  | cons p rest ih =>
    obtain ⟨a, b⟩ := p
    unfold IdMap.set
    by_cases h : a = k
    · subst h
      by_cases h2 : a = k' <;> simp [IdMap.get?, h2]
    · by_cases h2 : a = k'
      · subst h2
        have h3 : ¬ k = a := fun h3 => h h3.symm
        simp [IdMap.get?, h, h3]
      · simp [IdMap.get?, h, h2, ih]

theorem IdMap.get_set (m : IdMap) (k v k' : Nat) :
    IdMap.get (IdMap.set m k v) k' = if k = k' then v else IdMap.get m k' := by
  unfold IdMap.get
  rw [IdMap.get?_set]
  split_ifs <;> simp

theorem IdMap.set_keys (m : IdMap) (k v k' : Nat) :
    k' ∈ (IdMap.set m k v).map Prod.fst ↔ k' = k ∨ k' ∈ m.map Prod.fst := by
  induction m with
  | nil => simp [IdMap.set]
  | cons p rest ih =>
    obtain ⟨a, b⟩ := p
    unfold IdMap.set
    by_cases h : a = k
    · subst h; simp
    · simp only [h, if_false, List.map_cons, List.mem_cons, ih]
      tauto

theorem IdMap.set_nodup (m : IdMap) (k v : Nat) (h : (m.map Prod.fst).Nodup) :
    ((IdMap.set m k v).map Prod.fst).Nodup := by
  induction m with
  | nil => simp [IdMap.set]
  | cons p rest ih =>
    obtain ⟨a, b⟩ := p
    unfold IdMap.set
    simp only [List.map_cons, List.nodup_cons] at h
    by_cases e : a = k
    · subst e; simpa using h
    · simp only [e, if_false, List.map_cons, List.nodup_cons]
      refine ⟨?_, ih h.2⟩
      rw [IdMap.set_keys]
      intro hc
      rcases hc with hc | hc
      · exact e hc
      · exact h.1 hc

theorem IdMap.get?_isSome_iff (m : IdMap) (k : Nat) :
    (IdMap.get? m k).isSome = true ↔ k ∈ m.map Prod.fst := by
  induction m with
  | nil => simp [IdMap.get?]
  | cons p rest ih =>
    obtain ⟨a, b⟩ := p
    unfold IdMap.get?
    by_cases e : a = k
    · subst e; simp
    · have e' : ¬ k = a := fun h => e h.symm
      simp [e, e', ih]

theorem IdMap.pair_mem_of_get? (m : IdMap) (k v : Nat) (h : IdMap.get? m k = some v) : (k, v) ∈ m := by
  induction m with
  | nil => simp [IdMap.get?] at h
  | cons p rest ih =>
    obtain ⟨a, b⟩ := p
    unfold IdMap.get? at h
    split_ifs at h with h1
    · cases h; subst h1; simp
    · exact List.mem_cons_of_mem _ (ih h)

theorem IdMap.get?_of_pair_mem (m : IdMap) (k v : Nat) (hn : (m.map Prod.fst).Nodup)
    (h : (k, v) ∈ m) : IdMap.get? m k = some v := by
  induction m with
  | nil => simp at h
  | cons p rest ih =>
    obtain ⟨a, b⟩ := p
    simp only [List.map_cons, List.nodup_cons] at hn
    unfold IdMap.get?
    rcases List.mem_cons.mp h with e | e
    · cases e; simp
    · have : ¬ a = k := by
        intro e'
        subst e'
        exact hn.1 (List.mem_map.mpr ⟨(a, v), e, rfl⟩)
      simp only [this, if_false]
      exact ih hn.2 e

/-! ## Decimal keys -/

theorem digitChar_toNat (d : Nat) (h : d < 10) : (digitChar d).toNat = 48 + d := by
  interval_cases d <;> rfl

theorem atoiAux_itoaAux (fuel n : Nat) (acc : List Char) (h : n < fuel) :
    atoiAux (itoaAux fuel n acc) 0 = atoiAux acc n := by
  induction fuel generalizing n acc with
  | zero => omega
  | succ f ih =>
    unfold itoaAux
    have hd : (digitChar (n % 10)).toNat = 48 + n % 10 :=
      digitChar_toNat _ (Nat.mod_lt _ (by omega))
    split_ifs with h0
    · have hn : n % 10 = n := by omega
      simp only [atoiAux, hd]
      rw [if_pos (by omega)]
      congr 1
      omega
    · rw [ih (n / 10) _ (by omega)]
      simp only [atoiAux, hd]
      rw [if_pos (by omega)]
      congr 1
      omega

theorem itoaAux_ne_nil (fuel n : Nat) (acc : List Char) (h : 0 < fuel) :
    itoaAux fuel n acc ≠ [] := by
  induction fuel generalizing n acc with
  | zero => omega
  | succ f ih =>
    unfold itoaAux
    split_ifs with h0
    · simp
    · cases f with
      | zero => simp [itoaAux]
      | succ g => exact ih _ _ (by omega)

theorem Atoi_Itoa (n : Nat) : Atoi (Itoa n) = .ok n := by
  unfold Atoi Itoa
  have h1 := itoaAux_ne_nil (n + 1) n [] (by omega)
  have h2 := atoiAux_itoaAux (n + 1) n [] (by omega)
  cases hl : itoaAux (n + 1) n [] with
  | nil => exact absurd hl h1
  | cons c cs =>
    simp only
    rw [hl] at h2
    rw [h2]
    simp [atoiAux]

theorem Itoa_injective {a b : Nat} (h : Itoa a = Itoa b) : a = b := by
  have h1 := Atoi_Itoa a
  rw [h, Atoi_Itoa] at h1
  exact (Except.ok.inj h1).symm

/-! ## The driver and the storage trace -/

/-- How a traced run of `Cache` can go: the returned error and the trace. -/
theorem Cache_traced_cases (ord : Direction → RangeOrder) {σ : Type} (st : Storage σ) (fuel : Nat) (s : σ) :
    ((Cache ord st.traced fuel (s, [])).1.isSome ∧
      (Cache ord st.traced fuel (s, [])).2.2 = [⟨.ToBeCached, true, []⟩]) ∨
    ((Cache ord st.traced fuel (s, [])).1 = none ∧
      (Cache ord st.traced fuel (s, [])).2.2 = [⟨.ToBeCached, false, []⟩]) ∨
    ((Cache ord st.traced fuel (s, [])).1.isSome ∧
      (Cache ord st.traced fuel (s, [])).2.2 =
        [⟨.ToBeCached, false, []⟩, ⟨.GetAllKeys, true, []⟩]) ∨
    ((Cache ord st.traced fuel (s, [])).1.isSome ∧
      (Cache ord st.traced fuel (s, [])).2.2 =
        [⟨.ToBeCached, false, []⟩, ⟨.GetAllKeys, false, []⟩, ⟨.GetNodes, true, []⟩]) ∨
    ((Cache ord st.traced fuel (s, [])).1.isSome ∧
      (Cache ord st.traced fuel (s, [])).2.2 =
        [⟨.ToBeCached, false, []⟩, ⟨.GetAllKeys, false, []⟩, ⟨.GetNodes, false, []⟩]) ∨
    (∃ caches uncached n allNodes, computeCaches ord fuel uncached n allNodes = .ok caches ∧
      (Cache ord st.traced fuel (s, [])).1.isSome ∧
      (Cache ord st.traced fuel (s, [])).2.2 =
        [⟨.ToBeCached, false, []⟩, ⟨.GetAllKeys, false, []⟩, ⟨.GetNodes, false, []⟩,
          ⟨.SaveCaches, true, caches⟩]) ∨
    (∃ caches uncached n allNodes b, computeCaches ord fuel uncached n allNodes = .ok caches ∧
      (Cache ord st.traced fuel (s, [])).2.2 =
        [⟨.ToBeCached, false, []⟩, ⟨.GetAllKeys, false, []⟩, ⟨.GetNodes, false, []⟩,
          ⟨.SaveCaches, false, caches⟩, ⟨.ClearCacheStack, b, []⟩]) := by
  simp only [Cache, Storage.traced]
  rcases h1 : st.ToBeCached s with ⟨r1, s1⟩
  cases r1 with
  | error e => simp [Except.toBool]
  | ok unc =>
    by_cases hu : unc.length = 0
    · simp [hu, Except.toBool]
    · simp only [hu, if_false]
      rcases h2 : st.GetAllKeys s1 with ⟨r2, s2⟩
      cases r2 with
      | error e => simp [Except.toBool, h2]
      | ok keys =>
        rcases h3 : st.GetNodes keys s2 with ⟨r3, s3⟩
        cases r3 with
        | error e => simp [Except.toBool, h2, h3]
        | ok allNodes =>
          cases h4 : computeCaches ord fuel unc keys.length allNodes with
          | error e => simp [Except.toBool, h2, h3, h4]
          | ok caches =>
            rcases h5 : st.SaveCaches caches s3 with ⟨r5, s5⟩
            cases r5 with
            | some e =>
              simp only [Except.toBool, h2, h3, h4, h5]
              right; right; right; right; right; left
              exact ⟨caches, unc, keys.length, allNodes, h4, by simp⟩
            | none =>
              simp only [Except.toBool, h2, h3, h4, h5]
              right; right; right; right; right; right
              exact ⟨caches, unc, keys.length, allNodes, _, h4, by simp; rfl⟩

/-- Tracing does not change what `Cache` returns nor the state it leaves. -/
theorem Cache_traced_eq (ord : Direction → RangeOrder) {σ : Type} (st : Storage σ) (fuel : Nat) (s : σ)
    (t : List StorageCall) :
    (Cache ord st.traced fuel (s, t)).1 = (Cache ord st fuel s).1 ∧
    (Cache ord st.traced fuel (s, t)).2.1 = (Cache ord st fuel s).2 := by
  simp only [Cache, Storage.traced]
  rcases h1 : st.ToBeCached s with ⟨r1, s1⟩
  cases r1 with
  | error e => simp
  | ok unc =>
    by_cases hu : unc.length = 0
    · simp [hu]
    · simp only [hu, if_false]
      rcases h2 : st.GetAllKeys s1 with ⟨r2, s2⟩
      cases r2 with
      | error e => simp [h2]
      | ok keys =>
        rcases h3 : st.GetNodes keys s2 with ⟨r3, s3⟩
        cases r3 with
        | error e => simp [h2, h3]
        | ok allNodes =>
          cases h4 : computeCaches ord fuel unc keys.length allNodes with
          | error e => simp [h2, h3, h4]
          | ok caches =>
            rcases h5 : st.SaveCaches caches s3 with ⟨r5, s5⟩
            cases r5 with
            | some e => simp [h2, h3, h4, h5]
            | none => simp [h2, h3, h4, h5]

/-- How a run of `Cache` on the in-memory storage can go. -/
theorem Cache_mem_cases (ord : Direction → RangeOrder) (fuel : Nat) (s : MemStorage) :
    ((Cache ord MemStorage.ops fuel s).1.isSome ∧ (Cache ord MemStorage.ops fuel s).2 = s) ∨
    ((Cache ord MemStorage.ops fuel s).1 = none ∧ (Cache ord MemStorage.ops fuel s).2 = s ∧
      s.toBeCached = [] ∧ s.fault .ToBeCached = none) ∨
    (∃ caches, s.toBeCached ≠ [] ∧ s.fault .ToBeCached = none ∧
      computeCaches ord fuel s.toBeCached (s.nodes.map Prod.fst).length
        ((s.nodes.map Prod.fst).filterMap
          (fun k => (NodeMap.get? s.nodes k).map (fun nd => (k, nd)))) = .ok caches ∧
      (((Cache ord MemStorage.ops fuel s).1.isSome ∧
        (Cache ord MemStorage.ops fuel s).2 = { s with caches := caches.foldl MemStorage.storeCache s.caches }) ∨
       ((Cache ord MemStorage.ops fuel s).1 = none ∧
        (Cache ord MemStorage.ops fuel s).2 =
          { s with caches := caches.foldl MemStorage.storeCache s.caches, toBeCached := [] }))) := by
  simp only [Cache, MemStorage.ops]
  cases h1 : s.fault .ToBeCached with
  | some e => simp
  | none =>
    by_cases hu : s.toBeCached.length = 0
    · have : s.toBeCached = [] := List.length_eq_zero.mp hu
      simp [hu, this]
    · have hne : s.toBeCached ≠ [] := fun h => hu (by simp [h])
      simp only [hu, if_false]
      cases h2 : s.fault .GetAllKeys with
      | some e => simp [h2]
      | none =>
        cases h3 : s.fault .GetNodes with
        | some e => simp [h2, h3]
        | none =>
          simp only [h2, h3]
          cases h4 : computeCaches ord fuel s.toBeCached (s.nodes.map Prod.fst).length
              ((s.nodes.map Prod.fst).filterMap
                (fun k => (NodeMap.get? s.nodes k).map (fun nd => (k, nd)))) with
          | error e => simp [h4]
          | ok caches =>
            cases h5 : s.fault .SaveCaches with
            | some e => simp [h4, h5]
            | none =>
              simp only [h4, h5]
              right; right
              refine ⟨caches, hne, trivial, rfl, ?_⟩
              cases h6 : MemStorage.fault
                  { s with caches := caches.foldl MemStorage.storeCache s.caches } .ClearCacheStack with
              | some e => left; simp [h6]
              | none => right; simp [h6]

theorem assembleCaches_records (cachedParents : NativeKeyManagement) (keys : List String)
    (values : List Bitmap) (acc out : List NodeCache)
    (h : assembleCaches cachedParents keys values acc = .ok out) :
    ∀ c ∈ out, c ∈ acc ∨ (c.nodeID ∉ c.allChildren ∧ c.nodeID ∉ c.allParents) := by
  induction keys generalizing values acc with
  | nil =>
    simp only [assembleCaches] at h
    cases h
    intro c hc; exact Or.inl hc
  | cons k ks ih =>
    cases values with
    | nil => simp [assembleCaches] at h
    | cons v vs =>
      simp only [assembleCaches] at h
      cases hk : Atoi k with
      | error e => simp [hk] at h
      | ok id =>
        simp only [hk, NativeKeyManagement.Get] at h
        intro c hc
        rcases ih _ _ h c hc with h1 | h1
        · rcases List.mem_append.mp h1 with h2 | h2
          · exact Or.inl h2
          · right
            simp only [List.mem_singleton] at h2
            subst h2
            simp [NewNodeCache, Bitmap.mem_Remove]
        · exact Or.inr h1

theorem computeCaches_exclude_self (ord : Direction → RangeOrder) (fuel : Nat) (uncached : List Nat) (n : Nat)
    (allNodes : NodeMap) (caches : List NodeCache)
    (h : computeCaches ord fuel uncached n allNodes = .ok caches) :
    ∀ c ∈ caches, c.nodeID ∉ c.allChildren ∧ c.nodeID ∉ c.allParents := by
  unfold computeCaches at h
  split at h
  · cases h
  split at h
  · cases h
  split at h
  · cases h
  split at h
  · cases h
  split at h
  · cases h
  intro c hc
  rcases assembleCaches_records _ _ _ _ _ h c hc with h1 | h1
  · simp at h1
  · exact h1

/-- C5: every `NodeCache` record that `Cache` hands to `SaveCaches` leaves its own
node out of `allChildren` and of `allParents`, whatever the node map, the uncached
list and the storage are (so also for a node on a cycle). -/
theorem Cache_saved_records_exclude_self (ord : Direction → RangeOrder) {σ : Type} (st : Storage σ) (fuel : Nat) (s : σ)
    (call : StorageCall) (hcall : call ∈ (Cache ord st.traced fuel (s, [])).2.2)
    (hop : call.op = .SaveCaches) (c : NodeCache) (hc : c ∈ call.saved) :
    c.nodeID ∉ c.allChildren ∧ c.nodeID ∉ c.allParents := by
  rcases Cache_traced_cases ord st fuel s with h | h | h | h | h | h | h
  · rw [h.2] at hcall; simp at hcall; subst hcall; simp at hop
  · rw [h.2] at hcall; simp at hcall; subst hcall; simp at hop
  · rw [h.2] at hcall; simp at hcall; rcases hcall with rfl | rfl <;> simp at hop
  · rw [h.2] at hcall; simp at hcall; rcases hcall with rfl | rfl | rfl <;> simp at hop
  · rw [h.2] at hcall; simp at hcall; rcases hcall with rfl | rfl | rfl <;> simp at hop
  · obtain ⟨caches, unc, n, allNodes, hcc, -, ht⟩ := h
    rw [ht] at hcall; simp at hcall
    rcases hcall with rfl | rfl | rfl | rfl
    · simp at hop
    · simp at hop
    · simp at hop
    · exact computeCaches_exclude_self ord _ _ _ _ _ hcc c hc
  · obtain ⟨caches, unc, n, allNodes, b, hcc, ht⟩ := h
    rw [ht] at hcall; simp at hcall
    rcases hcall with rfl | rfl | rfl | rfl | rfl
    · simp at hop
    · simp at hop
    · simp at hop
    · exact computeCaches_exclude_self ord _ _ _ _ _ hcc c hc
    · simp at hop

theorem cycleStorage_trace :
    (Cache RangeOrder.listedBoth MemStorage.ops.traced 9 (cycleStorage, [])).2.2 =
      [⟨.ToBeCached, false, []⟩, ⟨.GetAllKeys, false, []⟩, ⟨.GetNodes, false, []⟩,
        ⟨.SaveCaches, false, [⟨1, [2], [2]⟩, ⟨2, [1], [1]⟩]⟩,
        ⟨.ClearCacheStack, false, []⟩] := by
  rfl

/-- Witness for C5: on the two-node cycle the run saves the record of node 1, which
holds its cycle peer and not node 1. -/
theorem Cache_saved_records_exclude_self_witness :
    (⟨.SaveCaches, false, [⟨1, [2], [2]⟩, ⟨2, [1], [1]⟩]⟩ : StorageCall) ∈
        (Cache RangeOrder.listedBoth MemStorage.ops.traced 9 (cycleStorage, [])).2.2 ∧
      (1 : Nat) ∉ ([2] : Bitmap) ∧ (1 : Nat) ∉ ([2] : Bitmap) :=
  ⟨by rw [cycleStorage_trace]; simp,
   Cache_saved_records_exclude_self RangeOrder.listedBoth MemStorage.ops 9 cycleStorage
     ⟨.SaveCaches, false, [⟨1, [2], [2]⟩, ⟨2, [1], [1]⟩]⟩
     (by rw [cycleStorage_trace]; simp) rfl ⟨1, [2], [2]⟩ (by simp)⟩

/-- C9: on the in-memory storage, when `Cache` succeeds and is run again on the
state it left, the second run succeeds too and leaves the stored record of every
node as it was (it leaves the whole state as it was). -/
theorem Cache_twice_same_records (ord ord2 : Direction → RangeOrder) (fuel fuel2 : Nat)
    (s : MemStorage)
    (h : (Cache ord MemStorage.ops fuel s).1 = none) :
    (Cache ord2 MemStorage.ops fuel2 (Cache ord MemStorage.ops fuel s).2).1 = none ∧
    (∀ n, (Cache ord2 MemStorage.ops fuel2 (Cache ord MemStorage.ops fuel s).2).2.cacheOf n =
      (Cache ord MemStorage.ops fuel s).2.cacheOf n) ∧
    (Cache ord2 MemStorage.ops fuel2 (Cache ord MemStorage.ops fuel s).2).2 =
      (Cache ord MemStorage.ops fuel s).2 := by
  have key : (Cache ord MemStorage.ops fuel s).2.toBeCached = [] ∧
      (Cache ord MemStorage.ops fuel s).2.fault .ToBeCached = none := by
    rcases Cache_mem_cases ord fuel s with h1 | h1 | ⟨caches, -, hf, -, h1 | h1⟩
    · rw [h] at h1; simp at h1
    · rw [h1.2.1]; exact h1.2.2
    · rw [h] at h1; simp at h1
    · rw [h1.2]; exact ⟨rfl, hf⟩
  have h2 : Cache ord2 MemStorage.ops fuel2 (Cache ord MemStorage.ops fuel s).2 =
      (none, (Cache ord MemStorage.ops fuel s).2) := by
    generalize (Cache ord MemStorage.ops fuel s).2 = s1 at key
    simp [Cache, MemStorage.ops, key.1, key.2]
  rw [h2]
  simp

/-- Witness for C9: the run on the two-node cycle succeeds, and so does a second
run, which changes nothing. -/
theorem Cache_twice_same_records_witness :
    (Cache RangeOrder.listedBoth MemStorage.ops 9 cycleStorage).1 = none ∧
    (Cache RangeOrder.listedBoth MemStorage.ops 9 (Cache RangeOrder.listedBoth MemStorage.ops 9 cycleStorage).2).1 = none ∧
    (∀ n, (Cache RangeOrder.listedBoth MemStorage.ops 9 (Cache RangeOrder.listedBoth MemStorage.ops 9 cycleStorage).2).2.cacheOf n =
      (Cache RangeOrder.listedBoth MemStorage.ops 9 cycleStorage).2.cacheOf n) ∧
    (Cache RangeOrder.listedBoth MemStorage.ops 9 (Cache RangeOrder.listedBoth MemStorage.ops 9 cycleStorage).2).2 =
      (Cache RangeOrder.listedBoth MemStorage.ops 9 cycleStorage).2 :=
  ⟨by rfl, Cache_twice_same_records RangeOrder.listedBoth RangeOrder.listedBoth 9 9 cycleStorage (by rfl)⟩

/-- C10: in every run of `Cache`, on any storage, `ClearCacheStack` is invoked only
right after a `SaveCaches` that succeeded; when `ToBeCached`, `GetAllKeys`,
`GetNodes` or `SaveCaches` fails, `Cache` returns an error and `ClearCacheStack` is
not invoked, and on the in-memory storage the to-be-cached list is then left as it
was. -/
theorem Cache_clears_only_after_save (ord : Direction → RangeOrder) :
    (∀ (σ : Type) (st : Storage σ) (fuel : Nat) (s : σ),
      (∀ c ∈ (Cache ord st.traced fuel (s, [])).2.2, c.op = .ClearCacheStack →
        ∃ saved, (⟨.SaveCaches, false, saved⟩ : StorageCall) ∈
          (Cache ord st.traced fuel (s, [])).2.2) ∧
      ((∃ c ∈ (Cache ord st.traced fuel (s, [])).2.2,
          c.failed = true ∧ c.op ≠ .ClearCacheStack) →
        (Cache ord st fuel s).1.isSome ∧
        ∀ c ∈ (Cache ord st.traced fuel (s, [])).2.2, c.op ≠ .ClearCacheStack)) ∧
    (∀ (fuel : Nat) (s : MemStorage),
      (∃ c ∈ (Cache ord MemStorage.ops.traced fuel (s, [])).2.2,
          c.failed = true ∧ c.op ≠ .ClearCacheStack) →
        (Cache ord MemStorage.ops fuel s).2.toBeCached = s.toBeCached) := by
  have main : ∀ (σ : Type) (st : Storage σ) (fuel : Nat) (s : σ),
      (∀ c ∈ (Cache ord st.traced fuel (s, [])).2.2, c.op = .ClearCacheStack →
        ∃ saved, (⟨.SaveCaches, false, saved⟩ : StorageCall) ∈
          (Cache ord st.traced fuel (s, [])).2.2) ∧
      ((∃ c ∈ (Cache ord st.traced fuel (s, [])).2.2,
          c.failed = true ∧ c.op ≠ .ClearCacheStack) →
        (Cache ord st fuel s).1.isSome ∧
        ∀ c ∈ (Cache ord st.traced fuel (s, [])).2.2, c.op ≠ .ClearCacheStack) := by
    intro σ st fuel s
    rw [← (Cache_traced_eq ord st fuel s []).1]
    rcases Cache_traced_cases ord st fuel s with h | h | h | h | h | h | h
    · rw [h.2]; simp [h.1]
    · rw [h.2]; simp
    · rw [h.2]; simp [h.1]
    · rw [h.2]; simp [h.1]
    · rw [h.2]; simp [h.1]
    · obtain ⟨caches, unc, n, allNodes, -, h1, ht⟩ := h
      rw [ht]; simp [h1]
    · obtain ⟨caches, unc, n, allNodes, b, -, ht⟩ := h
      rw [ht]; simp
  refine ⟨main, ?_⟩
  intro fuel s hex
  have h1 := ((main _ MemStorage.ops fuel s).2 hex).1
  rcases Cache_mem_cases ord fuel s with h | h | ⟨caches, -, -, -, h | h⟩
  · rw [h.2]
  · rw [h.2.1]
  · rw [h.2]
  · rw [h.1] at h1; simp at h1

theorem exampleFailingSave_trace :
    (Cache RangeOrder.listedBoth MemStorage.ops.traced 16 (exampleFailingSave, [])).2.2 =
      [⟨.ToBeCached, false, []⟩, ⟨.GetAllKeys, false, []⟩, ⟨.GetNodes, false, []⟩,
        ⟨.SaveCaches, true, [⟨1, [], []⟩, ⟨2, [], []⟩, ⟨3, [], []⟩]⟩] := by
  rfl

/-- Witness for C10: with a failing `SaveCaches` the run returns an error, does not
invoke `ClearCacheStack` and leaves the to-be-cached list `[1]` in place. -/
theorem Cache_clears_only_after_save_witness :
    (∃ c ∈ (Cache RangeOrder.listedBoth MemStorage.ops.traced 16 (exampleFailingSave, [])).2.2,
        c.failed = true ∧ c.op ≠ .ClearCacheStack) ∧
    ((Cache RangeOrder.listedBoth MemStorage.ops 16 exampleFailingSave).1.isSome ∧
      ∀ c ∈ (Cache RangeOrder.listedBoth MemStorage.ops.traced 16 (exampleFailingSave, [])).2.2,
        c.op ≠ .ClearCacheStack) ∧
    (Cache RangeOrder.listedBoth MemStorage.ops 16 exampleFailingSave).2.toBeCached = [1] :=
  have hex : ∃ c ∈ (Cache RangeOrder.listedBoth MemStorage.ops.traced 16 (exampleFailingSave, [])).2.2,
      c.failed = true ∧ c.op ≠ .ClearCacheStack := by
    rw [exampleFailingSave_trace]
    exact ⟨⟨.SaveCaches, true, [⟨1, [], []⟩, ⟨2, [], []⟩, ⟨3, [], []⟩]⟩, by simp, rfl, by simp⟩
  ⟨hex, ((Cache_clears_only_after_save RangeOrder.listedBoth).1 _ MemStorage.ops 16
      exampleFailingSave).2 hex,
    (Cache_clears_only_after_save RangeOrder.listedBoth).2 16 exampleFailingSave hex⟩

/-! ## Graph facts -/

theorem NodeMap.node_mem_of_get? (m : NodeMap) (k : Nat) (nd : Node) (h : NodeMap.get? m k = some nd) :
    (k, nd) ∈ m := by
  induction m with
  | nil => simp [NodeMap.get?] at h
  | cons p rest ih =>
    obtain ⟨a, b⟩ := p
    unfold NodeMap.get? at h
    split_ifs at h with h1
    · cases h; subst h1; simp
    · exact List.mem_cons_of_mem _ (ih h)

theorem NodeMap.get?_of_keys (m : NodeMap) (k : Nat) (h : k ∈ m.map Prod.fst) :
    ∃ nd, NodeMap.get? m k = some nd := by
  induction m with
  | nil => simp at h
  | cons p rest ih =>
    obtain ⟨a, b⟩ := p
    unfold NodeMap.get?
    split_ifs with h1
    · exact ⟨b, rfl⟩
    · simp at h
      rcases h with h | h
      · exact absurd h.symm h1
      · obtain ⟨b', hb⟩ := h
        exact ih (List.mem_map.mpr ⟨(k, b'), hb, rfl⟩)

theorem KeysInRange.get? {N : Nat} {m : NodeMap} (h : KeysInRange N m) {k : Nat}
    (h1 : 1 ≤ k) (h2 : k ≤ N) :
    ∃ nd, NodeMap.get? m k = some nd ∧ nd.ID = k ∧
      (∀ c ∈ nd.Children, 1 ≤ c ∧ c ≤ N) ∧ (∀ c ∈ nd.Parents, 1 ≤ c ∧ c ≤ N) := by
  have hk : k ∈ m.map Prod.fst := by
    rw [h.1, List.mem_range']
    exact ⟨k - 1, by omega, by omega⟩
  obtain ⟨nd, hnd⟩ := NodeMap.get?_of_keys m k hk
  have := h.2 _ (NodeMap.node_mem_of_get? m k nd hnd)
  exact ⟨nd, hnd, this.1, this.2.1, this.2.2⟩

theorem KeysInRange.key_range {N : Nat} {m : NodeMap} (h : KeysInRange N m) {k : Nat} {nd : Node}
    (hk : NodeMap.get? m k = some nd) : 1 ≤ k ∧ k ≤ N := by
  have h1 : k ∈ m.map Prod.fst := List.mem_map.mpr ⟨(k, nd), NodeMap.node_mem_of_get? m k nd hk, rfl⟩
  rw [h.1, List.mem_range'] at h1
  obtain ⟨i, hi, rfl⟩ := h1
  omega

theorem KeysInRange.next_range {N : Nat} {m : NodeMap} (h : KeysInRange N m) (d : Direction)
    {k : Nat} {nd : Node} (hk : NodeMap.get? m k = some nd) :
    ∀ c ∈ nd.next d, 1 ≤ c ∧ c ≤ N := by
  have := h.2 _ (NodeMap.node_mem_of_get? m k nd hk)
  cases d
  · exact this.2.1
  · exact this.2.2

theorem Edge.range_edge {N : Nat} {m : NodeMap} (h : KeysInRange N m) {d : Direction} {a b : Nat}
    (e : Edge d m a b) : (1 ≤ a ∧ a ≤ N) ∧ (1 ≤ b ∧ b ≤ N) := by
  obtain ⟨nd, hnd, hb⟩ := e
  exact ⟨h.key_range hnd, h.next_range d hnd b hb⟩

theorem SameSCC.refl_scc (d : Direction) (m : NodeMap) (a : Nat) : SameSCC d m a a :=
  ⟨Relation.ReflTransGen.refl, Relation.ReflTransGen.refl⟩

theorem SameSCC.symm_scc {d : Direction} {m : NodeMap} {a b : Nat} (h : SameSCC d m a b) :
    SameSCC d m b a := ⟨h.2, h.1⟩

theorem SameSCC.trans_scc {d : Direction} {m : NodeMap} {a b c : Nat} (h1 : SameSCC d m a b)
    (h2 : SameSCC d m b c) : SameSCC d m a c :=
  ⟨h1.1.trans h2.1, h2.2.trans h1.2⟩

/-! ## `findCycles`: the state -/

theorem TarjanState.Visited_iff (s : TarjanState) (v : Nat) :
    s.Visited v ↔ (IdMap.get? s.nodeToTarjanID v).isNone = false := by
  unfold TarjanState.Visited
  cases IdMap.get? s.nodeToTarjanID v <;> simp

theorem popComponent_cons_eq (x : Nat) (rest : List Nat) (st : TarjanState) :
    popComponent x (x :: rest) st =
      { st with
        stack := rest
        inStack := Bitmap.Remove st.inStack x
        lowLink := IdMap.set st.lowLink x (IdMap.get st.nodeToTarjanID x) } := by
  simp [popComponent]

theorem popComponent_cons_ne (x a : Nat) (h : ¬ x = a) (rest : List Nat) (st : TarjanState) :
    popComponent x (a :: rest) st =
      popComponent x rest { st with
        stack := rest
        inStack := Bitmap.Remove st.inStack a
        lowLink := IdMap.set st.lowLink a (IdMap.get st.nodeToTarjanID x) } := by
  simp [popComponent, h]

theorem popComponent_spec (x : Nat) (s1 old : List Nat) (hx : x ∉ s1) (st : TarjanState) :
    (popComponent x (s1 ++ x :: old) st).stack = old ∧
    (popComponent x (s1 ++ x :: old) st).nodeToTarjanID = st.nodeToTarjanID ∧
    (popComponent x (s1 ++ x :: old) st).currentTarjanID = st.currentTarjanID ∧
    (∀ v, v ∈ (popComponent x (s1 ++ x :: old) st).inStack ↔
      v ∈ st.inStack ∧ v ∉ s1 ∧ v ≠ x) ∧
    (∀ v, IdMap.get? (popComponent x (s1 ++ x :: old) st).lowLink v =
      if v ∈ s1 ∨ v = x then some (IdMap.get st.nodeToTarjanID x)
      else IdMap.get? st.lowLink v) ∧
    ((st.lowLink.map Prod.fst).Nodup →
      ((popComponent x (s1 ++ x :: old) st).lowLink.map Prod.fst).Nodup) := by
  induction s1 generalizing st with
  | nil =>
    rw [List.nil_append, popComponent_cons_eq]
    refine ⟨rfl, rfl, rfl, ?_, ?_, IdMap.set_nodup _ _ _⟩
    · intro v; simp [Bitmap.mem_Remove]
    · intro v
      simp only [IdMap.get?_set]
      by_cases h : x = v
      · subst h; simp
      · have h' : ¬ v = x := fun e => h e.symm
        simp [h, h']
  | cons a rest ih =>
    have hax : ¬ x = a := fun e => hx (by simp [e])
    have hx' : x ∉ rest := fun e => hx (List.mem_cons_of_mem _ e)
    rw [List.cons_append, popComponent_cons_ne x a hax]
    obtain ⟨h1, h2, h3, h4, h5, h6⟩ := ih hx'
      { st with
        stack := rest ++ x :: old
        inStack := Bitmap.Remove st.inStack a
        lowLink := IdMap.set st.lowLink a (IdMap.get st.nodeToTarjanID x) }
    refine ⟨h1, h2, h3, ?_, ?_, fun hn => h6 (IdMap.set_nodup _ _ _ hn)⟩
    · intro v
      rw [h4 v]
      simp [Bitmap.mem_Remove]
      tauto
    · intro v
      rw [h5 v]
      simp only [IdMap.get?_set, List.mem_cons]
      by_cases hv : a = v
      · subst hv; simp
      · have hv' : ¬ v = a := fun e => hv e.symm
        simp [hv, hv']

theorem TarjanState.low_setLow (s : TarjanState) (x val v : Nat) :
    ({ s with lowLink := IdMap.set s.lowLink x val } : TarjanState).low v =
      if x = v then val else s.low v := by
  simp [TarjanState.low, IdMap.get_set]

theorem TarjanInv.setLow {d : Direction} {m : NodeMap} {N : Nat} {g : List Nat}
    {s : TarjanState} (h : TarjanInv d m N g s) (x val : Nat) (hx : x ∈ s.stack)
    (hle : val ≤ s.low x)
    (hw : val = s.low x ∨ ∃ y ∈ s.stack, s.num y = val ∧ Reach d m x y) :
    TarjanInv d m N g { s with lowLink := IdMap.set s.lowLink x val } := by
  have hlow : ∀ v, v ∉ s.stack →
      ({ s with lowLink := IdMap.set s.lowLink x val } : TarjanState).low v = s.low v := by
    intro v hv
    rw [TarjanState.low_setLow]
    have : ¬ x = v := fun e => hv (e ▸ hx)
    simp [this]
  exact
    { visited_range := h.visited_range
      low_defined := by
        intro v hv
        have := h.low_defined v hv
        simp only [IdMap.get?_set]
        split_ifs
        · rfl
        · exact this
      low_visited := by
        intro v hv
        simp only [IdMap.get?_set] at hv
        split_ifs at hv with e
        · exact e ▸ h.stack_visited x hx
        · exact h.low_visited v hv
      low_nodup := IdMap.set_nodup _ _ _ h.low_nodup
      inStack_iff := h.inStack_iff
      stack_visited := h.stack_visited
      num_le := h.num_le
      num_inj := h.num_inj
      stack_reach := h.stack_reach
      stack_gray := h.stack_gray
      gray_stack := h.gray_stack
      black_closed := h.black_closed
      popped_root := by
        intro v hv hns
        obtain ⟨r, h1, h2, h3, h4⟩ := h.popped_root v hv hns
        refine ⟨r, h1, h2, ?_, h4⟩
        rw [hlow v hns]
        exact h3
      popped_closed := by
        intro v hv hns w hw'
        obtain ⟨h1, h2, h3⟩ := h.popped_closed v hv hns w hw'
        refine ⟨h1, h2, ?_⟩
        show ({ s with lowLink := IdMap.set s.lowLink x val } : TarjanState).low w =
          ({ s with lowLink := IdMap.set s.lowLink x val } : TarjanState).low v
        rw [hlow v hns, hlow w h2]
        exact h3
      low_stack := by
        intro v hv
        show ({ s with lowLink := IdMap.set s.lowLink x val } : TarjanState).low v ≤ s.num v ∧
          ∃ y ∈ s.stack, s.num y =
            ({ s with lowLink := IdMap.set s.lowLink x val } : TarjanState).low v ∧ Reach d m v y
        rw [TarjanState.low_setLow]
        by_cases hxv : x = v
        · subst hxv
          simp only [if_true]
          have h0 := h.low_stack x hx
          refine ⟨le_trans hle h0.1, ?_⟩
          rcases hw with hw | hw
          · rw [hw]; exact h0.2
          · exact hw
        · simp only [hxv, if_false]
          exact h.low_stack v hv
      popped_le := by
        intro v hv hns
        show ({ s with lowLink := IdMap.set s.lowLink x val } : TarjanState).low v ≤ s.num v
        rw [hlow v hns]
        exact h.popped_le v hv hns }

theorem TarjanState.Visited_push (s : TarjanState) (x v : Nat) :
    (s.push x).Visited v ↔ x = v ∨ s.Visited v := by
  simp only [TarjanState.Visited, TarjanState.push, IdMap.get?_set]
  split_ifs with h <;> simp [h]

theorem TarjanState.num_push (s : TarjanState) (x v : Nat) :
    (s.push x).num v = if x = v then s.currentTarjanID + 1 else s.num v := by
  simp [TarjanState.num, TarjanState.push, IdMap.get_set]

theorem TarjanState.low_push (s : TarjanState) (x v : Nat) :
    (s.push x).low v = if x = v then s.currentTarjanID + 1 else s.low v := by
  simp [TarjanState.low, TarjanState.push, IdMap.get_set]

theorem TarjanInv.push {d : Direction} {m : NodeMap} {N : Nat} {g : List Nat}
    {s : TarjanState} (h : TarjanInv d m N g s) (x : Nat) (hx : 1 ≤ x ∧ x ≤ N)
    (hnv : ¬ s.Visited x) (hacc : ∀ y ∈ g, Reach d m y x) :
    TarjanLoopInv d m N g x s [] (s.push x) := by
  have hne : ∀ v, s.Visited v → ¬ x = v := fun v hv e => hnv (e ▸ hv)
  have hnum : ∀ v, s.Visited v → (s.push x).num v = s.num v := by
    intro v hv; rw [TarjanState.num_push]; simp [hne v hv]
  have hlow : ∀ v, s.Visited v → (s.push x).low v = s.low v := by
    intro v hv; rw [TarjanState.low_push]; simp [hne v hv]
  have hnumx : (s.push x).num x = s.currentTarjanID + 1 := by
    rw [TarjanState.num_push]; simp
  have hlowx : (s.push x).low x = s.currentTarjanID + 1 := by
    rw [TarjanState.low_push]; simp
  have hstack : (s.push x).stack = x :: s.stack := rfl
  have hvis : ∀ v, s.Visited v → (s.push x).Visited v := fun v hv =>
    (TarjanState.Visited_push s x v).mpr (Or.inr hv)
  have hvisx : (s.push x).Visited x := (TarjanState.Visited_push s x x).mpr (Or.inl rfl)
  have hold : ∀ v, (s.push x).Visited v → v ∉ (s.push x).stack → s.Visited v ∧ v ∉ s.stack := by
    intro v hv hns
    rw [hstack] at hns
    simp only [List.mem_cons, not_or] at hns
    rcases (TarjanState.Visited_push s x v).mp hv with e | e
    · exact absurd e.symm hns.1
    · exact ⟨e, hns.2⟩
  refine
    { inv :=
        { visited_range := ?_, low_defined := ?_, low_visited := ?_,
          low_nodup := IdMap.set_nodup _ _ _ h.low_nodup, inStack_iff := ?_, stack_visited := ?_,
          num_le := ?_, num_inj := ?_, stack_reach := ?_, stack_gray := ?_, gray_stack := ?_,
          black_closed := ?_, popped_root := ?_, popped_closed := ?_, low_stack := ?_,
          popped_le := ?_ }
      ext := ⟨[], rfl, by simp, by simp⟩
      mono := fun v hv => ⟨hvis v hv, hnum v hv, hlow v hv⟩
      num_x := ⟨hvisx, hnumx⟩
      cur_le := le_refl _
      fresh := ?_
      done_visited := by simp
      x_new := hnv
      inv0 := h }
  · intro v hv
    rcases (TarjanState.Visited_push s x v).mp hv with e | e
    · subst e; exact hx
    · exact h.visited_range v e
  · intro v hv
    simp only [TarjanState.push, IdMap.get?_set]
    split_ifs with e
    · rfl
    · rcases (TarjanState.Visited_push s x v).mp hv with e' | e'
      · exact absurd e' e
      · exact h.low_defined v e'
  · intro v hv
    simp only [TarjanState.push, IdMap.get?_set] at hv
    split_ifs at hv with e
    · exact e ▸ hvisx
    · exact hvis v (h.low_visited v hv)
  · intro v
    simp only [TarjanState.push, Bitmap.mem_Add, List.mem_cons, h.inStack_iff]
  · intro v hv
    rw [hstack] at hv
    rcases List.mem_cons.mp hv with e | e
    · subst e; exact hvisx
    · exact hvis v (h.stack_visited v e)
  · intro v hv
    show (s.push x).num v ≤ s.currentTarjanID + 1
    rcases (TarjanState.Visited_push s x v).mp hv with e | e
    · subst e; rw [hnumx]
    · rw [hnum v e]; exact Nat.le_succ_of_le (h.num_le v e)
  · intro u v hu hv huv
    rcases (TarjanState.Visited_push s x u).mp hu with eu | eu <;>
      rcases (TarjanState.Visited_push s x v).mp hv with ev | ev
    · rw [← eu, ← ev]
    · subst eu
      rw [hnumx, hnum v ev] at huv
      have := h.num_le v ev
      omega
    · subst ev
      rw [hnumx, hnum u eu] at huv
      have := h.num_le u eu
      omega
    · rw [hnum u eu, hnum v ev] at huv
      exact h.num_inj u v eu ev huv
  · intro a ha b hb hab
    rw [hstack] at ha hb
    rcases List.mem_cons.mp ha with ea | ea <;> rcases List.mem_cons.mp hb with eb | eb
    · rw [ea, eb]; exact Relation.ReflTransGen.refl
    · subst ea
      have hbv := h.stack_visited b eb
      rw [hnumx, hnum b hbv] at hab
      have := h.num_le b hbv
      omega
    · subst eb
      obtain ⟨g', hg', -, hr⟩ := h.stack_gray a ea
      exact hr.trans (hacc g' hg')
    · have hav := h.stack_visited a ea
      have hbv := h.stack_visited b eb
      rw [hnum a hav, hnum b hbv] at hab
      exact h.stack_reach a ea b eb hab
  · intro y hy
    rw [hstack] at hy
    rcases List.mem_cons.mp hy with e | e
    · subst e
      exact ⟨y, by simp, le_refl _, Relation.ReflTransGen.refl⟩
    · obtain ⟨g', hg', hn, hr⟩ := h.stack_gray y e
      refine ⟨g', List.mem_cons_of_mem _ hg', ?_, hr⟩
      rw [hnum g' (h.stack_visited g' (h.gray_stack g' hg')), hnum y (h.stack_visited y e)]
      exact hn
  · intro a ha
    rw [hstack]
    rcases List.mem_cons.mp ha with e | e
    · subst e; simp
    · exact List.mem_cons_of_mem _ (h.gray_stack a e)
  · intro a ha hng y hy
    simp only [List.mem_cons, not_or] at hng
    rcases (TarjanState.Visited_push s x a).mp ha with e | e
    · exact absurd e.symm hng.1
    · exact hvis y (h.black_closed a e hng.2 y hy)
  · intro v hv hns
    obtain ⟨hv', hns'⟩ := hold v hv hns
    obtain ⟨r, h1, h2, h3, h4⟩ := h.popped_root v hv' hns'
    refine ⟨r, hvis r h1, ?_, ?_, h4⟩
    · rw [hstack]
      simp only [List.mem_cons, not_or]
      exact ⟨fun e => hne r h1 e.symm, h2⟩
    · rw [hlow v hv', hnum r h1]; exact h3
  · intro v hv hns w hw
    obtain ⟨hv', hns'⟩ := hold v hv hns
    obtain ⟨h1, h2, h3⟩ := h.popped_closed v hv' hns' w hw
    refine ⟨hvis w h1, ?_, ?_⟩
    · rw [hstack]
      simp only [List.mem_cons, not_or]
      exact ⟨fun e => hne w h1 e.symm, h2⟩
    · rw [hlow v hv', hlow w h1]; exact h3
  · intro v hv
    rw [hstack] at hv
    rcases List.mem_cons.mp hv with e | e
    · subst e
      rw [hlowx, hnumx]
      exact ⟨le_refl _, v, by simp [hstack], hnumx, Relation.ReflTransGen.refl⟩
    · have hvv := h.stack_visited v e
      obtain ⟨h1, y, hy, h2, h3⟩ := h.low_stack v e
      rw [hlow v hvv, hnum v hvv]
      refine ⟨h1, y, ?_, ?_, h3⟩
      · rw [hstack]; exact List.mem_cons_of_mem _ hy
      · rw [hnum y (h.stack_visited y hy)]; exact h2
  · intro v hv hns
    obtain ⟨hv', hns'⟩ := hold v hv hns
    rw [hlow v hv', hnum v hv']
    exact h.popped_le v hv' hns'
  · intro v hnv' hv
    rcases (TarjanState.Visited_push s x v).mp hv with e | e
    · subst e; rw [hnumx]; omega
    · exact absurd e hnv'

theorem TarjanLoopInv.x_stack {d : Direction} {m : NodeMap} {N : Nat} {g : List Nat} {x : Nat}
    {s0 s : TarjanState} {done : List Nat} (h : TarjanLoopInv d m N g x s0 done s) :
    x ∈ s.stack := h.inv.gray_stack x (by simp)

theorem TarjanLoopInv.old_stack {d : Direction} {m : NodeMap} {N : Nat} {g : List Nat} {x : Nat}
    {s0 s : TarjanState} {done : List Nat} (h : TarjanLoopInv d m N g x s0 done s) :
    ∀ z ∈ s0.stack, z ∈ s.stack := by
  obtain ⟨s1, h1, -⟩ := h.ext
  intro z hz
  rw [h1]
  simp [hz]

/-- A successor that was visited before and is no longer on the stack. -/
theorem TarjanLoopInv.skip {d : Direction} {m : NodeMap} {N : Nat} {g : List Nat} {x : Nat}
    {s0 s : TarjanState} {done : List Nat} (h : TarjanLoopInv d m N g x s0 done s) (y : Nat)
    (hy : s.Visited y) (hns : y ∉ s.stack) :
    TarjanLoopInv d m N g x s0 (y :: done) s := by
  obtain ⟨s1, h1, h2, h3⟩ := h.ext
  exact
    { inv := h.inv
      ext := ⟨s1, h1, h2, fun z hz => ⟨(h3 z hz).1, fun hd => by
        rcases List.mem_cons.mp hd with e | e
        · exact absurd (h.old_stack z hz) (e ▸ hns)
        · exact (h3 z hz).2 e⟩⟩
      mono := h.mono
      num_x := h.num_x
      cur_le := h.cur_le
      fresh := h.fresh
      done_visited := fun z hz => by
        rcases List.mem_cons.mp hz with e | e
        · exact e ▸ hy
        · exact h.done_visited z e
      x_new := h.x_new
      inv0 := h.inv0 }

/-- A successor that is on the stack: `lowLink[x] = min(lowLink[x], index[y])`. -/
theorem TarjanLoopInv.back_edge {d : Direction} {m : NodeMap} {N : Nat} {g : List Nat} {x : Nat}
    {s0 s : TarjanState} {done : List Nat} (h : TarjanLoopInv d m N g x s0 done s) (y : Nat)
    (hy : s.Visited y) (hs : y ∈ s.stack) (he : Edge d m x y) :
    TarjanLoopInv d m N g x s0 (y :: done)
      { s with lowLink := IdMap.set s.lowLink x (min (s.low x) (s.num y)) } := by
  obtain ⟨s1, h1, h2, h3⟩ := h.ext
  have hinv := h.inv.setLow x (min (s.low x) (s.num y)) h.x_stack (min_le_left _ _) (by
    rcases le_total (s.low x) (s.num y) with hl | hl
    · left; exact min_eq_left hl
    · right
      exact ⟨y, hs, (min_eq_right hl).symm, Relation.ReflTransGen.single he⟩)
  have hlowx : ({ s with lowLink := IdMap.set s.lowLink x (min (s.low x) (s.num y)) } :
      TarjanState).low x = min (s.low x) (s.num y) := by
    rw [TarjanState.low_setLow]; simp
  exact
    { inv := hinv
      ext := ⟨s1, h1, h2, fun z hz => by
        rw [hlowx]
        refine ⟨fun u hu hz' => le_trans (min_le_left _ _) ((h3 z hz).1 u hu hz'), fun hd => ?_⟩
        rcases List.mem_cons.mp hd with e | e
        · subst e; exact min_le_right _ _
        · exact le_trans (min_le_left _ _) ((h3 z hz).2 e)⟩
      mono := fun v hv => by
        obtain ⟨m1, m2, m3⟩ := h.mono v hv
        refine ⟨m1, m2, ?_⟩
        rw [TarjanState.low_setLow]
        have : ¬ x = v := fun e => h.x_new (e ▸ hv)
        simp [this, m3]
      num_x := h.num_x
      cur_le := h.cur_le
      fresh := h.fresh
      done_visited := fun z hz => by
        rcases List.mem_cons.mp hz with e | e
        · exact e ▸ hy
        · exact h.done_visited z e
      x_new := h.x_new
      inv0 := h.inv0 }

/-- A successor that had no index: after the recursive call,
`lowLink[x] = min(lowLink[x], lowLink[y])`. -/
theorem TarjanLoopInv.tree {d : Direction} {m : NodeMap} {N : Nat} {g : List Nat} {x : Nat}
    {s0 si sj : TarjanState} {done : List Nat} (h : TarjanLoopInv d m N g x s0 done si)
    (y : Nat) (he : Edge d m x y) (hinvj : TarjanInv d m N (x :: g) sj)
    (hp : TarjanPost d m y si sj) (hny : ¬ si.Visited y) :
    TarjanLoopInv d m N g x s0 (y :: done)
      { sj with lowLink := IdMap.set sj.lowLink x (min (sj.low x) (sj.low y)) } := by
  obtain ⟨s1, h1, h2, h3⟩ := h.ext
  obtain ⟨t1, p1, p2, p3⟩ := hp.ext
  have hxi : si.Visited x := h.num_x.1
  obtain ⟨hxj, hnumx, hlowxj⟩ := hp.mono x hxi
  have hxstack : x ∈ sj.stack := by rw [p1]; simp [h.x_stack]
  have hlowle : si.low x ≤ si.currentTarjanID :=
    le_trans (h.inv.low_stack x h.x_stack).1 (h.inv.num_le x hxi)
  have hfresh : si.currentTarjanID < sj.num y := hp.fresh y hny hp.visited_x
  have hinv := hinvj.setLow x (min (sj.low x) (sj.low y)) hxstack (min_le_left _ _) (by
    rcases p3 with ⟨-, -, q3⟩ | ⟨q1, -⟩
    · left
      apply min_eq_left
      rw [q3, hlowxj]
      omega
    · rcases le_total (sj.low x) (sj.low y) with hl | hl
      · left; exact min_eq_left hl
      · right
        have hys : y ∈ sj.stack := by rw [p1]; simp [q1]
        obtain ⟨-, w, hw1, hw2, hw3⟩ := hinvj.low_stack y hys
        exact ⟨w, hw1, by rw [hw2]; exact (min_eq_right hl).symm,
          (Relation.ReflTransGen.single he).trans hw3⟩)
  have hlowx : ({ sj with lowLink := IdMap.set sj.lowLink x (min (sj.low x) (sj.low y)) } :
      TarjanState).low x = min (sj.low x) (sj.low y) := by
    rw [TarjanState.low_setLow]; simp
  have hmono0 : ∀ v, s0.Visited v → sj.Visited v ∧ sj.num v = s0.num v ∧ sj.low v = s0.low v := by
    intro v hv
    obtain ⟨a1, a2, a3⟩ := h.mono v hv
    obtain ⟨b1, b2, b3⟩ := hp.mono v a1
    exact ⟨b1, b2.trans a2, b3.trans a3⟩
  exact
    { inv := hinv
      ext := ⟨t1 ++ s1, by rw [p1, h1]; simp, by
        intro u hu
        rcases List.mem_append.mp hu with e | e
        · obtain ⟨r1, r2⟩ := p2 u e
          refine ⟨(Relation.ReflTransGen.single he).trans r1, fun hv => r2 (h.mono u hv).1, ?_⟩
          intro e'; subst e'; exact r2 hxi
        · exact h2 u e, fun z hz => by
        rw [hlowx]
        have hzi : z ∈ si.stack := h.old_stack z hz
        have hzv : si.Visited z := h.inv.stack_visited z hzi
        have hnz : sj.num z = si.num z := (hp.mono z hzv).2.1
        refine ⟨fun u hu hz' => ?_, fun hd => ?_⟩
        · rcases List.mem_append.mp hu with e | e
          · rcases p3 with ⟨-, q2, -⟩ | ⟨-, q2⟩
            · subst q2; simp at e
            · exact le_trans (min_le_right _ _) (q2 u e z hzi hz')
          · show min (sj.low x) (sj.low y) ≤ sj.num z
            rw [hnz, hlowxj]
            exact le_trans (min_le_left _ _) ((h3 z hz).1 u e hz')
        · rcases List.mem_cons.mp hd with e | e
          · subst e; exact absurd hzv hny
          · show min (sj.low x) (sj.low y) ≤ sj.num z
            rw [hnz, hlowxj]
            exact le_trans (min_le_left _ _) ((h3 z hz).2 e)⟩
      mono := fun v hv => by
        obtain ⟨m1, m2, m3⟩ := hmono0 v hv
        refine ⟨m1, m2, ?_⟩
        rw [TarjanState.low_setLow]
        have : ¬ x = v := fun e => h.x_new (e ▸ hv)
        simp [this, m3]
      num_x := ⟨hxj, hnumx.trans h.num_x.2⟩
      cur_le := le_trans h.cur_le hp.cur_le
      fresh := fun v hv0 hvj => by
        by_cases hvi : si.Visited v
        · have := h.fresh v hv0 hvi
          have e : sj.num v = si.num v := (hp.mono v hvi).2.1
          show s0.currentTarjanID < sj.num v
          omega
        · have := hp.fresh v hvi hvj
          have := h.cur_le
          show s0.currentTarjanID < sj.num v
          omega
      done_visited := fun z hz => by
        rcases List.mem_cons.mp hz with e | e
        · exact e ▸ hp.visited_x
        · exact (hp.mono z (h.done_visited z e)).1
      x_new := h.x_new
      inv0 := h.inv0 }

theorem TarjanLoopInv.old_num_lt {d : Direction} {m : NodeMap} {N : Nat} {g : List Nat} {x : Nat}
    {s0 s : TarjanState} {done : List Nat} (h : TarjanLoopInv d m N g x s0 done s) :
    ∀ z, s0.Visited z → s.num z < s.num x := by
  intro z hz
  have h1 := (h.mono z hz).2.1
  have h2 := h.inv0.num_le z hz
  have h3 := h.num_x.2
  omega

theorem TarjanLoopInv.gray_num_le {d : Direction} {m : NodeMap} {N : Nat} {g : List Nat}
    {x : Nat} {s0 s : TarjanState} {done : List Nat} (h : TarjanLoopInv d m N g x s0 done s) :
    ∀ a ∈ x :: g, s.num a ≤ s.num x := by
  intro a ha
  rcases List.mem_cons.mp ha with e | e
  · rw [e]
  · exact le_of_lt (h.old_num_lt a (h.inv0.stack_visited a (h.inv0.gray_stack a e)))

/-- The end of `tarjanDFS(x)` when `x` is not the root of its component. -/
theorem TarjanLoopInv.finish_inner {d : Direction} {m : NodeMap} {N : Nat} {g : List Nat}
    {x : Nat} {s0 s : TarjanState} {done : List Nat} (h : TarjanLoopInv d m N g x s0 done s)
    (hall : ∀ y, Edge d m x y → y ∈ done) (hne : ¬ s.num x = s.low x) :
    TarjanInv d m N g s ∧ TarjanPost d m x s0 s := by
  obtain ⟨s1, h1, h2, h3⟩ := h.ext
  have hi := h.inv
  have hxs := h.x_stack
  obtain ⟨hlow1, w, hw1, hw2, hw3⟩ := hi.low_stack x hxs
  have hlt : s.low x < s.num x := lt_of_le_of_ne hlow1 (fun e => hne e.symm)
  constructor
  · exact
      { visited_range := hi.visited_range
        low_defined := hi.low_defined
        low_visited := hi.low_visited
        low_nodup := hi.low_nodup
        inStack_iff := hi.inStack_iff
        stack_visited := hi.stack_visited
        num_le := hi.num_le
        num_inj := hi.num_inj
        stack_reach := hi.stack_reach
        stack_gray := by
          intro y hy
          obtain ⟨a, ha, hn, hr⟩ := hi.stack_gray y hy
          rcases List.mem_cons.mp ha with e | e
          · subst e
            obtain ⟨b, hb, hbn, hbr⟩ := hi.stack_gray w hw1
            rcases List.mem_cons.mp hb with e' | e'
            · subst e'; omega
            · exact ⟨b, e', by omega, (hr.trans hw3).trans hbr⟩
          · exact ⟨a, e, hn, hr⟩
        gray_stack := fun a ha => hi.gray_stack a (List.mem_cons_of_mem _ ha)
        black_closed := by
          intro v hv hng y hy
          by_cases e : v = x
          · subst e; exact h.done_visited y (hall y hy)
          · exact hi.black_closed v hv (by simp [e, hng]) y hy
        popped_root := hi.popped_root
        popped_closed := hi.popped_closed
        low_stack := hi.low_stack
        popped_le := hi.popped_le }
  · exact
      { ext := ⟨s1 ++ [x], by rw [h1]; simp, by
          intro u hu
          rcases List.mem_append.mp hu with e | e
          · exact ⟨(h2 u e).1, (h2 u e).2.1⟩
          · simp only [List.mem_singleton] at e
            subst e
            exact ⟨Relation.ReflTransGen.refl, h.x_new⟩, Or.inr ⟨by simp, by
          intro u hu z hz he
          rcases List.mem_append.mp hu with e | e
          · exact (h3 z hz).1 u e he
          · simp only [List.mem_singleton] at e
            subst e
            exact (h3 z hz).2 (hall z he)⟩⟩
        mono := h.mono
        visited_x := h.num_x.1
        cur_le := le_trans (Nat.le_succ _) h.cur_le
        fresh := h.fresh }

/-- Every node in the component of `x` is on the stack at or above `x` when the
loop of a root `x` ends. -/
theorem TarjanLoopInv.component_on_top {d : Direction} {m : NodeMap} {N : Nat} {g : List Nat}
    {x : Nat} {s0 s : TarjanState} {done : List Nat} (h : TarjanLoopInv d m N g x s0 done s)
    (hall : ∀ y, Edge d m x y → y ∈ done) (hroot : s.num x = s.low x)
    (s1 : List Nat) (h1 : s.stack = s1 ++ x :: s0.stack)
    (h3 : ∀ z ∈ s0.stack, (∀ u ∈ s1, Edge d m u z → s.low x ≤ s.num z) ∧
      (z ∈ done → s.low x ≤ s.num z))
    (h2 : ∀ y ∈ s1, Reach d m x y ∧ ¬ s0.Visited y ∧ y ≠ x) :
    ∀ w, Reach d m x w → Reach d m w x → w ∈ s1 ∨ w = x := by
  intro w hxw
  induction hxw with
  | refl => intro _; exact Or.inr rfl
  | @tail b c hxb hbc ih =>
    intro hcx
    have hbx : Reach d m b x := (Relation.ReflTransGen.single hbc).trans hcx
    have hb := ih hbx
    have hxs := h.x_stack
    -- the successor has an index
    have hcv : s.Visited c := by
      rcases hb with e | e
      · have hbs : b ∈ s.stack := by rw [h1]; simp [e]
        refine h.inv.black_closed b (h.inv.stack_visited b hbs) ?_ c hbc
        intro hbg
        rcases List.mem_cons.mp hbg with e' | e'
        · exact (h2 b e).2.2 e'
        · exact (h2 b e).2.1 (h.inv0.stack_visited b (h.inv0.gray_stack b e'))
      · subst e; exact h.done_visited c (hall c hbc)
    by_cases hcs : c ∈ s.stack
    · rw [h1] at hcs
      rcases List.mem_append.mp hcs with e | e
      · exact Or.inl e
      · rcases List.mem_cons.mp e with e' | e'
        · exact Or.inr e'
        · exfalso
          have hlt := h.old_num_lt c (h.inv0.stack_visited c e')
          have hle : s.low x ≤ s.num c := by
            rcases hb with e'' | e''
            · exact (h3 c e').1 b e'' hbc
            · subst e''; exact (h3 c e').2 (hall c hbc)
          omega
    · exfalso
      have := (h.inv.popped_closed c hcv hcs x ⟨hcx, hxb.tail hbc⟩).2.1
      exact this hxs

/-- The end of `tarjanDFS(x)` when `x` is the root of its component: the component
is popped and every member gets the index of `x` as its `lowLink`. -/
theorem TarjanLoopInv.finish_root {d : Direction} {m : NodeMap} {N : Nat} {g : List Nat}
    {x : Nat} {s0 s : TarjanState} {done : List Nat} (h : TarjanLoopInv d m N g x s0 done s)
    (hall : ∀ y, Edge d m x y → y ∈ done) (hroot : s.num x = s.low x) :
    TarjanInv d m N g (popComponent x s.stack s) ∧
    TarjanPost d m x s0 (popComponent x s.stack s) := by
  obtain ⟨s1, h1, h2, h3⟩ := h.ext
  have hi := h.inv
  have hxs := h.x_stack
  have hxs1 : x ∉ s1 := fun e => (h2 x e).2.2 rfl
  obtain ⟨q1, q2, q3, q4, q5, q6⟩ := popComponent_spec x s1 s0.stack hxs1 s
  rw [← h1] at q1 q2 q3 q4 q5 q6
  generalize popComponent x s.stack s = s' at q1 q2 q3 q4 q5 q6
  -- the popped nodes
  have hP0 : ∀ v, (v ∈ s1 ∨ v = x) → ¬ s0.Visited v := by
    intro v hv
    rcases hv with e | e
    · exact (h2 v e).2.1
    · rw [e]; exact h.x_new
  have hPs : ∀ v, (v ∈ s1 ∨ v = x) → v ∈ s.stack := by
    intro v hv; rw [h1]; rcases hv with e | e <;> simp [e]
  have hPold : ∀ v, (v ∈ s1 ∨ v = x) → v ∉ s0.stack := fun v hv e =>
    hP0 v hv (h.inv0.stack_visited v e)
  have hsplit : ∀ v, v ∈ s.stack ↔ (v ∈ s1 ∨ v = x) ∨ v ∈ s0.stack := by
    intro v; rw [h1]; simp [or_assoc]
  have hvis : ∀ v, s'.Visited v ↔ s.Visited v := by
    intro v; unfold TarjanState.Visited; rw [q2]
  have hnum : ∀ v, s'.num v = s.num v := by
    intro v; unfold TarjanState.num; rw [q2]
  have hlowP : ∀ v, (v ∈ s1 ∨ v = x) → s'.low v = s.num x := by
    intro v hv
    unfold TarjanState.low TarjanState.num
    show (IdMap.get? s'.lowLink v).getD 0 = _
    rw [q5 v]; simp [hv]
  have hlowN : ∀ v, ¬ (v ∈ s1 ∨ v = x) → s'.low v = s.low v := by
    intro v hv
    unfold TarjanState.low IdMap.get
    rw [q5 v]; simp [hv]
  have hnumP : ∀ v, (v ∈ s1 ∨ v = x) → s0.currentTarjanID < s.num v := by
    intro v hv
    exact h.fresh v (hP0 v hv) (hi.stack_visited v (hPs v hv))
  have hsame : ∀ v, (v ∈ s1 ∨ v = x) → SameSCC d m v x := by
    intro v hv
    rcases hv with e | e
    · refine ⟨?_, (h2 v e).1⟩
      obtain ⟨a, ha, hn, hr⟩ := hi.stack_gray v (hPs v (Or.inl e))
      exact hr.trans (hi.stack_reach a (hi.gray_stack a ha) x hxs (h.gray_num_le a ha))
    · rw [e]; exact SameSCC.refl_scc d m x
  have hmax := h.component_on_top hall hroot s1 h1 h3 h2
  constructor
  · exact
      { visited_range := fun v hv => hi.visited_range v ((hvis v).mp hv)
        low_defined := by
          intro v hv
          rw [q5 v]
          split_ifs
          · rfl
          · exact hi.low_defined v ((hvis v).mp hv)
        low_visited := by
          intro v hv
          rw [q5 v] at hv
          rw [hvis v]
          split_ifs at hv with e
          · exact hi.stack_visited v (hPs v e)
          · exact hi.low_visited v hv
        low_nodup := q6 hi.low_nodup
        inStack_iff := by
          intro v
          rw [q4 v, q1, hi.inStack_iff v, hsplit v]
          constructor
          · rintro ⟨ha | ha, hb, hc⟩
            · exact absurd ha (by tauto)
            · exact ha
          · intro ha
            have := hPold v
            exact ⟨Or.inr ha, fun e => this (Or.inl e) ha, fun e => this (Or.inr e) ha⟩
        stack_visited := by
          intro v hv
          rw [q1] at hv
          exact (hvis v).mpr (hi.stack_visited v ((hsplit v).mpr (Or.inr hv)))
        num_le := by
          intro v hv
          rw [hnum v, q3]
          exact hi.num_le v ((hvis v).mp hv)
        num_inj := by
          intro u v hu hv huv
          rw [hnum u, hnum v] at huv
          exact hi.num_inj u v ((hvis u).mp hu) ((hvis v).mp hv) huv
        stack_reach := by
          intro a ha b hb hab
          rw [q1] at ha hb
          rw [hnum a, hnum b] at hab
          exact hi.stack_reach a ((hsplit a).mpr (Or.inr ha)) b ((hsplit b).mpr (Or.inr hb)) hab
        stack_gray := by
          intro y hy
          rw [q1] at hy
          obtain ⟨a, ha, hn, hr⟩ := hi.stack_gray y ((hsplit y).mpr (Or.inr hy))
          rcases List.mem_cons.mp ha with e | e
          · subst e
            have := h.old_num_lt y (h.inv0.stack_visited y hy)
            omega
          · exact ⟨a, e, by rw [hnum a, hnum y]; exact hn, hr⟩
        gray_stack := by
          intro a ha
          rw [q1]
          exact h.inv0.gray_stack a ha
        black_closed := by
          intro v hv hng y hy
          rw [hvis] at hv ⊢
          by_cases e : v = x
          · subst e; exact h.done_visited y (hall y hy)
          · exact hi.black_closed v hv (by simp [e, hng]) y hy
        popped_root := by
          intro v hv hns
          rw [hvis] at hv
          rw [q1] at hns
          by_cases hP : v ∈ s1 ∨ v = x
          · refine ⟨x, (hvis x).mpr h.num_x.1, ?_, ?_, hsame v hP⟩
            · rw [q1]; exact hPold x (Or.inr rfl)
            · rw [hlowP v hP, hnum x]
          · have hvs : v ∉ s.stack := by
              rw [hsplit v]; tauto
            obtain ⟨r, r1, r2, r3, r4⟩ := hi.popped_root v hv hvs
            refine ⟨r, (hvis r).mpr r1, ?_, ?_, r4⟩
            · rw [q1]; exact fun e => r2 ((hsplit r).mpr (Or.inr e))
            · rw [hlowN v hP, hnum r]; exact r3
        popped_closed := by
          intro v hv hns w hw
          rw [hvis] at hv
          rw [q1] at hns
          rw [hvis w, q1]
          by_cases hP : v ∈ s1 ∨ v = x
          · have hwx : SameSCC d m x w := (hsame v hP).symm_scc.trans_scc hw
            have hPw := hmax w hwx.1 hwx.2
            refine ⟨hi.stack_visited w (hPs w hPw), hPold w hPw, ?_⟩
            rw [hlowP v hP, hlowP w hPw]
          · have hvs : v ∉ s.stack := by
              rw [hsplit v]; tauto
            obtain ⟨c1, c2, c3⟩ := hi.popped_closed v hv hvs w hw
            have hPw : ¬ (w ∈ s1 ∨ w = x) := fun e => c2 (hPs w e)
            refine ⟨c1, fun e => c2 ((hsplit w).mpr (Or.inr e)), ?_⟩
            rw [hlowN v hP, hlowN w hPw]; exact c3
        low_stack := by
          intro v hv
          rw [q1] at hv
          have hvs : v ∈ s.stack := (hsplit v).mpr (Or.inr hv)
          have hP : ¬ (v ∈ s1 ∨ v = x) := fun e => hPold v e hv
          obtain ⟨l1, y, hy, l2, l3⟩ := hi.low_stack v hvs
          rw [hlowN v hP, hnum v]
          refine ⟨l1, y, ?_, by rw [hnum y]; exact l2, l3⟩
          rw [q1]
          rcases (hsplit y).mp hy with e | e
          · exfalso
            have := hnumP y e
            have := h.old_num_lt v (h.inv0.stack_visited v hv)
            have := h.num_x.2
            omega
          · exact e
        popped_le := by
          intro v hv hns
          rw [hvis] at hv
          rw [q1] at hns
          by_cases hP : v ∈ s1 ∨ v = x
          · rw [hlowP v hP, hnum v]
            have := hnumP v hP
            have := h.num_x.2
            omega
          · have hvs : v ∉ s.stack := by
              rw [hsplit v]; tauto
            rw [hlowN v hP, hnum v]
            exact hi.popped_le v hv hvs }
  · exact
      { ext := ⟨[], by rw [q1]; rfl, by simp, Or.inl ⟨by rw [q1]; exact hPold x (Or.inr rfl), rfl,
          by rw [hlowP x (Or.inr rfl), hnum x]⟩⟩
        mono := by
          intro v hv
          obtain ⟨m1, m2, m3⟩ := h.mono v hv
          have hP : ¬ (v ∈ s1 ∨ v = x) := fun e => hP0 v e hv
          exact ⟨(hvis v).mpr m1, by rw [hnum v]; exact m2, by rw [hlowN v hP]; exact m3⟩
        visited_x := (hvis x).mpr h.num_x.1
        cur_le := by rw [q3]; exact le_trans (Nat.le_succ _) h.cur_le
        fresh := by
          intro v hv0 hv
          rw [hnum v]
          exact h.fresh v hv0 ((hvis v).mp hv) }

theorem filter_length_le_of_imp {α : Type} (l : List α) (p q : α → Bool)
    (himp : ∀ a, q a = true → p a = true) : (l.filter q).length ≤ (l.filter p).length := by
  induction l with
  | nil => simp
  | cons a rest ih =>
    simp only [List.filter_cons]
    by_cases hq : q a = true
    · simp [hq, himp a hq, ih]
    · simp only [hq]
      by_cases hp : p a = true
      · simp [hp]; omega
      · simp [hp, ih]

theorem filter_length_lt_of_imp {α : Type} (l : List α) (p q : α → Bool)
    (himp : ∀ a, q a = true → p a = true) (x : α) (hx : x ∈ l) (hpx : p x = true)
    (hqx : ¬ q x = true) : (l.filter q).length < (l.filter p).length := by
  induction l with
  | nil => simp at hx
  | cons a rest ih =>
    simp only [List.filter_cons]
    rcases List.mem_cons.mp hx with e | e
    · subst e
      have := filter_length_le_of_imp rest p q himp
      simp [hpx, hqx]; omega
    · have := ih e
      by_cases hq : q a = true
      · simp [hq, himp a hq, this]
      · simp only [hq]
        by_cases hp : p a = true
        · simp [hp]; omega
        · simp [hp, this]

theorem TarjanState.Visited_of_not_isNone (s : TarjanState) (v : Nat)
    (h : ¬ ((IdMap.get? s.nodeToTarjanID v).isNone = true)) : s.Visited v := by
  unfold TarjanState.Visited
  cases h' : IdMap.get? s.nodeToTarjanID v with
  | none => simp [h'] at h
  | some a => rfl

theorem TarjanState.unvisited_mono (s s' : TarjanState) (N : Nat)
    (h : ∀ v, s.Visited v → s'.Visited v) : s'.unvisited N ≤ s.unvisited N := by
  unfold TarjanState.unvisited
  apply filter_length_le_of_imp
  intro a ha
  by_contra hc
  have h1 : s.Visited a := TarjanState.Visited_of_not_isNone s a hc
  have h2 := (TarjanState.Visited_iff s' a).mp (h a h1)
  simp [h2] at ha

theorem TarjanState.unvisited_push (s : TarjanState) (N x : Nat) (hx : 1 ≤ x ∧ x ≤ N)
    (hnv : ¬ s.Visited x) : (s.push x).unvisited N < s.unvisited N := by
  unfold TarjanState.unvisited
  apply filter_length_lt_of_imp _ _ _ _ x
  · rw [List.mem_range']; exact ⟨x - 1, by omega, by omega⟩
  · rw [TarjanState.Visited_iff] at hnv; simpa using hnv
  · have := (TarjanState.Visited_push s x x).mpr (Or.inl rfl)
    rw [TarjanState.Visited_iff] at this
    simp [this]
  · intro a ha
    by_contra hc
    have h1 : s.Visited a := TarjanState.Visited_of_not_isNone s a hc
    have h2 := (TarjanState.Visited_iff _ a).mp ((TarjanState.Visited_push s x a).mpr (Or.inr h1))
    simp [h2] at ha

/-- The loop over the successors of `x`, given that the recursive calls behave. -/
theorem tarjanLoop_spec {d : Direction} {m : NodeMap} {N : Nat} (g : List Nat) (x : Nat)
    (s0 : TarjanState) (fuel : Nat) (dfs : Nat → TarjanState → Except Error TarjanState)
    (hdfs : ∀ g' y s, TarjanInv d m N g' s → (1 ≤ y ∧ y ≤ N) → ¬ s.Visited y →
      (∀ a ∈ g', Reach d m a y) → s.unvisited N < fuel →
      ∃ s', dfs y s = .ok s' ∧ TarjanInv d m N g' s' ∧ TarjanPost d m y s s')
    (hk : KeysInRange N m) (hg : ∀ a ∈ g, Reach d m a x) :
    ∀ (rest done : List Nat) (s : TarjanState), TarjanLoopInv d m N g x s0 done s →
      (∀ y ∈ rest, Edge d m x y) → s.unvisited N < fuel →
      ∃ s', tarjanLoop dfs x rest s = .ok s' ∧
        TarjanLoopInv d m N g x s0 (rest.reverse ++ done) s' := by
  intro rest
  induction rest with
  | nil =>
    intro done s h _ _
    exact ⟨s, rfl, by simpa using h⟩
  | cons y rest ih =>
    intro done s h hedges hfuel
    have hey : Edge d m x y := hedges y (by simp)
    have hrest : ∀ z ∈ rest, Edge d m x z := fun z hz => hedges z (List.mem_cons_of_mem _ hz)
    have hlist : (y :: rest).reverse ++ done = rest.reverse ++ (y :: done) := by simp
    rw [hlist]
    unfold tarjanLoop
    by_cases hv : s.Visited y
    · have hv' : (IdMap.get? s.nodeToTarjanID y).isNone = false :=
        (TarjanState.Visited_iff s y).mp hv
      simp only [hv', Bool.false_eq_true, if_false]
      by_cases hs : y ∈ s.stack
      · have hc : Bitmap.Contains s.inStack y = true :=
          (Bitmap.Contains_iff _ _).mpr ((h.inv.inStack_iff y).mpr hs)
        simp only [hc, if_true]
        exact ih (y :: done) _ (h.back_edge y hv hs hey) hrest hfuel
      · have hc : ¬ Bitmap.Contains s.inStack y = true := fun e =>
          hs ((h.inv.inStack_iff y).mp ((Bitmap.Contains_iff _ _).mp e))
        simp only [hc, if_false]
        exact ih (y :: done) _ (h.skip y hv hs) hrest hfuel
    · have hv' : (IdMap.get? s.nodeToTarjanID y).isNone = true := by
        rw [TarjanState.Visited_iff] at hv; simpa using hv
      simp only [hv', if_true]
      have hacc : ∀ a ∈ x :: g, Reach d m a y := by
        intro a ha
        rcases List.mem_cons.mp ha with e | e
        · rw [e]; exact Relation.ReflTransGen.single hey
        · exact (hg a e).tail hey
      obtain ⟨sj, hj1, hj2, hj3⟩ := hdfs (x :: g) y s h.inv (Edge.range_edge hk hey).2 hv hacc hfuel
      rw [hj1]
      simp only
      refine ih (y :: done) _ (h.tree y hey hj2 hj3 hv) hrest ?_
      exact lt_of_le_of_lt (TarjanState.unvisited_mono s _ N (fun v hv => (hj3.mono v hv).1)) hfuel

/-- A call `tarjanDFS(x)` on an unnumbered node returns, keeps the invariant and
meets its postcondition, provided the budget exceeds the number of unnumbered
nodes. -/
theorem tarjanDFS_spec {d : Direction} {m : NodeMap} {N : Nat} (hk : KeysInRange N m) :
    ∀ (fuel : Nat) (g : List Nat) (x : Nat) (s : TarjanState), TarjanInv d m N g s →
      (1 ≤ x ∧ x ≤ N) → ¬ s.Visited x → (∀ a ∈ g, Reach d m a x) → s.unvisited N < fuel →
      ∃ s', tarjanDFS d m fuel x s = .ok s' ∧ TarjanInv d m N g s' ∧ TarjanPost d m x s s' := by
  intro fuel
  induction fuel with
  | zero => intro g x s _ _ _ _ h; omega
  | succ fuel ih =>
    intro g x s hinv hx hnv hacc hfuel
    obtain ⟨nd, hnd, -, -, -⟩ := hk.get? hx.1 hx.2
    have hpush := hinv.push x hx hnv hacc
    have hlt := TarjanState.unvisited_push s N x hx hnv
    have hedges : ∀ y ∈ Bitmap.ToArray (nd.next d), Edge d m x y := fun y hy =>
      ⟨nd, hnd, (Bitmap.mem_ToArray _ _).mp hy⟩
    obtain ⟨s1, hl1, hl2⟩ := tarjanLoop_spec g x s fuel (tarjanDFS d m fuel) ih hk hacc
      (Bitmap.ToArray (nd.next d)) [] (s.push x) hpush hedges (by omega)
    have hall : ∀ y, Edge d m x y → y ∈ (Bitmap.ToArray (nd.next d)).reverse ++ [] := by
      rintro y ⟨nd', h1, h2⟩
      rw [hnd] at h1
      cases h1
      simp [Bitmap.mem_ToArray, h2]
    unfold tarjanDFS
    simp only [hnd]
    have hl1' : tarjanLoop (tarjanDFS d m fuel) x (Bitmap.ToArray (nd.next d))
        { stack := x :: s.stack
          currentTarjanID := s.currentTarjanID + 1
          nodeToTarjanID := IdMap.set s.nodeToTarjanID x (s.currentTarjanID + 1)
          lowLink := IdMap.set s.lowLink x (s.currentTarjanID + 1)
          inStack := Bitmap.Add s.inStack x } = .ok s1 := hl1
    rw [hl1']
    simp only
    by_cases hroot : s1.num x = s1.low x
    · have hc : IdMap.get s1.nodeToTarjanID x = IdMap.get s1.lowLink x := hroot
      simp only [hc, if_true]
      exact ⟨_, rfl, hl2.finish_root hall hroot⟩
    · have hc : ¬ IdMap.get s1.nodeToTarjanID x = IdMap.get s1.lowLink x := hroot
      simp only [hc, if_false]
      exact ⟨_, rfl, hl2.finish_inner hall hroot⟩

theorem TarjanInv.init (d : Direction) (m : NodeMap) (N : Nat) :
    TarjanInv d m N [] TarjanState.init := by
  have hv : ∀ v, ¬ TarjanState.init.Visited v := by
    intro v; simp [TarjanState.Visited, TarjanState.init, IdMap.get?]
  exact
    { visited_range := fun v h => absurd h (hv v)
      low_defined := fun v h => absurd h (hv v)
      low_visited := by intro v h; simp [TarjanState.init, IdMap.get?] at h
      low_nodup := by simp [TarjanState.init]
      inStack_iff := by intro v; simp [TarjanState.init, Bitmap.New]
      stack_visited := by intro v h; simp [TarjanState.init] at h
      num_le := fun v h => absurd h (hv v)
      num_inj := fun u v h => absurd h (hv u)
      stack_reach := by intro v h; simp [TarjanState.init] at h
      stack_gray := by intro v h; simp [TarjanState.init] at h
      gray_stack := by intro v h; simp at h
      black_closed := fun v h => absurd h (hv v)
      popped_root := fun v h => absurd h (hv v)
      popped_closed := fun v h => absurd h (hv v)
      low_stack := by intro v h; simp [TarjanState.init] at h
      popped_le := fun v h => absurd h (hv v) }

/-- The outer loop of `findCycles` over the ids still to look at. -/
theorem findCyclesLoop_spec {d : Direction} {m : NodeMap} {N : Nat} (hk : KeysInRange N m)
    (fuel : Nat) (hfuel : N < fuel) :
    ∀ (ids : List Nat) (s : TarjanState), TarjanInv d m N [] s →
      (∀ x ∈ ids, 1 ≤ x ∧ x ≤ N) →
      ∃ s', findCyclesLoop d m fuel ids s = .ok s' ∧ TarjanInv d m N [] s' ∧
        (∀ v, s.Visited v → s'.Visited v) ∧ (∀ x ∈ ids, s'.Visited x) := by
  intro ids
  induction ids with
  | nil => intro s h _; exact ⟨s, rfl, h, fun _ hv => hv, by simp⟩
  | cons x rest ih =>
    intro s h hr
    have hrest : ∀ z ∈ rest, 1 ≤ z ∧ z ≤ N := fun z hz => hr z (List.mem_cons_of_mem _ hz)
    unfold findCyclesLoop
    by_cases hv : s.Visited x
    · have hv' : (IdMap.get? s.nodeToTarjanID x).isNone = false :=
        (TarjanState.Visited_iff s x).mp hv
      simp only [hv', Bool.false_eq_true, if_false]
      obtain ⟨s', e1, e2, e3, e4⟩ := ih s h hrest
      refine ⟨s', e1, e2, e3, ?_⟩
      intro z hz
      rcases List.mem_cons.mp hz with e | e
      · rw [e]; exact e3 x hv
      · exact e4 z e
    · have hv' : (IdMap.get? s.nodeToTarjanID x).isNone = true := by
        by_contra hc
        exact hv (TarjanState.Visited_of_not_isNone s x hc)
      simp only [hv', if_true]
      have hcount : s.unvisited N < fuel := by
        have : s.unvisited N ≤ N := by
          unfold TarjanState.unvisited
          have := List.length_filter_le
            (fun v => (IdMap.get? s.nodeToTarjanID v).isNone) (List.range' 1 N)
          simpa using this
        omega
      obtain ⟨s1, d1, d2, d3⟩ := tarjanDFS_spec hk fuel [] x s h (hr x (by simp)) hv
        (by simp) hcount
      rw [d1]
      simp only
      obtain ⟨s', e1, e2, e3, e4⟩ := ih s1 d2 hrest
      refine ⟨s', e1, e2, fun v hv => e3 v (d3.mono v hv).1, ?_⟩
      intro z hz
      rcases List.mem_cons.mp hz with e | e
      · rw [e]; exact e3 x d3.visited_x
      · exact e4 z e

/-- What `findCycles` returns on a map with keys `1..N`: a map defined on `1..N`
in which two nodes have the same value exactly when they are in the same strongly
connected component. -/
theorem findCycles_spec {d : Direction} {m : NodeMap} {N : Nat} (hk : KeysInRange N m)
    (fuel : Nat) (hfuel : N < fuel) :
    ∃ scc, findCycles fuel d N m = .ok scc ∧
      (∀ u, 1 ≤ u → u ≤ N → (IdMap.get? scc u).isSome = true) ∧
      (∀ u, (IdMap.get? scc u).isSome = true → 1 ≤ u ∧ u ≤ N) ∧
      (scc.map Prod.fst).Nodup ∧
      (∀ u v, 1 ≤ u → u ≤ N → 1 ≤ v → v ≤ N →
        (IdMap.get scc u = IdMap.get scc v ↔ SameSCC d m u v)) := by
  have hids : ∀ x ∈ List.range' 1 N, 1 ≤ x ∧ x ≤ N := by
    intro x hx
    rw [List.mem_range'] at hx
    obtain ⟨i, hi, rfl⟩ := hx
    omega
  obtain ⟨s, h1, h2, -, h4⟩ := findCyclesLoop_spec hk fuel hfuel (List.range' 1 N)
    TarjanState.init (TarjanInv.init d m N) hids
  have h1' : findCyclesLoop d m fuel (List.range' 1 N)
      { stack := [], currentTarjanID := 0, nodeToTarjanID := [], lowLink := [],
        inStack := Bitmap.New } = .ok s := h1
  have hvis : ∀ u, 1 ≤ u → u ≤ N → s.Visited u := by
    intro u hu1 hu2
    apply h4
    rw [List.mem_range']
    exact ⟨u - 1, by omega, by omega⟩
  have hstack : ∀ v, v ∉ s.stack := by
    intro v hv
    obtain ⟨a, ha, -⟩ := h2.stack_gray v hv
    simp at ha
  refine ⟨s.lowLink, by simp [findCycles, h1'], ?_, ?_, h2.low_nodup, ?_⟩
  · intro u hu1 hu2
    exact h2.low_defined u (hvis u hu1 hu2)
  · intro u hu
    exact h2.visited_range u (h2.low_visited u hu)
  · intro u v hu1 hu2 hv1 hv2
    have hu := hvis u hu1 hu2
    have hv := hvis v hv1 hv2
    constructor
    · intro e
      obtain ⟨ru, a1, -, a3, a4⟩ := h2.popped_root u hu (hstack u)
      obtain ⟨rv, b1, -, b3, b4⟩ := h2.popped_root v hv (hstack v)
      have e' : s.low u = s.low v := e
      have : ru = rv := h2.num_inj ru rv a1 b1 (by rw [← a3, ← b3, e'])
      subst this
      exact a4.trans_scc b4.symm_scc
    · intro hsame
      exact ((h2.popped_closed u hu (hstack u) v hsame).2.2).symm

/-- C2: on a node map with keys `1..N` and adjacency ids in `1..N`, in either
direction, `findCycles` returns a map that is defined on every id `1..N` and gives
two ids the same value exactly when each is reachable from the other along edges of
that direction. -/
theorem findCycles_same_value_iff_same_component (d : Direction) (m : NodeMap) (N : Nat)
    (hk : KeysInRange N m) (fuel : Nat) (hfuel : N < fuel) :
    ∃ scc, findCycles fuel d N m = .ok scc ∧
      (∀ u, 1 ≤ u → u ≤ N → (IdMap.get? scc u).isSome = true) ∧
      (∀ u v, 1 ≤ u → u ≤ N → 1 ≤ v → v ≤ N →
        (IdMap.get scc u = IdMap.get scc v ↔ (Reach d m u v ∧ Reach d m v u))) := by
  obtain ⟨scc, h1, h2, -, -, h3⟩ := findCycles_spec (d := d) hk fuel hfuel
  exact ⟨scc, h1, h2, h3⟩

/-- Witness for C2: the three-node cycle, in the direction of the children. -/
theorem findCycles_same_value_iff_same_component_witness :
    KeysInRange 3 triangleNodes ∧ 3 < 4 ∧
    ∃ scc, findCycles 4 .ChildrenDirection 3 triangleNodes = .ok scc ∧
      (∀ u, 1 ≤ u → u ≤ 3 → (IdMap.get? scc u).isSome = true) ∧
      (∀ u v, 1 ≤ u → u ≤ 3 → 1 ≤ v → v ≤ 3 →
        (IdMap.get scc u = IdMap.get scc v ↔
          (Reach .ChildrenDirection triangleNodes u v ∧
            Reach .ChildrenDirection triangleNodes v u))) :=
  ⟨by decide, by decide,
    findCycles_same_value_iff_same_component .ChildrenDirection triangleNodes 3 (by decide) 4
      (by decide)⟩

/-! ## The group maps -/

namespace NativeKeyManagement

theorem lookupValue_setValue (vs : List (String × Bitmap)) (c c' : String) (v : Bitmap) :
    lookupValue (setValue vs c v) c' = if c = c' then some v else lookupValue vs c' := by
  induction vs with
  | nil => simp [setValue, lookupValue]
  | cons p rest ih =>
    obtain ⟨a, b⟩ := p
    unfold setValue
    by_cases h : a = c
    · subst h
      by_cases h2 : a = c' <;> simp [lookupValue, h2]
    · by_cases h2 : a = c'
      · subst h2
        have h3 : ¬ c = a := fun e => h e.symm
        simp [lookupValue, h, h3]
      · simp [lookupValue, h, h2, ih]

theorem lookupBinding_setBinding (bs : List (String × String)) (k c k' : String) :
    lookupBinding (setBinding bs k c) k' = if k = k' then some c else lookupBinding bs k' := by
  induction bs with
  | nil => simp [setBinding, lookupBinding]
  | cons p rest ih =>
    obtain ⟨a, b⟩ := p
    unfold setBinding
    by_cases h : a = k
    · subst h
      by_cases h2 : a = k' <;> simp [lookupBinding, h2]
    · by_cases h2 : a = k'
      · subst h2
        have h3 : ¬ k = a := fun e => h e.symm
        simp [lookupBinding, h, h3]
      · simp [lookupBinding, h, h2, ih]

theorem lookupBinding_bind (ks : List String) (c : String) (bs : List (String × String))
    (k' : String) :
    lookupBinding (ks.foldl (fun b k => setBinding b k c) bs) k' =
      if k' ∈ ks then some c else lookupBinding bs k' := by
  induction ks generalizing bs with
  | nil => simp
  | cons k rest ih =>
    simp only [List.foldl_cons, ih, lookupBinding_setBinding, List.mem_cons]
    by_cases h1 : k' ∈ rest
    · simp [h1]
    · by_cases h2 : k = k'
      · simp [h2]
      · have h3 : ¬ k' = k := fun e => h2 e.symm
        simp [h1, h2, h3]

theorem lookupBinding_isSome_iff (bs : List (String × String)) (k : String) :
    (lookupBinding bs k).isSome = true ↔ k ∈ bs.map Prod.fst := by
  induction bs with
  | nil => simp [lookupBinding]
  | cons p rest ih =>
    obtain ⟨a, b⟩ := p
    unfold lookupBinding
    by_cases e : a = k
    · subst e; simp
    · have e' : ¬ k = a := fun h => e h.symm
      simp [e, e', ih]

theorem lookupValue_isSome_iff (vs : List (String × Bitmap)) (k : String) :
    (lookupValue vs k).isSome = true ↔ k ∈ vs.map Prod.fst := by
  induction vs with
  | nil => simp [lookupValue]
  | cons p rest ih =>
    obtain ⟨a, b⟩ := p
    unfold lookupValue
    by_cases e : a = k
    · subst e; simp
    · have e' : ¬ k = a := fun h => e h.symm
      simp [e, e', ih]

theorem Get_eq (m : NativeKeyManagement) (key : String) : m.Get key = .ok (m.view key) := rfl

theorem Set_eq (m : NativeKeyManagement) (key : String) (v : Bitmap) :
    m.Set key v = .ok { m with values := setValue m.values (m.canonical key) v } := rfl

theorem view_Set (m : NativeKeyManagement) (key key' : String) (v : Bitmap) :
    ({ m with values := setValue m.values (m.canonical key) v } : NativeKeyManagement).view key' =
      if m.canonical key = m.canonical key' then v else m.view key' := by
  unfold view canonical
  simp only [lookupValue_setValue]
  split_ifs <;> simp

theorem Closed.Set {m : NativeKeyManagement} (h : m.Closed) (key : String) (v : Bitmap)
    (hb : (lookupBinding m.bindings key).isSome = true) :
    ({ m with values := setValue m.values (m.canonical key) v } : NativeKeyManagement).Closed := by
  refine ⟨h.canon_self, ?_⟩
  intro c w hc
  simp only [lookupValue_setValue] at hc
  split_ifs at hc with e
  · rw [← e]
    cases hk : lookupBinding m.bindings key with
    | none => simp [hk] at hb
    | some c0 =>
      simp only [canonical, hk, Option.getD_some]
      exact h.canon_self key c0 hk
  · exact h.value_bound c w hc

theorem BindKeys_Set_eq (m : NativeKeyManagement) (first : String) (rest : List String)
    (v : Bitmap) :
    ∃ m1, m.BindKeys (first :: rest) = .ok (first, m1) ∧
      m1.Set first v = .ok (m.bindSet first rest v) := by
  refine ⟨{ m with bindings :=
    (first :: rest).foldl (fun b k => setBinding b k first) m.bindings }, rfl, ?_⟩
  rw [Set_eq]
  have : ({ m with bindings :=
      (first :: rest).foldl (fun b k => setBinding b k first) m.bindings } :
        NativeKeyManagement).canonical first = first := by
    unfold canonical
    rw [lookupBinding_bind]
    simp
  rw [this]
  rfl

/-- Binding a fresh group and writing its slot. -/
theorem bindSet_spec (m : NativeKeyManagement) (h : m.Closed) (first : String)
    (rest : List String) (v : Bitmap)
    (hfresh : ∀ k ∈ first :: rest, lookupBinding m.bindings k = none) :
    (m.bindSet first rest v).Closed ∧
      (∀ k, lookupBinding (m.bindSet first rest v).bindings k =
        if k ∈ first :: rest then some first else lookupBinding m.bindings k) ∧
      (∀ k, (m.bindSet first rest v).view k = if k ∈ first :: rest then v else m.view k) := by
  have hbs : ∀ k, lookupBinding (m.bindSet first rest v).bindings k =
      if k ∈ first :: rest then some first else lookupBinding m.bindings k :=
    fun k => lookupBinding_bind (first :: rest) first m.bindings k
  refine ⟨?_, hbs, ?_⟩
  · constructor
    · intro k c hk
      rw [hbs] at hk ⊢
      split_ifs at hk with e
      · cases hk; simp
      · have hc := h.canon_self k c hk
        by_cases e' : c ∈ first :: rest
        · rw [hfresh c e'] at hc; cases hc
        · simp only [e', if_false]; exact hc
    · intro c w hc
      have hc' : lookupValue (setValue m.values first v) c = some w := hc
      rw [lookupValue_setValue] at hc'
      rw [hbs]
      split_ifs at hc' with e
      · subst e; simp
      · have hb := h.value_bound c w hc'
        by_cases e' : c ∈ first :: rest
        · rw [hfresh c e'] at hb; cases hb
        · simp only [e', if_false]; exact hb
  · intro k
    show (lookupValue (setValue m.values first v)
      ((lookupBinding (m.bindSet first rest v).bindings k).getD k)).getD Bitmap.New = _
    rw [hbs, lookupValue_setValue]
    by_cases e : k ∈ first :: rest
    · simp [e]
    · simp only [e, if_false]
      have hne : ¬ first = (lookupBinding m.bindings k).getD k := by
        intro hc
        cases hk : lookupBinding m.bindings k with
        | none =>
          rw [hk] at hc
          simp only [Option.getD_none] at hc
          exact e (hc ▸ List.mem_cons_self _ _)
        | some c0 =>
          rw [hk] at hc
          simp only [Option.getD_some] at hc
          have := h.canon_self k c0 hk
          rw [← hc, hfresh first (List.mem_cons_self _ _)] at this
          cases this
      simp only [hne, if_false]
      rfl

end NativeKeyManagement

/-! ## Seeding the group maps -/

/-- The loop that gathers a group: the ids of its keys, and the union of their
children and of their parents. -/
theorem gatherGroup_spec {N : Nat} {m : NodeMap} (hk : KeysInRange N m) :
    ∀ (ks : List String) (acc : GroupAcc),
      (∀ key ∈ ks, ∃ k, key = Itoa k ∧ 1 ≤ k ∧ k ≤ N) →
      ∃ out, gatherGroup m ks acc = .ok out ∧
        (∀ x, x ∈ out.keycache ↔ x ∈ acc.keycache ∨ Itoa x ∈ ks) ∧
        (∀ x, x ∈ out.childrenCache ↔ x ∈ acc.childrenCache ∨
          ∃ k nd, Itoa k ∈ ks ∧ NodeMap.get? m k = some nd ∧ x ∈ nd.Children) ∧
        (∀ x, x ∈ out.parentCache ↔ x ∈ acc.parentCache ∨
          ∃ k nd, Itoa k ∈ ks ∧ NodeMap.get? m k = some nd ∧ x ∈ nd.Parents) := by
  intro ks
  induction ks with
  | nil =>
    intro acc _
    exact ⟨acc, rfl, by simp, by simp, by simp⟩
  | cons key rest ih =>
    intro acc hks
    obtain ⟨k, rfl, hk1, hk2⟩ := hks key (by simp)
    obtain ⟨nd, hnd, hid, -, -⟩ := hk.get? hk1 hk2
    unfold gatherGroup
    simp only [Atoi_Itoa, hnd]
    obtain ⟨out, h0, h1, h2, h3⟩ := ih
      { childrenCache := Bitmap.Or acc.childrenCache nd.Children
        parentCache := Bitmap.Or acc.parentCache nd.Parents
        keycache := Bitmap.Add (Bitmap.Add acc.keycache k) nd.ID }
      (fun key' h' => hks key' (List.mem_cons_of_mem _ h'))
    refine ⟨out, h0, ?_, ?_, ?_⟩
    · intro x
      rw [h1 x]
      simp only [Bitmap.mem_Add, hid, List.mem_cons]
      constructor
      · rintro ((e | e | e) | e)
        · right; left; rw [e]
        · right; left; rw [e]
        · left; exact e
        · right; right; exact e
      · rintro (e | e | e)
        · left; right; right; exact e
        · left; left; exact Itoa_injective e
        · right; exact e
    · intro x
      rw [h2 x]
      simp only [Bitmap.mem_Or, List.mem_cons]
      constructor
      · rintro ((e | e) | ⟨k', nd', e1, e2, e3⟩)
        · left; exact e
        · right; exact ⟨k, nd, Or.inl rfl, hnd, e⟩
        · right; exact ⟨k', nd', Or.inr e1, e2, e3⟩
      · rintro (e | ⟨k', nd', e1 | e1, e2, e3⟩)
        · left; left; exact e
        · have := Itoa_injective e1
          subst this
          rw [hnd] at e2
          cases e2
          left; right; exact e3
        · right; exact ⟨k', nd', e1, e2, e3⟩
    · intro x
      rw [h3 x]
      simp only [Bitmap.mem_Or, List.mem_cons]
      constructor
      · rintro ((e | e) | ⟨k', nd', e1, e2, e3⟩)
        · left; exact e
        · right; exact ⟨k, nd, Or.inl rfl, hnd, e⟩
        · right; exact ⟨k', nd', Or.inr e1, e2, e3⟩
      · rintro (e | ⟨k', nd', e1 | e1, e2, e3⟩)
        · left; left; exact e
        · have := Itoa_injective e1
          subst this
          rw [hnd] at e2
          cases e2
          left; right; exact e3
        · right; exact ⟨k', nd', e1, e2, e3⟩

/-- One group added to the three maps. -/
theorem addGroup_spec {N : Nat} {m : NodeMap} (hk : KeysInRange N m) (M0 : BindMaps)
    (hc : M0.Closed) (first : String) (rest : List String)
    (hks : ∀ key ∈ first :: rest, ∃ k, key = Itoa k ∧ 1 ≤ k ∧ k ≤ N)
    (hfresh : ∀ k ∈ first :: rest,
      NativeKeyManagement.lookupBinding M0.cache.bindings k = none) :
    ∃ M, addGroup m (first :: rest) M0 = .ok M ∧ M.Closed ∧
      (∀ k, NativeKeyManagement.lookupBinding M.cache.bindings k =
        if k ∈ first :: rest then some first
        else NativeKeyManagement.lookupBinding M0.cache.bindings k) ∧
      (∀ k, k ∉ first :: rest → M.cache.view k = M0.cache.view k ∧
        M.children.view k = M0.children.view k ∧ M.parents.view k = M0.parents.view k) ∧
      (∀ k ∈ first :: rest,
        (∀ x, x ∈ M.cache.view k ↔ Itoa x ∈ first :: rest) ∧
        (∀ x, x ∈ M.children.view k ↔
          (∃ k' nd, Itoa k' ∈ first :: rest ∧ NodeMap.get? m k' = some nd ∧ x ∈ nd.Children) ∧
            ¬ Itoa x ∈ first :: rest) ∧
        (∀ x, x ∈ M.parents.view k ↔
          (∃ k' nd, Itoa k' ∈ first :: rest ∧ NodeMap.get? m k' = some nd ∧ x ∈ nd.Parents) ∧
            ¬ Itoa x ∈ first :: rest)) := by
  obtain ⟨acc, g0, g1, g2, g3⟩ := gatherGroup_spec hk (first :: rest)
    { keycache := Bitmap.New, childrenCache := Bitmap.New, parentCache := Bitmap.New } hks
  obtain ⟨a1, a2, a3⟩ := NativeKeyManagement.BindKeys_Set_eq M0.cache first rest acc.keycache
  obtain ⟨b1, b2, b3⟩ := NativeKeyManagement.BindKeys_Set_eq M0.children first rest
    (Bitmap.AndNot acc.childrenCache acc.keycache)
  obtain ⟨c1, c2, c3⟩ := NativeKeyManagement.BindKeys_Set_eq M0.parents first rest
    (Bitmap.AndNot acc.parentCache acc.keycache)
  have hfc : ∀ k ∈ first :: rest,
      NativeKeyManagement.lookupBinding M0.children.bindings k = none := fun k hk' => by
    rw [hc.same_children]; exact hfresh k hk'
  have hfp : ∀ k ∈ first :: rest,
      NativeKeyManagement.lookupBinding M0.parents.bindings k = none := fun k hk' => by
    rw [hc.same_parents]; exact hfresh k hk'
  obtain ⟨x1, x2, x3⟩ := NativeKeyManagement.bindSet_spec M0.cache hc.cache first rest
    acc.keycache hfresh
  obtain ⟨y1, y2, y3⟩ := NativeKeyManagement.bindSet_spec M0.children hc.children first rest
    (Bitmap.AndNot acc.childrenCache acc.keycache) hfc
  obtain ⟨z1, z2, z3⟩ := NativeKeyManagement.bindSet_spec M0.parents hc.parents first rest
    (Bitmap.AndNot acc.parentCache acc.keycache) hfp
  refine ⟨{ cache := M0.cache.bindSet first rest acc.keycache
            children := M0.children.bindSet first rest
              (Bitmap.AndNot acc.childrenCache acc.keycache)
            parents := M0.parents.bindSet first rest
              (Bitmap.AndNot acc.parentCache acc.keycache) }, ?_, ?_, x2, ?_, ?_⟩
  · unfold addGroup
    simp only [a2, b2, c2, g0, a3, b3, c3]
  · exact
      { cache := x1
        children := y1
        parents := z1
        same_children := fun k => by
          show NativeKeyManagement.lookupBinding (M0.children.bindSet first rest _).bindings k =
            NativeKeyManagement.lookupBinding (M0.cache.bindSet first rest _).bindings k
          rw [x2, y2, hc.same_children]
        same_parents := fun k => by
          show NativeKeyManagement.lookupBinding (M0.parents.bindSet first rest _).bindings k =
            NativeKeyManagement.lookupBinding (M0.cache.bindSet first rest _).bindings k
          rw [x2, z2, hc.same_parents] }
  · intro k hk'
    refine ⟨?_, ?_, ?_⟩
    · show (M0.cache.bindSet first rest _).view k = _
      rw [x3]; simp only [hk', if_false]
    · show (M0.children.bindSet first rest _).view k = _
      rw [y3]; simp only [hk', if_false]
    · show (M0.parents.bindSet first rest _).view k = _
      rw [z3]; simp only [hk', if_false]
  · intro k hk'
    have hkey : ∀ x, x ∈ acc.keycache ↔ Itoa x ∈ first :: rest := by
      intro x; rw [g1 x]; simp [Bitmap.New]
    refine ⟨?_, ?_, ?_⟩
    · intro x
      show x ∈ (M0.cache.bindSet first rest _).view k ↔ _
      rw [x3]; simp only [hk', if_true]
      exact hkey x
    · intro x
      show x ∈ (M0.children.bindSet first rest _).view k ↔ _
      rw [y3]; simp only [hk', if_true]
      rw [Bitmap.mem_AndNot, g2 x, hkey x]
      simp [Bitmap.New]
    · intro x
      show x ∈ (M0.parents.bindSet first rest _).view k ↔ _
      rw [z3]; simp only [hk', if_true]
      rw [Bitmap.mem_AndNot, g3 x, hkey x]
      simp [Bitmap.New]

/-- All groups added to the three maps. -/
theorem addGroups_spec {N : Nat} {m : NodeMap} (hk : KeysInRange N m) :
    ∀ (G : List (Nat × List String)) (M0 : BindMaps), M0.Closed →
      (∀ p ∈ G, p.2 ≠ [] ∧ ∀ key ∈ p.2, ∃ k, key = Itoa k ∧ 1 ≤ k ∧ k ≤ N) →
      G.Pairwise (fun p q => ∀ key ∈ p.2, key ∉ q.2) →
      (∀ p ∈ G, ∀ key ∈ p.2, NativeKeyManagement.lookupBinding M0.cache.bindings key = none) →
      ∃ M, addGroups m G M0 = .ok M ∧ M.Closed ∧
        (∀ k, (∀ p ∈ G, k ∉ p.2) →
          NativeKeyManagement.lookupBinding M.cache.bindings k =
            NativeKeyManagement.lookupBinding M0.cache.bindings k ∧
          M.cache.view k = M0.cache.view k ∧ M.children.view k = M0.children.view k ∧
          M.parents.view k = M0.parents.view k) ∧
        (∀ p ∈ G, ∃ c ∈ p.2, ∀ k ∈ p.2,
          NativeKeyManagement.lookupBinding M.cache.bindings k = some c ∧
          (∀ x, x ∈ M.cache.view k ↔ Itoa x ∈ p.2) ∧
          (∀ x, x ∈ M.children.view k ↔
            (∃ k' nd, Itoa k' ∈ p.2 ∧ NodeMap.get? m k' = some nd ∧ x ∈ nd.Children) ∧
              ¬ Itoa x ∈ p.2) ∧
          (∀ x, x ∈ M.parents.view k ↔
            (∃ k' nd, Itoa k' ∈ p.2 ∧ NodeMap.get? m k' = some nd ∧ x ∈ nd.Parents) ∧
              ¬ Itoa x ∈ p.2)) := by
  intro G
  induction G with
  | nil =>
    intro M0 hc _ _ _
    exact ⟨M0, rfl, hc, fun k _ => ⟨rfl, rfl, rfl, rfl⟩, by simp⟩
  | cons p rest ih =>
    intro M0 hc hG hdisj hfresh
    obtain ⟨r, ks⟩ := p
    obtain ⟨hne, hkeys⟩ := hG (r, ks) (by simp)
    cases ks with
    | nil => exact absurd rfl hne
    | cons first tl =>
      obtain ⟨M1, e1, e2, e3, e4, e5⟩ := addGroup_spec hk M0 hc first tl hkeys
        (hfresh (r, first :: tl) (by simp))
      rw [List.pairwise_cons] at hdisj
      have hfresh1 : ∀ q ∈ rest, ∀ key ∈ q.2,
          NativeKeyManagement.lookupBinding M1.cache.bindings key = none := by
        intro q hq key hkey
        rw [e3]
        have : key ∉ first :: tl := fun hmem => hdisj.1 q hq key hmem hkey
        simp only [this, if_false]
        exact hfresh q (List.mem_cons_of_mem _ hq) key hkey
      obtain ⟨M, f1, f2, f3, f4⟩ := ih M1 e2
        (fun q hq => hG q (List.mem_cons_of_mem _ hq)) hdisj.2 hfresh1
      refine ⟨M, ?_, f2, ?_, ?_⟩
      · unfold addGroups
        simp only [e1, f1]
      · intro k hk'
        have h1 : k ∉ first :: tl := hk' (r, first :: tl) (by simp)
        obtain ⟨g1, g2, g3, g4⟩ := f3 k (fun q hq => hk' q (List.mem_cons_of_mem _ hq))
        obtain ⟨g5, g6, g7⟩ := e4 k h1
        refine ⟨?_, g2.trans g5, g3.trans g6, g4.trans g7⟩
        rw [g1, e3]
        simp only [h1, if_false]
      · intro q hq
        rcases List.mem_cons.mp hq with e | e
        · subst e
          refine ⟨first, by simp, ?_⟩
          intro k hk'
          obtain ⟨g1, g2, g3, g4⟩ := f3 k (fun q' hq' hmem => hdisj.1 q' hq' k hk' hmem)
          obtain ⟨g5, g6, g7⟩ := e5 k hk'
          refine ⟨?_, ?_, ?_, ?_⟩
          · rw [g1, e3]
            have : k ∈ first :: tl := hk'
            simp only [this, if_true]
          · intro x; rw [g2]; exact g5 x
          · intro x; rw [g3]; exact g6 x
          · intro x; rw [g4]; exact g7 x
        · exact f4 q e

theorem groupOf_appendKey (G : List (Nat × List String)) (v : Nat) (key : String) (r : Nat) :
    groupOf (appendKey G v key) r = if v = r then groupOf G v ++ [key] else groupOf G r := by
  induction G with
  | nil =>
    by_cases h : v = r <;> simp [appendKey, groupOf, h]
  | cons p rest ih =>
    obtain ⟨a, ks⟩ := p
    unfold appendKey
    by_cases h1 : a = v
    · subst h1
      by_cases h2 : a = r <;> simp [groupOf, h2]
    · by_cases h2 : a = r
      · subst h2
        have h3 : ¬ v = a := fun e => h1 e.symm
        simp [groupOf, h1, h3]
      · simp only [h1, if_false, groupOf, h2, ih]

theorem appendKey_keys (G : List (Nat × List String)) (v : Nat) (key : String) (r : Nat) :
    r ∈ (appendKey G v key).map Prod.fst ↔ r = v ∨ r ∈ G.map Prod.fst := by
  induction G with
  | nil => simp [appendKey]
  | cons p rest ih =>
    obtain ⟨a, ks⟩ := p
    unfold appendKey
    by_cases h : a = v
    · subst h; simp
    · simp only [h, if_false, List.map_cons, List.mem_cons, ih]
      tauto

theorem appendKey_nodup (G : List (Nat × List String)) (v : Nat) (key : String)
    (h : (G.map Prod.fst).Nodup) : ((appendKey G v key).map Prod.fst).Nodup := by
  induction G with
  | nil => simp [appendKey]
  | cons p rest ih =>
    obtain ⟨a, ks⟩ := p
    unfold appendKey
    simp only [List.map_cons, List.nodup_cons] at h
    by_cases e : a = v
    · subst e; simpa using h
    · simp only [e, if_false, List.map_cons, List.nodup_cons]
      refine ⟨?_, ih h.2⟩
      rw [appendKey_keys]
      intro hc
      rcases hc with hc | hc
      · exact e hc
      · exact h.1 hc

theorem groupOf_of_mem (G : List (Nat × List String)) (h : (G.map Prod.fst).Nodup)
    (r : Nat) (ks : List String) (hm : (r, ks) ∈ G) : groupOf G r = ks := by
  induction G with
  | nil => simp at hm
  | cons p rest ih =>
    obtain ⟨a, ks'⟩ := p
    simp only [List.map_cons, List.nodup_cons] at h
    unfold groupOf
    rcases List.mem_cons.mp hm with e | e
    · cases e; simp
    · have : ¬ a = r := by
        intro e'
        subst e'
        exact h.1 (List.mem_map.mpr ⟨(a, ks), e, rfl⟩)
      simp only [this, if_false]
      exact ih h.2 e

theorem parentToKeys_fold (l : List (Nat × Nat)) :
    ∀ (acc : List (Nat × List String)), (acc.map Prod.fst).Nodup →
      (((l.foldl (fun acc kv => appendKey acc kv.2 (Itoa kv.1)) acc).map Prod.fst).Nodup) ∧
      (∀ r, groupOf (l.foldl (fun acc kv => appendKey acc kv.2 (Itoa kv.1)) acc) r =
        groupOf acc r ++ (l.filter (fun kv => decide (kv.2 = r))).map (fun kv => Itoa kv.1)) ∧
      (∀ r, r ∈ (l.foldl (fun acc kv => appendKey acc kv.2 (Itoa kv.1)) acc).map Prod.fst ↔
        r ∈ acc.map Prod.fst ∨ ∃ k, (k, r) ∈ l) := by
  induction l with
  | nil => intro acc h; simp [h]
  | cons kv rest ih =>
    intro acc h
    obtain ⟨k, v⟩ := kv
    obtain ⟨h1, h2, h3⟩ := ih (appendKey acc v (Itoa k)) (appendKey_nodup acc v (Itoa k) h)
    simp only [List.foldl_cons]
    refine ⟨h1, ?_, ?_⟩
    · intro r
      rw [h2 r, groupOf_appendKey]
      by_cases e : v = r
      · subst e; simp [List.filter_cons]
      · simp [List.filter_cons, e]
    · intro r
      rw [h3 r, appendKey_keys]
      simp only [List.mem_cons, Prod.mk.injEq]
      constructor
      · rintro ((e | e) | ⟨k', e⟩)
        · right; exact ⟨k, Or.inl ⟨rfl, e⟩⟩
        · left; exact e
        · right; exact ⟨k', Or.inr e⟩
      · rintro (e | ⟨k', (⟨-, e⟩ | e)⟩)
        · left; right; exact e
        · left; left; exact e
        · right; exact ⟨k', e⟩

/-- The groups of `parentToKeys`: one per value of `scc`, holding the keys of the
ids that have this value. -/
theorem parentToKeys_spec (scc : IdMap) :
    ((parentToKeys scc).map Prod.fst).Nodup ∧
    (∀ p ∈ parentToKeys scc, ∀ key, key ∈ p.2 ↔ ∃ k, (k, p.1) ∈ scc ∧ key = Itoa k) ∧
    (∀ p ∈ parentToKeys scc, p.2 ≠ []) ∧
    (∀ k r, (k, r) ∈ scc → ∃ ks, (r, ks) ∈ parentToKeys scc) := by
  obtain ⟨h1, h2, h3⟩ := parentToKeys_fold scc [] (by simp)
  have hg : ∀ p ∈ parentToKeys scc, ∀ key, key ∈ p.2 ↔ ∃ k, (k, p.1) ∈ scc ∧ key = Itoa k := by
    intro p hp key
    have := groupOf_of_mem _ h1 p.1 p.2 hp
    have e2 := h2 p.1
    unfold parentToKeys at this
    rw [this] at e2
    rw [e2]
    simp only [groupOf, List.nil_append, List.mem_map, List.mem_filter, decide_eq_true_eq]
    constructor
    · rintro ⟨⟨k, v⟩, ⟨hm, hv⟩, hkey⟩
      simp only at hv hkey
      subst hv
      exact ⟨k, hm, hkey.symm⟩
    · rintro ⟨k, hm, hkey⟩
      exact ⟨(k, p.1), ⟨hm, rfl⟩, hkey.symm⟩
  refine ⟨h1, hg, ?_, ?_⟩
  · intro p hp hnil
    have hmem : p.1 ∈ (parentToKeys scc).map Prod.fst := List.mem_map.mpr ⟨p, hp, rfl⟩
    have := (h3 p.1).mp hmem
    simp only [List.map_nil, List.not_mem_nil, false_or] at this
    obtain ⟨k, hk⟩ := this
    have := (hg p hp (Itoa k)).mpr ⟨k, hk, rfl⟩
    rw [hnil] at this
    simp at this
  · intro k r hkr
    have : r ∈ (parentToKeys scc).map Prod.fst := (h3 r).mpr (Or.inr ⟨k, hkr⟩)
    obtain ⟨p, hp, e⟩ := List.mem_map.mp this
    exact ⟨p.2, by rw [← e]; exact hp⟩

/-- The groups the second loop of `addCyclesToBindMap` visits, whatever the order of
the two loops: one group per value of `scc`, holding the keys with this value. -/
theorem RangeOrder.groups_spec (ord : RangeOrder) (scc : IdMap) :
    ((ord.groups (parentToKeys (ord.ids scc))).map Prod.fst).Nodup ∧
    (∀ p ∈ ord.groups (parentToKeys (ord.ids scc)), ∀ key,
      key ∈ p.2 ↔ ∃ k, (k, p.1) ∈ scc ∧ key = Itoa k) ∧
    (∀ p ∈ ord.groups (parentToKeys (ord.ids scc)), p.2 ≠ []) ∧
    (∀ k r, (k, r) ∈ scc → ∃ ks, (r, ks) ∈ ord.groups (parentToKeys (ord.ids scc))) := by
  obtain ⟨g1, g2, g3, g4⟩ := parentToKeys_spec (ord.ids scc)
  have hp := ord.groups_perm (parentToKeys (ord.ids scc))
  have hi := ord.ids_perm scc
  refine ⟨?_, ?_, ?_, ?_⟩
  · exact (List.Perm.nodup_iff (hp.map Prod.fst)).mpr g1
  · intro p hpm key
    rw [g2 p (hp.mem_iff.mp hpm) key]
    constructor
    · rintro ⟨k, a, b⟩
      exact ⟨k, hi.mem_iff.mp a, b⟩
    · rintro ⟨k, a, b⟩
      exact ⟨k, hi.mem_iff.mpr a, b⟩
  · intro p hpm
    exact g3 p (hp.mem_iff.mp hpm)
  · intro k r hkr
    obtain ⟨ks, hks⟩ := g4 k r (hi.mem_iff.mpr hkr)
    exact ⟨ks, hp.mem_iff.mpr hks⟩

theorem IdMap.mem_iff_get (scc : IdMap) (N : Nat) (hn : (scc.map Prod.fst).Nodup)
    (hdom : ∀ u, (IdMap.get? scc u).isSome = true ↔ (1 ≤ u ∧ u ≤ N)) (k r : Nat) :
    (k, r) ∈ scc ↔ (1 ≤ k ∧ k ≤ N ∧ IdMap.get scc k = r) := by
  constructor
  · intro h
    have h1 := IdMap.get?_of_pair_mem scc k r hn h
    have h2 := (hdom k).mp (by rw [h1]; rfl)
    exact ⟨h2.1, h2.2, by simp [IdMap.get, h1]⟩
  · rintro ⟨h1, h2, h3⟩
    have := (hdom k).mpr ⟨h1, h2⟩
    cases hg : IdMap.get? scc k with
    | none => rw [hg] at this; cases this
    | some v =>
      have hv : v = r := by simpa [IdMap.get, hg] using h3
      subst hv
      exact IdMap.pair_mem_of_get? scc k v hg

theorem NativeKeyManagement.New_Closed : NativeKeyManagement.New.Closed :=
  ⟨by intro k c h; simp [New, lookupBinding] at h, by intro c v h; simp [New, lookupValue] at h⟩

theorem NativeKeyManagement.canonical_of_binding (m : NativeKeyManagement) (key c : String)
    (h : lookupBinding m.bindings key = some c) : m.canonical key = c := by
  simp [canonical, h]

/-- `addCyclesToBindMap` on fresh maps, for a map `scc` defined exactly on `1..N`. -/
theorem addCyclesToBindMap_spec (ord : RangeOrder) {N : Nat} {m : NodeMap}
    (hk : KeysInRange N m) (scc : IdMap)
    (hn : (scc.map Prod.fst).Nodup)
    (hdom : ∀ u, (IdMap.get? scc u).isSome = true ↔ (1 ≤ u ∧ u ≤ N)) :
    ∃ M, addCyclesToBindMap ord scc
        { cache := NativeKeyManagement.New, children := NativeKeyManagement.New,
          parents := NativeKeyManagement.New } m = .ok M ∧
      SeededMaps m N scc M := by
  obtain ⟨g1, g2, g3, g4⟩ := RangeOrder.groups_spec ord scc
  have hmem := IdMap.mem_iff_get scc N hn hdom
  have hkeys : ∀ p ∈ ord.groups (parentToKeys (ord.ids scc)), ∀ key, key ∈ p.2 ↔
      ∃ k, 1 ≤ k ∧ k ≤ N ∧ IdMap.get scc k = p.1 ∧ key = Itoa k := by
    intro p hp key
    rw [g2 p hp key]
    constructor
    · rintro ⟨k, h1, h2⟩
      obtain ⟨a, b, c⟩ := (hmem k p.1).mp h1
      exact ⟨k, a, b, c, h2⟩
    · rintro ⟨k, a, b, c, h2⟩
      exact ⟨k, (hmem k p.1).mpr ⟨a, b, c⟩, h2⟩
  have hkeys' : ∀ p ∈ ord.groups (parentToKeys (ord.ids scc)), ∀ x, Itoa x ∈ p.2 ↔
      (1 ≤ x ∧ x ≤ N ∧ IdMap.get scc x = p.1) := by
    intro p hp x
    rw [hkeys p hp]
    constructor
    · rintro ⟨k, a, b, c, e⟩
      have := Itoa_injective e
      subst this
      exact ⟨a, b, c⟩
    · rintro ⟨a, b, c⟩
      exact ⟨x, a, b, c, rfl⟩
  have hdisj : (ord.groups (parentToKeys (ord.ids scc))).Pairwise (fun p q => ∀ key ∈ p.2, key ∉ q.2) := by
    have hp : (ord.groups (parentToKeys (ord.ids scc))).Pairwise (fun p q => p.1 ≠ q.1) := by
      have := g1
      rw [List.Nodup, List.pairwise_map] at this
      exact this
    refine hp.imp_of_mem ?_
    intro p q hp' hq' hne key h1 h2
    obtain ⟨k, -, -, c, e⟩ := (hkeys p hp' key).mp h1
    obtain ⟨k', -, -, c', e'⟩ := (hkeys q hq' key).mp h2
    have : k = k' := Itoa_injective (e.symm.trans e')
    subst this
    exact hne (c.symm.trans c')
  have hclosed : BindMaps.Closed
      { cache := NativeKeyManagement.New, children := NativeKeyManagement.New,
        parents := NativeKeyManagement.New } :=
    ⟨NativeKeyManagement.New_Closed, NativeKeyManagement.New_Closed,
      NativeKeyManagement.New_Closed, fun _ => rfl, fun _ => rfl⟩
  obtain ⟨M, f1, f2, f3, f4⟩ := addGroups_spec hk (ord.groups (parentToKeys (ord.ids scc))) _ hclosed
    (fun p hp => ⟨g3 p hp, fun key hkey => by
      obtain ⟨k, a, b, -, e⟩ := (hkeys p hp key).mp hkey
      exact ⟨k, e, a, b⟩⟩) hdisj (fun p hp key hkey => rfl)
  -- the group of a node
  have hgroup : ∀ u, 1 ≤ u → u ≤ N → ∃ p ∈ ord.groups (parentToKeys (ord.ids scc)),
      p.1 = IdMap.get scc u ∧ Itoa u ∈ p.2 := by
    intro u hu1 hu2
    obtain ⟨ks, hks⟩ := g4 u (IdMap.get scc u) ((hmem u _).mpr ⟨hu1, hu2, rfl⟩)
    exact ⟨(IdMap.get scc u, ks), hks, rfl, (hkeys' _ hks u).mpr ⟨hu1, hu2, rfl⟩⟩
  refine ⟨M, f1, ?_⟩
  refine
    { closed := f2, bound := ?_, canon := ?_, cache_view := ?_, children_view := ?_,
      parents_view := ?_ }
  · intro key
    constructor
    · intro hb
      by_contra hc
      have hnone : ∀ p ∈ ord.groups (parentToKeys (ord.ids scc)), key ∉ p.2 := by
        intro p hp hkey
        obtain ⟨k, a, b, -, e⟩ := (hkeys p hp key).mp hkey
        exact hc ⟨k, a, b, e⟩
      have := (f3 key hnone).1
      rw [this] at hb
      simp [NativeKeyManagement.New, NativeKeyManagement.lookupBinding] at hb
    · rintro ⟨u, hu1, hu2, rfl⟩
      obtain ⟨p, hp, -, hin⟩ := hgroup u hu1 hu2
      obtain ⟨c, -, hc⟩ := f4 p hp
      rw [(hc _ hin).1]
      rfl
  · intro u v hu1 hu2 hv1 hv2
    obtain ⟨p, hp, hp1, hpin⟩ := hgroup u hu1 hu2
    obtain ⟨q, hq, hq1, hqin⟩ := hgroup v hv1 hv2
    obtain ⟨c, hcin, hc⟩ := f4 p hp
    obtain ⟨c', hcin', hc'⟩ := f4 q hq
    rw [NativeKeyManagement.canonical_of_binding _ _ _ (hc _ hpin).1,
      NativeKeyManagement.canonical_of_binding _ _ _ (hc' _ hqin).1]
    constructor
    · intro e
      subst e
      obtain ⟨k, -, -, a, e1⟩ := (hkeys p hp c).mp hcin
      obtain ⟨k', -, -, a', e2⟩ := (hkeys q hq c).mp hcin'
      have : k = k' := Itoa_injective (e1.symm.trans e2)
      subst this
      rw [← hp1, ← hq1, ← a, ← a']
    · intro e
      have hvin : Itoa v ∈ p.2 := (hkeys' p hp v).mpr ⟨hv1, hv2, by rw [hp1, e]⟩
      have := (hc _ hvin).1
      rw [(hc' _ hqin).1] at this
      exact (Option.some.inj this).symm
  · intro u hu1 hu2 x
    obtain ⟨p, hp, hp1, hpin⟩ := hgroup u hu1 hu2
    obtain ⟨c, -, hc⟩ := f4 p hp
    rw [(hc _ hpin).2.1 x, hkeys' p hp x, hp1]
  · intro u hu1 hu2 x
    obtain ⟨p, hp, hp1, hpin⟩ := hgroup u hu1 hu2
    obtain ⟨c, -, hc⟩ := f4 p hp
    rw [(hc _ hpin).2.2.1 x]
    constructor
    · rintro ⟨⟨k', nd, a1, a2, a3⟩, a4⟩
      obtain ⟨b1, b2, b3⟩ := (hkeys' p hp k').mp a1
      have hedge : Edge .ChildrenDirection m k' x := ⟨nd, a2, a3⟩
      refine ⟨⟨k', b1, b2, by rw [b3, hp1], hedge⟩, ?_⟩
      intro e
      exact a4 ((hkeys' p hp x).mpr ⟨(Edge.range_edge hk hedge).2.1, (Edge.range_edge hk hedge).2.2,
        by rw [e, hp1]⟩)
    · rintro ⟨⟨v, b1, b2, b3, nd, a2, a3⟩, a4⟩
      refine ⟨⟨v, nd, (hkeys' p hp v).mpr ⟨b1, b2, by rw [b3, hp1]⟩, a2, a3⟩, ?_⟩
      intro e
      exact a4 (by rw [((hkeys' p hp x).mp e).2.2, hp1])
  · intro u hu1 hu2 x
    obtain ⟨p, hp, hp1, hpin⟩ := hgroup u hu1 hu2
    obtain ⟨c, -, hc⟩ := f4 p hp
    rw [(hc _ hpin).2.2.2 x]
    constructor
    · rintro ⟨⟨k', nd, a1, a2, a3⟩, a4⟩
      obtain ⟨b1, b2, b3⟩ := (hkeys' p hp k').mp a1
      have hedge : Edge .ParentsDirection m k' x := ⟨nd, a2, a3⟩
      refine ⟨⟨k', b1, b2, by rw [b3, hp1], hedge⟩, ?_⟩
      intro e
      exact a4 ((hkeys' p hp x).mpr ⟨(Edge.range_edge hk hedge).2.1, (Edge.range_edge hk hedge).2.2,
        by rw [e, hp1]⟩)
    · rintro ⟨⟨v, b1, b2, b3, nd, a2, a3⟩, a4⟩
      refine ⟨⟨v, nd, (hkeys' p hp v).mpr ⟨b1, b2, by rw [b3, hp1]⟩, a2, a3⟩, ?_⟩
      intro e
      exact a4 (by rw [((hkeys' p hp x).mp e).2.2, hp1])

/-! ## `buildCache`: graph facts -/

theorem Reach.range_reach {N : Nat} {m : NodeMap} (hk : KeysInRange N m) {d : Direction} {a b : Nat}
    (h : Reach d m a b) (ha : 1 ≤ a ∧ a ≤ N) : 1 ≤ b ∧ b ≤ N := by
  induction h with
  | refl => exact ha
  | tail _ e _ => exact (Edge.range_edge hk e).2

theorem Edge.opposite_edge {N : Nat} {m : NodeMap} (hw : WellFormed N m) {d : Direction} {a b : Nat}
    (h : Edge d m a b) : Edge d.opposite m b a := by
  obtain ⟨nd, h1, h2⟩ := h
  have hb := hw.1.next_range d h1 b h2
  obtain ⟨nb, h3, -⟩ := hw.1.get? hb.1 hb.2
  have hs := hw.2 (a, nd) (NodeMap.node_mem_of_get? m a nd h1) (b, nb) (NodeMap.node_mem_of_get? m b nb h3)
  have hs' := hw.2 (b, nb) (NodeMap.node_mem_of_get? m b nb h3) (a, nd) (NodeMap.node_mem_of_get? m a nd h1)
  refine ⟨nb, h3, ?_⟩
  cases d
  · exact hs.mp h2
  · exact hs'.mpr h2

theorem Direction.opposite_opposite (d : Direction) : d.opposite.opposite = d := by
  cases d <;> rfl

theorem Edge.connected_of_edge {N : Nat} {m : NodeMap} (hw : WellFormed N m) {d : Direction} {a b : Nat}
    (h : Edge d m a b) : Connected m a b := by
  apply Relation.ReflTransGen.single
  cases d
  · exact Or.inl h
  · exact Or.inr (Edge.opposite_edge hw h)

theorem Connected.symm_conn {m : NodeMap} {a b : Nat} (h : Connected m a b) : Connected m b a := by
  induction h with
  | refl => exact Relation.ReflTransGen.refl
  | tail _ e ih => exact Relation.ReflTransGen.head e.symm ih

theorem Reach.connected_of_reach {N : Nat} {m : NodeMap} (hw : WellFormed N m) {d : Direction}
    {a b : Nat} (h : Reach d m a b) : Connected m a b := by
  induction h with
  | refl => exact Relation.ReflTransGen.refl
  | tail _ e ih => exact ih.trans (Edge.connected_of_edge hw e)

theorem Reach.opposite_reach {N : Nat} {m : NodeMap} (hw : WellFormed N m) {d : Direction}
    {a b : Nat} (h : Reach d m a b) : Reach d.opposite m b a := by
  induction h with
  | refl => exact Relation.ReflTransGen.refl
  | tail _ e ih => exact Relation.ReflTransGen.head (Edge.opposite_edge hw e) ih

theorem NearUncached.of_connected {m : NodeMap} {unc : List Nat} {a b : Nat}
    (h : NearUncached m unc a) (hc : Connected m a b) : NearUncached m unc b := by
  obtain ⟨u, hu, h1⟩ := h
  exact ⟨u, hu, h1.trans hc⟩

/-! ## `buildCache`: the lists of `getTodoAndFutureNodes` -/

theorem getTodoAndFutureNodes_spec {N : Nat} {m : NodeMap} {scc : IdMap} {M : BindMaps}
    (hs : SeededMaps m N scc M) (d : Direction) (nd : Node) (h1 : 1 ≤ nd.ID) (h2 : nd.ID ≤ N) :
    ∃ todo future, getTodoAndFutureNodes M.children M.parents nd d = .ok (todo, future) ∧
      (∀ x, x ∈ todo ↔ GroupEdge d m N scc nd.ID x) ∧
      (∀ x, x ∈ future ↔ GroupEdge d.opposite m N scc nd.ID x) := by
  cases d
  · refine ⟨_, _, rfl, ?_, ?_⟩
    · intro x
      rw [Bitmap.mem_ToArray]
      exact hs.children_view nd.ID h1 h2 x
    · intro x
      rw [Bitmap.mem_ToArray]
      exact hs.parents_view nd.ID h1 h2 x
  · refine ⟨_, _, rfl, ?_, ?_⟩
    · intro x
      rw [Bitmap.mem_ToArray]
      exact hs.parents_view nd.ID h1 h2 x
    · intro x
      rw [Bitmap.mem_ToArray]
      exact hs.children_view nd.ID h1 h2 x

/-! ## `buildCache`: steps -/

theorem CacheStep.refl_step (d : Direction) (m : NodeMap) (N : Nat) (scc : IdMap) (ex : List Nat)
    (st : DFSState) : CacheStep d m N scc ex st st :=
  ⟨fun _ h => h, fun _ _ _ _ h => h, fun _ h => Or.inl h, fun _ _ _ => Or.inl (fun _ => Iff.rfl)⟩

theorem CacheStep.trans_step {d : Direction} {m : NodeMap} {N : Nat} {scc : IdMap} {ex : List Nat}
    {a b c : DFSState} (h1 : CacheStep d m N scc ex a b) (h2 : CacheStep d m N scc ex b c) :
    CacheStep d m N scc ex a c := by
  refine ⟨fun u h => h2.marked_mono u (h1.marked_mono u h),
    fun u x1 x2 x h => h2.view_mono u x1 x2 x (h1.view_mono u x1 x2 x h), ?_, ?_⟩
  · intro u hu
    rcases h2.new_closed u hu with e | e | e
    · rcases h1.new_closed u e with e' | e' | e'
      · exact Or.inl e'
      · exact Or.inr (Or.inl e')
      · exact Or.inr (Or.inr (fun f hf => h2.marked_mono f (e' f hf)))
    · exact Or.inr (Or.inl e)
    · exact Or.inr (Or.inr e)
  · intro u hu1 hu2
    rcases h2.touched u hu1 hu2 with e | ⟨v, e, e'⟩
    · rcases h1.touched u hu1 hu2 with f | ⟨v, f, f'⟩
      · exact Or.inl (fun x => (e x).trans (f x))
      · refine Or.inr ⟨v, ?_, f'⟩
        rcases f with f | f
        · exact Or.inl (h2.marked_mono v f)
        · exact Or.inr f
    · exact Or.inr ⟨v, e, e'⟩

theorem CacheStep.weaken {d : Direction} {m : NodeMap} {N : Nat} {scc : IdMap} (ex : List Nat)
    {a b : DFSState} (h : CacheStep d m N scc [] a b) : CacheStep d m N scc ex a b := by
  refine ⟨h.marked_mono, h.view_mono, ?_, ?_⟩
  · intro u hu
    rcases h.new_closed u hu with e | e | e
    · exact Or.inl e
    · simp at e
    · exact Or.inr (Or.inr e)
  · intro u hu1 hu2
    rcases h.touched u hu1 hu2 with e | ⟨v, e, e'⟩
    · exact Or.inl e
    · rcases e with e | e
      · exact Or.inr ⟨v, Or.inl e, e'⟩
      · simp at e

theorem CacheStep.strengthen {d : Direction} {m : NodeMap} {N : Nat} {scc : IdMap} {X : Nat}
    {a b : DFSState} (h : CacheStep d m N scc [X] a b) (hX : X ∈ b.alreadyCached)
    (hc : ∀ f, (GroupEdge d m N scc X f ∨ GroupEdge d.opposite m N scc X f) →
      f ∈ b.alreadyCached) : CacheStep d m N scc [] a b := by
  refine ⟨h.marked_mono, h.view_mono, ?_, ?_⟩
  · intro u hu
    rcases h.new_closed u hu with e | e | e
    · exact Or.inl e
    · simp only [List.mem_singleton] at e
      subst e
      exact Or.inr (Or.inr hc)
    · exact Or.inr (Or.inr e)
  · intro u hu1 hu2
    rcases h.touched u hu1 hu2 with e | ⟨v, e, e'⟩
    · exact Or.inl e
    · rcases e with e | e
      · exact Or.inr ⟨v, Or.inl e, e'⟩
      · simp only [List.mem_singleton] at e
        subst e
        exact Or.inr ⟨v, Or.inl hX, e'⟩

theorem CacheInv.canonical_eq {d : Direction} {m : NodeMap} {N : Nat} {scc : IdMap}
    {c0 : NativeKeyManagement} {unc : List Nat} {st : DFSState}
    (h : CacheInv d m N scc c0 unc st) (key : String) :
    st.cache.canonical key = c0.canonical key := by
  unfold NativeKeyManagement.canonical
  rw [h.bindings]

theorem CacheInv.view_same {d : Direction} {m : NodeMap} {N : Nat} {scc : IdMap}
    {M : BindMaps} {unc : List Nat} {st : DFSState} (hc : CacheCtx d m N scc M)
    (h : CacheInv d m N scc M.cache unc st) {u v : Nat} (hu : 1 ≤ u ∧ u ≤ N)
    (hv : 1 ≤ v ∧ v ≤ N) (e : IdMap.get scc u = IdMap.get scc v) :
    st.cache.view (Itoa u) = st.cache.view (Itoa v) := by
  unfold NativeKeyManagement.view
  rw [h.canonical_eq, h.canonical_eq, (hc.seeded.canon u v hu.1 hu.2 hv.1 hv.2).mpr e]

theorem GroupEdge.reach {d : Direction} {m : NodeMap} {N : Nat} {scc : IdMap} {M : BindMaps}
    (hc : CacheCtx d m N scc M) {u t : Nat} (hu : 1 ≤ u ∧ u ≤ N)
    (h : GroupEdge d m N scc u t) : Reach d m u t := by
  obtain ⟨⟨v, hv1, hv2, hv3, he⟩, -⟩ := h
  exact ((hc.scc_iff u v hu.1 hu.2 hv1 hv2).mp hv3.symm).1.tail he

theorem GroupEdge.range_group {d : Direction} {m : NodeMap} {N : Nat} {scc : IdMap} {M : BindMaps}
    (hc : CacheCtx d m N scc M) {u t : Nat} (h : GroupEdge d m N scc u t) :
    1 ≤ t ∧ t ≤ N := by
  obtain ⟨⟨v, -, -, -, he⟩, -⟩ := h
  exact (Edge.range_edge hc.wf.1 he).2

/-- A collapsed neighbour in one direction has the group as a collapsed neighbour
in the other direction, through the node the edge starts from. -/
theorem GroupEdge.reverse {d : Direction} {m : NodeMap} {N : Nat} {scc : IdMap} {M : BindMaps}
    (hc : CacheCtx d m N scc M) {u t : Nat} (h : GroupEdge d m N scc u t) :
    ∃ v, 1 ≤ v ∧ v ≤ N ∧ IdMap.get scc v = IdMap.get scc u ∧ Edge d m v t ∧
      GroupEdge d.opposite m N scc t v := by
  obtain ⟨⟨v, hv1, hv2, hv3, he⟩, hne⟩ := h
  have ht := (Edge.range_edge hc.wf.1 he).2
  refine ⟨v, hv1, hv2, hv3, he, ⟨t, ht.1, ht.2, rfl, Edge.opposite_edge hc.wf he⟩, ?_⟩
  intro e
  exact hne (by rw [← e, hv3])

/-- Everything reachable from `u` is in the group of `u` or reachable from a
collapsed neighbour of `u`. -/
theorem Reach.through_group {d : Direction} {m : NodeMap} {N : Nat} {scc : IdMap}
    {M : BindMaps} (hc : CacheCtx d m N scc M) {u x : Nat} (hu : 1 ≤ u ∧ u ≤ N)
    (h : Reach d m u x) :
    IdMap.get scc u = IdMap.get scc x ∨ ∃ t, GroupEdge d m N scc u t ∧ Reach d m t x := by
  induction h with
  | refl => exact Or.inl rfl
  | @tail b c hub hbc ih =>
    rcases ih with e | ⟨t, ht, hr⟩
    · by_cases e' : IdMap.get scc c = IdMap.get scc u
      · exact Or.inl e'.symm
      · have hb := Reach.range_reach hc.wf.1 hub hu
        exact Or.inr ⟨c, ⟨⟨b, hb.1, hb.2, e.symm, hbc⟩, e'⟩, Relation.ReflTransGen.refl⟩
    · exact Or.inr ⟨t, ht, hr.tail hbc⟩

theorem addToCache_eq (bm : NativeKeyManagement) (cur todo : Nat) :
    addToCache bm cur todo =
      .ok { bm with
        values := NativeKeyManagement.setValue bm.values (bm.canonical (Itoa cur))
          (Bitmap.Add (Bitmap.Or (bm.view (Itoa cur)) (bm.view (Itoa todo))) cur) } := rfl

/-- The step `addToCache(cache, X, t)` for a marked collapsed neighbour `t` of `X`. -/
theorem CacheInv.addToCache {d : Direction} {m : NodeMap} {N : Nat} {scc : IdMap}
    {M : BindMaps} {unc : List Nat} {st : DFSState} (hc : CacheCtx d m N scc M)
    (h : CacheInv d m N scc M.cache unc st) {X t : Nat} (hX : 1 ≤ X ∧ X ≤ N)
    (ht : t ∈ st.alreadyCached) (he : GroupEdge d m N scc X t) :
    ∃ cache1, addToCache st.cache X t = .ok cache1 ∧
      CacheInv d m N scc M.cache unc { st with cache := cache1 } ∧
      CacheStep d m N scc [X] st { st with cache := cache1 } ∧
      (∀ x, Reach d m t x → x ∈ cache1.view (Itoa X)) := by
  refine ⟨_, addToCache_eq st.cache X t, ?_, ?_, ?_⟩
  all_goals
    have hview : ∀ u, 1 ≤ u → u ≤ N → ∀ x,
        x ∈ ({ st.cache with
          values := NativeKeyManagement.setValue st.cache.values
            (st.cache.canonical (Itoa X))
            (Bitmap.Add (Bitmap.Or (st.cache.view (Itoa X)) (st.cache.view (Itoa t))) X) } :
            NativeKeyManagement).view (Itoa u) ↔
        (IdMap.get scc X = IdMap.get scc u ∧
          (x = X ∨ x ∈ st.cache.view (Itoa X) ∨ x ∈ st.cache.view (Itoa t))) ∨
        (¬ IdMap.get scc X = IdMap.get scc u ∧ x ∈ st.cache.view (Itoa u)) := by
      intro u hu1 hu2 x
      rw [NativeKeyManagement.view_Set, h.canonical_eq, h.canonical_eq]
      have hcan := hc.seeded.canon X u hX.1 hX.2 hu1 hu2
      by_cases e : IdMap.get scc X = IdMap.get scc u
      · simp [e, hcan.mpr e, Bitmap.mem_Add, Bitmap.mem_Or]
      · have e2 : ¬ M.cache.canonical (Itoa X) = M.cache.canonical (Itoa u) :=
          fun h' => e (hcan.mp h')
        simp [e, e2]
    have hXt : Reach d m X t := GroupEdge.reach hc hX he
  · refine
      { bindings := h.bindings
        closed := h.closed.Set (Itoa X) _ ?_
        marked_range := h.marked_range
        sound := ?_, group := ?_, complete := ?_
        near := h.near }
    · rw [h.bindings]
      exact (hc.seeded.bound (Itoa X)).mpr ⟨X, hX.1, hX.2, rfl⟩
    · intro u hu1 hu2 x hx
      rcases (hview u hu1 hu2 x).mp hx with ⟨e, e'⟩ | ⟨-, e'⟩
      · have huX : Reach d m u X := ((hc.scc_iff X u hX.1 hX.2 hu1 hu2).mp e).2
        rcases e' with e' | e' | e'
        · rw [e']; exact huX
        · exact huX.trans (h.sound X hX.1 hX.2 x e')
        · have htr := h.marked_range t ht
          exact (huX.trans hXt).trans (h.sound t htr.1 htr.2 x e')
      · exact h.sound u hu1 hu2 x e'
    · intro u x hu1 hu2 hx1 hx2 e
      rw [hview u hu1 hu2 x]
      by_cases e' : IdMap.get scc X = IdMap.get scc u
      · left
        exact ⟨e', Or.inr (Or.inl (h.group X x hX.1 hX.2 hx1 hx2 (e'.trans e)))⟩
      · right
        exact ⟨e', h.group u x hu1 hu2 hx1 hx2 e⟩
    · intro u hu x hx
      have hur := h.marked_range u hu
      rw [hview u hur.1 hur.2 x]
      have := h.complete u hu x hx
      by_cases e' : IdMap.get scc X = IdMap.get scc u
      · left
        refine ⟨e', Or.inr (Or.inl ?_)⟩
        rw [h.view_same hc hX hur e']
        exact this
      · right
        exact ⟨e', this⟩
  · refine ⟨fun _ hu => hu, ?_, fun _ hu => Or.inl hu, ?_⟩
    · intro u hu1 hu2 x hx
      rw [hview u hu1 hu2 x]
      by_cases e' : IdMap.get scc X = IdMap.get scc u
      · left
        refine ⟨e', Or.inr (Or.inl ?_)⟩
        rw [h.view_same hc hX ⟨hu1, hu2⟩ e']
        exact hx
      · right
        exact ⟨e', hx⟩
    · intro u hu1 hu2
      by_cases e' : IdMap.get scc X = IdMap.get scc u
      · right
        exact ⟨X, Or.inr (by simp), e'.symm⟩
      · left
        intro x
        rw [hview u hu1 hu2 x]
        simp [e']
  · intro x hx
    rw [hview X hX.1 hX.2 x]
    left
    exact ⟨rfl, Or.inr (Or.inr (h.complete t ht x hx))⟩

/-- The step `alreadyCached.Add(X)` once the slot of `X` holds everything reachable
from `X`. -/
theorem CacheInv.mark {d : Direction} {m : NodeMap} {N : Nat} {scc : IdMap}
    {c0 : NativeKeyManagement} {unc : List Nat} {st : DFSState}
    (h : CacheInv d m N scc c0 unc st) {X : Nat} (hX : 1 ≤ X ∧ X ≤ N)
    (hnear : NearUncached m unc X)
    (hcomp : ∀ x, Reach d m X x → x ∈ st.cache.view (Itoa X)) :
    CacheInv d m N scc c0 unc { st with alreadyCached := Bitmap.Add st.alreadyCached X } ∧
    CacheStep d m N scc [X] st { st with alreadyCached := Bitmap.Add st.alreadyCached X } := by
  constructor
  · refine
      { bindings := h.bindings
        closed := h.closed
        marked_range := ?_
        sound := h.sound
        group := h.group
        complete := ?_
        near := ?_ }
    · intro u hu
      rcases (Bitmap.mem_Add _ _ _).mp hu with e | e
      · rw [e]; exact hX
      · exact h.marked_range u e
    · intro u hu
      rcases (Bitmap.mem_Add _ _ _).mp hu with e | e
      · rw [e]; exact hcomp
      · exact h.complete u e
    · intro u hu
      rcases (Bitmap.mem_Add _ _ _).mp hu with e | e
      · rw [e]; exact hnear
      · exact h.near u e
  · refine ⟨fun u hu => (Bitmap.mem_Add _ _ _).mpr (Or.inr hu), fun _ _ _ _ hx => hx, ?_,
      fun _ _ _ => Or.inl (fun _ => Iff.rfl)⟩
    intro u hu
    rcases (Bitmap.mem_Add _ _ _).mp hu with e | e
    · exact Or.inr (Or.inl (by simp [e]))
    · exact Or.inl e

/-- After the recursive call on an unmarked collapsed neighbour `t` of `X`, the slot
of `X` holds everything reachable from `t`: the call has marked the node of the
group of `X` that the edge to `t` starts from. -/
theorem CacheStep.neighbour_done {d : Direction} {m : NodeMap} {N : Nat} {scc : IdMap}
    {M : BindMaps} {unc : List Nat} {si sj : DFSState} (hc : CacheCtx d m N scc M)
    (hj : CacheInv d m N scc M.cache unc sj) (hs : CacheStep d m N scc [] si sj)
    {X t : Nat} (hX : 1 ≤ X ∧ X ≤ N) (he : GroupEdge d m N scc X t)
    (hti : t ∉ si.alreadyCached) (htj : t ∈ sj.alreadyCached) :
    ∀ x, Reach d m t x → x ∈ sj.cache.view (Itoa X) := by
  intro x hx
  obtain ⟨v, hv1, hv2, hv3, hedge, hback⟩ := GroupEdge.reverse hc he
  have hvm : v ∈ sj.alreadyCached := by
    rcases hs.new_closed t htj with e | e | e
    · exact absurd e hti
    · simp at e
    · exact e v (Or.inr hback)
  have := hj.complete v hvm x (Relation.ReflTransGen.head hedge hx)
  rw [hj.view_same hc hX ⟨hv1, hv2⟩ hv3.symm]
  exact this

theorem DFSState.unmarked_mono (st st' : DFSState) (N : Nat)
    (h : ∀ v ∈ st.alreadyCached, v ∈ st'.alreadyCached) : st'.unmarked N ≤ st.unmarked N := by
  unfold DFSState.unmarked
  apply filter_length_le_of_imp
  intro a ha
  simp only [Bool.not_eq_true', Bitmap.Contains_false_iff] at ha ⊢
  exact fun e => ha (h a e)

theorem DFSState.unmarked_lt (st st' : DFSState) (N X : Nat) (hX : 1 ≤ X ∧ X ≤ N)
    (h : ∀ v ∈ st.alreadyCached, v ∈ st'.alreadyCached) (h1 : X ∉ st.alreadyCached)
    (h2 : X ∈ st'.alreadyCached) : st'.unmarked N < st.unmarked N := by
  unfold DFSState.unmarked
  apply filter_length_lt_of_imp _ _ _ _ X
  · rw [List.mem_range']; exact ⟨X - 1, by omega, by omega⟩
  · simpa [Bitmap.Contains_false_iff] using h1
  · simpa [Bitmap.Contains_false_iff] using h2
  · intro a ha
    simp only [Bool.not_eq_true', Bitmap.Contains_false_iff] at ha ⊢
    exact fun e => ha (h a e)

/-! ## `buildCache`: the loops and the recursion -/

/-- The loop of `cacheDFS(X)` over the collapsed neighbours of `X`, given that the
recursive calls behave. -/
theorem todoLoop_spec {d : Direction} {m : NodeMap} {N : Nat} {scc : IdMap} {M : BindMaps}
    {unc : List Nat} (hc : CacheCtx d m N scc M) (rank : Nat → Nat)
    (hrank : ∀ u t, (1 ≤ u ∧ u ≤ N) → GroupEdge d m N scc u t → rank t < rank u)
    (fuel : Nat) (dfs : Nat → DFSState → Except Error DFSState)
    (hdfs : ∀ Y st, CacheInv d m N scc M.cache unc st → (1 ≤ Y ∧ Y ≤ N) →
      NearUncached m unc Y → st.unmarked N * (N + 1) + rank Y < fuel →
      ∃ st', dfs Y st = .ok st' ∧ CacheInv d m N scc M.cache unc st' ∧
        CacheStep d m N scc [] st st' ∧ Y ∈ st'.alreadyCached)
    (X : Nat) (hX : 1 ≤ X ∧ X ≤ N) (hnear : NearUncached m unc X) :
    ∀ (rest : List Nat) (st : DFSState), CacheInv d m N scc M.cache unc st →
      (∀ t ∈ rest, GroupEdge d m N scc X t) → st.unmarked N * (N + 1) + rank X ≤ fuel →
      ∃ st', todoLoop dfs scc X X rest st = .ok st' ∧ CacheInv d m N scc M.cache unc st' ∧
        CacheStep d m N scc [X] st st' ∧
        ∀ t ∈ rest, t ∈ st'.alreadyCached ∧ ∀ x, Reach d m t x → x ∈ st'.cache.view (Itoa X) := by
  intro rest
  induction rest with
  | nil =>
    intro st h _ _
    exact ⟨st, rfl, h, CacheStep.refl_step _ _ _ _ _ _, by simp⟩
  | cons t rest ih =>
    intro st h hedges hfuel
    have he : GroupEdge d m N scc X t := hedges t (by simp)
    have hrest : ∀ z ∈ rest, GroupEdge d m N scc X z :=
      fun z hz => hedges z (List.mem_cons_of_mem _ hz)
    have hne : ¬ IdMap.get scc X = IdMap.get scc t := fun e => he.2 e.symm
    unfold todoLoop
    simp only [hne, not_false_eq_true, if_true]
    by_cases hm : t ∈ st.alreadyCached
    · have hcn : Bitmap.Contains st.alreadyCached t = true := (Bitmap.Contains_iff _ _).mpr hm
      simp only [hcn, if_true]
      obtain ⟨cache1, a1, a2, a3, a4⟩ := h.addToCache hc hX hm he
      rw [a1]
      simp only
      obtain ⟨st', b1, b2, b3, b4⟩ := ih { st with cache := cache1 } a2 hrest hfuel
      refine ⟨st', b1, b2, a3.trans_step b3, ?_⟩
      intro z hz
      rcases List.mem_cons.mp hz with e | e
      · subst e
        exact ⟨b3.marked_mono z hm, fun x hx => b3.view_mono X hX.1 hX.2 x (a4 x hx)⟩
      · exact b4 z e
    · have hcn : ¬ Bitmap.Contains st.alreadyCached t = true :=
        fun e => hm ((Bitmap.Contains_iff _ _).mp e)
      simp only [hcn, if_false]
      have htr := GroupEdge.range_group hc he
      have hreach := GroupEdge.reach hc hX he
      have hlt := hrank X t hX he
      obtain ⟨sj, c1, c2, c3, c4⟩ := hdfs t st h htr
        (hnear.of_connected (Reach.connected_of_reach hc.wf hreach)) (by omega)
      rw [c1]
      simp only
      have hdone := c3.neighbour_done hc c2 hX he hm c4
      have hmono := DFSState.unmarked_mono st sj N c3.marked_mono
      have hfuel' : sj.unmarked N * (N + 1) + rank X ≤ fuel := by
        have := Nat.mul_le_mul_right (N + 1) hmono
        omega
      obtain ⟨st', b1, b2, b3, b4⟩ := ih sj c2 hrest hfuel'
      refine ⟨st', b1, b2, (c3.weaken [X]).trans_step b3, ?_⟩
      intro z hz
      rcases List.mem_cons.mp hz with e | e
      · subst e
        exact ⟨b3.marked_mono z c4, fun x hx => b3.view_mono X hX.1 hX.2 x (hdone x hx)⟩
      · exact b4 z e

/-- A loop that calls `cacheDFS` on each node of a list: the loop over
`futureNodes` and the loop of `buildCache` over the uncached nodes. -/
theorem futureLoop_spec {d : Direction} {m : NodeMap} {N : Nat} {scc : IdMap} {M : BindMaps}
    {unc : List Nat} (rank : Nat → Nat) (hrankN : ∀ u, rank u ≤ N)
    (fuel : Nat) (dfs : Nat → DFSState → Except Error DFSState)
    (hdfs : ∀ Y st, CacheInv d m N scc M.cache unc st → (1 ≤ Y ∧ Y ≤ N) →
      NearUncached m unc Y → st.unmarked N * (N + 1) + rank Y < fuel →
      ∃ st', dfs Y st = .ok st' ∧ CacheInv d m N scc M.cache unc st' ∧
        CacheStep d m N scc [] st st' ∧ Y ∈ st'.alreadyCached) :
    ∀ (l : List Nat) (st : DFSState), CacheInv d m N scc M.cache unc st →
      (∀ f ∈ l, (1 ≤ f ∧ f ≤ N) ∧ NearUncached m unc f) →
      st.unmarked N * (N + 1) + N < fuel →
      ∃ st', futureLoop dfs l st = .ok st' ∧ CacheInv d m N scc M.cache unc st' ∧
        CacheStep d m N scc [] st st' ∧ ∀ f ∈ l, f ∈ st'.alreadyCached := by
  intro l
  induction l with
  | nil =>
    intro st h _ _
    exact ⟨st, rfl, h, CacheStep.refl_step _ _ _ _ _ _, by simp⟩
  | cons f rest ih =>
    intro st h hl hfuel
    obtain ⟨hf1, hf2⟩ := hl f (by simp)
    have := hrankN f
    obtain ⟨sj, c1, c2, c3, c4⟩ := hdfs f st h hf1 hf2 (by omega)
    unfold futureLoop
    rw [c1]
    simp only
    have hmono := DFSState.unmarked_mono st sj N c3.marked_mono
    have hfuel' : sj.unmarked N * (N + 1) + N < fuel := by
      have := Nat.mul_le_mul_right (N + 1) hmono
      omega
    obtain ⟨st', b1, b2, b3, b4⟩ := ih sj c2
      (fun z hz => hl z (List.mem_cons_of_mem _ hz)) hfuel'
    refine ⟨st', b1, b2, c3.trans_step b3, ?_⟩
    intro z hz
    rcases List.mem_cons.mp hz with e | e
    · subst e; exact b3.marked_mono z c4
    · exact b4 z e

/-- A call `cacheDFS(X)` returns, keeps the invariant and leaves `X` marked,
provided the budget exceeds `unmarked * (N + 1) + rank X`. -/
theorem cacheDFS_spec {d : Direction} {m : NodeMap} {N : Nat} {scc : IdMap} {M : BindMaps}
    {unc : List Nat} (hc : CacheCtx d m N scc M) (rank : Nat → Nat)
    (hrankN : ∀ u, rank u ≤ N)
    (hrank : ∀ u t, (1 ≤ u ∧ u ≤ N) → GroupEdge d m N scc u t → rank t < rank u) :
    ∀ (fuel : Nat) (X : Nat) (st : DFSState), CacheInv d m N scc M.cache unc st →
      (1 ≤ X ∧ X ≤ N) → NearUncached m unc X → st.unmarked N * (N + 1) + rank X < fuel →
      ∃ st', cacheDFS d scc M.children M.parents m fuel X st = .ok st' ∧
        CacheInv d m N scc M.cache unc st' ∧ CacheStep d m N scc [] st st' ∧
        X ∈ st'.alreadyCached := by
  intro fuel
  induction fuel with
  | zero => intro X st _ _ _ h; omega
  | succ fuel ih =>
    intro X st h hX hnear hfuel
    obtain ⟨nd, hnd, hid, -, -⟩ := hc.wf.1.get? hX.1 hX.2
    unfold cacheDFS
    simp only [hnd, hid]
    by_cases hm : X ∈ st.alreadyCached
    · have hcn : Bitmap.Contains st.alreadyCached X = true := (Bitmap.Contains_iff _ _).mpr hm
      simp only [hcn, if_true]
      exact ⟨st, rfl, h, CacheStep.refl_step _ _ _ _ _ _, hm⟩
    · have hcn : ¬ Bitmap.Contains st.alreadyCached X = true :=
        fun e => hm ((Bitmap.Contains_iff _ _).mp e)
      simp only [hcn, if_false]
      obtain ⟨todo, future, g0, g1, g2⟩ := getTodoAndFutureNodes_spec hc.seeded d nd
        (by rw [hid]; exact hX.1) (by rw [hid]; exact hX.2)
      rw [hid] at g1 g2
      rw [g0]
      simp only
      obtain ⟨st1, a1, a2, a3, a4⟩ := todoLoop_spec hc rank hrank fuel
        (cacheDFS d scc M.children M.parents m fuel) ih X hX hnear todo st h
        (fun t ht => (g1 t).mp ht) (by omega)
      rw [a1]
      simp only
      have hcomp : ∀ x, Reach d m X x → x ∈ st1.cache.view (Itoa X) := by
        intro x hx
        rcases Reach.through_group hc hX hx with e | ⟨t, ht, hr⟩
        · have hxr := Reach.range_reach hc.wf.1 hx hX
          exact a2.group X x hX.1 hX.2 hxr.1 hxr.2 e
        · exact (a4 t ((g1 t).mpr ht)).2 x hr
      obtain ⟨b1, b2⟩ := a2.mark hX hnear hcomp
      have hXm : X ∈ Bitmap.Add st1.alreadyCached X := (Bitmap.mem_Add _ _ _).mpr (Or.inl rfl)
      have hlt : ({ st1 with alreadyCached := Bitmap.Add st1.alreadyCached X } :
          DFSState).unmarked N < st.unmarked N :=
        DFSState.unmarked_lt st _ N X hX (fun v hv => b2.marked_mono v (a3.marked_mono v hv))
          hm hXm
      have hfut : ∀ f ∈ future, (1 ≤ f ∧ f ≤ N) ∧ NearUncached m unc f := by
        intro f hf
        have hge := (g2 f).mp hf
        obtain ⟨⟨v, hv1, hv2, hv3, he⟩, -⟩ := hge
        have hXv : Reach d m X v := ((hc.scc_iff X v hX.1 hX.2 hv1 hv2).mp hv3.symm).1
        exact ⟨(Edge.range_edge hc.wf.1 he).2,
          hnear.of_connected ((Reach.connected_of_reach hc.wf hXv).trans (Edge.connected_of_edge hc.wf he))⟩
      have hfuel2 : ({ st1 with alreadyCached := Bitmap.Add st1.alreadyCached X } :
          DFSState).unmarked N * (N + 1) + N < fuel := by
        have h1 : ({ st1 with alreadyCached := Bitmap.Add st1.alreadyCached X } :
            DFSState).unmarked N + 1 ≤ st.unmarked N := hlt
        have h2 := Nat.mul_le_mul_right (N + 1) h1
        rw [Nat.add_mul] at h2
        omega
      obtain ⟨st2, c1, c2, c3, c4⟩ := futureLoop_spec rank hrankN fuel
        (cacheDFS d scc M.children M.parents m fuel) ih future
        { st1 with alreadyCached := Bitmap.Add st1.alreadyCached X } b1 hfut hfuel2
      refine ⟨st2, c1, c2, ?_, c3.marked_mono X hXm⟩
      refine ((a3.trans_step b2).trans_step (c3.weaken [X])).strengthen (c3.marked_mono X hXm) ?_
      intro f hf
      rcases hf with hf | hf
      · exact c3.marked_mono f (b2.marked_mono f (a4 f ((g1 f).mpr hf)).1)
      · exact c4 f ((g2 f).mpr hf)

theorem NativeKeyManagement.mem_allKeys (km : NativeKeyManagement) (h : km.Closed)
    (key : String) :
    key ∈ km.allKeys ↔ (NativeKeyManagement.lookupBinding km.bindings key).isSome = true := by
  unfold NativeKeyManagement.allKeys
  simp only [List.mem_append, List.mem_filter, decide_eq_true_eq]
  rw [NativeKeyManagement.lookupBinding_isSome_iff]
  constructor
  · rintro (e | ⟨e1, e2⟩)
    · exact e
    · exfalso
      have h1 := (NativeKeyManagement.lookupValue_isSome_iff km.values key).mpr e1
      cases hv : NativeKeyManagement.lookupValue km.values key with
      | none => rw [hv] at h1; cases h1
      | some v =>
        have := h.value_bound key v hv
        exact e2 ((NativeKeyManagement.lookupBinding_isSome_iff _ _).mp (by rw [this]; rfl))
  · intro e
    exact Or.inl e

/-- A marked node marks a node in the group of everything connected to it, once no
call is in progress. -/
theorem CacheStep.connected_touched {d : Direction} {m : NodeMap} {N : Nat} {scc : IdMap}
    {M : BindMaps} {unc : List Nat} {st0 st : DFSState} (hc : CacheCtx d m N scc M)
    (hi : CacheInv d m N scc M.cache unc st) (hs : CacheStep d m N scc [] st0 st)
    (h0 : ∀ v, v ∉ st0.alreadyCached) {a b : Nat} (ha : a ∈ st.alreadyCached)
    (hab : Connected m a b) :
    (1 ≤ b ∧ b ≤ N) ∧ ∃ b' ∈ st.alreadyCached, IdMap.get scc b = IdMap.get scc b' := by
  induction hab with
  | refl => exact ⟨hi.marked_range a ha, a, ha, rfl⟩
  | @tail b c _ hbc ih =>
    obtain ⟨hb, b', hb', e⟩ := ih
    have hbr' := hi.marked_range b' hb'
    have hedge : Edge d m b c ∨ Edge d.opposite m b c := by
      rcases hbc with e1 | e1
      · cases d
        · exact Or.inl e1
        · exact Or.inr e1
      · have := Edge.opposite_edge hc.wf e1
        cases d
        · exact Or.inr this
        · exact Or.inl this
    have hcr : 1 ≤ c ∧ c ≤ N := by
      rcases hedge with e1 | e1
      · exact (Edge.range_edge hc.wf.1 e1).2
      · exact (Edge.range_edge hc.wf.1 e1).2
    refine ⟨hcr, ?_⟩
    by_cases hsame : IdMap.get scc c = IdMap.get scc b'
    · exact ⟨b', hb', hsame⟩
    · have hclosed : ∀ f, (GroupEdge d m N scc b' f ∨ GroupEdge d.opposite m N scc b' f) →
          f ∈ st.alreadyCached := by
        rcases hs.new_closed b' hb' with e1 | e1 | e1
        · exact absurd e1 (h0 b')
        · simp at e1
        · exact e1
      refine ⟨c, hclosed c ?_, rfl⟩
      rcases hedge with e1 | e1
      · exact Or.inl ⟨⟨b, hb.1, hb.2, e, e1⟩, hsame⟩
      · exact Or.inr ⟨⟨b, hb.1, hb.2, e, e1⟩, hsame⟩

/-- What `buildCache` returns on a well-formed node map, for a map `scc` that tells
the components of the direction apart and an uncached list of node ids: a key for
every node, and for a node connected to an uncached node the set of everything
reachable from it, for any other node its component. -/
theorem buildCache_spec (ord : RangeOrder) {d : Direction} {m : NodeMap} {N : Nat} (hw : WellFormed N m)
    (scc : IdMap) (hn : (scc.map Prod.fst).Nodup)
    (hdom : ∀ u, (IdMap.get? scc u).isSome = true ↔ (1 ≤ u ∧ u ≤ N))
    (hscc : ∀ u v, 1 ≤ u → u ≤ N → 1 ≤ v → v ≤ N →
      (IdMap.get scc u = IdMap.get scc v ↔ SameSCC d m u v))
    (unc : List Nat) (hunc : ∀ u ∈ unc, 1 ≤ u ∧ u ≤ N) (fuel : Nat)
    (hfuel : (N + 1) * (N + 1) ≤ fuel) :
    ∃ km, buildCache ord fuel unc d scc m = .ok km ∧ km.Closed ∧
      (∀ key, key ∈ km.allKeys ↔ ∃ u, 1 ≤ u ∧ u ≤ N ∧ key = Itoa u) ∧
      (∀ n, 1 ≤ n → n ≤ N → ∀ x, x ∈ km.view (Itoa n) ↔
        ((NearUncached m unc n ∧ Reach d m n x) ∨
          (¬ NearUncached m unc n ∧ SameSCC d m n x))) := by
  classical
  obtain ⟨M, hM, hseed⟩ := addCyclesToBindMap_spec ord hw.1 scc hn hdom
  have hc : CacheCtx d m N scc M := ⟨hw, hseed, hscc⟩
  -- the number of nodes reachable from a node bounds the recursion
  let rank : Nat → Nat := fun u => ((Finset.Icc 1 N).filter (fun v => Reach d m u v)).card
  have hrankN : ∀ u, rank u ≤ N := by
    intro u
    have := Finset.card_filter_le (Finset.Icc 1 N) (fun v => Reach d m u v)
    simpa [rank] using this
  have hrank : ∀ u t, (1 ≤ u ∧ u ≤ N) → GroupEdge d m N scc u t → rank t < rank u := by
    intro u t hu he
    have hut := GroupEdge.reach hc hu he
    have htr := GroupEdge.range_group hc he
    apply Finset.card_lt_card
    rw [Finset.ssubset_iff_of_subset]
    · refine ⟨u, ?_, ?_⟩
      · simp [hu.1, hu.2, Reach, Relation.ReflTransGen.refl]
      · intro hmem
        simp only [Finset.mem_filter, Finset.mem_Icc] at hmem
        exact he.2 ((hscc t u htr.1 htr.2 hu.1 hu.2).mpr ⟨hmem.2, hut⟩)
    · intro v hv
      simp only [Finset.mem_filter, Finset.mem_Icc] at hv ⊢
      exact ⟨hv.1, hut.trans hv.2⟩
  have hinv0 : CacheInv d m N scc M.cache unc { alreadyCached := Bitmap.New, cache := M.cache } :=
    { bindings := rfl
      closed := hseed.closed.cache
      marked_range := by intro u hu; simp [Bitmap.New] at hu
      sound := by
        intro u hu1 hu2 x hx
        obtain ⟨hx1, hx2, e⟩ := (hseed.cache_view u hu1 hu2 x).mp hx
        exact ((hscc u x hu1 hu2 hx1 hx2).mp e.symm).1
      group := by
        intro u x hu1 hu2 hx1 hx2 e
        exact (hseed.cache_view u hu1 hu2 x).mpr ⟨hx1, hx2, e.symm⟩
      complete := by intro u hu; simp [Bitmap.New] at hu
      near := by intro u hu; simp [Bitmap.New] at hu }
  have hcount : ({ alreadyCached := Bitmap.New, cache := M.cache } : DFSState).unmarked N ≤ N := by
    unfold DFSState.unmarked
    have := List.length_filter_le
      (fun v => !Bitmap.Contains Bitmap.New v) (List.range' 1 N)
    simpa using this
  have hfuel0 : ({ alreadyCached := Bitmap.New, cache := M.cache } : DFSState).unmarked N *
      (N + 1) + N < fuel := by
    have := Nat.mul_le_mul_right (N + 1) hcount
    have e : (N + 1) * (N + 1) = N * (N + 1) + N + 1 := by ring
    omega
  obtain ⟨st, s1, s2, s3, s4⟩ := futureLoop_spec rank hrankN fuel
    (cacheDFS d scc M.children M.parents m fuel)
    (cacheDFS_spec hc rank hrankN hrank fuel) unc
    { alreadyCached := Bitmap.New, cache := M.cache } hinv0
    (fun f hf => ⟨hunc f hf, f, hf, Relation.ReflTransGen.refl⟩) hfuel0
  refine ⟨st.cache, ?_, s2.closed, ?_, ?_⟩
  · unfold buildCache
    rw [hM]
    simp only
    rw [s1]
  · intro key
    rw [NativeKeyManagement.mem_allKeys _ s2.closed, s2.bindings]
    exact hseed.bound key
  · intro n hn1 hn2 x
    by_cases hnear : NearUncached m unc n
    · obtain ⟨u, hu, hcon⟩ := hnear
      obtain ⟨-, n', hn', e⟩ := s3.connected_touched hc s2
        (by intro v hv; simp [Bitmap.New] at hv) (s4 u hu) hcon
      have hnr' := s2.marked_range n' hn'
      have hsame : SameSCC d m n n' := (hscc n n' hn1 hn2 hnr'.1 hnr'.2).mp e
      rw [s2.view_same hc ⟨hn1, hn2⟩ hnr' e]
      constructor
      · intro hx
        exact Or.inl ⟨⟨u, hu, hcon⟩, hsame.1.trans (s2.sound n' hnr'.1 hnr'.2 x hx)⟩
      · rintro (⟨-, hr⟩ | ⟨hno, -⟩)
        · exact s2.complete n' hn' x (hsame.2.trans hr)
        · exact absurd ⟨u, hu, hcon⟩ hno
    · have hview : ∀ x, x ∈ st.cache.view (Itoa n) ↔ x ∈ M.cache.view (Itoa n) := by
        rcases s3.touched n hn1 hn2 with e | ⟨v, hv, e⟩
        · exact e
        · exfalso
          rcases hv with hv | hv
          · have hvr := s2.marked_range v hv
            have hsame : SameSCC d m n v := (hscc n v hn1 hn2 hvr.1 hvr.2).mp e
            exact hnear ((s2.near v hv).of_connected (Reach.connected_of_reach hw hsame.2))
          · simp at hv
      rw [hview x, hseed.cache_view n hn1 hn2 x]
      constructor
      · rintro ⟨hx1, hx2, e⟩
        exact Or.inr ⟨hnear, (hscc n x hn1 hn2 hx1 hx2).mp e.symm⟩
      · rintro (⟨hne, -⟩ | ⟨-, hs⟩)
        · exact absurd hne hnear
        · have hxr := Reach.range_reach hw.1 hs.1 ⟨hn1, hn2⟩
          exact ⟨hxr.1, hxr.2, ((hscc n x hn1 hn2 hxr.1 hxr.2).mpr hs).symm⟩

/-! ## `Cache`: assembling the records -/

theorem exists_ids_of_keys (keys : List String) (h : ∀ key ∈ keys, ∃ u : Nat, key = Itoa u) :
    ∃ ids : List Nat, keys = ids.map Itoa := by
  induction keys with
  | nil => exact ⟨[], rfl⟩
  | cons k rest ih =>
    obtain ⟨u, hu⟩ := h k (by simp)
    obtain ⟨ids, hids⟩ := ih (fun key hk => h key (List.mem_cons_of_mem _ hk))
    exact ⟨u :: ids, by simp [hu, hids]⟩

/-- The loop of `Cache` over the keys of the children cache: one record per key, in
order. -/
theorem assembleCaches_spec (kp kc : NativeKeyManagement) :
    ∀ (ids : List Nat) (acc : List NodeCache),
      assembleCaches kp (ids.map Itoa) ((ids.map Itoa).map kc.view) acc =
        .ok (acc ++ ids.map (fun u =>
          NewNodeCache u (Bitmap.Remove (kp.view (Itoa u)) u)
            (Bitmap.Remove (kc.view (Itoa u)) u))) := by
  intro ids
  induction ids with
  | nil => intro acc; simp [assembleCaches]
  | cons u rest ih =>
    intro acc
    simp only [List.map_cons, assembleCaches, Atoi_Itoa, NativeKeyManagement.Get_eq]
    rw [ih]
    simp [Bitmap.Clone]

theorem GetAllKeysAndValues_eq (kc : NativeKeyManagement) :
    kc.GetAllKeysAndValues = .ok (kc.allKeys, kc.allKeys.map kc.view) := rfl

/-- What the reachability part of a saved record is for node `n` in direction `d`:
everything reachable from `n` when `n` is connected to an uncached node, the
component of `n` otherwise, and never `n` itself. -/
theorem computeCaches_spec (ord : Direction → RangeOrder) {m : NodeMap} {N : Nat} (hw : WellFormed N m) (unc : List Nat)
    (hunc : ∀ u ∈ unc, 1 ≤ u ∧ u ≤ N) (fuel : Nat) (hfuel : (N + 1) * (N + 1) ≤ fuel) :
    ∃ caches ids, computeCaches ord fuel unc N m = .ok caches ∧
      (∀ u, u ∈ ids ↔ (1 ≤ u ∧ u ≤ N)) ∧ caches.map NodeCache.nodeID = ids ∧
      ∀ c ∈ caches,
        (∀ x, x ∈ c.allChildren ↔ x ≠ c.nodeID ∧
          ((NearUncached m unc c.nodeID ∧ Reach .ChildrenDirection m c.nodeID x) ∨
            (¬ NearUncached m unc c.nodeID ∧ SameSCC .ChildrenDirection m c.nodeID x))) ∧
        (∀ x, x ∈ c.allParents ↔ x ≠ c.nodeID ∧
          ((NearUncached m unc c.nodeID ∧ Reach .ParentsDirection m c.nodeID x) ∨
            (¬ NearUncached m unc c.nodeID ∧ SameSCC .ParentsDirection m c.nodeID x))) := by
  have hN : N < fuel := by
    have : (N + 1) * (N + 1) = N * N + 2 * N + 1 := by ring
    omega
  obtain ⟨sc, c1, c2, c3, c4, c5⟩ :=
    findCycles_spec (d := .ChildrenDirection) hw.1 fuel hN
  obtain ⟨sp, p1, p2, p3, p4, p5⟩ :=
    findCycles_spec (d := .ParentsDirection) hw.1 fuel hN
  obtain ⟨kc, k1, k2, k3, k4⟩ := buildCache_spec (ord .ChildrenDirection) hw sc c4
    (fun u => ⟨c3 u, fun h => c2 u h.1 h.2⟩) c5 unc hunc fuel hfuel
  obtain ⟨kp, q1, q2, q3, q4⟩ := buildCache_spec (ord .ParentsDirection) hw sp p4
    (fun u => ⟨p3 u, fun h => p2 u h.1 h.2⟩) p5 unc hunc fuel hfuel
  obtain ⟨ids, hids⟩ := exists_ids_of_keys kc.allKeys (fun key hk => by
    obtain ⟨u, -, -, e⟩ := (k3 key).mp hk
    exact ⟨u, e⟩)
  have hmem : ∀ u, u ∈ ids ↔ (1 ≤ u ∧ u ≤ N) := by
    intro u
    constructor
    · intro hu
      have : Itoa u ∈ kc.allKeys := by rw [hids]; exact List.mem_map_of_mem _ hu
      obtain ⟨v, hv1, hv2, e⟩ := (k3 _).mp this
      have := Itoa_injective e
      subst this
      exact ⟨hv1, hv2⟩
    · rintro ⟨h1, h2⟩
      have : Itoa u ∈ kc.allKeys := (k3 _).mpr ⟨u, h1, h2, rfl⟩
      rw [hids] at this
      obtain ⟨v, hv, e⟩ := List.mem_map.mp this
      rw [← Itoa_injective e]
      exact hv
  refine ⟨[] ++ ids.map (fun u =>
    NewNodeCache u (Bitmap.Remove (kp.view (Itoa u)) u)
      (Bitmap.Remove (kc.view (Itoa u)) u)), ids, ?_, hmem, ?_, ?_⟩
  · unfold computeCaches
    simp only [c1, k1, p1, q1, GetAllKeysAndValues_eq]
    rw [hids, assembleCaches_spec kp kc ids []]
  · simp [NewNodeCache, Function.comp_def]
  · intro c hc
    simp only [List.nil_append, List.mem_map] at hc
    obtain ⟨u, hu, rfl⟩ := hc
    obtain ⟨hu1, hu2⟩ := (hmem u).mp hu
    constructor
    · intro x
      simp only [NewNodeCache, Bitmap.mem_Remove, k4 u hu1 hu2 x]
      tauto
    · intro x
      simp only [NewNodeCache, Bitmap.mem_Remove, q4 u hu1 hu2 x]
      tauto

/-! ## `Cache`: an uncached id that is not a node -/

theorem cacheDFS_bad_id {d : Direction} {m : NodeMap} {N : Nat} (hk : KeysInRange N m)
    (scc : IdMap) (children parents : NativeKeyManagement) (fuel : Nat) (hfuel : 0 < fuel)
    (u : Nat) (hu : ¬ (1 ≤ u ∧ u ≤ N)) (st : DFSState) :
    cacheDFS d scc children parents m fuel u st = .error .nilDereference := by
  cases fuel with
  | zero => omega
  | succ f =>
    unfold cacheDFS
    cases hg : NodeMap.get? m u with
    | none => rfl
    | some nd => exact absurd (hk.key_range hg) hu

theorem futureLoop_bad_id {d : Direction} {m : NodeMap} {N : Nat} {scc : IdMap} {M : BindMaps}
    {unc : List Nat} (hc : CacheCtx d m N scc M) (rank : Nat → Nat) (hrankN : ∀ u, rank u ≤ N)
    (hrank : ∀ u t, (1 ≤ u ∧ u ≤ N) → GroupEdge d m N scc u t → rank t < rank u)
    (fuel : Nat) :
    ∀ (l : List Nat) (st : DFSState), CacheInv d m N scc M.cache unc st →
      (∀ f ∈ l, NearUncached m unc f) → st.unmarked N * (N + 1) + N < fuel →
      (∃ u ∈ l, ¬ (1 ≤ u ∧ u ≤ N)) →
      ∃ e, futureLoop (cacheDFS d scc M.children M.parents m fuel) l st = .error e := by
  intro l
  induction l with
  | nil => intro st _ _ _ h; simp at h
  | cons f rest ih =>
    intro st h hl hfuel hbad
    unfold futureLoop
    by_cases hf : 1 ≤ f ∧ f ≤ N
    · have := hrankN f
      obtain ⟨sj, c1, c2, c3, c4⟩ := cacheDFS_spec hc rank hrankN hrank fuel f st h hf
        (hl f (by simp)) (by omega)
      rw [c1]
      simp only
      have hmono := DFSState.unmarked_mono st sj N c3.marked_mono
      have hfuel' : sj.unmarked N * (N + 1) + N < fuel := by
        have := Nat.mul_le_mul_right (N + 1) hmono
        omega
      apply ih sj c2 (fun z hz => hl z (List.mem_cons_of_mem _ hz)) hfuel'
      obtain ⟨u, hu, hub⟩ := hbad
      rcases List.mem_cons.mp hu with e | e
      · subst e; exact absurd hf hub
      · exact ⟨u, e, hub⟩
    · rw [cacheDFS_bad_id hc.wf.1 scc M.children M.parents fuel (by omega) f hf st]
      exact ⟨_, rfl⟩

/-- With an uncached id that is not a key of the node map, `buildCache` fails. -/
theorem buildCache_bad_id (ord : RangeOrder) {d : Direction} {m : NodeMap} {N : Nat} (hw : WellFormed N m)
    (scc : IdMap) (hn : (scc.map Prod.fst).Nodup)
    (hdom : ∀ u, (IdMap.get? scc u).isSome = true ↔ (1 ≤ u ∧ u ≤ N))
    (hscc : ∀ u v, 1 ≤ u → u ≤ N → 1 ≤ v → v ≤ N →
      (IdMap.get scc u = IdMap.get scc v ↔ SameSCC d m u v))
    (unc : List Nat) (hbad : ∃ u ∈ unc, ¬ (1 ≤ u ∧ u ≤ N)) (fuel : Nat)
    (hfuel : (N + 1) * (N + 1) ≤ fuel) :
    ∃ e, buildCache ord fuel unc d scc m = .error e := by
  classical
  obtain ⟨M, hM, hseed⟩ := addCyclesToBindMap_spec ord hw.1 scc hn hdom
  have hc : CacheCtx d m N scc M := ⟨hw, hseed, hscc⟩
  let rank : Nat → Nat := fun u => ((Finset.Icc 1 N).filter (fun v => Reach d m u v)).card
  have hrankN : ∀ u, rank u ≤ N := by
    intro u
    have := Finset.card_filter_le (Finset.Icc 1 N) (fun v => Reach d m u v)
    simpa [rank] using this
  have hrank : ∀ u t, (1 ≤ u ∧ u ≤ N) → GroupEdge d m N scc u t → rank t < rank u := by
    intro u t hu he
    have hut := GroupEdge.reach hc hu he
    have htr := GroupEdge.range_group hc he
    apply Finset.card_lt_card
    rw [Finset.ssubset_iff_of_subset]
    · refine ⟨u, ?_, ?_⟩
      · simp [hu.1, hu.2, Reach, Relation.ReflTransGen.refl]
      · intro hmem
        simp only [Finset.mem_filter, Finset.mem_Icc] at hmem
        exact he.2 ((hscc t u htr.1 htr.2 hu.1 hu.2).mpr ⟨hmem.2, hut⟩)
    · intro v hv
      simp only [Finset.mem_filter, Finset.mem_Icc] at hv ⊢
      exact ⟨hv.1, hut.trans hv.2⟩
  have hinv0 : CacheInv d m N scc M.cache unc { alreadyCached := Bitmap.New, cache := M.cache } :=
    { bindings := rfl
      closed := hseed.closed.cache
      marked_range := by intro u hu; simp [Bitmap.New] at hu
      sound := by
        intro u hu1 hu2 x hx
        obtain ⟨hx1, hx2, e⟩ := (hseed.cache_view u hu1 hu2 x).mp hx
        exact ((hscc u x hu1 hu2 hx1 hx2).mp e.symm).1
      group := by
        intro u x hu1 hu2 hx1 hx2 e
        exact (hseed.cache_view u hu1 hu2 x).mpr ⟨hx1, hx2, e.symm⟩
      complete := by intro u hu; simp [Bitmap.New] at hu
      near := by intro u hu; simp [Bitmap.New] at hu }
  have hcount : ({ alreadyCached := Bitmap.New, cache := M.cache } : DFSState).unmarked N ≤ N := by
    unfold DFSState.unmarked
    have := List.length_filter_le
      (fun v => !Bitmap.Contains Bitmap.New v) (List.range' 1 N)
    simpa using this
  have hfuel0 : ({ alreadyCached := Bitmap.New, cache := M.cache } : DFSState).unmarked N *
      (N + 1) + N < fuel := by
    have := Nat.mul_le_mul_right (N + 1) hcount
    have e : (N + 1) * (N + 1) = N * (N + 1) + N + 1 := by ring
    omega
  obtain ⟨e, he⟩ := futureLoop_bad_id hc rank hrankN hrank fuel unc _ hinv0
    (fun f hf => ⟨f, hf, Relation.ReflTransGen.refl⟩) hfuel0 hbad
  refine ⟨e, ?_⟩
  unfold buildCache
  rw [hM]
  simp only
  rw [he]

theorem computeCaches_bad_id (ord : Direction → RangeOrder) {m : NodeMap} {N : Nat} (hw : WellFormed N m) (unc : List Nat)
    (hbad : ∃ u ∈ unc, ¬ (1 ≤ u ∧ u ≤ N)) (fuel : Nat) (hfuel : (N + 1) * (N + 1) ≤ fuel) :
    ∃ e, computeCaches ord fuel unc N m = .error e := by
  have hN : N < fuel := by
    have : (N + 1) * (N + 1) = N * N + 2 * N + 1 := by ring
    omega
  obtain ⟨sc, c1, c2, c3, c4, c5⟩ :=
    findCycles_spec (d := .ChildrenDirection) hw.1 fuel hN
  obtain ⟨e, he⟩ := buildCache_bad_id (ord .ChildrenDirection) hw sc c4
    (fun u => ⟨c3 u, fun h => c2 u h.1 h.2⟩) c5 unc hbad fuel hfuel
  refine ⟨e, ?_⟩
  unfold computeCaches
  simp only [c1, he]

/-! ## `Cache` on the in-memory storage -/

theorem NodeMap.get?_of_node_mem (m : NodeMap) (hn : (m.map Prod.fst).Nodup) (k : Nat) (nd : Node)
    (h : (k, nd) ∈ m) : NodeMap.get? m k = some nd := by
  induction m with
  | nil => simp at h
  | cons p rest ih =>
    obtain ⟨a, b⟩ := p
    simp only [List.map_cons, List.nodup_cons] at hn
    unfold NodeMap.get?
    rcases List.mem_cons.mp h with e | e
    · cases e; simp
    · have : ¬ a = k := by
        intro e'
        subst e'
        exact hn.1 (List.mem_map.mpr ⟨(a, nd), e, rfl⟩)
      simp only [this, if_false]
      exact ih hn.2 e

theorem filterMap_get?_eq (m : NodeMap) :
    ∀ l : List (Nat × Node), (∀ p ∈ l, NodeMap.get? m p.1 = some p.2) →
      (l.map Prod.fst).filterMap (fun k => (NodeMap.get? m k).map (fun nd => (k, nd))) = l := by
  intro l
  induction l with
  | nil => intro _; rfl
  | cons p rest ih =>
    intro h
    simp only [List.map_cons, List.filterMap_cons, h p (List.mem_cons_self _ _), Option.map_some']
    rw [ih (fun q hq => h q (List.mem_cons_of_mem _ hq))]

theorem MemStorage.getNodes_all {m : NodeMap} {N : Nat} (hk : KeysInRange N m) :
    (m.map Prod.fst).filterMap (fun k => (NodeMap.get? m k).map (fun nd => (k, nd))) = m := by
  apply filterMap_get?_eq
  intro p hp
  have hn : (m.map Prod.fst).Nodup := by rw [hk.1]; exact List.nodup_range' 1 N
  exact NodeMap.get?_of_node_mem m hn p.1 p.2 hp

theorem MemStorage.lookupCache_storeCache (l : List (Nat × NodeCache)) (c : NodeCache) (n : Nat) :
    MemStorage.lookupCache (MemStorage.storeCache l c) n =
      if c.nodeID = n then some c else MemStorage.lookupCache l n := by
  induction l with
  | nil => simp [MemStorage.storeCache, MemStorage.lookupCache]
  | cons p rest ih =>
    obtain ⟨a, b⟩ := p
    unfold MemStorage.storeCache
    by_cases h : a = c.nodeID
    · subst h
      rw [if_pos rfl]
      by_cases h2 : c.nodeID = n
      · rw [if_pos h2]
        unfold MemStorage.lookupCache
        rw [if_pos h2]
      · rw [if_neg h2]
        unfold MemStorage.lookupCache
        rw [if_neg h2, if_neg h2]
    · rw [if_neg h]
      unfold MemStorage.lookupCache
      by_cases h2 : a = n
      · have h3 : ¬ c.nodeID = n := fun e => h (h2.trans e.symm)
        rw [if_pos h2, if_neg h3, if_pos h2]
      · rw [if_neg h2, ih, if_neg h2]

/-- After a batch is stored, the record looked up for a node of the batch is a
record of the batch for this node. -/
theorem MemStorage.lookupCache_foldl (caches : List NodeCache) :
    ∀ (old : List (Nat × NodeCache)) (n : Nat),
      (∃ c ∈ caches, c.nodeID = n ∧
        MemStorage.lookupCache (caches.foldl MemStorage.storeCache old) n = some c) ∨
      ((∀ c ∈ caches, c.nodeID ≠ n) ∧
        MemStorage.lookupCache (caches.foldl MemStorage.storeCache old) n =
          MemStorage.lookupCache old n) := by
  induction caches with
  | nil => intro old n; right; simp
  | cons c rest ih =>
    intro old n
    simp only [List.foldl_cons]
    rcases ih (MemStorage.storeCache old c) n with ⟨c', h1, h2, h3⟩ | ⟨h1, h2⟩
    · exact Or.inl ⟨c', List.mem_cons_of_mem _ h1, h2, h3⟩
    · rw [MemStorage.lookupCache_storeCache] at h2
      by_cases e : c.nodeID = n
      · left
        refine ⟨c, List.mem_cons_self _ _, e, ?_⟩
        rw [h2]; simp [e]
      · right
        refine ⟨?_, ?_⟩
        · intro c' hc'
          rcases List.mem_cons.mp hc' with e' | e'
          · rw [e']; exact e
          · exact h1 c' e'
        · rw [h2]; simp [e]

theorem MemStorage.fault_nil (s : MemStorage) (h : s.faults = []) (op : StorageOp) :
    s.fault op = none := by
  simp [MemStorage.fault, h]

theorem reach_ne_iff (d : Direction) (m : NodeMap) (n x : Nat) :
    (x ≠ n ∧ Reach d m n x) ↔ (ReachPlus d m n x ∧ x ≠ n) := by
  unfold Reach ReachPlus
  rw [Relation.reflTransGen_iff_eq_or_transGen]
  constructor
  · rintro ⟨h1, h2 | h2⟩
    · exact absurd h2 h1
    · exact ⟨h2, h1⟩
  · rintro ⟨h1, h2⟩
    exact ⟨h2, Or.inr h1⟩

/-- What a successful run of `Cache` stores, on the in-memory storage with a
well-formed node map and a non-empty to-be-cached list: for a node connected to an
uncached node the sets of everything reachable from it (itself left out), for any
other node the other members of its strongly connected component. With no fault set
and every uncached id a node, the run succeeds. -/
theorem Cache_mem_spec (ord : Direction → RangeOrder) (s : MemStorage) (N : Nat) (hw : WellFormed N s.nodes)
    (hne : s.toBeCached ≠ []) (fuel : Nat) (hfuel : (N + 1) * (N + 1) ≤ fuel) :
    (s.faults = [] → (∀ u ∈ s.toBeCached, 1 ≤ u ∧ u ≤ N) →
      (Cache ord MemStorage.ops fuel s).1 = none) ∧
    ((Cache ord MemStorage.ops fuel s).1 = none →
      (∀ u ∈ s.toBeCached, 1 ≤ u ∧ u ≤ N) ∧
      ∀ n, 1 ≤ n → n ≤ N → ∃ c, (Cache ord MemStorage.ops fuel s).2.cacheOf n = some c ∧
        c.nodeID = n ∧
        (∀ x, x ∈ c.allChildren ↔ x ≠ n ∧
          ((NearUncached s.nodes s.toBeCached n ∧ Reach .ChildrenDirection s.nodes n x) ∨
            (¬ NearUncached s.nodes s.toBeCached n ∧
              SameSCC .ChildrenDirection s.nodes n x))) ∧
        (∀ x, x ∈ c.allParents ↔ x ≠ n ∧
          ((NearUncached s.nodes s.toBeCached n ∧ Reach .ParentsDirection s.nodes n x) ∨
            (¬ NearUncached s.nodes s.toBeCached n ∧
              SameSCC .ParentsDirection s.nodes n x)))) := by
  have hlen : (s.nodes.map Prod.fst).length = N := by rw [hw.1.1]; simp
  have hnodes := MemStorage.getNodes_all hw.1
  have hlen0 : ¬ s.toBeCached.length = 0 := fun h => hne (List.length_eq_zero.mp h)
  constructor
  · intro hf hunc
    obtain ⟨caches, ids, h1, -⟩ := computeCaches_spec ord hw s.toBeCached hunc fuel hfuel
    have hf' := MemStorage.fault_nil s hf
    have hf'' : ∀ (x : List (Nat × NodeCache)) (y : List Nat) (op : StorageOp),
        MemStorage.fault { nodes := s.nodes, caches := x, toBeCached := y, faults := s.faults }
          op = none := by
      intro x y op; simp [MemStorage.fault, hf]
    simp only [Cache, MemStorage.ops, hf', hlen0, if_false, hnodes, hlen, h1, hf'']
  · intro hsucc
    rcases Cache_mem_cases ord fuel s with h | h | ⟨caches, -, -, hcc, h | h⟩
    · rw [hsucc] at h; simp at h
    · exact absurd h.2.2.1 hne
    · rw [hsucc] at h; simp at h
    · rw [hnodes, hlen] at hcc
      have hunc : ∀ u ∈ s.toBeCached, 1 ≤ u ∧ u ≤ N := by
        by_contra hc
        push_neg at hc
        obtain ⟨u, hu, hub⟩ := hc
        obtain ⟨e, he⟩ := computeCaches_bad_id ord hw s.toBeCached
          ⟨u, hu, fun hh => absurd hh.2 (by have := hub hh.1; omega)⟩ fuel hfuel
        rw [he] at hcc
        cases hcc
      refine ⟨hunc, ?_⟩
      obtain ⟨caches', ids, h1, h2, h3, h4⟩ := computeCaches_spec ord hw s.toBeCached hunc fuel hfuel
      rw [hcc] at h1
      cases h1
      intro n hn1 hn2
      have hmem : n ∈ caches.map NodeCache.nodeID := by rw [h3]; exact (h2 n).mpr ⟨hn1, hn2⟩
      obtain ⟨c0, hc0, hc0n⟩ := List.mem_map.mp hmem
      rw [h.2]
      rcases MemStorage.lookupCache_foldl caches s.caches n with ⟨c, k1, k2, k3⟩ | ⟨k1, -⟩
      · refine ⟨c, k3, k2, ?_, ?_⟩
        · have := (h4 c k1).1
          rw [k2] at this
          exact this
        · have := (h4 c k1).2
          rw [k2] at this
          exact this
      · exact absurd hc0n (k1 c0 hc0)

/-! ## The claims about the saved records -/

theorem cycleStorage_run :
    Cache RangeOrder.listedBoth MemStorage.ops 9 cycleStorage =
      (none, { cycleStorage with
        caches := [(1, ⟨1, [2], [2]⟩), (2, ⟨2, [1], [1]⟩)], toBeCached := [] }) := by
  rfl

/-- C1: on a well-formed node map with `N` nodes and an uncached list that contains
every node, a run of `Cache` that succeeds stores for every node `n` a record whose
`allChildren` is the set of nodes reachable from `n` by one or more child edges,
`n` left out, and whose `allParents` is the same along parent edges; and the run
does succeed when no storage fault is set and every uncached id is a node. -/
theorem Cache_all_uncached_matches_traversal (ord : Direction → RangeOrder) (s : MemStorage) (N : Nat)
    (hw : WellFormed N s.nodes) (hall : ∀ n, 1 ≤ n → n ≤ N → n ∈ s.toBeCached)
    (fuel : Nat) (hfuel : (N + 1) * (N + 1) ≤ fuel) :
    (s.faults = [] → (∀ u ∈ s.toBeCached, 1 ≤ u ∧ u ≤ N) → s.toBeCached ≠ [] →
      (Cache ord MemStorage.ops fuel s).1 = none) ∧
    ((Cache ord MemStorage.ops fuel s).1 = none →
      ∀ n, 1 ≤ n → n ≤ N → ∃ c, (Cache ord MemStorage.ops fuel s).2.cacheOf n = some c ∧
        (∀ x, x ∈ c.allChildren ↔ ReachPlus .ChildrenDirection s.nodes n x ∧ x ≠ n) ∧
        (∀ x, x ∈ c.allParents ↔ ReachPlus .ParentsDirection s.nodes n x ∧ x ≠ n)) := by
  constructor
  · intro hf hunc hne
    exact (Cache_mem_spec ord s N hw hne fuel hfuel).1 hf hunc
  · intro hsucc n hn1 hn2
    have hin := hall n hn1 hn2
    have hne : s.toBeCached ≠ [] := fun e => by rw [e] at hin; simp at hin
    obtain ⟨-, h⟩ := (Cache_mem_spec ord s N hw hne fuel hfuel).2 hsucc
    obtain ⟨c, h1, -, h3, h4⟩ := h n hn1 hn2
    have hnear : NearUncached s.nodes s.toBeCached n := ⟨n, hin, Relation.ReflTransGen.refl⟩
    refine ⟨c, h1, ?_, ?_⟩
    · intro x
      rw [h3 x, ← reach_ne_iff]
      simp [hnear]
    · intro x
      rw [h4 x, ← reach_ne_iff]
      simp [hnear]

/-- Witness for C1: the two-node cycle with both nodes uncached. -/
theorem Cache_all_uncached_matches_traversal_witness :
    WellFormed 2 cycleStorage.nodes ∧ (∀ n, 1 ≤ n → n ≤ 2 → n ∈ cycleStorage.toBeCached) ∧
    (2 + 1) * (2 + 1) ≤ 9 ∧ (Cache RangeOrder.listedBoth MemStorage.ops 9 cycleStorage).1 = none ∧
    ∀ n, 1 ≤ n → n ≤ 2 → ∃ c, (Cache RangeOrder.listedBoth MemStorage.ops 9 cycleStorage).2.cacheOf n = some c ∧
      (∀ x, x ∈ c.allChildren ↔ ReachPlus .ChildrenDirection cycleStorage.nodes n x ∧ x ≠ n) ∧
      (∀ x, x ∈ c.allParents ↔ ReachPlus .ParentsDirection cycleStorage.nodes n x ∧ x ≠ n) :=
  have hall : ∀ n, 1 ≤ n → n ≤ 2 → n ∈ cycleStorage.toBeCached := by
    intro n h1 h2
    interval_cases n <;> simp [cycleStorage]
  have hs : (Cache RangeOrder.listedBoth MemStorage.ops 9 cycleStorage).1 = none := by rw [cycleStorage_run]
  ⟨by decide, hall, by decide, hs,
    (Cache_all_uncached_matches_traversal RangeOrder.listedBoth cycleStorage 2 (by decide) hall 9 (by decide)).2 hs⟩

/-- C3, evaluated on two small graphs. On three nodes with the single edge `2 → 3`,
a first run of `Cache` with every node uncached stores for node 2 the record with
`allChildren = {3}` and for node 3 the record with `allParents = {2}`; node 1 is then
queued again, and the next run, with the uncached list `[1]`, succeeds and stores
for node 2 a record with an empty `allChildren` and for node 3 one with an empty
`allParents`, although node 3 is still reachable from node 2 (the same records are
stored when nothing was cached before). Likewise, after a build of the chain
`1 → 2`, a third node without edges is added: the run with the uncached list `[3]`
replaces `allChildren(1) = {2}` by the empty set. -/
theorem Cache_partial_uncached_overwrites :
    WellFormed 3 exampleNodes ∧
    ReachPlus .ChildrenDirection exampleNodes 2 3 ∧
    Cache RangeOrder.listedBoth MemStorage.ops 16
        { nodes := exampleNodes, caches := [], toBeCached := [1, 2, 3], faults := [] } =
      (none,
        { nodes := exampleNodes
          caches := [(1, ⟨1, [], []⟩), (2, ⟨2, [], [3]⟩), (3, ⟨3, [2], []⟩)]
          toBeCached := []
          faults := [] }) ∧
    Cache RangeOrder.listedBoth MemStorage.ops 16
        { nodes := exampleNodes
          caches := [(1, ⟨1, [], []⟩), (2, ⟨2, [], [3]⟩), (3, ⟨3, [2], []⟩)]
          toBeCached := [1]
          faults := [] } =
      (none,
        { nodes := exampleNodes
          caches := [(1, ⟨1, [], []⟩), (2, ⟨2, [], []⟩), (3, ⟨3, [], []⟩)]
          toBeCached := []
          faults := [] }) ∧
    exampleStorage.toBeCached = [1] ∧
    (Cache RangeOrder.listedBoth MemStorage.ops 16 exampleStorage).1 = none ∧
    (Cache RangeOrder.listedBoth MemStorage.ops 16 exampleStorage).2.cacheOf 2 =
      some ⟨2, [], []⟩ ∧
    Cache RangeOrder.listedBoth MemStorage.ops 9
        { nodes := chainNodes, caches := [], toBeCached := [1, 2], faults := [] } =
      (none,
        { nodes := chainNodes
          caches := [(1, ⟨1, [], [2]⟩), (2, ⟨2, [1], []⟩)]
          toBeCached := []
          faults := [] }) ∧
    WellFormed 3 (chainNodes ++ [(3, ⟨3, [], []⟩)]) ∧
    ReachPlus .ChildrenDirection (chainNodes ++ [(3, ⟨3, [], []⟩)]) 1 2 ∧
    Cache RangeOrder.listedBoth MemStorage.ops 16
        { nodes := chainNodes ++ [(3, ⟨3, [], []⟩)]
          caches := [(1, ⟨1, [], [2]⟩), (2, ⟨2, [1], []⟩)]
          toBeCached := [3]
          faults := [] } =
      (none,
        { nodes := chainNodes ++ [(3, ⟨3, [], []⟩)]
          caches := [(1, ⟨1, [], []⟩), (2, ⟨2, [], []⟩), (3, ⟨3, [], []⟩)]
          toBeCached := []
          faults := [] }) :=
  ⟨by decide, Relation.TransGen.single ⟨⟨2, [3], []⟩, rfl, by simp [Node.next]⟩,
    rfl, rfl, rfl, rfl, rfl, rfl, by decide,
    Relation.TransGen.single ⟨⟨1, [2], []⟩, rfl, by simp [Node.next]⟩, rfl⟩

/-- C4: on a well-formed node map and a non-empty uncached list, after a run of
`Cache` that succeeds, every node `w` that is an uncached node `u` or is reachable
from `u` along child edges has a stored `allChildren` equal to the set of its proper
descendants, and every `w` that is `u` or reachable from `u` along parent edges has a
stored `allParents` equal to the set of its proper ancestors. The run succeeds when no
storage fault is set and every uncached id is a node. -/
theorem Cache_exact_below_uncached (ord : Direction → RangeOrder) (s : MemStorage) (N : Nat) (hw : WellFormed N s.nodes)
    (hne : s.toBeCached ≠ []) (fuel : Nat) (hfuel : (N + 1) * (N + 1) ≤ fuel) :
    (s.faults = [] → (∀ u ∈ s.toBeCached, 1 ≤ u ∧ u ≤ N) →
      (Cache ord MemStorage.ops fuel s).1 = none) ∧
    ((Cache ord MemStorage.ops fuel s).1 = none → ∀ u ∈ s.toBeCached,
      (∀ w, Reach .ChildrenDirection s.nodes u w →
        ∃ c, (Cache ord MemStorage.ops fuel s).2.cacheOf w = some c ∧
          ∀ x, x ∈ c.allChildren ↔ ReachPlus .ChildrenDirection s.nodes w x ∧ x ≠ w) ∧
      (∀ w, Reach .ParentsDirection s.nodes u w →
        ∃ c, (Cache ord MemStorage.ops fuel s).2.cacheOf w = some c ∧
          ∀ x, x ∈ c.allParents ↔ ReachPlus .ParentsDirection s.nodes w x ∧ x ≠ w)) := by
  refine ⟨(Cache_mem_spec ord s N hw hne fuel hfuel).1, ?_⟩
  intro hsucc u hu
  obtain ⟨hunc, h⟩ := (Cache_mem_spec ord s N hw hne fuel hfuel).2 hsucc
  have hur := hunc u hu
  constructor
  · intro w hr
    have hwr := Reach.range_reach hw.1 hr hur
    have hnear : NearUncached s.nodes s.toBeCached w := ⟨u, hu, Reach.connected_of_reach hw hr⟩
    obtain ⟨c, h1, -, h3, -⟩ := h w hwr.1 hwr.2
    refine ⟨c, h1, ?_⟩
    intro x
    rw [h3 x, ← reach_ne_iff]
    simp [hnear]
  · intro w hr
    have hwr := Reach.range_reach hw.1 hr hur
    have hnear : NearUncached s.nodes s.toBeCached w := ⟨u, hu, Reach.connected_of_reach hw hr⟩
    obtain ⟨c, h1, -, -, h4⟩ := h w hwr.1 hwr.2
    refine ⟨c, h1, ?_⟩
    intro x
    rw [h4 x, ← reach_ne_iff]
    simp [hnear]

/-- Witness for C4: nodes 1 and 2 on a cycle and node 3 below node 2, with only
node 1 uncached. Nodes 2 and 3 are reachable from node 1 along child edges and node
2 along parent edges; the stored records are `allChildren(1) = {2, 3}`,
`allChildren(2) = {1, 3}`, `allChildren(3) = {}`, `allParents(1) = {2}` and
`allParents(2) = {1}`. -/
theorem Cache_exact_below_uncached_witness :
    WellFormed 3 (tailedStorage [1]).nodes ∧ (tailedStorage [1]).toBeCached ≠ [] ∧
    (3 + 1) * (3 + 1) ≤ 16 ∧
    Cache RangeOrder.listedBoth MemStorage.ops 16 (tailedStorage [1]) =
      (none,
        { nodes := tailedCycleNodes
          caches := [(1, ⟨1, [2], [2, 3]⟩), (2, ⟨2, [1], [1, 3]⟩), (3, ⟨3, [1, 2], []⟩)]
          toBeCached := []
          faults := [] }) ∧
    Reach .ChildrenDirection (tailedStorage [1]).nodes 1 3 ∧
    Reach .ParentsDirection (tailedStorage [1]).nodes 1 2 ∧
    ∀ u ∈ (tailedStorage [1]).toBeCached,
      (∀ w, Reach .ChildrenDirection (tailedStorage [1]).nodes u w →
        ∃ c, (Cache RangeOrder.listedBoth MemStorage.ops 16 (tailedStorage [1])).2.cacheOf w = some c ∧
          ∀ x, x ∈ c.allChildren ↔
            ReachPlus .ChildrenDirection (tailedStorage [1]).nodes w x ∧ x ≠ w) ∧
      (∀ w, Reach .ParentsDirection (tailedStorage [1]).nodes u w →
        ∃ c, (Cache RangeOrder.listedBoth MemStorage.ops 16 (tailedStorage [1])).2.cacheOf w = some c ∧
          ∀ x, x ∈ c.allParents ↔
            ReachPlus .ParentsDirection (tailedStorage [1]).nodes w x ∧ x ≠ w) :=
  have h12 : Edge .ChildrenDirection (tailedStorage [1]).nodes 1 2 :=
    ⟨⟨1, [2], [2]⟩, rfl, by simp [Node.next]⟩
  have h23 : Edge .ChildrenDirection (tailedStorage [1]).nodes 2 3 :=
    ⟨⟨2, [1, 3], [1]⟩, rfl, by simp [Node.next]⟩
  have p12 : Edge .ParentsDirection (tailedStorage [1]).nodes 1 2 :=
    ⟨⟨1, [2], [2]⟩, rfl, by simp [Node.next]⟩
  ⟨by decide, by decide, by decide, rfl,
    (Relation.ReflTransGen.single h12).tail h23, Relation.ReflTransGen.single p12,
    (Cache_exact_below_uncached RangeOrder.listedBoth (tailedStorage [1]) 3 (by decide) (by decide) 16
      (by decide)).2 rfl⟩

/-- C6: on a well-formed node map and a non-empty uncached list, after a run of
`Cache` that succeeds, two distinct nodes `a` and `b` that reach each other have `b`
in the stored `allChildren` and in the stored `allParents` of `a`. The run succeeds
when no storage fault is set and every uncached id is a node. -/
theorem Cache_component_peers_in_both (ord : Direction → RangeOrder) (s : MemStorage) (N : Nat) (hw : WellFormed N s.nodes)
    (hne : s.toBeCached ≠ []) (fuel : Nat) (hfuel : (N + 1) * (N + 1) ≤ fuel) :
    (s.faults = [] → (∀ u ∈ s.toBeCached, 1 ≤ u ∧ u ≤ N) →
      (Cache ord MemStorage.ops fuel s).1 = none) ∧
    ((Cache ord MemStorage.ops fuel s).1 = none →
      ∀ a b, 1 ≤ a → a ≤ N → 1 ≤ b → b ≤ N → a ≠ b →
        Reach .ChildrenDirection s.nodes a b → Reach .ChildrenDirection s.nodes b a →
        ∃ c, (Cache ord MemStorage.ops fuel s).2.cacheOf a = some c ∧
          b ∈ c.allChildren ∧ b ∈ c.allParents) := by
  refine ⟨(Cache_mem_spec ord s N hw hne fuel hfuel).1, ?_⟩
  intro hsucc a b ha1 ha2 _ _ hab h1 h2
  obtain ⟨-, h⟩ := (Cache_mem_spec ord s N hw hne fuel hfuel).2 hsucc
  obtain ⟨c, k1, -, k3, k4⟩ := h a ha1 ha2
  have p1 : Reach .ParentsDirection s.nodes a b := Reach.opposite_reach hw h2
  have p2 : Reach .ParentsDirection s.nodes b a := Reach.opposite_reach hw h1
  refine ⟨c, k1, ?_, ?_⟩
  · rw [k3 b]
    refine ⟨fun e => hab e.symm, ?_⟩
    by_cases hnear : NearUncached s.nodes s.toBeCached a
    · exact Or.inl ⟨hnear, h1⟩
    · exact Or.inr ⟨hnear, h1, h2⟩
  · rw [k4 b]
    refine ⟨fun e => hab e.symm, ?_⟩
    by_cases hnear : NearUncached s.nodes s.toBeCached a
    · exact Or.inl ⟨hnear, p1⟩
    · exact Or.inr ⟨hnear, p1, p2⟩

/-- Witness for C6: the two nodes of the two-node cycle. -/
theorem Cache_component_peers_in_both_witness :
    WellFormed 2 cycleStorage.nodes ∧ cycleStorage.toBeCached ≠ [] ∧
    (2 + 1) * (2 + 1) ≤ 9 ∧ (Cache RangeOrder.listedBoth MemStorage.ops 9 cycleStorage).1 = none ∧
    Reach .ChildrenDirection cycleStorage.nodes 1 2 ∧
    Reach .ChildrenDirection cycleStorage.nodes 2 1 ∧
    ∃ c, (Cache RangeOrder.listedBoth MemStorage.ops 9 cycleStorage).2.cacheOf 1 = some c ∧
      2 ∈ c.allChildren ∧ 2 ∈ c.allParents :=
  have hs : (Cache RangeOrder.listedBoth MemStorage.ops 9 cycleStorage).1 = none := by rw [cycleStorage_run]
  have h12 : Reach .ChildrenDirection cycleStorage.nodes 1 2 :=
    Relation.ReflTransGen.single ⟨⟨1, [2], [2]⟩, rfl, by simp [Node.next]⟩
  have h21 : Reach .ChildrenDirection cycleStorage.nodes 2 1 :=
    Relation.ReflTransGen.single ⟨⟨2, [1], [1]⟩, rfl, by simp [Node.next]⟩
  ⟨by decide, by decide, by decide, hs, h12, h21,
    (Cache_component_peers_in_both RangeOrder.listedBoth cycleStorage 2 (by decide) (by decide) 9 (by decide)).2 hs
      1 2 (by decide) (by decide) (by decide) (by decide) (by decide) h12 h21⟩

/-- C7: on a well-formed node map and a non-empty uncached list, the records stored
by a run of `Cache` that succeeds are symmetric: `b` is in the `allChildren` of `a`
exactly when `a` is in the `allParents` of `b`. The run succeeds when no storage
fault is set and every uncached id is a node. -/
theorem Cache_children_parents_symmetric (ord : Direction → RangeOrder) (s : MemStorage) (N : Nat)
    (hw : WellFormed N s.nodes) (hne : s.toBeCached ≠ []) (fuel : Nat)
    (hfuel : (N + 1) * (N + 1) ≤ fuel) :
    (s.faults = [] → (∀ u ∈ s.toBeCached, 1 ≤ u ∧ u ≤ N) →
      (Cache ord MemStorage.ops fuel s).1 = none) ∧
    ((Cache ord MemStorage.ops fuel s).1 = none →
      ∀ a b, 1 ≤ a → a ≤ N → 1 ≤ b → b ≤ N →
        ∃ ca cb, (Cache ord MemStorage.ops fuel s).2.cacheOf a = some ca ∧
          (Cache ord MemStorage.ops fuel s).2.cacheOf b = some cb ∧
          (b ∈ ca.allChildren ↔ a ∈ cb.allParents)) := by
  refine ⟨(Cache_mem_spec ord s N hw hne fuel hfuel).1, ?_⟩
  intro hsucc a b ha1 ha2 hb1 hb2
  obtain ⟨-, h⟩ := (Cache_mem_spec ord s N hw hne fuel hfuel).2 hsucc
  obtain ⟨ca, a1, -, a3, -⟩ := h a ha1 ha2
  obtain ⟨cb, b1, -, -, b4⟩ := h b hb1 hb2
  refine ⟨ca, cb, a1, b1, ?_⟩
  rw [a3 b, b4 a]
  have hopp : ∀ {u v : Nat}, Reach .ParentsDirection s.nodes u v →
      Reach .ChildrenDirection s.nodes v u := fun hr => Reach.opposite_reach hw hr
  constructor
  · rintro ⟨hne', ⟨hn, hr⟩ | ⟨hn, hr⟩⟩
    · exact ⟨fun e => hne' e.symm,
        Or.inl ⟨hn.of_connected (Reach.connected_of_reach hw hr), Reach.opposite_reach hw hr⟩⟩
    · refine ⟨fun e => hne' e.symm, Or.inr ⟨fun hnb => hn ?_, Reach.opposite_reach hw hr.1,
        Reach.opposite_reach hw hr.2⟩⟩
      exact hnb.of_connected (Reach.connected_of_reach hw hr.2)
  · rintro ⟨hne', ⟨hn, hr⟩ | ⟨hn, hr⟩⟩
    · exact ⟨fun e => hne' e.symm,
        Or.inl ⟨hn.of_connected (Reach.connected_of_reach hw hr), hopp hr⟩⟩
    · refine ⟨fun e => hne' e.symm, Or.inr ⟨fun hna => hn ?_, hopp hr.1, hopp hr.2⟩⟩
      exact hna.of_connected (Reach.connected_of_reach hw (hopp hr.1))

/-- Witness for C7: nodes 1 and 2 on a cycle and node 3 below node 2, with only
node 1 uncached; `a = 2` and `b = 3`. The stored `allChildren` of node 2 is
`{1, 3}` and the stored `allParents` of node 3 is `{1, 2}`, so both sides of the
equivalence hold. -/
theorem Cache_children_parents_symmetric_witness :
    WellFormed 3 (tailedStorage [1]).nodes ∧ (tailedStorage [1]).toBeCached ≠ [] ∧
    (3 + 1) * (3 + 1) ≤ 16 ∧
    (Cache RangeOrder.listedBoth MemStorage.ops 16 (tailedStorage [1])).1 = none ∧
    (Cache RangeOrder.listedBoth MemStorage.ops 16 (tailedStorage [1])).2.cacheOf 2 =
      some ⟨2, [1], [1, 3]⟩ ∧
    (Cache RangeOrder.listedBoth MemStorage.ops 16 (tailedStorage [1])).2.cacheOf 3 =
      some ⟨3, [1, 2], []⟩ ∧
    ∃ ca cb, (Cache RangeOrder.listedBoth MemStorage.ops 16 (tailedStorage [1])).2.cacheOf 2 = some ca ∧
      (Cache RangeOrder.listedBoth MemStorage.ops 16 (tailedStorage [1])).2.cacheOf 3 = some cb ∧
      (3 ∈ ca.allChildren ↔ 2 ∈ cb.allParents) :=
  ⟨by decide, by decide, by decide, rfl, rfl, rfl,
    (Cache_children_parents_symmetric RangeOrder.listedBoth (tailedStorage [1]) 3 (by decide) (by decide) 16
      (by decide)).2 rfl 2 3 (by decide) (by decide) (by decide) (by decide)⟩

/-! ## Adding an edge -/

theorem addEdge_keys (m : NodeMap) (a b : Nat) :
    (addEdge m a b).map Prod.fst = m.map Prod.fst := by
  simp [addEdge, Function.comp_def]

theorem addEdge_get? (m : NodeMap) (a b k : Nat) :
    NodeMap.get? (addEdge m a b) k =
      (NodeMap.get? m k).map (fun nd =>
        { ID := nd.ID
          Children := if k = a then Bitmap.Add nd.Children b else nd.Children
          Parents := if k = b then Bitmap.Add nd.Parents a else nd.Parents }) := by
  induction m with
  | nil => rfl
  | cons p rest ih =>
    obtain ⟨k', nd⟩ := p
    by_cases e : k' = k
    · subst e
      simp [addEdge, NodeMap.get?]
    · have ih' := ih
      simp only [addEdge] at ih'
      simp [addEdge, NodeMap.get?, e, ih']

theorem Edge.addEdge_edge {d : Direction} {m : NodeMap} (a b : Nat) {u v : Nat}
    (h : Edge d m u v) : Edge d (addEdge m a b) u v := by
  obtain ⟨nd, h1, h2⟩ := h
  refine ⟨_, by rw [addEdge_get?, h1]; rfl, ?_⟩
  cases d
  · simp only [Node.next] at h2 ⊢
    split_ifs
    · exact (Bitmap.mem_Add _ _ _).mpr (Or.inr h2)
    · exact h2
  · simp only [Node.next] at h2 ⊢
    split_ifs
    · exact (Bitmap.mem_Add _ _ _).mpr (Or.inr h2)
    · exact h2

theorem Reach.addEdge_reach {d : Direction} {m : NodeMap} (a b : Nat) {u v : Nat}
    (h : Reach d m u v) : Reach d (addEdge m a b) u v := by
  induction h with
  | refl => exact Relation.ReflTransGen.refl
  | tail _ e ih => exact ih.tail (Edge.addEdge_edge a b e)

theorem WellFormed.addEdge_wf {N : Nat} {m : NodeMap} (hw : WellFormed N m) {a b : Nat}
    (ha : 1 ≤ a ∧ a ≤ N) (hb : 1 ≤ b ∧ b ≤ N) : WellFormed N (addEdge m a b) := by
  refine ⟨⟨by rw [addEdge_keys]; exact hw.1.1, ?_⟩, ?_⟩
  · intro p hp
    simp only [Minefield.addEdge, List.mem_map] at hp
    obtain ⟨q, hq, rfl⟩ := hp
    obtain ⟨h1, h2, h3⟩ := hw.1.2 q hq
    refine ⟨h1, ?_, ?_⟩
    · intro c hc
      simp only at hc
      split_ifs at hc
      · rcases (Bitmap.mem_Add _ _ _).mp hc with e | e
        · rw [e]; exact hb
        · exact h2 c e
      · exact h2 c hc
    · intro c hc
      simp only at hc
      split_ifs at hc
      · rcases (Bitmap.mem_Add _ _ _).mp hc with e | e
        · rw [e]; exact ha
        · exact h3 c e
      · exact h3 c hc
  · intro p hp q hq
    simp only [Minefield.addEdge, List.mem_map] at hp hq
    obtain ⟨p0, hp0, rfl⟩ := hp
    obtain ⟨q0, hq0, rfl⟩ := hq
    have hs := hw.2 p0 hp0 q0 hq0
    simp only
    by_cases e1 : p0.1 = a <;> by_cases e2 : q0.1 = b
    · simp [e1, e2, Bitmap.mem_Add]
    · simp only [e1, e2, if_true, if_false, Bitmap.mem_Add]
      rw [← e1, ← hs]
      constructor
      · rintro (e | e)
        · simp at e
        · exact e
      · intro e; exact Or.inr e
    · simp only [e1, e2, if_true, if_false, Bitmap.mem_Add]
      rw [← e2, hs]
      constructor
      · intro e; exact Or.inr e
      · rintro (e | e)
        · simp at e
        · exact e
    · simp only [e1, e2, if_false]
      exact hs

/-- C8, evaluated on four nodes with the single edge `3 → 4`, all of them
uncached: the first run of `Cache` succeeds and stores for node 3 the record with
`allChildren = {4}`. Then the edge `1 → 2` is added and the second run, with the
uncached list `[1, 2]`, succeeds and stores for node 3 a record with an empty
`allChildren` (and for node 4 one with an empty `allParents`), although the edge
`3 → 4` is still in the node map. -/
theorem Cache_add_edge_shrinks_record :
    WellFormed 4 pairStorage.nodes ∧
    (∀ n, 1 ≤ n → n ≤ 4 → n ∈ pairStorage.toBeCached) ∧
    WellFormed 4 (addEdge pairStorage.nodes 1 2) ∧
    Edge .ChildrenDirection (addEdge pairStorage.nodes 1 2) 3 4 ∧
    Cache RangeOrder.listedBoth MemStorage.ops 25 pairStorage =
      (none,
        { nodes := pairStorage.nodes
          caches := [(1, ⟨1, [], []⟩), (2, ⟨2, [], []⟩), (3, ⟨3, [], [4]⟩), (4, ⟨4, [3], []⟩)]
          toBeCached := []
          faults := [] }) ∧
    Cache RangeOrder.listedBoth MemStorage.ops 25
        { (Cache RangeOrder.listedBoth MemStorage.ops 25 pairStorage).2 with
          nodes := addEdge pairStorage.nodes 1 2, toBeCached := [1, 2] } =
      (none,
        { nodes := addEdge pairStorage.nodes 1 2
          caches := [(1, ⟨1, [], [2]⟩), (2, ⟨2, [1], []⟩), (3, ⟨3, [], []⟩), (4, ⟨4, [], []⟩)]
          toBeCached := []
          faults := [] }) ∧
    (Cache RangeOrder.listedBoth MemStorage.ops 25 pairStorage).2.cacheOf 3 =
      some ⟨3, [], [4]⟩ ∧
    (Cache RangeOrder.listedBoth MemStorage.ops 25
        { (Cache RangeOrder.listedBoth MemStorage.ops 25 pairStorage).2 with
          nodes := addEdge pairStorage.nodes 1 2, toBeCached := [1, 2] }).2.cacheOf 3 =
      some ⟨3, [], []⟩ :=
  ⟨by decide, by decide, by decide, ⟨⟨3, [4], []⟩, rfl, by simp [Node.next]⟩,
    rfl, rfl, rfl, rfl⟩

/-! ## Error handling -/

/-- Counterexample to C12: `GetAllKeys` fails with the error `unavailable`, and
`Cache` returns this error wrapped in the context `error getting keys`, which is not
the error itself. -/
theorem Cache_wraps_keys_error_counterexample :
    (MemStorage.ops.GetAllKeys exampleFailingKeys).1 = .error (.storage "unavailable") ∧
    (Cache RangeOrder.listedBoth MemStorage.ops 16 exampleFailingKeys).1 =
      some (.wrapW "error getting keys" (.storage "unavailable")) ∧
    (Cache RangeOrder.listedBoth MemStorage.ops 16 exampleFailingKeys).1 ≠
      some (.storage "unavailable") := by
  refine ⟨rfl, rfl, ?_⟩
  decide

/-- C12, amended: when `ToBeCached`, `SaveCaches` or `ClearCacheStack` fails with the
error `e`, `Cache` returns exactly `e`; when `GetAllKeys` or `GetNodes` fails with
`e`, `Cache` returns `e` wrapped (`%w`) in the context `error getting keys`, or
`error getting all nodes`. -/
theorem Cache_storage_error_returned (ord : Direction → RangeOrder) {σ : Type}
    (st : Storage σ) (fuel : Nat) (s : σ) :
    (∀ e s1, st.ToBeCached s = (.error e, s1) → (Cache ord st fuel s).1 = some e) ∧
    (∀ unc s1 e s2, st.ToBeCached s = (.ok unc, s1) → unc ≠ [] →
      st.GetAllKeys s1 = (.error e, s2) →
      (Cache ord st fuel s).1 = some (.wrapW "error getting keys" e)) ∧
    (∀ unc s1 keys s2 e s3, st.ToBeCached s = (.ok unc, s1) → unc ≠ [] →
      st.GetAllKeys s1 = (.ok keys, s2) → st.GetNodes keys s2 = (.error e, s3) →
      (Cache ord st fuel s).1 = some (.wrapW "error getting all nodes" e)) ∧
    (∀ unc s1 keys s2 allNodes s3 caches e s4, st.ToBeCached s = (.ok unc, s1) → unc ≠ [] →
      st.GetAllKeys s1 = (.ok keys, s2) → st.GetNodes keys s2 = (.ok allNodes, s3) →
      computeCaches ord fuel unc keys.length allNodes = .ok caches →
      st.SaveCaches caches s3 = (some e, s4) → (Cache ord st fuel s).1 = some e) ∧
    (∀ unc s1 keys s2 allNodes s3 caches s4 e s5, st.ToBeCached s = (.ok unc, s1) →
      unc ≠ [] → st.GetAllKeys s1 = (.ok keys, s2) →
      st.GetNodes keys s2 = (.ok allNodes, s3) →
      computeCaches ord fuel unc keys.length allNodes = .ok caches →
      st.SaveCaches caches s3 = (none, s4) → st.ClearCacheStack s4 = (some e, s5) →
      (Cache ord st fuel s).1 = some e) := by
  have hlen : ∀ unc : List Nat, unc ≠ [] → ¬ unc.length = 0 :=
    fun unc h e => h (List.length_eq_zero.mp e)
  refine ⟨?_, ?_, ?_, ?_, ?_⟩
  · intro e s1 h1
    simp [Cache, h1]
  · intro unc s1 e s2 h1 hne h2
    simp [Cache, h1, hlen unc hne, h2]
  · intro unc s1 keys s2 e s3 h1 hne h2 h3
    simp [Cache, h1, hlen unc hne, h2, h3]
  · intro unc s1 keys s2 allNodes s3 caches e s4 h1 hne h2 h3 h4 h5
    simp [Cache, h1, hlen unc hne, h2, h3, h4, h5]
  · intro unc s1 keys s2 allNodes s3 caches s4 e s5 h1 hne h2 h3 h4 h5 h6
    simp [Cache, h1, hlen unc hne, h2, h3, h4, h5, h6]

/-- Witness for C12, amended: the failing `GetAllKeys` of the three-node storage. -/
theorem Cache_storage_error_returned_witness :
    MemStorage.ops.ToBeCached exampleFailingKeys = (.ok [1], exampleFailingKeys) ∧
    MemStorage.ops.GetAllKeys exampleFailingKeys =
      (.error (.storage "unavailable"), exampleFailingKeys) ∧
    (Cache RangeOrder.listedBoth MemStorage.ops 16 exampleFailingKeys).1 =
      some (.wrapW "error getting keys" (.storage "unavailable")) :=
  ⟨rfl, rfl,
    (Cache_storage_error_returned RangeOrder.listedBoth MemStorage.ops 16
      exampleFailingKeys).2.1 [1] exampleFailingKeys (.storage "unavailable")
      exampleFailingKeys rfl (by simp) rfl⟩

/-! ## Reachability on concrete graphs -/

theorem Edge_iff_successors (d : Direction) (m : NodeMap) (a b : Nat) :
    Edge d m a b ↔ b ∈ successors d m a := by
  unfold Edge successors
  cases h : NodeMap.get? m a with
  | none => simp
  | some nd => simp

theorem Reach.mem_of_closed {d : Direction} {m : NodeMap} {S : List Nat}
    (hS : ClosedUnder d m S) {a x : Nat} (h : Reach d m a x) (ha : a ∈ S) : x ∈ S := by
  induction h with
  | refl => exact ha
  | tail _ e ih => exact hS _ ih _ ((Edge_iff_successors d m _ _).mp e)

theorem traverse_round_sound (d : Direction) (m : NodeMap) (n : Nat) (l : List Nat) :
    ∀ acc : Bitmap, (∀ x ∈ acc, Reach d m n x) → (∀ x ∈ l, Reach d m n x) →
      ∀ x ∈ l.foldl (fun acc a => Bitmap.Or acc (successors d m a)) acc, Reach d m n x := by
  induction l with
  | nil => intro acc h _ x hx; exact h x hx
  | cons a rest ih =>
    intro acc h hl x hx
    simp only [List.foldl_cons] at hx
    refine ih _ ?_ (fun y hy => hl y (List.mem_cons_of_mem _ hy)) x hx
    intro y hy
    rcases (Bitmap.mem_Or _ _ _).mp hy with e | e
    · exact h y e
    · exact (hl a (List.mem_cons_self _ _)).tail ((Edge_iff_successors d m a y).mpr e)

theorem traverse_sound (d : Direction) (m : NodeMap) (n : Nat) :
    ∀ k x, x ∈ traverse d m k n → Reach d m n x := by
  intro k
  induction k with
  | zero =>
    intro x hx
    simp only [traverse, List.mem_singleton] at hx
    rw [hx]
    exact Relation.ReflTransGen.refl
  | succ k ih =>
    intro x hx
    exact traverse_round_sound d m n _ _ ih ih x hx

theorem mem_traverse_self (d : Direction) (m : NodeMap) (n : Nat) :
    ∀ k, n ∈ traverse d m k n := by
  intro k
  induction k with
  | zero => simp [traverse]
  | succ k ih =>
    have : ∀ (l : List Nat) (acc : Bitmap), n ∈ acc →
        n ∈ l.foldl (fun acc a => Bitmap.Or acc (successors d m a)) acc := by
      intro l
      induction l with
      | nil => intro acc h; exact h
      | cons a rest ih2 =>
        intro acc h
        exact ih2 _ ((Bitmap.mem_Or _ _ _).mpr (Or.inl h))
    exact this _ _ ih

/-- A traversal that has stopped growing is the set of reachable nodes. -/
theorem reach_iff_traverse (d : Direction) (m : NodeMap) (n k : Nat)
    (h : ClosedUnder d m (traverse d m k n)) (x : Nat) :
    Reach d m n x ↔ x ∈ traverse d m k n :=
  ⟨fun hr => hr.mem_of_closed h (mem_traverse_self d m n k), traverse_sound d m n k x⟩

/-- What a successful run stores for an uncached node, read off a traversal that
has stopped growing in each direction. -/
theorem Cache_mem_uncached_record (ord : Direction → RangeOrder) (s : MemStorage) (N : Nat)
    (hw : WellFormed N s.nodes) (fuel : Nat) (hfuel : (N + 1) * (N + 1) ≤ fuel)
    (hsucc : (Cache ord MemStorage.ops fuel s).1 = none) (n : Nat) (hn : n ∈ s.toBeCached)
    (kc kp : Nat) (hc : ClosedUnder .ChildrenDirection s.nodes (traverse .ChildrenDirection s.nodes kc n))
    (hp : ClosedUnder .ParentsDirection s.nodes (traverse .ParentsDirection s.nodes kp n)) :
    ∃ c, (Cache ord MemStorage.ops fuel s).2.cacheOf n = some c ∧
      (∀ x, x ∈ c.allChildren ↔ x ≠ n ∧ x ∈ traverse .ChildrenDirection s.nodes kc n) ∧
      (∀ x, x ∈ c.allParents ↔ x ≠ n ∧ x ∈ traverse .ParentsDirection s.nodes kp n) := by
  have hne : s.toBeCached ≠ [] := fun e => by rw [e] at hn; simp at hn
  obtain ⟨hunc, h⟩ := (Cache_mem_spec ord s N hw hne fuel hfuel).2 hsucc
  obtain ⟨hn1, hn2⟩ := hunc n hn
  obtain ⟨c, h1, -, h3, h4⟩ := h n hn1 hn2
  have hnear : NearUncached s.nodes s.toBeCached n := ⟨n, hn, Relation.ReflTransGen.refl⟩
  refine ⟨c, h1, ?_, ?_⟩
  · intro x
    rw [h3 x, reach_iff_traverse _ _ n kc hc x]
    simp [hnear]
  · intro x
    rw [h4 x, reach_iff_traverse _ _ n kp hp x]
    simp [hnear]

theorem linkedCyclesStorage_run :
    Cache RangeOrder.listedBoth MemStorage.ops 49 linkedCyclesStorage =
      (none, { linkedCyclesStorage with
        caches :=
          [(1, ⟨1, [2, 3], [2, 3, 4, 5, 6]⟩), (2, ⟨2, [1, 3], [1, 3, 4, 5, 6]⟩),
            (3, ⟨3, [1, 2], [1, 2, 4, 5, 6]⟩), (4, ⟨4, [1, 2, 3, 5, 6], [5, 6]⟩),
            (5, ⟨5, [1, 2, 3, 4, 6], [4, 6]⟩), (6, ⟨6, [1, 2, 3, 4, 5], [4, 5]⟩)],
        toBeCached := [] }) := by
  rfl

/-- C13: on the six-node graph made of the cycles `1 → 2 → 3 → 1` and
`4 → 5 → 6 → 4` and the edge `3 → 4`, with all six nodes uncached, `Cache` succeeds
and stores `allChildren(1) = {2,3,4,5,6}`, `allChildren(4) = {5,6}` and
`allParents(6) = {1,2,3,4,5}`, whatever the order of the map iterations. -/
theorem Cache_linked_cycles (ord : Direction → RangeOrder) (fuel : Nat)
    (hfuel : (6 + 1) * (6 + 1) ≤ fuel) :
    (Cache ord MemStorage.ops fuel linkedCyclesStorage).1 = none ∧
    ∃ c1 c4 c6,
      (Cache ord MemStorage.ops fuel linkedCyclesStorage).2.cacheOf 1 = some c1 ∧
      (Cache ord MemStorage.ops fuel linkedCyclesStorage).2.cacheOf 4 = some c4 ∧
      (Cache ord MemStorage.ops fuel linkedCyclesStorage).2.cacheOf 6 = some c6 ∧
      (∀ x, x ∈ c1.allChildren ↔ x ∈ [2, 3, 4, 5, 6]) ∧
      (∀ x, x ∈ c4.allChildren ↔ x ∈ [5, 6]) ∧
      (∀ x, x ∈ c6.allParents ↔ x ∈ [1, 2, 3, 4, 5]) := by
  have hw : WellFormed 6 linkedCyclesStorage.nodes := by decide
  have hsucc : (Cache ord MemStorage.ops fuel linkedCyclesStorage).1 = none :=
    (Cache_mem_spec ord linkedCyclesStorage 6 hw (by simp [linkedCyclesStorage]) fuel hfuel).1
      rfl (by decide)
  obtain ⟨c1, a1, a2, -⟩ := Cache_mem_uncached_record ord linkedCyclesStorage 6 hw fuel hfuel
    hsucc 1 (by simp [linkedCyclesStorage]) 6 6 (by decide) (by decide)
  obtain ⟨c4, b1, b2, -⟩ := Cache_mem_uncached_record ord linkedCyclesStorage 6 hw fuel hfuel
    hsucc 4 (by simp [linkedCyclesStorage]) 6 6 (by decide) (by decide)
  obtain ⟨c6, d1, -, d3⟩ := Cache_mem_uncached_record ord linkedCyclesStorage 6 hw fuel hfuel
    hsucc 6 (by simp [linkedCyclesStorage]) 6 6 (by decide) (by decide)
  have e1 : traverse .ChildrenDirection linkedCyclesStorage.nodes 6 1 = [1, 2, 3, 4, 5, 6] := by
    rfl
  have e4 : traverse .ChildrenDirection linkedCyclesStorage.nodes 6 4 = [4, 5, 6] := by rfl
  have e6 : traverse .ParentsDirection linkedCyclesStorage.nodes 6 6 = [1, 2, 3, 4, 5, 6] := by
    rfl
  refine ⟨hsucc, c1, c4, c6, a1, b1, d1, ?_, ?_, ?_⟩
  · intro x
    rw [a2 x, e1]
    simp only [List.mem_cons, List.mem_singleton, List.not_mem_nil, or_false]
    omega
  · intro x
    rw [b2 x, e4]
    simp only [List.mem_cons, List.mem_singleton, List.not_mem_nil, or_false]
    omega
  · intro x
    rw [d3 x, e6]
    simp only [List.mem_cons, List.mem_singleton, List.not_mem_nil, or_false]
    omega

/-- Witness for C13: the run in the listed order with the budget 49. -/
theorem Cache_linked_cycles_witness :
    (6 + 1) * (6 + 1) ≤ 49 ∧
    (Cache RangeOrder.listedBoth MemStorage.ops 49 linkedCyclesStorage).1 = none ∧
    ∃ c1 c4 c6,
      (Cache RangeOrder.listedBoth MemStorage.ops 49 linkedCyclesStorage).2.cacheOf 1 =
        some c1 ∧
      (Cache RangeOrder.listedBoth MemStorage.ops 49 linkedCyclesStorage).2.cacheOf 4 =
        some c4 ∧
      (Cache RangeOrder.listedBoth MemStorage.ops 49 linkedCyclesStorage).2.cacheOf 6 =
        some c6 ∧
      (∀ x, x ∈ c1.allChildren ↔ x ∈ [2, 3, 4, 5, 6]) ∧
      (∀ x, x ∈ c4.allChildren ↔ x ∈ [5, 6]) ∧
      (∀ x, x ∈ c6.allParents ↔ x ∈ [1, 2, 3, 4, 5]) :=
  ⟨by decide, Cache_linked_cycles RangeOrder.listedBoth 49 (by decide)⟩

theorem figureEight_traverse (d : Direction) :
    ∀ u ∈ [1, 2, 3, 4, 5, 6, 7],
      ClosedUnder d figureEightStorage.nodes (traverse d figureEightStorage.nodes 7 u) ∧
      traverse d figureEightStorage.nodes 7 u = [1, 2, 3, 4, 5, 6, 7] := by
  cases d <;> decide

theorem figureEight_reach (d : Direction) (u x : Nat) (hu : 1 ≤ u ∧ u ≤ 7) :
    Reach d figureEightStorage.nodes u x ↔ 1 ≤ x ∧ x ≤ 7 := by
  have hmem : u ∈ [1, 2, 3, 4, 5, 6, 7] := by
    simp only [List.mem_cons, List.mem_singleton, List.not_mem_nil, or_false]
    omega
  obtain ⟨h1, h2⟩ := figureEight_traverse d u hmem
  rw [reach_iff_traverse d _ u 7 h1 x, h2]
  simp only [List.mem_cons, List.mem_singleton, List.not_mem_nil, or_false]
  omega

theorem figureEightStorage_run :
    Cache RangeOrder.listedBoth MemStorage.ops 64 figureEightStorage =
      (none, { figureEightStorage with
        caches :=
          [(1, ⟨1, [2, 3, 4, 5, 6, 7], [2, 3, 4, 5, 6, 7]⟩),
            (2, ⟨2, [1, 3, 4, 5, 6, 7], [1, 3, 4, 5, 6, 7]⟩),
            (3, ⟨3, [1, 2, 4, 5, 6, 7], [1, 2, 4, 5, 6, 7]⟩),
            (4, ⟨4, [1, 2, 3, 5, 6, 7], [1, 2, 3, 5, 6, 7]⟩),
            (5, ⟨5, [1, 2, 3, 4, 6, 7], [1, 2, 3, 4, 6, 7]⟩),
            (6, ⟨6, [1, 2, 3, 4, 5, 7], [1, 2, 3, 4, 5, 7]⟩),
            (7, ⟨7, [1, 2, 3, 4, 5, 6], [1, 2, 3, 4, 5, 6]⟩)],
        toBeCached := [] }) := by
  rfl

theorem figureEight_findCycles :
    findCycles 64 .ChildrenDirection 7 figureEightStorage.nodes =
      .ok [(1, 1), (2, 1), (3, 1), (4, 1), (5, 1), (6, 1), (7, 1)] ∧
    findCycles 64 .ParentsDirection 7 figureEightStorage.nodes =
      .ok [(1, 1), (3, 1), (2, 1), (7, 1), (6, 1), (5, 1), (4, 1)] :=
  ⟨rfl, rfl⟩

/-- C14: on the seven-node figure eight, the cycles `1 → 2 → 3 → 1` and
`4 → 5 → 6 → 7 → 4` joined by `3 → 4` and `7 → 2`, with all nodes uncached:
`findCycles` gives all seven nodes one and the same value, in both directions, and
`Cache` succeeds and stores for every node `n` the six other nodes as `allChildren`
and as `allParents`. -/
theorem Cache_figure_eight (ord : Direction → RangeOrder) (fuel : Nat)
    (hfuel : (7 + 1) * (7 + 1) ≤ fuel) :
    (∀ d, ∃ scc r, findCycles fuel d 7 figureEightStorage.nodes = .ok scc ∧
      ∀ u, 1 ≤ u → u ≤ 7 → IdMap.get? scc u = some r) ∧
    (Cache ord MemStorage.ops fuel figureEightStorage).1 = none ∧
    ∀ n, 1 ≤ n → n ≤ 7 →
      ∃ c, (Cache ord MemStorage.ops fuel figureEightStorage).2.cacheOf n = some c ∧
        (∀ x, x ∈ c.allChildren ↔ (1 ≤ x ∧ x ≤ 7 ∧ x ≠ n)) ∧
        (∀ x, x ∈ c.allParents ↔ (1 ≤ x ∧ x ≤ 7 ∧ x ≠ n)) := by
  have hw : WellFormed 7 figureEightStorage.nodes := by decide
  have hne : figureEightStorage.toBeCached ≠ [] := by simp [figureEightStorage]
  have hunc : ∀ u ∈ figureEightStorage.toBeCached, 1 ≤ u ∧ u ≤ 7 := by decide
  have hsucc : (Cache ord MemStorage.ops fuel figureEightStorage).1 = none :=
    (Cache_mem_spec ord figureEightStorage 7 hw hne fuel hfuel).1 rfl hunc
  refine ⟨?_, hsucc, ?_⟩
  · intro d
    obtain ⟨scc, h1, h2, -, -, h4⟩ := findCycles_spec (d := d) hw.1 fuel (by omega)
    have hdef := h2 1 (by omega) (by omega)
    cases hr : IdMap.get? scc 1 with
    | none => rw [hr] at hdef; cases hdef
    | some r =>
      refine ⟨scc, r, h1, ?_⟩
      intro u hu1 hu2
      have hsame : SameSCC d figureEightStorage.nodes u 1 :=
        ⟨(figureEight_reach d u 1 ⟨hu1, hu2⟩).mpr (by omega),
          (figureEight_reach d 1 u (by omega)).mpr ⟨hu1, hu2⟩⟩
      have he := (h4 u 1 hu1 hu2 (by omega) (by omega)).mpr hsame
      have hd := h2 u hu1 hu2
      cases hq : IdMap.get? scc u with
      | none => rw [hq] at hd; cases hd
      | some q =>
        simp only [IdMap.get, hq, hr, Option.getD_some] at he
        rw [he]
  · intro n hn1 hn2
    obtain ⟨-, h⟩ := (Cache_mem_spec ord figureEightStorage 7 hw hne fuel hfuel).2 hsucc
    obtain ⟨c, c1, -, c3, c4⟩ := h n hn1 hn2
    have hnear : NearUncached figureEightStorage.nodes figureEightStorage.toBeCached n := by
      refine ⟨n, ?_, Relation.ReflTransGen.refl⟩
      simp only [figureEightStorage, List.mem_cons, List.mem_singleton, List.not_mem_nil,
        or_false]
      omega
    refine ⟨c, c1, ?_, ?_⟩
    · intro x
      rw [c3 x, figureEight_reach _ n x ⟨hn1, hn2⟩]
      simp only [hnear, true_and, not_true_eq_false, false_and, or_false]
      tauto
    · intro x
      rw [c4 x, figureEight_reach _ n x ⟨hn1, hn2⟩]
      simp only [hnear, true_and, not_true_eq_false, false_and, or_false]
      tauto

/-- Witness for C14: the run in the listed order with the budget 64. -/
theorem Cache_figure_eight_witness :
    (7 + 1) * (7 + 1) ≤ 64 ∧
    (∀ d, ∃ scc r, findCycles 64 d 7 figureEightStorage.nodes = .ok scc ∧
      ∀ u, 1 ≤ u → u ≤ 7 → IdMap.get? scc u = some r) ∧
    (Cache RangeOrder.listedBoth MemStorage.ops 64 figureEightStorage).1 = none ∧
    ∀ n, 1 ≤ n → n ≤ 7 →
      ∃ c, (Cache RangeOrder.listedBoth MemStorage.ops 64 figureEightStorage).2.cacheOf n =
          some c ∧
        (∀ x, x ∈ c.allChildren ↔ (1 ≤ x ∧ x ≤ 7 ∧ x ≠ n)) ∧
        (∀ x, x ∈ c.allParents ↔ (1 ≤ x ∧ x ≤ 7 ∧ x ≠ n)) :=
  ⟨by decide, Cache_figure_eight RangeOrder.listedBoth 64 (by decide)⟩

/-- Counterexample to C15: with the node ids 1, 2, 3, 10, 11, 12 the loop of
`findCycles` over `1..6` looks up node 4, which does not exist, and dereferences the
missing node: `Cache` does not succeed and saves nothing. -/
theorem Cache_sparse_ids_counterexample :
    sparseStorage.nodes.map Prod.fst = [1, 2, 3, 10, 11, 12] ∧
    findCycles 49 .ChildrenDirection 6 sparseStorage.nodes = .error .nilDereference ∧
    (Cache RangeOrder.listedBoth MemStorage.ops 49 sparseStorage).1 =
      some .nilDereference ∧
    (Cache RangeOrder.listedBoth MemStorage.ops 49 sparseStorage).2.caches = [] :=
  ⟨rfl, rfl, rfl, rfl⟩

theorem separateCycles_traverse (d : Direction) :
    ∀ u ∈ [1, 2, 3, 4, 5, 6, 7, 8, 9, 10, 11, 12],
      ClosedUnder d (separateCyclesStorage []).nodes
        (traverse d (separateCyclesStorage []).nodes 3 u) ∧
      traverse d (separateCyclesStorage []).nodes 3 u =
        if u ≤ 3 then [1, 2, 3] else if 10 ≤ u then [10, 11, 12] else [u] := by
  cases d <;> decide

theorem separateCycles_reach (d : Direction) (unc : List Nat) (u x : Nat)
    (hu : 1 ≤ u ∧ u ≤ 12) :
    Reach d (separateCyclesStorage unc).nodes u x ↔
      ((u ≤ 3 ∧ 1 ≤ x ∧ x ≤ 3) ∨ (10 ≤ u ∧ 10 ≤ x ∧ x ≤ 12) ∨
        (4 ≤ u ∧ u ≤ 9 ∧ x = u)) := by
  have hmem : u ∈ [1, 2, 3, 4, 5, 6, 7, 8, 9, 10, 11, 12] := by
    simp only [List.mem_cons, List.mem_singleton, List.not_mem_nil, or_false]
    omega
  obtain ⟨h1, h2⟩ := separateCycles_traverse d u hmem
  show Reach d (separateCyclesStorage []).nodes u x ↔ _
  rw [reach_iff_traverse d _ u 3 h1 x, h2]
  by_cases h : u ≤ 3
  · rw [if_pos h]
    simp only [List.mem_cons, List.mem_singleton, List.not_mem_nil, or_false]
    omega
  · rw [if_neg h]
    by_cases h' : 10 ≤ u
    · rw [if_pos h']
      simp only [List.mem_cons, List.mem_singleton, List.not_mem_nil, or_false]
      omega
    · rw [if_neg h']
      simp only [List.mem_cons, List.mem_singleton, List.not_mem_nil, or_false]
      omega

/-- C15, amended: on the graph with the nodes `1..12` made of the two separate cycles
`1 → 2 → 3 → 1` and `10 → 11 → 12 → 10` and of the nodes `4..9` without edges, with
an uncached list of node ids that contains the six nodes of the cycles, `Cache`
succeeds and stores for each node of a cycle, as `allChildren` and as `allParents`,
exactly its two cycle peers, and for each node without edges two empty sets. -/
theorem Cache_separate_cycles (ord : Direction → RangeOrder) (unc : List Nat)
    (hunc : ∀ u ∈ unc, 1 ≤ u ∧ u ≤ 12) (hcyc : ∀ n ∈ [1, 2, 3, 10, 11, 12], n ∈ unc)
    (fuel : Nat) (hfuel : (12 + 1) * (12 + 1) ≤ fuel) :
    (Cache ord MemStorage.ops fuel (separateCyclesStorage unc)).1 = none ∧
    ∀ n, 1 ≤ n → n ≤ 12 →
      ∃ c, (Cache ord MemStorage.ops fuel (separateCyclesStorage unc)).2.cacheOf n = some c ∧
        (∀ x, x ∈ c.allChildren ↔
          (x ≠ n ∧ ((n ≤ 3 ∧ 1 ≤ x ∧ x ≤ 3) ∨ (10 ≤ n ∧ 10 ≤ x ∧ x ≤ 12)))) ∧
        (∀ x, x ∈ c.allParents ↔
          (x ≠ n ∧ ((n ≤ 3 ∧ 1 ≤ x ∧ x ≤ 3) ∨ (10 ≤ n ∧ 10 ≤ x ∧ x ≤ 12)))) := by
  have hw : WellFormed 12 (separateCyclesStorage unc).nodes := by
    show WellFormed 12 (separateCyclesStorage []).nodes
    decide
  have hne : (separateCyclesStorage unc).toBeCached ≠ [] := by
    intro e
    have := hcyc 1 (by simp)
    rw [show unc = [] from e] at this
    cases this
  have hsucc : (Cache ord MemStorage.ops fuel (separateCyclesStorage unc)).1 = none :=
    (Cache_mem_spec ord (separateCyclesStorage unc) 12 hw hne fuel hfuel).1 rfl hunc
  refine ⟨hsucc, ?_⟩
  intro n hn1 hn2
  obtain ⟨-, h⟩ := (Cache_mem_spec ord (separateCyclesStorage unc) 12 hw hne fuel hfuel).2 hsucc
  obtain ⟨c, c1, -, c3, c4⟩ := h n hn1 hn2
  have key : ∀ (d : Direction) (x : Nat),
      (x ≠ n ∧ ((NearUncached (separateCyclesStorage unc).nodes
            (separateCyclesStorage unc).toBeCached n ∧
          Reach d (separateCyclesStorage unc).nodes n x) ∨
        (¬ NearUncached (separateCyclesStorage unc).nodes
            (separateCyclesStorage unc).toBeCached n ∧
          SameSCC d (separateCyclesStorage unc).nodes n x))) ↔
      (x ≠ n ∧ ((n ≤ 3 ∧ 1 ≤ x ∧ x ≤ 3) ∨ (10 ≤ n ∧ 10 ≤ x ∧ x ≤ 12))) := by
    intro d x
    have hr := separateCycles_reach d unc n x ⟨hn1, hn2⟩
    by_cases hiso : 4 ≤ n ∧ n ≤ 9
    · constructor
      · rintro ⟨hx, ⟨-, r⟩ | ⟨-, r, -⟩⟩
        · have := hr.mp r
          omega
        · have := hr.mp r
          omega
      · rintro ⟨hx, k⟩
        omega
    · have hin : n ∈ unc := hcyc n (by
        simp only [List.mem_cons, List.mem_singleton, List.not_mem_nil, or_false]
        omega)
      have hnear : NearUncached (separateCyclesStorage unc).nodes
          (separateCyclesStorage unc).toBeCached n := ⟨n, hin, Relation.ReflTransGen.refl⟩
      simp only [hnear, true_and, not_true_eq_false, false_and, or_false, hr]
      constructor
      · rintro ⟨hx, k⟩
        exact ⟨hx, by omega⟩
      · rintro ⟨hx, k⟩
        exact ⟨hx, by omega⟩
  refine ⟨c, c1, ?_, ?_⟩
  · intro x
    rw [c3 x]
    exact key _ x
  · intro x
    rw [c4 x]
    exact key _ x

/-- Witness for C15, amended: the run in the listed order with all twelve nodes
uncached and the budget 169, which stores `allChildren(10) = {11, 12}` and
`allChildren(1) = {2, 3}`. -/
theorem Cache_separate_cycles_witness :
    (∀ u ∈ [1, 2, 3, 4, 5, 6, 7, 8, 9, 10, 11, 12], 1 ≤ u ∧ u ≤ 12) ∧
    (∀ n ∈ [1, 2, 3, 10, 11, 12], n ∈ [1, 2, 3, 4, 5, 6, 7, 8, 9, 10, 11, 12]) ∧
    (12 + 1) * (12 + 1) ≤ 169 ∧
    (Cache RangeOrder.listedBoth MemStorage.ops 169
      (separateCyclesStorage [1, 2, 3, 4, 5, 6, 7, 8, 9, 10, 11, 12])).2.cacheOf 10 =
        some ⟨10, [11, 12], [11, 12]⟩ ∧
    (Cache RangeOrder.listedBoth MemStorage.ops 169
      (separateCyclesStorage [1, 2, 3, 4, 5, 6, 7, 8, 9, 10, 11, 12])).2.cacheOf 1 =
        some ⟨1, [2, 3], [2, 3]⟩ ∧
    (Cache RangeOrder.listedBoth MemStorage.ops 169
      (separateCyclesStorage [1, 2, 3, 4, 5, 6, 7, 8, 9, 10, 11, 12])).1 = none ∧
    ∀ n, 1 ≤ n → n ≤ 12 →
      ∃ c, (Cache RangeOrder.listedBoth MemStorage.ops 169
          (separateCyclesStorage [1, 2, 3, 4, 5, 6, 7, 8, 9, 10, 11, 12])).2.cacheOf n =
            some c ∧
        (∀ x, x ∈ c.allChildren ↔
          (x ≠ n ∧ ((n ≤ 3 ∧ 1 ≤ x ∧ x ≤ 3) ∨ (10 ≤ n ∧ 10 ≤ x ∧ x ≤ 12)))) ∧
        (∀ x, x ∈ c.allParents ↔
          (x ≠ n ∧ ((n ≤ 3 ∧ 1 ≤ x ∧ x ≤ 3) ∨ (10 ≤ n ∧ 10 ≤ x ∧ x ≤ 12)))) :=
  ⟨by decide, by decide, by decide, rfl, rfl,
    Cache_separate_cycles RangeOrder.listedBoth [1, 2, 3, 4, 5, 6, 7, 8, 9, 10, 11, 12]
      (by decide) (by decide) 169 (by decide)⟩

/-! ## Seeding: the stored bitmaps do not depend on the order -/

theorem Bitmap.Add_ascending (b : Bitmap) (x : Nat) (h : b.Pairwise (· < ·)) :
    (Bitmap.Add b x).Pairwise (· < ·) := by
  induction b with
  | nil => simp [Bitmap.Add]
  | cons y ys ih =>
    have hys := (List.pairwise_cons.mp h).2
    have hy := (List.pairwise_cons.mp h).1
    unfold Bitmap.Add
    split_ifs with h1 h2
    · refine List.pairwise_cons.mpr ⟨?_, h⟩
      intro a ha
      rcases List.mem_cons.mp ha with e | e
      · rw [e]; exact h1
      · exact lt_trans h1 (hy a e)
    · exact h
    · refine List.pairwise_cons.mpr ⟨?_, ih hys⟩
      intro a ha
      rcases (Bitmap.mem_Add ys x a).mp ha with e | e
      · rw [e]; omega
      · exact hy a e

theorem Bitmap.Or_ascending (a b : Bitmap) (h : a.Pairwise (· < ·)) :
    (Bitmap.Or a b).Pairwise (· < ·) := by
  unfold Bitmap.Or
  induction b generalizing a with
  | nil => exact h
  | cons x rest ih => exact ih _ (Bitmap.Add_ascending a x h)

theorem Bitmap.AndNot_ascending (a b : Bitmap) (h : a.Pairwise (· < ·)) :
    (Bitmap.AndNot a b).Pairwise (· < ·) :=
  List.Pairwise.filter _ h

/-- Two ascending bitmaps with the same elements are the same list. -/
theorem Bitmap.eq_of_mem_iff (a b : Bitmap) (ha : a.Pairwise (· < ·)) (hb : b.Pairwise (· < ·))
    (h : ∀ x, x ∈ a ↔ x ∈ b) : a = b := by
  have na : a.Nodup := ha.imp (fun h => Nat.ne_of_lt h)
  have nb : b.Nodup := hb.imp (fun h => Nat.ne_of_lt h)
  exact List.eq_of_perm_of_sorted ((List.perm_ext_iff_of_nodup na nb).mpr h) ha hb

theorem gatherGroup_ascending (m : NodeMap) :
    ∀ (ks : List String) (acc out : GroupAcc), gatherGroup m ks acc = .ok out →
      acc.keycache.Pairwise (· < ·) → acc.childrenCache.Pairwise (· < ·) →
      acc.parentCache.Pairwise (· < ·) →
      out.keycache.Pairwise (· < ·) ∧ out.childrenCache.Pairwise (· < ·) ∧
        out.parentCache.Pairwise (· < ·) := by
  intro ks
  induction ks with
  | nil =>
    intro acc out h h1 h2 h3
    simp only [gatherGroup] at h
    cases h
    exact ⟨h1, h2, h3⟩
  | cons key rest ih =>
    intro acc out h h1 h2 h3
    unfold gatherGroup at h
    cases ha : Atoi key with
    | error e => simp [ha] at h
    | ok k =>
      simp only [ha] at h
      cases hg : NodeMap.get? m k with
      | none => simp [hg] at h
      | some nd =>
        simp only [hg] at h
        exact ih _ out h (Bitmap.Add_ascending _ _ (Bitmap.Add_ascending _ _ h1))
          (Bitmap.Or_ascending _ _ h2) (Bitmap.Or_ascending _ _ h3)

theorem ascending_setValue (vals : List (String × Bitmap))
    (h : ∀ c v, NativeKeyManagement.lookupValue vals c = some v → v.Pairwise (· < ·))
    (key : String) (v : Bitmap) (hv : v.Pairwise (· < ·)) :
    ∀ c w, NativeKeyManagement.lookupValue (NativeKeyManagement.setValue vals key v) c = some w →
      w.Pairwise (· < ·) := by
  intro c w hw
  simp only [NativeKeyManagement.lookupValue_setValue] at hw
  split_ifs at hw with e
  · cases hw; exact hv
  · exact h c w hw

theorem NativeKeyManagement.Ascending.view {km : NativeKeyManagement} (h : km.Ascending)
    (key : String) : (km.view key).Pairwise (· < ·) := by
  unfold NativeKeyManagement.view
  cases hv : NativeKeyManagement.lookupValue km.values (km.canonical key) with
  | none => simp [Bitmap.New]
  | some v => exact h _ v hv

theorem addGroup_ascending (m : NodeMap) (ks : List String) (M0 M : BindMaps)
    (h : addGroup m ks M0 = .ok M) (h1 : M0.cache.Ascending) (h2 : M0.children.Ascending)
    (h3 : M0.parents.Ascending) :
    M.cache.Ascending ∧ M.children.Ascending ∧ M.parents.Ascending := by
  unfold addGroup at h
  cases ks with
  | nil =>
    simp only [NativeKeyManagement.BindKeys, gatherGroup] at h
    cases h
    exact ⟨h1, h2, h3⟩
  | cons first rest =>
    simp only [NativeKeyManagement.BindKeys] at h
    cases hg : gatherGroup m (first :: rest)
        { keycache := Bitmap.New, childrenCache := Bitmap.New, parentCache := Bitmap.New } with
    | error e => simp [hg] at h
    | ok acc =>
      obtain ⟨a1, a2, a3⟩ := gatherGroup_ascending m _ _ acc hg (by simp [Bitmap.New])
        (by simp [Bitmap.New]) (by simp [Bitmap.New])
      simp only [hg, NativeKeyManagement.Set] at h
      cases h
      refine ⟨?_, ?_, ?_⟩
      · exact ascending_setValue _ h1 _ _ a1
      · exact ascending_setValue _ h2 _ _ (Bitmap.AndNot_ascending _ _ a2)
      · exact ascending_setValue _ h3 _ _ (Bitmap.AndNot_ascending _ _ a3)

theorem addGroups_ascending (m : NodeMap) :
    ∀ (G : List (Nat × List String)) (M0 M : BindMaps), addGroups m G M0 = .ok M →
      M0.cache.Ascending → M0.children.Ascending → M0.parents.Ascending →
      M.cache.Ascending ∧ M.children.Ascending ∧ M.parents.Ascending := by
  intro G
  induction G with
  | nil =>
    intro M0 M h h1 h2 h3
    simp only [addGroups] at h
    cases h
    exact ⟨h1, h2, h3⟩
  | cons p rest ih =>
    intro M0 M h h1 h2 h3
    obtain ⟨r, ks⟩ := p
    unfold addGroups at h
    cases hg : addGroup m ks M0 with
    | error e => simp [hg] at h
    | ok M1 =>
      simp only [hg] at h
      obtain ⟨a1, a2, a3⟩ := addGroup_ascending m ks M0 M1 hg h1 h2 h3
      exact ih M1 M h a1 a2 a3

theorem NativeKeyManagement.New_Ascending : NativeKeyManagement.New.Ascending := by
  intro c v h
  simp [NativeKeyManagement.New, NativeKeyManagement.lookupValue] at h

theorem addCyclesToBindMap_ascending (ord : RangeOrder) (scc : IdMap) (m : NodeMap)
    (M : BindMaps)
    (h : addCyclesToBindMap ord scc
      { cache := NativeKeyManagement.New, children := NativeKeyManagement.New,
        parents := NativeKeyManagement.New } m = .ok M) :
    M.cache.Ascending ∧ M.children.Ascending ∧ M.parents.Ascending :=
  addGroups_ascending m _ _ M h NativeKeyManagement.New_Ascending
    NativeKeyManagement.New_Ascending NativeKeyManagement.New_Ascending

/-- C16: on a node map with keys `1..N` and adjacency ids in `1..N`, for a map `scc`
defined on `1..N`, `addCyclesToBindMap` on fresh maps returns, and then for every
node `u`, with the group of `u` the nodes `x` such that `scc[x] = scc[u]`:
`cache.Get(u)` is the group, `children.Get(u)` is the union of the `Children` of
the members with the group taken out, `parents.Get(u)` the same for `Parents`; and
under any other order of the two map iterations the three maps give the same
bitmaps. -/
theorem addCyclesToBindMap_group_slots (ord ord2 : RangeOrder) (m : NodeMap) (N : Nat)
    (hk : KeysInRange N m) (scc : IdMap) (hn : (scc.map Prod.fst).Nodup)
    (hdom : ∀ u, (IdMap.get? scc u).isSome = true ↔ (1 ≤ u ∧ u ≤ N)) :
    ∃ M M2,
      addCyclesToBindMap ord scc
        { cache := NativeKeyManagement.New, children := NativeKeyManagement.New,
          parents := NativeKeyManagement.New } m = .ok M ∧
      addCyclesToBindMap ord2 scc
        { cache := NativeKeyManagement.New, children := NativeKeyManagement.New,
          parents := NativeKeyManagement.New } m = .ok M2 ∧
      ∀ u, 1 ≤ u → u ≤ N →
        (∃ g c p, M.cache.Get (Itoa u) = .ok g ∧ M.children.Get (Itoa u) = .ok c ∧
          M.parents.Get (Itoa u) = .ok p ∧
          (∀ x, x ∈ g ↔ (1 ≤ x ∧ x ≤ N ∧ IdMap.get scc x = IdMap.get scc u)) ∧
          (∀ x, x ∈ c ↔
            (∃ v nd, 1 ≤ v ∧ v ≤ N ∧ IdMap.get scc v = IdMap.get scc u ∧
              NodeMap.get? m v = some nd ∧ x ∈ nd.Children) ∧ x ∉ g) ∧
          (∀ x, x ∈ p ↔
            (∃ v nd, 1 ≤ v ∧ v ≤ N ∧ IdMap.get scc v = IdMap.get scc u ∧
              NodeMap.get? m v = some nd ∧ x ∈ nd.Parents) ∧ x ∉ g)) ∧
        M2.cache.Get (Itoa u) = M.cache.Get (Itoa u) ∧
        M2.children.Get (Itoa u) = M.children.Get (Itoa u) ∧
        M2.parents.Get (Itoa u) = M.parents.Get (Itoa u) := by
  obtain ⟨M, hM, hs⟩ := addCyclesToBindMap_spec ord hk scc hn hdom
  obtain ⟨M2, hM2, hs2⟩ := addCyclesToBindMap_spec ord2 hk scc hn hdom
  obtain ⟨a1, a2, a3⟩ := addCyclesToBindMap_ascending ord scc m M hM
  obtain ⟨b1, b2, b3⟩ := addCyclesToBindMap_ascending ord2 scc m M2 hM2
  refine ⟨M, M2, hM, hM2, ?_⟩
  intro u hu1 hu2
  have hg := hs.cache_view u hu1 hu2
  refine ⟨⟨M.cache.view (Itoa u), M.children.view (Itoa u), M.parents.view (Itoa u), rfl, rfl,
    rfl, hg, ?_, ?_⟩, ?_, ?_, ?_⟩
  · intro x
    rw [hs.children_view u hu1 hu2 x, hg x]
    constructor
    · rintro ⟨⟨v, hv1, hv2, hv3, nd, hnd, hx⟩, hne⟩
      exact ⟨⟨v, nd, hv1, hv2, hv3, hnd, hx⟩, fun e => hne e.2.2⟩
    · rintro ⟨⟨v, nd, hv1, hv2, hv3, hnd, hx⟩, hne⟩
      have he : Edge .ChildrenDirection m v x := ⟨nd, hnd, hx⟩
      have hxr := (Edge.range_edge hk he).2
      exact ⟨⟨v, hv1, hv2, hv3, he⟩, fun e => hne ⟨hxr.1, hxr.2, e⟩⟩
  · intro x
    rw [hs.parents_view u hu1 hu2 x, hg x]
    constructor
    · rintro ⟨⟨v, hv1, hv2, hv3, nd, hnd, hx⟩, hne⟩
      exact ⟨⟨v, nd, hv1, hv2, hv3, hnd, hx⟩, fun e => hne e.2.2⟩
    · rintro ⟨⟨v, nd, hv1, hv2, hv3, hnd, hx⟩, hne⟩
      have he : Edge .ParentsDirection m v x := ⟨nd, hnd, hx⟩
      have hxr := (Edge.range_edge hk he).2
      exact ⟨⟨v, hv1, hv2, hv3, he⟩, fun e => hne ⟨hxr.1, hxr.2, e⟩⟩
  · rw [NativeKeyManagement.Get_eq, NativeKeyManagement.Get_eq]
    congr 1
    apply Bitmap.eq_of_mem_iff _ _ (b1.view _) (a1.view _)
    intro x
    rw [hs2.cache_view u hu1 hu2 x, hs.cache_view u hu1 hu2 x]
  · rw [NativeKeyManagement.Get_eq, NativeKeyManagement.Get_eq]
    congr 1
    apply Bitmap.eq_of_mem_iff _ _ (b2.view _) (a2.view _)
    intro x
    rw [hs2.children_view u hu1 hu2 x, hs.children_view u hu1 hu2 x]
  · rw [NativeKeyManagement.Get_eq, NativeKeyManagement.Get_eq]
    congr 1
    apply Bitmap.eq_of_mem_iff _ _ (b3.view _) (a3.view _)
    intro x
    rw [hs2.parents_view u hu1 hu2 x, hs.parents_view u hu1 hu2 x]

/-- Witness for C16: nodes 1 and 2 in one group, node 3 alone, seeded in the listed
order and in the reverse order. -/
theorem addCyclesToBindMap_group_slots_witness :
    KeysInRange 3 tailedCycleNodes ∧
    ∃ M M2,
      addCyclesToBindMap RangeOrder.listed [(1, 1), (2, 1), (3, 3)]
        { cache := NativeKeyManagement.New, children := NativeKeyManagement.New,
          parents := NativeKeyManagement.New } tailedCycleNodes = .ok M ∧
      addCyclesToBindMap RangeOrder.reversed [(1, 1), (2, 1), (3, 3)]
        { cache := NativeKeyManagement.New, children := NativeKeyManagement.New,
          parents := NativeKeyManagement.New } tailedCycleNodes = .ok M2 ∧
      ∀ u, 1 ≤ u → u ≤ 3 →
        (∃ g c p, M.cache.Get (Itoa u) = .ok g ∧ M.children.Get (Itoa u) = .ok c ∧
          M.parents.Get (Itoa u) = .ok p ∧
          (∀ x, x ∈ g ↔ (1 ≤ x ∧ x ≤ 3 ∧
            IdMap.get [(1, 1), (2, 1), (3, 3)] x = IdMap.get [(1, 1), (2, 1), (3, 3)] u)) ∧
          (∀ x, x ∈ c ↔
            (∃ v nd, 1 ≤ v ∧ v ≤ 3 ∧
              IdMap.get [(1, 1), (2, 1), (3, 3)] v = IdMap.get [(1, 1), (2, 1), (3, 3)] u ∧
              NodeMap.get? tailedCycleNodes v = some nd ∧ x ∈ nd.Children) ∧ x ∉ g) ∧
          (∀ x, x ∈ p ↔
            (∃ v nd, 1 ≤ v ∧ v ≤ 3 ∧
              IdMap.get [(1, 1), (2, 1), (3, 3)] v = IdMap.get [(1, 1), (2, 1), (3, 3)] u ∧
              NodeMap.get? tailedCycleNodes v = some nd ∧ x ∈ nd.Parents) ∧ x ∉ g)) ∧
        M2.cache.Get (Itoa u) = M.cache.Get (Itoa u) ∧
        M2.children.Get (Itoa u) = M.children.Get (Itoa u) ∧
        M2.parents.Get (Itoa u) = M.parents.Get (Itoa u) :=
  ⟨by decide,
    addCyclesToBindMap_group_slots RangeOrder.listed RangeOrder.reversed tailedCycleNodes 3
      (by decide) [(1, 1), (2, 1), (3, 3)] (by decide) (by
        intro u
        simp only [IdMap.get?]
        by_cases h1 : 1 = u
        · subst h1; simp
        · by_cases h2 : 2 = u
          · subst h2; simp
          · by_cases h3 : 3 = u
            · subst h3; simp
            · simp only [h1, h2, h3, if_false, Option.isSome_none, Bool.false_eq_true,
                false_iff]
              omega)⟩

/-- The two seedings of the witness for C16 bind the keys differently and read the
same. -/
theorem tailedCycle_seedings :
    addCyclesToBindMap RangeOrder.listed [(1, 1), (2, 1), (3, 3)]
        { cache := NativeKeyManagement.New, children := NativeKeyManagement.New,
          parents := NativeKeyManagement.New } tailedCycleNodes =
      .ok
        { cache :=
            { bindings := [("1", "1"), ("2", "1"), ("3", "3")],
              values := [("1", [1, 2]), ("3", [3])] },
          children :=
            { bindings := [("1", "1"), ("2", "1"), ("3", "3")],
              values := [("1", [3]), ("3", [])] },
          parents :=
            { bindings := [("1", "1"), ("2", "1"), ("3", "3")],
              values := [("1", []), ("3", [2])] } } ∧
    addCyclesToBindMap RangeOrder.reversed [(1, 1), (2, 1), (3, 3)]
        { cache := NativeKeyManagement.New, children := NativeKeyManagement.New,
          parents := NativeKeyManagement.New } tailedCycleNodes =
      .ok
        { cache :=
            { bindings := [("2", "2"), ("1", "2"), ("3", "3")],
              values := [("2", [1, 2]), ("3", [3])] },
          children :=
            { bindings := [("2", "2"), ("1", "2"), ("3", "3")],
              values := [("2", [3]), ("3", [])] },
          parents :=
            { bindings := [("2", "2"), ("1", "2"), ("3", "3")],
              values := [("2", []), ("3", [2])] } } :=
  ⟨rfl, rfl⟩

/-! ## `findCycles`: the discovery index -/

theorem IdMap.set_fresh (m : IdMap) (k v : Nat) (h : (IdMap.get? m k).isNone = true) :
    IdMap.set m k v = m ++ [(k, v)] := by
  induction m with
  | nil => rfl
  | cons p rest ih =>
    obtain ⟨a, b⟩ := p
    unfold IdMap.get? at h
    unfold IdMap.set
    split_ifs at h with e
    · simp at h
    · simp only [e, if_false, List.cons_append, ih h]

theorem IdMap.isNone_iff (m : IdMap) (k : Nat) :
    (IdMap.get? m k).isNone = true ↔ k ∉ m.map Prod.fst := by
  rw [← IdMap.get?_isSome_iff]
  cases IdMap.get? m k <;> simp

theorem popComponent_numbering (x : Nat) :
    ∀ (stack : List Nat) (st : TarjanState),
      (popComponent x stack st).nodeToTarjanID = st.nodeToTarjanID ∧
      (popComponent x stack st).currentTarjanID = st.currentTarjanID := by
  intro stack
  induction stack with
  | nil => intro st; exact ⟨rfl, rfl⟩
  | cons a rest ih =>
    intro st
    unfold popComponent
    by_cases h : x = a
    · simp only [h, if_true]
      exact ⟨trivial, trivial⟩
    · simp only [h, if_false]
      exact ih _

/-- The loop of `tarjanDFS` over the neighbours visits what the depth-first visit
visits, given that the recursive calls do. -/
theorem tarjanLoop_visits (dfs : Nat → TarjanState → Except Error TarjanState)
    (vdfs : Nat → List Nat → List Nat)
    (hdfs : ∀ y s s', dfs y s = .ok s' → (IdMap.get? s.nodeToTarjanID y).isNone = true →
      s.Numbered → s'.nodeToTarjanID.map Prod.fst = vdfs y (s.nodeToTarjanID.map Prod.fst) ∧
        s'.Numbered) (x : Nat) :
    ∀ (rest : List Nat) (s s' : TarjanState), tarjanLoop dfs x rest s = .ok s' → s.Numbered →
      s'.nodeToTarjanID.map Prod.fst = visitLoop vdfs rest (s.nodeToTarjanID.map Prod.fst) ∧
        s'.Numbered := by
  intro rest
  induction rest with
  | nil =>
    intro s s' h hn
    simp only [tarjanLoop] at h
    cases h
    exact ⟨rfl, hn⟩
  | cons y rest ih =>
    intro s s' h hn
    unfold tarjanLoop at h
    unfold visitLoop
    by_cases hv : (IdMap.get? s.nodeToTarjanID y).isNone = true
    · have hy : y ∉ s.nodeToTarjanID.map Prod.fst := (IdMap.isNone_iff _ _).mp hv
      simp only [hv, if_true] at h
      rw [if_neg hy]
      cases hd : dfs y s with
      | error e => simp [hd] at h
      | ok s1 =>
        simp only [hd] at h
        obtain ⟨e1, e2⟩ := hdfs y s s1 hd hv hn
        obtain ⟨f1, f2⟩ := ih _ s' h e2
        exact ⟨by rw [f1, ← e1], f2⟩
    · have hy : y ∈ s.nodeToTarjanID.map Prod.fst := by
        by_contra hc
        exact hv ((IdMap.isNone_iff _ _).mpr hc)
      have hv' : (IdMap.get? s.nodeToTarjanID y).isNone = false := by
        cases hq : (IdMap.get? s.nodeToTarjanID y).isNone
        · rfl
        · exact absurd hq hv
      simp only [hv', Bool.false_eq_true, if_false] at h
      rw [if_pos hy]
      cases hs : Bitmap.Contains s.inStack y
      · simp only [hs, Bool.false_eq_true, if_false] at h
        exact ih _ s' h hn
      · simp only [hs, if_true] at h
        exact ih
          { s with
            lowLink := IdMap.set s.lowLink x
              (min (IdMap.get s.lowLink x) (IdMap.get s.nodeToTarjanID y)) } s' h hn

/-- A call `tarjanDFS(x)` on a node without index visits what the depth-first visit
from `x` visits, and hands out the next indices in the order of the visit. -/
theorem tarjanDFS_visits (d : Direction) (m : NodeMap) :
    ∀ (fuel x : Nat) (s s' : TarjanState), tarjanDFS d m fuel x s = .ok s' →
      (IdMap.get? s.nodeToTarjanID x).isNone = true → s.Numbered →
      s'.nodeToTarjanID.map Prod.fst = visit d m fuel x (s.nodeToTarjanID.map Prod.fst) ∧
        s'.Numbered := by
  intro fuel
  induction fuel with
  | zero => intro x s s' h; simp [tarjanDFS] at h
  | succ fuel ih =>
    intro x s s' h hx hn
    unfold tarjanDFS at h
    unfold visit
    cases hg : NodeMap.get? m x with
    | none => simp [hg] at h
    | some nd =>
      simp only [hg] at h ⊢
      have hset : IdMap.set s.nodeToTarjanID x (s.currentTarjanID + 1) =
          s.nodeToTarjanID ++ [(x, s.currentTarjanID + 1)] := IdMap.set_fresh _ _ _ hx
      have hn0 : ({ stack := x :: s.stack
                    currentTarjanID := s.currentTarjanID + 1
                    nodeToTarjanID := IdMap.set s.nodeToTarjanID x (s.currentTarjanID + 1)
                    lowLink := IdMap.set s.lowLink x (s.currentTarjanID + 1)
                    inStack := Bitmap.Add s.inStack x } : TarjanState).Numbered := by
        refine ⟨?_, IdMap.set_nodup _ _ _ hn.2⟩
        show (IdMap.set s.nodeToTarjanID x (s.currentTarjanID + 1)).map Prod.snd =
          List.range' 1 (s.currentTarjanID + 1)
        rw [hset, List.map_append, hn.1, List.range'_concat]
        simp [Nat.add_comm]
      cases hl : tarjanLoop (tarjanDFS d m fuel) x (Bitmap.ToArray (nd.next d))
          { stack := x :: s.stack
            currentTarjanID := s.currentTarjanID + 1
            nodeToTarjanID := IdMap.set s.nodeToTarjanID x (s.currentTarjanID + 1)
            lowLink := IdMap.set s.lowLink x (s.currentTarjanID + 1)
            inStack := Bitmap.Add s.inStack x } with
      | error e => simp [hl] at h
      | ok s1 =>
        simp only [hl] at h
        obtain ⟨e1, e2⟩ := tarjanLoop_visits (tarjanDFS d m fuel) (visit d m fuel) ih x _ _ s1
          hl hn0
        have e1' : s1.nodeToTarjanID.map Prod.fst =
            visitLoop (visit d m fuel) (Bitmap.ToArray (nd.next d))
              (s.nodeToTarjanID.map Prod.fst ++ [x]) := by
          rw [e1]
          show visitLoop _ _ ((IdMap.set s.nodeToTarjanID x (s.currentTarjanID + 1)).map
            Prod.fst) = _
          rw [hset]
          simp
        split_ifs at h
        · cases h
          obtain ⟨p1, p2⟩ := popComponent_numbering x s1.stack s1
          refine ⟨by rw [p1]; exact e1', ?_⟩
          unfold TarjanState.Numbered
          rw [p1, p2]
          exact e2
        · cases h
          exact ⟨e1', e2⟩

theorem findCyclesLoop_visits (d : Direction) (m : NodeMap) (fuel : Nat) :
    ∀ (ids : List Nat) (s s' : TarjanState), findCyclesLoop d m fuel ids s = .ok s' →
      s.Numbered →
      s'.nodeToTarjanID.map Prod.fst =
        ids.foldl (fun seen id => if id ∈ seen then seen else visit d m fuel id seen)
          (s.nodeToTarjanID.map Prod.fst) ∧
      s'.Numbered := by
  intro ids
  induction ids with
  | nil =>
    intro s s' h hn
    simp only [findCyclesLoop] at h
    cases h
    exact ⟨rfl, hn⟩
  | cons y rest ih =>
    intro s s' h hn
    unfold findCyclesLoop at h
    simp only [List.foldl_cons]
    by_cases hv : (IdMap.get? s.nodeToTarjanID y).isNone = true
    · have hy : y ∉ s.nodeToTarjanID.map Prod.fst := (IdMap.isNone_iff _ _).mp hv
      simp only [hv, if_true] at h
      rw [if_neg hy]
      cases hd : tarjanDFS d m fuel y s with
      | error e => simp [hd] at h
      | ok s1 =>
        simp only [hd] at h
        obtain ⟨e1, e2⟩ := tarjanDFS_visits d m fuel y s s1 hd hv hn
        obtain ⟨f1, f2⟩ := ih s1 s' h e2
        exact ⟨by rw [f1, e1], f2⟩
    · have hy : y ∈ s.nodeToTarjanID.map Prod.fst := by
        by_contra hc
        exact hv ((IdMap.isNone_iff _ _).mpr hc)
      have hv' : (IdMap.get? s.nodeToTarjanID y).isNone = false := by
        cases hq : (IdMap.get? s.nodeToTarjanID y).isNone
        · rfl
        · exact absurd hq hv
      simp only [hv', Bool.false_eq_true, if_false] at h
      rw [if_pos hy]
      exact ih s s' h hn

/-- In a map whose values are `k, k + 1, ...` in the order of its entries, the value
of a key tells its position. -/
theorem IdMap.get?_of_range (l : IdMap) :
    ∀ (k : Nat), l.map Prod.snd = List.range' k l.length → ∀ v ∈ l.map Prod.fst,
      IdMap.get? l v = some ((l.map Prod.fst).indexOf v + k) := by
  induction l with
  | nil => intro k _ v hv; simp at hv
  | cons p rest ih =>
    intro k h v hv
    obtain ⟨a, b⟩ := p
    simp only [List.map_cons, List.length_cons, List.range'_succ, List.cons.injEq] at h
    obtain ⟨hb, hrest⟩ := h
    unfold IdMap.get?
    by_cases e : a = v
    · subst e
      simp [hb]
    · simp only [e, if_false, List.map_cons]
      have hv' : v ∈ rest.map Prod.fst := by
        rcases List.mem_cons.mp hv with e' | e'
        · exact absurd e'.symm e
        · exact e'
      rw [ih (k + 1) hrest v hv', List.indexOf_cons_ne _ e]
      congr 1
      omega

/-- The state `findCycles` ends in on a map with keys `1..N`. -/
theorem findCycles_final {d : Direction} {m : NodeMap} {N : Nat} (hk : KeysInRange N m)
    (fuel : Nat) (hfuel : N < fuel) :
    ∃ s, findCyclesLoop d m fuel (List.range' 1 N) TarjanState.init = .ok s ∧
      findCycles fuel d N m = .ok s.lowLink ∧ TarjanInv d m N [] s ∧
      (∀ u, 1 ≤ u → u ≤ N → s.Visited u) ∧ (∀ v, v ∉ s.stack) := by
  have hids : ∀ x ∈ List.range' 1 N, 1 ≤ x ∧ x ≤ N := by
    intro x hx
    rw [List.mem_range'] at hx
    obtain ⟨i, hi, rfl⟩ := hx
    omega
  obtain ⟨s, h1, h2, -, h4⟩ := findCyclesLoop_spec hk fuel hfuel (List.range' 1 N)
    TarjanState.init (TarjanInv.init d m N) hids
  have h1' : findCyclesLoop d m fuel (List.range' 1 N)
      { stack := [], currentTarjanID := 0, nodeToTarjanID := [], lowLink := [],
        inStack := Bitmap.New } = .ok s := h1
  refine ⟨s, h1, by simp [findCycles, h1'], h2, ?_, ?_⟩
  · intro u hu1 hu2
    apply h4
    rw [List.mem_range']
    exact ⟨u - 1, by omega, by omega⟩
  · intro v hv
    obtain ⟨a, ha, -⟩ := h2.stack_gray v hv
    simp at ha

/-- The values of `findCycles` in terms of the order of first visit: every node is
visited once, and the value of a node is the discovery index of a member of its
component, the least in the component. -/
theorem findCycles_discovery {d : Direction} {m : NodeMap} {N : Nat} (hk : KeysInRange N m)
    (fuel : Nat) (hfuel : N < fuel) :
    ∃ scc, findCycles fuel d N m = .ok scc ∧ (discoveryOrder fuel d m N).Nodup ∧
      (∀ u, u ∈ discoveryOrder fuel d m N ↔ (1 ≤ u ∧ u ≤ N)) ∧
      ∀ u, 1 ≤ u → u ≤ N → ∃ r, SameSCC d m u r ∧
        IdMap.get? scc u = some (discoveryIndex fuel d m N r) ∧
        ∀ w, SameSCC d m u w → discoveryIndex fuel d m N r ≤ discoveryIndex fuel d m N w := by
  obtain ⟨s, h1, h2, h3, h4, h5⟩ := findCycles_final (d := d) hk fuel hfuel
  have hinit : TarjanState.init.Numbered := by
    simp [TarjanState.Numbered, TarjanState.init]
  obtain ⟨k1, k2⟩ := findCyclesLoop_visits d m fuel _ _ s h1 hinit
  have hkeys : s.nodeToTarjanID.map Prod.fst = discoveryOrder fuel d m N := k1
  have hlen : s.nodeToTarjanID.length = s.currentTarjanID := by
    have := congrArg List.length k2.1
    simpa using this
  have hmem : ∀ u, u ∈ discoveryOrder fuel d m N ↔ s.Visited u := by
    intro u
    rw [← hkeys]
    exact (IdMap.get?_isSome_iff _ _).symm
  have hnum : ∀ v, s.Visited v → s.num v = discoveryIndex fuel d m N v := by
    intro v hv
    have hv' : v ∈ s.nodeToTarjanID.map Prod.fst := (IdMap.get?_isSome_iff _ _).mp hv
    have := IdMap.get?_of_range s.nodeToTarjanID 1 (by rw [hlen]; exact k2.1) v hv'
    unfold TarjanState.num IdMap.get discoveryIndex
    rw [this, hkeys]
    rfl
  refine ⟨s.lowLink, h2, by rw [← hkeys]; exact k2.2, ?_, ?_⟩
  · intro u
    rw [hmem u]
    exact ⟨h3.visited_range u, fun h => h4 u h.1 h.2⟩
  · intro u hu1 hu2
    have hu := h4 u hu1 hu2
    obtain ⟨r, r1, r2, r3, r4⟩ := h3.popped_root u hu (h5 u)
    refine ⟨r, r4, ?_, ?_⟩
    · have hdef := h3.low_defined u hu
      cases hq : IdMap.get? s.lowLink u with
      | none => rw [hq] at hdef; cases hdef
      | some q =>
        have : s.low u = q := by simp [TarjanState.low, IdMap.get, hq]
        rw [← hnum r r1, ← r3, this]
    · intro w hw
      obtain ⟨w1, w2, w3⟩ := h3.popped_closed u hu (h5 u) w hw
      have := h3.popped_le w w1 w2
      rw [← hnum r r1, ← hnum w w1, ← r3, ← w3]
      exact this

/-- C19: on a node map with keys `1..N` and adjacency ids in `1..N`, in either
direction, `findCycles` returns for every node `u` the discovery index (the 1-based
position in the order of first visit, start nodes scanned `1..N` ascending and
neighbours ascending) of a member of the strongly connected component of `u`, and
no member of the component has a smaller discovery index; every node is visited
exactly once. -/
theorem findCycles_value_is_least_discovery_index (d : Direction) (m : NodeMap) (N : Nat)
    (hk : KeysInRange N m) (fuel : Nat) (hfuel : N < fuel) :
    ∃ scc, findCycles fuel d N m = .ok scc ∧
      (discoveryOrder fuel d m N).Perm (List.range' 1 N) ∧
      ∀ u, 1 ≤ u → u ≤ N → ∃ r, (Reach d m u r ∧ Reach d m r u) ∧
        IdMap.get? scc u = some (discoveryIndex fuel d m N r) ∧
        ∀ w, (Reach d m u w ∧ Reach d m w u) →
          discoveryIndex fuel d m N r ≤ discoveryIndex fuel d m N w := by
  obtain ⟨scc, h1, h2, h3, h4⟩ := findCycles_discovery (d := d) hk fuel hfuel
  refine ⟨scc, h1, ?_, h4⟩
  rw [List.perm_ext_iff_of_nodup h2 (List.nodup_range' 1 N)]
  intro u
  rw [h3 u, List.mem_range']
  constructor
  · intro h; exact ⟨u - 1, by omega, by omega⟩
  · rintro ⟨i, hi, rfl⟩; omega

theorem findCycles_examples :
    findCycles 3 .ChildrenDirection 2 chainNodes = .ok [(1, 1), (2, 2)] ∧
    discoveryOrder 3 .ChildrenDirection chainNodes 2 = [1, 2] ∧
    findCycles 4 .ChildrenDirection 3 triangleNodes = .ok [(1, 1), (2, 1), (3, 1)] ∧
    discoveryOrder 4 .ChildrenDirection triangleNodes 3 = [1, 2, 3] ∧
    findCycles 4 .ChildrenDirection 3 isolatedNodes = .ok [(1, 1), (3, 2), (2, 3)] ∧
    discoveryOrder 4 .ChildrenDirection isolatedNodes 3 = [1, 3, 2] :=
  ⟨rfl, rfl, rfl, rfl, rfl, rfl⟩

/-- Witness for C19: the chain `1 → 2`, where `findCycles` returns `{1:1, 2:2}`. -/
theorem findCycles_value_is_least_discovery_index_witness :
    KeysInRange 2 chainNodes ∧ 2 < 3 ∧
    findCycles 3 .ChildrenDirection 2 chainNodes = .ok [(1, 1), (2, 2)] ∧
    ∃ scc, findCycles 3 .ChildrenDirection 2 chainNodes = .ok scc ∧
      (discoveryOrder 3 .ChildrenDirection chainNodes 2).Perm (List.range' 1 2) ∧
      ∀ u, 1 ≤ u → u ≤ 2 → ∃ r,
        (Reach .ChildrenDirection chainNodes u r ∧ Reach .ChildrenDirection chainNodes r u) ∧
        IdMap.get? scc u = some (discoveryIndex 3 .ChildrenDirection chainNodes 2 r) ∧
        ∀ w, (Reach .ChildrenDirection chainNodes u w ∧
            Reach .ChildrenDirection chainNodes w u) →
          discoveryIndex 3 .ChildrenDirection chainNodes 2 r ≤
            discoveryIndex 3 .ChildrenDirection chainNodes 2 w :=
  ⟨by decide, by decide, rfl,
    findCycles_value_is_least_discovery_index .ChildrenDirection chainNodes 2 (by decide) 3
      (by decide)⟩

/-- Counterexample to C18: with the single edge `1 → 3`, node 2 is isolated, and
`findCycles` gives it the value 3, its discovery index, not 2: node 3 is visited
before it. -/
theorem findCycles_isolated_counterexample :
    WellFormed 3 isolatedNodes ∧ NodeMap.get? isolatedNodes 2 = some ⟨2, [], []⟩ ∧
    findCycles 4 .ChildrenDirection 3 isolatedNodes = .ok [(1, 1), (3, 2), (2, 3)] ∧
    IdMap.get? [(1, 1), (3, 2), (2, 3)] 2 = some 3 :=
  ⟨by decide, rfl, rfl, rfl⟩

/-- C18, amended: on a node map with keys `1..N` and adjacency ids in `1..N`, in
either direction, `findCycles` maps an isolated node `u` to its own discovery index
and maps no other node to this value. -/
theorem findCycles_isolated_node (d : Direction) (m : NodeMap) (N : Nat)
    (hk : KeysInRange N m) (fuel : Nat) (hfuel : N < fuel) (u : Nat) (nd : Node)
    (hu : NodeMap.get? m u = some nd) (hc : nd.Children = []) (hp : nd.Parents = []) :
    ∃ scc, findCycles fuel d N m = .ok scc ∧
      IdMap.get? scc u = some (discoveryIndex fuel d m N u) ∧
      ∀ v, 1 ≤ v → v ≤ N → IdMap.get? scc v = IdMap.get? scc u → v = u := by
  have hur := hk.key_range hu
  have hstuck : ∀ x, Reach d m u x → x = u := by
    intro x hx
    induction hx with
    | refl => rfl
    | @tail b c _ hbc ih =>
      subst ih
      obtain ⟨nd', h1, h2⟩ := hbc
      rw [hu] at h1
      cases h1
      cases d
      · simp [Node.next, hc] at h2
      · simp [Node.next, hp] at h2
  obtain ⟨scc, h1, -, -, h4⟩ := findCycles_discovery (d := d) hk fuel hfuel
  obtain ⟨scc', g1, -, -, -, g5⟩ := findCycles_spec (d := d) hk fuel hfuel
  have hsame : scc' = scc := by
    rw [h1] at g1
    cases g1
    rfl
  subst hsame
  obtain ⟨r, r1, r2, -⟩ := h4 u hur.1 hur.2
  have hr : r = u := hstuck r r1.1
  subst hr
  refine ⟨scc', h1, r2, ?_⟩
  intro v hv1 hv2 hv
  have he : IdMap.get scc' v = IdMap.get scc' r := by
    unfold IdMap.get
    rw [hv]
  exact hstuck v ((g5 v r hv1 hv2 hur.1 hur.2).mp he).2

/-- Witness for C18, amended: node 2 of the three-node map with the edge `1 → 3`. -/
theorem findCycles_isolated_node_witness :
    KeysInRange 3 isolatedNodes ∧ 3 < 4 ∧ NodeMap.get? isolatedNodes 2 = some ⟨2, [], []⟩ ∧
    discoveryIndex 4 .ChildrenDirection isolatedNodes 3 2 = 3 ∧
    ∃ scc, findCycles 4 .ChildrenDirection 3 isolatedNodes = .ok scc ∧
      IdMap.get? scc 2 = some (discoveryIndex 4 .ChildrenDirection isolatedNodes 3 2) ∧
      ∀ v, 1 ≤ v → v ≤ 3 → IdMap.get? scc v = IdMap.get? scc 2 → v = 2 :=
  ⟨by decide, by decide, rfl, rfl,
    findCycles_isolated_node .ChildrenDirection isolatedNodes 3 (by decide) 4 (by decide) 2
      ⟨2, [], []⟩ rfl rfl rfl⟩

/-! ## The keys of the cache map -/

theorem NativeKeyManagement.setBinding_keys (bs : List (String × String)) (k c k' : String) :
    k' ∈ (NativeKeyManagement.setBinding bs k c).map Prod.fst ↔ k' = k ∨ k' ∈ bs.map Prod.fst := by
  induction bs with
  | nil => simp [NativeKeyManagement.setBinding]
  | cons p rest ih =>
    obtain ⟨a, b⟩ := p
    unfold NativeKeyManagement.setBinding
    by_cases h : a = k
    · subst h; simp
    · simp only [h, if_false, List.map_cons, List.mem_cons, ih]
      tauto

theorem NativeKeyManagement.setBinding_nodup (bs : List (String × String)) (k c : String)
    (h : (bs.map Prod.fst).Nodup) :
    ((NativeKeyManagement.setBinding bs k c).map Prod.fst).Nodup := by
  induction bs with
  | nil => simp [NativeKeyManagement.setBinding]
  | cons p rest ih =>
    obtain ⟨a, b⟩ := p
    simp only [List.map_cons, List.nodup_cons] at h
    unfold NativeKeyManagement.setBinding
    by_cases e : a = k
    · simp only [e, if_true, List.map_cons, List.nodup_cons]
      exact ⟨by rw [← e]; exact h.1, h.2⟩
    · simp only [e, if_false, List.map_cons, List.nodup_cons]
      refine ⟨?_, ih h.2⟩
      intro hmem
      rcases (NativeKeyManagement.setBinding_keys rest k c a).mp hmem with e' | e'
      · exact e e'
      · exact h.1 e'

theorem NativeKeyManagement.bind_nodup (ks : List String) (c : String) :
    ∀ bs : List (String × String), (bs.map Prod.fst).Nodup →
      ((ks.foldl (fun b k => NativeKeyManagement.setBinding b k c) bs).map Prod.fst).Nodup := by
  induction ks with
  | nil => intro bs h; exact h
  | cons k rest ih =>
    intro bs h
    exact ih _ (NativeKeyManagement.setBinding_nodup bs k c h)

theorem addGroup_keys_nodup (m : NodeMap) (ks : List String) (M0 M : BindMaps)
    (h : addGroup m ks M0 = .ok M) (h1 : (M0.cache.bindings.map Prod.fst).Nodup) :
    (M.cache.bindings.map Prod.fst).Nodup := by
  unfold addGroup at h
  cases ks with
  | nil =>
    simp only [NativeKeyManagement.BindKeys, gatherGroup] at h
    cases h
    exact h1
  | cons first rest =>
    simp only [NativeKeyManagement.BindKeys] at h
    cases hg : gatherGroup m (first :: rest)
        { keycache := Bitmap.New, childrenCache := Bitmap.New, parentCache := Bitmap.New } with
    | error e => simp [hg] at h
    | ok acc =>
      simp only [hg, NativeKeyManagement.Set] at h
      cases h
      exact NativeKeyManagement.bind_nodup (first :: rest) first _ h1

theorem addGroups_keys_nodup (m : NodeMap) :
    ∀ (G : List (Nat × List String)) (M0 M : BindMaps), addGroups m G M0 = .ok M →
      (M0.cache.bindings.map Prod.fst).Nodup → (M.cache.bindings.map Prod.fst).Nodup := by
  intro G
  induction G with
  | nil =>
    intro M0 M h h1
    simp only [addGroups] at h
    cases h
    exact h1
  | cons p rest ih =>
    intro M0 M h h1
    obtain ⟨r, ks⟩ := p
    unfold addGroups at h
    cases hg : addGroup m ks M0 with
    | error e => simp [hg] at h
    | ok M1 =>
      simp only [hg] at h
      exact ih M1 M h (addGroup_keys_nodup m ks M0 M1 hg h1)

/-- The keys of a closed group map are its bound keys. -/
theorem NativeKeyManagement.allKeys_of_closed (km : NativeKeyManagement) (h : km.Closed) :
    km.allKeys = km.bindings.map Prod.fst := by
  unfold NativeKeyManagement.allKeys
  have : (km.values.map Prod.fst).filter
      (fun k => decide (k ∉ km.bindings.map Prod.fst)) = [] := by
    rw [List.filter_eq_nil_iff]
    intro k hk
    simp only [decide_eq_true_eq, not_not]
    have h1 := (NativeKeyManagement.lookupValue_isSome_iff km.values k).mpr hk
    cases hv : NativeKeyManagement.lookupValue km.values k with
    | none => rw [hv] at h1; cases h1
    | some v =>
      have := h.value_bound k v hv
      exact (NativeKeyManagement.lookupBinding_isSome_iff _ _).mp (by rw [this]; rfl)
  simp only [this, List.append_nil]

/-! ## `buildCache`: what every run that returns keeps -/

/-- The loop over `todoNodes` keeps the bindings of the cache map, given that the
recursive calls do. -/
theorem todoLoop_bindings {N : Nat} {m : NodeMap} {scc : IdMap} {M : BindMaps}
    (hs : SeededMaps m N scc M) (dfs : Nat → DFSState → Except Error DFSState)
    (hdfs : ∀ Y st st', dfs Y st = .ok st' → st.cache.bindings = M.cache.bindings →
      st.cache.Closed → st'.cache.bindings = M.cache.bindings ∧ st'.cache.Closed)
    (X : Nat) (hX : 1 ≤ X ∧ X ≤ N) :
    ∀ (rest : List Nat) (st st' : DFSState), todoLoop dfs scc X X rest st = .ok st' →
      st.cache.bindings = M.cache.bindings → st.cache.Closed →
      st'.cache.bindings = M.cache.bindings ∧ st'.cache.Closed := by
  intro rest
  induction rest with
  | nil =>
    intro st st' h h1 h2
    simp only [todoLoop] at h
    cases h
    exact ⟨h1, h2⟩
  | cons t rest ih =>
    intro st st' h h1 h2
    unfold todoLoop at h
    split_ifs at h with e1 e2
    · exact ih st st' h h1 h2
    · rw [addToCache_eq] at h
      simp only at h
      refine ih _ st' h h1 (h2.Set (Itoa X) _ ?_)
      rw [h1]
      exact (hs.bound (Itoa X)).mpr ⟨X, hX.1, hX.2, rfl⟩
    · cases hd : dfs t st with
      | error e => simp [hd] at h
      | ok s1 =>
        simp only [hd] at h
        obtain ⟨a1, a2⟩ := hdfs t st s1 hd h1 h2
        exact ih s1 st' h a1 a2

theorem futureLoop_bindings {M : BindMaps} (dfs : Nat → DFSState → Except Error DFSState)
    (hdfs : ∀ Y st st', dfs Y st = .ok st' → st.cache.bindings = M.cache.bindings →
      st.cache.Closed → st'.cache.bindings = M.cache.bindings ∧ st'.cache.Closed) :
    ∀ (l : List Nat) (st st' : DFSState), futureLoop dfs l st = .ok st' →
      st.cache.bindings = M.cache.bindings → st.cache.Closed →
      st'.cache.bindings = M.cache.bindings ∧ st'.cache.Closed := by
  intro l
  induction l with
  | nil =>
    intro st st' h h1 h2
    simp only [futureLoop] at h
    cases h
    exact ⟨h1, h2⟩
  | cons f rest ih =>
    intro st st' h h1 h2
    unfold futureLoop at h
    cases hd : dfs f st with
    | error e => simp [hd] at h
    | ok s1 =>
      simp only [hd] at h
      obtain ⟨a1, a2⟩ := hdfs f st s1 hd h1 h2
      exact ih s1 st' h a1 a2

/-- A call of `cacheDFS` that returns keeps the bindings of the cache map. -/
theorem cacheDFS_bindings {N : Nat} {m : NodeMap} {scc : IdMap} {M : BindMaps}
    (hk : KeysInRange N m) (hs : SeededMaps m N scc M) (d : Direction) :
    ∀ (fuel X : Nat) (st st' : DFSState),
      cacheDFS d scc M.children M.parents m fuel X st = .ok st' →
      st.cache.bindings = M.cache.bindings → st.cache.Closed →
      st'.cache.bindings = M.cache.bindings ∧ st'.cache.Closed := by
  intro fuel
  induction fuel with
  | zero => intro X st st' h; simp [cacheDFS] at h
  | succ fuel ih =>
    intro X st st' h h1 h2
    unfold cacheDFS at h
    cases hg : NodeMap.get? m X with
    | none => simp [hg] at h
    | some nd =>
      simp only [hg] at h
      have hXr := hk.key_range hg
      obtain ⟨-, hid, -, -⟩ := hk.get? hXr.1 hXr.2
      split_ifs at h with e
      · cases h
        exact ⟨h1, h2⟩
      · cases ht : getTodoAndFutureNodes M.children M.parents nd d with
        | error e => simp [ht] at h
        | ok p =>
          obtain ⟨todo, future⟩ := p
          simp only [ht] at h
          cases hl : todoLoop (cacheDFS d scc M.children M.parents m fuel) scc nd.ID X todo
              st with
          | error e => simp [hl] at h
          | ok s1 =>
            simp only [hl] at h
            have hidX : nd.ID = X := by
              obtain ⟨nd', hnd', hid', -, -⟩ := hk.get? hXr.1 hXr.2
              rw [hg] at hnd'
              cases hnd'
              exact hid'
            rw [hidX] at hl
            obtain ⟨a1, a2⟩ := todoLoop_bindings hs _ ih X hXr todo st s1 hl h1 h2
            exact futureLoop_bindings _ ih future _ st' h a1 a2

/-- The keys of the map `buildCache` returns: one key per node, each once. -/
theorem buildCache_keys (ord : RangeOrder) {d : Direction} {m : NodeMap} {N : Nat}
    (hk : KeysInRange N m) (scc : IdMap) (hn : (scc.map Prod.fst).Nodup)
    (hdom : ∀ u, (IdMap.get? scc u).isSome = true ↔ (1 ≤ u ∧ u ≤ N)) (unc : List Nat)
    (fuel : Nat) (km : NativeKeyManagement)
    (h : buildCache ord fuel unc d scc m = .ok km) :
    km.allKeys.Nodup ∧ ∀ key, key ∈ km.allKeys ↔ ∃ u, 1 ≤ u ∧ u ≤ N ∧ key = Itoa u := by
  obtain ⟨M, hM, hseed⟩ := addCyclesToBindMap_spec ord hk scc hn hdom
  unfold buildCache at h
  rw [hM] at h
  simp only at h
  cases hl : futureLoop (cacheDFS d scc M.children M.parents m fuel) unc
      { alreadyCached := Bitmap.New, cache := M.cache } with
  | error e => simp [hl] at h
  | ok st =>
    simp only [hl] at h
    cases h
    obtain ⟨a1, a2⟩ := futureLoop_bindings (M := M) _ (cacheDFS_bindings hk hseed d fuel) unc _
      st hl rfl hseed.closed.cache
    constructor
    · rw [NativeKeyManagement.allKeys_of_closed _ a2, a1]
      exact addGroups_keys_nodup m _ _ M hM (by simp [NativeKeyManagement.New])
    · intro key
      rw [NativeKeyManagement.mem_allKeys _ a2, a1]
      exact hseed.bound key

/-- The loop over `todoNodes` returns on any node map with keys `1..N`, given that
the recursive calls do. -/
theorem todoLoop_total {d : Direction} {m : NodeMap} {N : Nat} {scc : IdMap} {M : BindMaps}
    (hk : KeysInRange N m) (hs : SeededMaps m N scc M) (rank : Nat → Nat)
    (hrank : ∀ u t, (1 ≤ u ∧ u ≤ N) → GroupEdge d m N scc u t → rank t < rank u)
    (fuel : Nat) (dfs : Nat → DFSState → Except Error DFSState)
    (hdfs : ∀ Y st, BuildInv N M.cache st → (1 ≤ Y ∧ Y ≤ N) →
      st.unmarked N * (N + 1) + rank Y < fuel →
      ∃ st', dfs Y st = .ok st' ∧ BuildInv N M.cache st' ∧
        (∀ u ∈ st.alreadyCached, u ∈ st'.alreadyCached) ∧ Y ∈ st'.alreadyCached)
    (X : Nat) (hX : 1 ≤ X ∧ X ≤ N) :
    ∀ (rest : List Nat) (st : DFSState), BuildInv N M.cache st →
      (∀ t ∈ rest, GroupEdge d m N scc X t) → st.unmarked N * (N + 1) + rank X ≤ fuel →
      ∃ st', todoLoop dfs scc X X rest st = .ok st' ∧ BuildInv N M.cache st' ∧
        (∀ u ∈ st.alreadyCached, u ∈ st'.alreadyCached) := by
  intro rest
  induction rest with
  | nil =>
    intro st h _ _
    exact ⟨st, rfl, h, fun _ hu => hu⟩
  | cons t rest ih =>
    intro st h hedges hfuel
    have he : GroupEdge d m N scc X t := hedges t (by simp)
    have hrest : ∀ z ∈ rest, GroupEdge d m N scc X z :=
      fun z hz => hedges z (List.mem_cons_of_mem _ hz)
    have hne : ¬ IdMap.get scc X = IdMap.get scc t := fun e => he.2 e.symm
    unfold todoLoop
    simp only [hne, not_false_eq_true, if_true]
    by_cases hm : t ∈ st.alreadyCached
    · have hcn : Bitmap.Contains st.alreadyCached t = true := (Bitmap.Contains_iff _ _).mpr hm
      simp only [hcn, if_true]
      rw [addToCache_eq]
      simp only
      have hb : (NativeKeyManagement.lookupBinding st.cache.bindings (Itoa X)).isSome = true := by
        rw [h.bindings]
        exact (hs.bound (Itoa X)).mpr ⟨X, hX.1, hX.2, rfl⟩
      exact ih _ ⟨h.bindings, h.closed.Set (Itoa X) _ hb, h.marked_range⟩ hrest hfuel
    · have hcn : ¬ Bitmap.Contains st.alreadyCached t = true :=
        fun e => hm ((Bitmap.Contains_iff _ _).mp e)
      simp only [hcn, if_false]
      obtain ⟨⟨v, -, -, -, hedge⟩, -⟩ := he
      have htr := (Edge.range_edge hk hedge).2
      have hlt := hrank X t hX (hedges t (by simp))
      obtain ⟨sj, c1, c2, c3, -⟩ := hdfs t st h htr (by omega)
      rw [c1]
      simp only
      have hmono := DFSState.unmarked_mono st sj N c3
      have hfuel' : sj.unmarked N * (N + 1) + rank X ≤ fuel := by
        have := Nat.mul_le_mul_right (N + 1) hmono
        omega
      obtain ⟨st', b1, b2, b3⟩ := ih sj c2 hrest hfuel'
      exact ⟨st', b1, b2, fun u hu => b3 u (c3 u hu)⟩

theorem futureLoop_total {N : Nat} {M : BindMaps} (rank : Nat → Nat)
    (hrankN : ∀ u, rank u ≤ N) (fuel : Nat) (dfs : Nat → DFSState → Except Error DFSState)
    (hdfs : ∀ Y st, BuildInv N M.cache st → (1 ≤ Y ∧ Y ≤ N) →
      st.unmarked N * (N + 1) + rank Y < fuel →
      ∃ st', dfs Y st = .ok st' ∧ BuildInv N M.cache st' ∧
        (∀ u ∈ st.alreadyCached, u ∈ st'.alreadyCached) ∧ Y ∈ st'.alreadyCached) :
    ∀ (l : List Nat) (st : DFSState), BuildInv N M.cache st →
      (∀ f ∈ l, 1 ≤ f ∧ f ≤ N) → st.unmarked N * (N + 1) + N < fuel →
      ∃ st', futureLoop dfs l st = .ok st' ∧ BuildInv N M.cache st' ∧
        (∀ u ∈ st.alreadyCached, u ∈ st'.alreadyCached) := by
  intro l
  induction l with
  | nil =>
    intro st h _ _
    exact ⟨st, rfl, h, fun _ hu => hu⟩
  | cons f rest ih =>
    intro st h hl hfuel
    have := hrankN f
    obtain ⟨sj, c1, c2, c3, -⟩ := hdfs f st h (hl f (by simp)) (by omega)
    unfold futureLoop
    rw [c1]
    simp only
    have hmono := DFSState.unmarked_mono st sj N c3
    have hfuel' : sj.unmarked N * (N + 1) + N < fuel := by
      have := Nat.mul_le_mul_right (N + 1) hmono
      omega
    obtain ⟨st', b1, b2, b3⟩ := ih sj c2 (fun z hz => hl z (List.mem_cons_of_mem _ hz)) hfuel'
    exact ⟨st', b1, b2, fun u hu => b3 u (c3 u hu)⟩

/-- A call `cacheDFS(X)` on a node returns, on any node map with keys `1..N`,
provided the budget exceeds `unmarked * (N + 1) + rank X`. -/
theorem cacheDFS_total {d : Direction} {m : NodeMap} {N : Nat} {scc : IdMap} {M : BindMaps}
    (hk : KeysInRange N m) (hs : SeededMaps m N scc M) (rank : Nat → Nat)
    (hrankN : ∀ u, rank u ≤ N)
    (hrank : ∀ u t, (1 ≤ u ∧ u ≤ N) → GroupEdge d m N scc u t → rank t < rank u) :
    ∀ (fuel : Nat) (X : Nat) (st : DFSState), BuildInv N M.cache st → (1 ≤ X ∧ X ≤ N) →
      st.unmarked N * (N + 1) + rank X < fuel →
      ∃ st', cacheDFS d scc M.children M.parents m fuel X st = .ok st' ∧
        BuildInv N M.cache st' ∧ (∀ u ∈ st.alreadyCached, u ∈ st'.alreadyCached) ∧
        X ∈ st'.alreadyCached := by
  intro fuel
  induction fuel with
  | zero => intro X st _ _ h; omega
  | succ fuel ih =>
    intro X st h hX hfuel
    obtain ⟨nd, hnd, hid, -, -⟩ := hk.get? hX.1 hX.2
    unfold cacheDFS
    simp only [hnd, hid]
    by_cases hm : X ∈ st.alreadyCached
    · have hcn : Bitmap.Contains st.alreadyCached X = true := (Bitmap.Contains_iff _ _).mpr hm
      simp only [hcn, if_true]
      exact ⟨st, rfl, h, fun _ hu => hu, hm⟩
    · have hcn : ¬ Bitmap.Contains st.alreadyCached X = true :=
        fun e => hm ((Bitmap.Contains_iff _ _).mp e)
      simp only [hcn, if_false]
      obtain ⟨todo, future, g0, g1, g2⟩ := getTodoAndFutureNodes_spec hs d nd
        (by rw [hid]; exact hX.1) (by rw [hid]; exact hX.2)
      rw [hid] at g1 g2
      rw [g0]
      simp only
      obtain ⟨st1, a1, a2, a3⟩ := todoLoop_total hk hs rank hrank fuel
        (cacheDFS d scc M.children M.parents m fuel) ih X hX todo st h
        (fun t ht => (g1 t).mp ht) (by omega)
      rw [a1]
      simp only
      have hXm : X ∈ Bitmap.Add st1.alreadyCached X := (Bitmap.mem_Add _ _ _).mpr (Or.inl rfl)
      have hmark : ∀ u ∈ st1.alreadyCached, u ∈ Bitmap.Add st1.alreadyCached X :=
        fun u hu => (Bitmap.mem_Add _ _ _).mpr (Or.inr hu)
      have hinv1 : BuildInv N M.cache
          { st1 with alreadyCached := Bitmap.Add st1.alreadyCached X } :=
        ⟨a2.bindings, a2.closed, fun u hu => by
          rcases (Bitmap.mem_Add _ _ _).mp hu with e | e
          · rw [e]; exact hX
          · exact a2.marked_range u e⟩
      have hlt : ({ st1 with alreadyCached := Bitmap.Add st1.alreadyCached X } :
          DFSState).unmarked N < st.unmarked N :=
        DFSState.unmarked_lt st _ N X hX (fun v hv => hmark v (a3 v hv)) hm hXm
      have hfut : ∀ f ∈ future, 1 ≤ f ∧ f ≤ N := by
        intro f hf
        obtain ⟨⟨v, -, -, -, he⟩, -⟩ := (g2 f).mp hf
        exact (Edge.range_edge hk he).2
      have hfuel2 : ({ st1 with alreadyCached := Bitmap.Add st1.alreadyCached X } :
          DFSState).unmarked N * (N + 1) + N < fuel := by
        have h1 : ({ st1 with alreadyCached := Bitmap.Add st1.alreadyCached X } :
            DFSState).unmarked N + 1 ≤ st.unmarked N := hlt
        have h2 := Nat.mul_le_mul_right (N + 1) h1
        rw [Nat.add_mul] at h2
        omega
      obtain ⟨st2, c1, c2, c3⟩ := futureLoop_total rank hrankN fuel
        (cacheDFS d scc M.children M.parents m fuel) ih future
        { st1 with alreadyCached := Bitmap.Add st1.alreadyCached X } hinv1 hfut hfuel2
      exact ⟨st2, c1, c2, fun u hu => c3 u (hmark u (a3 u hu)), c3 X hXm⟩

/-- On any node map with keys `1..N`, for a map `scc` that tells the strongly
connected components of the direction apart and an uncached list of node ids,
`buildCache` returns. -/
theorem buildCache_total (ord : RangeOrder) {d : Direction} {m : NodeMap} {N : Nat}
    (hk : KeysInRange N m) (scc : IdMap) (hn : (scc.map Prod.fst).Nodup)
    (hdom : ∀ u, (IdMap.get? scc u).isSome = true ↔ (1 ≤ u ∧ u ≤ N))
    (hscc : ∀ u v, 1 ≤ u → u ≤ N → 1 ≤ v → v ≤ N →
      (IdMap.get scc u = IdMap.get scc v ↔ SameSCC d m u v))
    (unc : List Nat) (hunc : ∀ u ∈ unc, 1 ≤ u ∧ u ≤ N) (fuel : Nat)
    (hfuel : (N + 1) * (N + 1) ≤ fuel) :
    ∃ km, buildCache ord fuel unc d scc m = .ok km := by
  classical
  obtain ⟨M, hM, hseed⟩ := addCyclesToBindMap_spec ord hk scc hn hdom
  let rank : Nat → Nat := fun u => ((Finset.Icc 1 N).filter (fun v => Reach d m u v)).card
  have hrankN : ∀ u, rank u ≤ N := by
    intro u
    have := Finset.card_filter_le (Finset.Icc 1 N) (fun v => Reach d m u v)
    simpa [rank] using this
  have hrank : ∀ u t, (1 ≤ u ∧ u ≤ N) → GroupEdge d m N scc u t → rank t < rank u := by
    intro u t hu he
    obtain ⟨⟨v, hv1, hv2, hv3, hedge⟩, hne⟩ := he
    have hut : Reach d m u t := ((hscc u v hu.1 hu.2 hv1 hv2).mp hv3.symm).1.tail hedge
    have htr := (Edge.range_edge hk hedge).2
    apply Finset.card_lt_card
    rw [Finset.ssubset_iff_of_subset]
    · refine ⟨u, ?_, ?_⟩
      · simp [hu.1, hu.2, Reach, Relation.ReflTransGen.refl]
      · intro hmem
        simp only [Finset.mem_filter, Finset.mem_Icc] at hmem
        exact hne ((hscc t u htr.1 htr.2 hu.1 hu.2).mpr ⟨hmem.2, hut⟩)
    · intro v hv
      simp only [Finset.mem_filter, Finset.mem_Icc] at hv ⊢
      exact ⟨hv.1, hut.trans hv.2⟩
  have hinv0 : BuildInv N M.cache { alreadyCached := Bitmap.New, cache := M.cache } :=
    ⟨rfl, hseed.closed.cache, by intro u hu; simp [Bitmap.New] at hu⟩
  have hcount : ({ alreadyCached := Bitmap.New, cache := M.cache } : DFSState).unmarked N ≤ N := by
    unfold DFSState.unmarked
    have := List.length_filter_le
      (fun v => !Bitmap.Contains Bitmap.New v) (List.range' 1 N)
    simpa using this
  have hfuel0 : ({ alreadyCached := Bitmap.New, cache := M.cache } : DFSState).unmarked N *
      (N + 1) + N < fuel := by
    have := Nat.mul_le_mul_right (N + 1) hcount
    have e : (N + 1) * (N + 1) = N * (N + 1) + N + 1 := by ring
    omega
  obtain ⟨st, s1, -, -⟩ := futureLoop_total rank hrankN fuel
    (cacheDFS d scc M.children M.parents m fuel)
    (cacheDFS_total hk hseed rank hrankN hrank fuel) unc
    { alreadyCached := Bitmap.New, cache := M.cache } hinv0 hunc hfuel0
  refine ⟨st.cache, ?_⟩
  unfold buildCache
  rw [hM]
  simp only
  rw [s1]

/-! ## `Cache` on any node map with keys `1..N` -/

/-- The records `Cache` computes: exactly one for each node id `1..N`. -/
theorem computeCaches_keys (ord : Direction → RangeOrder) {m : NodeMap} {N : Nat}
    (hk : KeysInRange N m) (unc : List Nat) (fuel : Nat) (hfuel : N < fuel)
    (caches : List NodeCache) (h : computeCaches ord fuel unc N m = .ok caches) :
    (caches.map NodeCache.nodeID).Perm (List.range' 1 N) := by
  obtain ⟨sc, c1, c2, c3, c4, -⟩ := findCycles_spec (d := .ChildrenDirection) hk fuel hfuel
  unfold computeCaches at h
  simp only [c1] at h
  cases hb : buildCache (ord .ChildrenDirection) fuel unc .ChildrenDirection sc m with
  | error e => simp [hb] at h
  | ok kc =>
    simp only [hb] at h
    obtain ⟨k1, k2⟩ := buildCache_keys (ord .ChildrenDirection) hk sc c4
      (fun u => ⟨c3 u, fun h => c2 u h.1 h.2⟩) unc fuel kc hb
    cases hf : findCycles fuel .ParentsDirection N m with
    | error e => simp [hf] at h
    | ok sp =>
      simp only [hf] at h
      cases hp : buildCache (ord .ParentsDirection) fuel unc .ParentsDirection sp m with
      | error e => simp [hp] at h
      | ok kp =>
        simp only [hp, GetAllKeysAndValues_eq] at h
        obtain ⟨ids, hids⟩ := exists_ids_of_keys kc.allKeys (fun key hkey => by
          obtain ⟨u, -, -, e⟩ := (k2 key).mp hkey
          exact ⟨u, e⟩)
        rw [hids, assembleCaches_spec kp kc ids []] at h
        cases h
        have hmap : (([] : List NodeCache) ++ ids.map (fun u =>
            NewNodeCache u (Bitmap.Remove (kp.view (Itoa u)) u)
              (Bitmap.Remove (kc.view (Itoa u)) u))).map NodeCache.nodeID = ids := by
          simp [NewNodeCache, Function.comp_def]
        rw [hmap]
        have hnd : ids.Nodup := by
          rw [hids] at k1
          exact List.Nodup.of_map _ k1
        rw [List.perm_ext_iff_of_nodup hnd (List.nodup_range' 1 N)]
        intro u
        rw [List.mem_range']
        constructor
        · intro hu
          have : Itoa u ∈ kc.allKeys := by rw [hids]; exact List.mem_map_of_mem _ hu
          obtain ⟨v, hv1, hv2, e⟩ := (k2 _).mp this
          have := Itoa_injective e
          subst this
          exact ⟨u - 1, by omega, by omega⟩
        · rintro ⟨i, hi, rfl⟩
          have : Itoa (1 + 1 * i) ∈ kc.allKeys :=
            (k2 _).mpr ⟨1 + 1 * i, by omega, by omega, rfl⟩
          rw [hids] at this
          obtain ⟨v, hv, e⟩ := List.mem_map.mp this
          rw [← Itoa_injective e]
          exact hv

/-- On any node map with keys `1..N` and an uncached list of node ids, the part of
`Cache` between loading the nodes and saving returns its records. -/
theorem computeCaches_total (ord : Direction → RangeOrder) {m : NodeMap} {N : Nat}
    (hk : KeysInRange N m) (unc : List Nat) (hunc : ∀ u ∈ unc, 1 ≤ u ∧ u ≤ N) (fuel : Nat)
    (hfuel : (N + 1) * (N + 1) ≤ fuel) :
    ∃ caches, computeCaches ord fuel unc N m = .ok caches := by
  have hN : N < fuel := by
    have : (N + 1) * (N + 1) = N * N + 2 * N + 1 := by ring
    omega
  obtain ⟨sc, c1, c2, c3, c4, c5⟩ := findCycles_spec (d := .ChildrenDirection) hk fuel hN
  obtain ⟨sp, p1, p2, p3, p4, p5⟩ := findCycles_spec (d := .ParentsDirection) hk fuel hN
  obtain ⟨kc, k1⟩ := buildCache_total (ord .ChildrenDirection) hk sc c4
    (fun u => ⟨c3 u, fun h => c2 u h.1 h.2⟩) c5 unc hunc fuel hfuel
  obtain ⟨kp, q1⟩ := buildCache_total (ord .ParentsDirection) hk sp p4
    (fun u => ⟨p3 u, fun h => p2 u h.1 h.2⟩) p5 unc hunc fuel hfuel
  obtain ⟨-, k2⟩ := buildCache_keys (ord .ChildrenDirection) hk sc c4
    (fun u => ⟨c3 u, fun h => c2 u h.1 h.2⟩) unc fuel kc k1
  obtain ⟨ids, hids⟩ := exists_ids_of_keys kc.allKeys (fun key hkey => by
    obtain ⟨u, -, -, e⟩ := (k2 key).mp hkey
    exact ⟨u, e⟩)
  refine ⟨[] ++ ids.map (fun u =>
    NewNodeCache u (Bitmap.Remove (kp.view (Itoa u)) u)
      (Bitmap.Remove (kc.view (Itoa u)) u)), ?_⟩
  unfold computeCaches
  simp only [c1, k1, p1, q1, GetAllKeysAndValues_eq]
  rw [hids, assembleCaches_spec kp kc ids []]

/-- What the in-memory storage returns to `Cache` when its node map has keys `1..N`
and its to-be-cached ids are node ids. -/
theorem MemStorage.run_facts (s : MemStorage) (N : Nat) (hk : KeysInRange N s.nodes)
    (hunc : ∀ u ∈ s.toBeCached, 1 ≤ u ∧ u ≤ N) :
    ∀ unc s1 keys s2 m s3, MemStorage.ops.ToBeCached s = (.ok unc, s1) →
      MemStorage.ops.GetAllKeys s1 = (.ok keys, s2) →
      MemStorage.ops.GetNodes keys s2 = (.ok m, s3) →
      keys.length = N ∧ KeysInRange N m ∧ ∀ u ∈ unc, 1 ≤ u ∧ u ≤ N := by
  intro unc s1 keys s2 m s3 h1 h2 h3
  simp only [MemStorage.ops] at h1 h2 h3
  cases hf1 : s.fault .ToBeCached with
  | some e => simp [hf1] at h1
  | none =>
    simp only [hf1, Prod.mk.injEq, Except.ok.injEq] at h1
    obtain ⟨e1, e2⟩ := h1
    subst e1 e2
    cases hf2 : s.fault .GetAllKeys with
    | some e => simp [hf2] at h2
    | none =>
      simp only [hf2, Prod.mk.injEq, Except.ok.injEq] at h2
      obtain ⟨e3, e4⟩ := h2
      subst e3 e4
      cases hf3 : s.fault .GetNodes with
      | some e => simp [hf3] at h3
      | none =>
        simp only [hf3, Prod.mk.injEq, Except.ok.injEq] at h3
        obtain ⟨e5, -⟩ := h3
        rw [MemStorage.getNodes_all hk] at e5
        subst e5
        refine ⟨?_, hk, hunc⟩
        rw [hk.1]
        simp

/-- C20: when the node map the storage returns has keys `1..N` and adjacency ids in
`1..N`, whatever the to-be-cached list, the records `Cache` passes to `SaveCaches`
are exactly one for each node id `1..N`; and `SaveCaches` is invoked when the three
reads succeed and the to-be-cached list is a non-empty list of node ids. -/
theorem Cache_saves_one_record_per_node (ord : Direction → RangeOrder) {σ : Type}
    (st : Storage σ) (fuel : Nat) (s : σ) (N : Nat)
    (hst : ∀ unc s1 keys s2 m s3, st.ToBeCached s = (.ok unc, s1) →
      st.GetAllKeys s1 = (.ok keys, s2) → st.GetNodes keys s2 = (.ok m, s3) →
      keys.length = N ∧ KeysInRange N m)
    (hfuel : (N + 1) * (N + 1) ≤ fuel) :
    (∀ c ∈ (Cache ord st.traced fuel (s, [])).2.2, c.op = .SaveCaches →
      (c.saved.map NodeCache.nodeID).Perm (List.range' 1 N)) ∧
    (∀ unc s1 keys s2 m s3, st.ToBeCached s = (.ok unc, s1) → unc ≠ [] →
      st.GetAllKeys s1 = (.ok keys, s2) → st.GetNodes keys s2 = (.ok m, s3) →
      (∀ u ∈ unc, 1 ≤ u ∧ u ≤ N) →
      ∃ c ∈ (Cache ord st.traced fuel (s, [])).2.2, c.op = .SaveCaches) := by
  have hN : N < fuel := by
    have : (N + 1) * (N + 1) = N * N + 2 * N + 1 := by ring
    omega
  constructor
  · simp only [Cache, Storage.traced]
    rcases h1 : st.ToBeCached s with ⟨r1, s1⟩
    cases r1 with
    | error e => simp
    | ok unc =>
      by_cases hu : unc.length = 0
      · simp [hu]
      · simp only [hu, if_false]
        rcases h2 : st.GetAllKeys s1 with ⟨r2, s2⟩
        cases r2 with
        | error e => simp [h2]
        | ok keys =>
          rcases h3 : st.GetNodes keys s2 with ⟨r3, s3⟩
          cases r3 with
          | error e => simp [h2, h3]
          | ok allNodes =>
            obtain ⟨hlen, hk⟩ := hst unc s1 keys s2 allNodes s3 h1 h2 h3
            cases h4 : computeCaches ord fuel unc keys.length allNodes with
            | error e => simp [h2, h3, h4]
            | ok caches =>
              have hperm := computeCaches_keys ord hk unc fuel hN caches (by rw [← hlen]; exact h4)
              rcases h5 : st.SaveCaches caches s3 with ⟨r5, s5⟩
              cases r5 with
              | some e => simp [h2, h3, h4, h5, hperm]
              | none =>
                rcases h6 : st.ClearCacheStack s5 with ⟨r6, s6⟩
                simp [h2, h3, h4, h5, h6, hperm]
  · intro unc s1 keys s2 m s3 h1 hne h2 h3 hunc
    have hu : ¬ unc.length = 0 := fun e => hne (List.length_eq_zero.mp e)
    obtain ⟨hlen, hk⟩ := hst unc s1 keys s2 m s3 h1 h2 h3
    obtain ⟨caches, h4⟩ := computeCaches_total ord hk unc hunc fuel hfuel
    rw [← hlen] at h4
    simp only [Cache, Storage.traced, h1, hu, if_false, h2, h3, h4]
    rcases h5 : st.SaveCaches caches s3 with ⟨r5, s5⟩
    cases r5 with
    | some e => simp [h5]
    | none =>
      rcases h6 : st.ClearCacheStack s5 with ⟨r6, s6⟩
      simp [h5, h6]

theorem exampleStorage_trace :
    (Cache RangeOrder.listedBoth MemStorage.ops.traced 16 (exampleStorage, [])).2.2 =
      [⟨.ToBeCached, false, []⟩, ⟨.GetAllKeys, false, []⟩, ⟨.GetNodes, false, []⟩,
        ⟨.SaveCaches, false, [⟨1, [], []⟩, ⟨2, [], []⟩, ⟨3, [], []⟩]⟩,
        ⟨.ClearCacheStack, false, []⟩] := by
  rfl

/-- Witness for C20: three nodes with only node 1 uncached; nodes 2 and 3 are not
connected to it, so `cacheDFS` is never invoked on them, and the batch saved still
holds the records of nodes 1, 2 and 3. -/
theorem Cache_saves_one_record_per_node_witness :
    KeysInRange 3 exampleStorage.nodes ∧ (3 + 1) * (3 + 1) ≤ 16 ∧
    (⟨.SaveCaches, false, [⟨1, [], []⟩, ⟨2, [], []⟩, ⟨3, [], []⟩]⟩ : StorageCall) ∈
      (Cache RangeOrder.listedBoth MemStorage.ops.traced 16 (exampleStorage, [])).2.2 ∧
    ∀ c ∈ (Cache RangeOrder.listedBoth MemStorage.ops.traced 16 (exampleStorage, [])).2.2,
      c.op = .SaveCaches → (c.saved.map NodeCache.nodeID).Perm (List.range' 1 3) :=
  ⟨by decide, by decide, by rw [exampleStorage_trace]; simp,
    (Cache_saves_one_record_per_node RangeOrder.listedBoth MemStorage.ops 16 exampleStorage 3
      (fun unc s1 keys s2 m s3 h1 h2 h3 =>
        ⟨(MemStorage.run_facts exampleStorage 3 (by decide) (by decide)
            unc s1 keys s2 m s3 h1 h2 h3).1,
          (MemStorage.run_facts exampleStorage 3 (by decide) (by decide)
            unc s1 keys s2 m s3 h1 h2 h3).2.1⟩) (by decide)).1⟩

/-! ## `cacheDFS`: the collapsed neighbours of a node after its call -/

/-- The setting of a `buildCache` run, from what `findCycles` and
`addCyclesToBindMap` returned. -/
theorem CacheCtx.of_run (ord : RangeOrder) {d : Direction} {m : NodeMap} {N : Nat}
    (hw : WellFormed N m) (fuelT : Nat) (hfT : N < fuelT) {scc : IdMap}
    (hsc : findCycles fuelT d N m = .ok scc) {M : BindMaps}
    (hM : addCyclesToBindMap ord scc
      { cache := NativeKeyManagement.New, children := NativeKeyManagement.New,
        parents := NativeKeyManagement.New } m = .ok M) :
    CacheCtx d m N scc M := by
  obtain ⟨scc', c1, c2, c3, c4, c5⟩ := findCycles_spec (d := d) hw.1 fuelT hfT
  have e : scc' = scc := by
    rw [hsc] at c1
    cases c1
    rfl
  subst e
  obtain ⟨M', hM', hseed⟩ := addCyclesToBindMap_spec ord hw.1 scc' c4
    (fun u => ⟨c3 u, fun h => c2 u h.1 h.2⟩)
  have e2 : M' = M := by
    rw [hM] at hM'
    cases hM'
    rfl
  subst e2
  exact ⟨hw, hseed, c5⟩

/-- The state `buildCache` starts its loop in meets the invariant. -/
theorem CacheInv.initial {d : Direction} {m : NodeMap} {N : Nat} {scc : IdMap} {M : BindMaps}
    (hc : CacheCtx d m N scc M) (unc : List Nat) :
    CacheInv d m N scc M.cache unc { alreadyCached := Bitmap.New, cache := M.cache } :=
  { bindings := rfl
    closed := hc.seeded.closed.cache
    marked_range := by intro u hu; simp [Bitmap.New] at hu
    sound := by
      intro u hu1 hu2 x hx
      obtain ⟨hx1, hx2, e⟩ := (hc.seeded.cache_view u hu1 hu2 x).mp hx
      exact ((hc.scc_iff u x hu1 hu2 hx1 hx2).mp e.symm).1
    group := by
      intro u x hu1 hu2 hx1 hx2 e
      exact (hc.seeded.cache_view u hu1 hu2 x).mpr ⟨hx1, hx2, e.symm⟩
    complete := by intro u hu; simp [Bitmap.New] at hu
    near := by intro u hu; simp [Bitmap.New] at hu }

/-- The number of nodes reachable from a node goes down along a collapsed edge. -/
theorem CacheCtx.exists_rank {d : Direction} {m : NodeMap} {N : Nat} {scc : IdMap}
    {M : BindMaps} (hc : CacheCtx d m N scc M) :
    ∃ rank : Nat → Nat, (∀ u, rank u ≤ N) ∧
      ∀ u t, (1 ≤ u ∧ u ≤ N) → GroupEdge d m N scc u t → rank t < rank u := by
  classical
  refine ⟨fun u => ((Finset.Icc 1 N).filter (fun v => Reach d m u v)).card, ?_, ?_⟩
  · intro u
    have := Finset.card_filter_le (Finset.Icc 1 N) (fun v => Reach d m u v)
    simpa using this
  · intro u t hu he
    have hut := GroupEdge.reach hc hu he
    have htr := GroupEdge.range_group hc he
    apply Finset.card_lt_card
    rw [Finset.ssubset_iff_of_subset]
    · refine ⟨u, ?_, ?_⟩
      · simp [hu.1, hu.2, Reach, Relation.ReflTransGen.refl]
      · intro hmem
        simp only [Finset.mem_filter, Finset.mem_Icc] at hmem
        exact he.2 ((hc.scc_iff t u htr.1 htr.2 hu.1 hu.2).mpr ⟨hmem.2, hut⟩)
    · intro v hv
      simp only [Finset.mem_filter, Finset.mem_Icc] at hv ⊢
      exact ⟨hv.1, hut.trans hv.2⟩

/-- Counterexample to C17: keys and adjacency ids are in `1..2`, but node 2 does not
list node 1 as a parent. `cacheDFS(1)` recurses into the collapsed neighbour 2,
which gets marked, and returns with the slot of node 1 still `{1}`: nothing unions
node 2 into it. -/
theorem cacheDFS_one_way_counterexample :
    KeysInRange 2 oneWayNodes ∧
    ∃ scc M st',
      findCycles 3 .ChildrenDirection 2 oneWayNodes = .ok scc ∧
      addCyclesToBindMap RangeOrder.listed scc
        { cache := NativeKeyManagement.New, children := NativeKeyManagement.New,
          parents := NativeKeyManagement.New } oneWayNodes = .ok M ∧
      getTodoAndFutureNodes M.children M.parents ⟨1, [2], []⟩ .ChildrenDirection =
        .ok ([2], []) ∧
      IdMap.get scc 2 ≠ IdMap.get scc 1 ∧
      cacheDFS .ChildrenDirection scc M.children M.parents oneWayNodes 9 1
        { alreadyCached := Bitmap.New, cache := M.cache } = .ok st' ∧
      2 ∈ st'.alreadyCached ∧ st'.cache.Get (Itoa 1) = .ok [1] ∧
      st'.cache.Get (Itoa 2) = .ok [2] :=
  ⟨by decide, _, _, _, rfl, rfl, rfl, by decide, rfl, by decide, rfl, rfl⟩

/-- C17, amended: on a well-formed node map (the node invariant included), with
`scc` computed by `findCycles` and the three maps seeded by `addCyclesToBindMap`, a
call of `cacheDFS` made during `buildCache` on a node `u` that is not marked yet
returns, and then every `id` in `todoNodes` with `scc[id] ≠ scc[u]` is marked and
the cache slot of `u` holds `id` and every element of the cache slot of `id`. -/
theorem cacheDFS_unions_neighbours (ord : RangeOrder) (d : Direction) (m : NodeMap) (N : Nat)
    (hw : WellFormed N m) (fuelT : Nat) (hfT : N < fuelT) (scc : IdMap)
    (hsc : findCycles fuelT d N m = .ok scc) (M : BindMaps)
    (hM : addCyclesToBindMap ord scc
      { cache := NativeKeyManagement.New, children := NativeKeyManagement.New,
        parents := NativeKeyManagement.New } m = .ok M)
    (unc : List Nat) (st : DFSState) (hinv : CacheInv d m N scc M.cache unc st) (u : Nat)
    (hu : 1 ≤ u ∧ u ≤ N) (hnear : NearUncached m unc u) (hnot : u ∉ st.alreadyCached)
    (fuel : Nat) (hfuel : st.unmarked N * (N + 1) + N < fuel) :
    ∃ nd todo future st', NodeMap.get? m u = some nd ∧
      getTodoAndFutureNodes M.children M.parents nd d = .ok (todo, future) ∧
      cacheDFS d scc M.children M.parents m fuel u st = .ok st' ∧
      CacheInv d m N scc M.cache unc st' ∧
      ∀ id ∈ todo, IdMap.get scc id ≠ IdMap.get scc u →
        id ∈ st'.alreadyCached ∧
        ∃ su sid, st'.cache.Get (Itoa u) = .ok su ∧ st'.cache.Get (Itoa id) = .ok sid ∧
          id ∈ su ∧ ∀ y ∈ sid, y ∈ su := by
  have hc := CacheCtx.of_run ord hw fuelT hfT hsc hM
  obtain ⟨rank, hrankN, hrank⟩ := hc.exists_rank
  obtain ⟨nd, hnd, hid, -, -⟩ := hw.1.get? hu.1 hu.2
  obtain ⟨todo, future, g0, g1, -⟩ := getTodoAndFutureNodes_spec hc.seeded d nd
    (by rw [hid]; exact hu.1) (by rw [hid]; exact hu.2)
  rw [hid] at g1
  have := hrankN u
  obtain ⟨st', s1, s2, s3, s4⟩ := cacheDFS_spec hc rank hrankN hrank fuel u st hinv hu hnear
    (by omega)
  refine ⟨nd, todo, future, st', hnd, g0, s1, s2, ?_⟩
  intro id hid' _
  have he : GroupEdge d m N scc u id := (g1 id).mp hid'
  have hreach : Reach d m u id := GroupEdge.reach hc hu he
  have hidr := GroupEdge.range_group hc he
  have hmarked : id ∈ st'.alreadyCached := by
    rcases s3.new_closed u s4 with e | e | e
    · exact absurd e hnot
    · simp at e
    · exact e id (Or.inl he)
  refine ⟨hmarked, st'.cache.view (Itoa u), st'.cache.view (Itoa id), rfl, rfl, ?_, ?_⟩
  · exact s2.complete u s4 id hreach
  · intro y hy
    exact s2.complete u s4 y (hreach.trans (s2.sound id hidr.1 hidr.2 y hy))

theorem chainSeed_run :
    findCycles 3 .ChildrenDirection 2 chainNodes = .ok [(1, 1), (2, 2)] ∧
    addCyclesToBindMap RangeOrder.listed [(1, 1), (2, 2)]
      { cache := NativeKeyManagement.New, children := NativeKeyManagement.New,
        parents := NativeKeyManagement.New } chainNodes = .ok chainSeed ∧
    cacheDFS .ChildrenDirection [(1, 1), (2, 2)] chainSeed.children chainSeed.parents
      chainNodes 9 1 { alreadyCached := Bitmap.New, cache := chainSeed.cache } =
      .ok { alreadyCached := [1, 2],
            cache :=
              { bindings := [("1", "1"), ("2", "2")],
                values := [("1", [1, 2]), ("2", [2])] } } :=
  ⟨rfl, rfl, rfl⟩

/-- Witness for C17, amended: the chain `1 → 2` with node 1 uncached, at the first
call `cacheDFS(1)` of `buildCache`. -/
theorem cacheDFS_unions_neighbours_witness :
    WellFormed 2 chainNodes ∧
    findCycles 3 .ChildrenDirection 2 chainNodes = .ok [(1, 1), (2, 2)] ∧
    addCyclesToBindMap RangeOrder.listed [(1, 1), (2, 2)]
      { cache := NativeKeyManagement.New, children := NativeKeyManagement.New,
        parents := NativeKeyManagement.New } chainNodes = .ok chainSeed ∧
    ∃ nd todo future st', NodeMap.get? chainNodes 1 = some nd ∧
      getTodoAndFutureNodes chainSeed.children chainSeed.parents nd .ChildrenDirection =
        .ok (todo, future) ∧
      cacheDFS .ChildrenDirection [(1, 1), (2, 2)] chainSeed.children chainSeed.parents
        chainNodes 9 1 { alreadyCached := Bitmap.New, cache := chainSeed.cache } = .ok st' ∧
      CacheInv .ChildrenDirection chainNodes 2 [(1, 1), (2, 2)] chainSeed.cache [1] st' ∧
      ∀ id ∈ todo, IdMap.get [(1, 1), (2, 2)] id ≠ IdMap.get [(1, 1), (2, 2)] 1 →
        id ∈ st'.alreadyCached ∧
        ∃ su sid, st'.cache.Get (Itoa 1) = .ok su ∧ st'.cache.Get (Itoa id) = .ok sid ∧
          id ∈ su ∧ ∀ y ∈ sid, y ∈ su :=
  ⟨by decide, rfl, rfl,
    cacheDFS_unions_neighbours RangeOrder.listed .ChildrenDirection chainNodes 2 (by decide) 3
      (by decide) [(1, 1), (2, 2)] rfl chainSeed rfl [1]
      { alreadyCached := Bitmap.New, cache := chainSeed.cache }
      (CacheInv.initial
        (CacheCtx.of_run RangeOrder.listed (by decide) 3 (by decide) chainSeed_run.1
          chainSeed_run.2.1) [1]) 1
      (by decide) ⟨1, by simp, Relation.ReflTransGen.refl⟩ (by simp [Bitmap.New]) 9
      (by decide)⟩

/-! ## The writes of `cacheDFS` -/

theorem CacheWritten.bindings_eq {c0 c : NativeKeyManagement} (h : CacheWritten c0 c) :
    c.bindings = c0.bindings := by
  induction h with
  | start => rfl
  | write c c1 cur todo _ hw ih =>
    rw [addToCache_eq] at hw
    cases hw
    exact ih

theorem CacheWritten.canonical_written {c0 c : NativeKeyManagement} (h : CacheWritten c0 c)
    (key : String) : c.canonical key = c0.canonical key := by
  unfold NativeKeyManagement.canonical
  rw [h.bindings_eq]

/-- A write of `addToCache` only adds to what a key reads. -/
theorem addToCache_view_mono (c c1 : NativeKeyManagement) (cur todo : Nat)
    (h : addToCache c cur todo = .ok c1) (key : String) (x : Nat) (hx : x ∈ c.view key) :
    x ∈ c1.view key := by
  rw [addToCache_eq] at h
  cases h
  rw [NativeKeyManagement.view_Set]
  split_ifs with hc
  · rw [Bitmap.mem_Add, Bitmap.mem_Or]
    right; left
    unfold NativeKeyManagement.view at hx ⊢
    rw [hc]
    exact hx
  · exact hx

theorem CacheWritten.view_mono {c0 c : NativeKeyManagement} (h : CacheWritten c0 c)
    (key : String) (x : Nat) (hx : x ∈ c0.view key) : x ∈ c.view key := by
  induction h with
  | start => exact hx
  | write c c1 cur todo _ hw ih => exact addToCache_view_mono c c1 cur todo hw key x ih

theorem todoLoop_written (c0 : NativeKeyManagement)
    (dfs : Nat → DFSState → Except Error DFSState)
    (hdfs : ∀ Y st st', dfs Y st = .ok st' → CacheWritten c0 st.cache →
      CacheWritten c0 st'.cache)
    (scc : IdMap) (curID nodeID : Nat) :
    ∀ (rest : List Nat) (st st' : DFSState), todoLoop dfs scc curID nodeID rest st = .ok st' →
      CacheWritten c0 st.cache → CacheWritten c0 st'.cache := by
  intro rest
  induction rest with
  | nil =>
    intro st st' h hc
    simp only [todoLoop] at h
    cases h
    exact hc
  | cons id rest ih =>
    intro st st' h hc
    unfold todoLoop at h
    split_ifs at h with h1 h2
    · exact ih _ _ h hc
    · cases ha : addToCache st.cache nodeID id with
      | error e => simp [ha] at h
      | ok cache1 =>
        simp only [ha] at h
        exact ih _ _ h (CacheWritten.write st.cache cache1 nodeID id hc ha)
    · cases hd : dfs id st with
      | error e => simp [hd] at h
      | ok st1 =>
        simp only [hd] at h
        exact ih _ _ h (hdfs id st st1 hd hc)

theorem futureLoop_written (c0 : NativeKeyManagement)
    (dfs : Nat → DFSState → Except Error DFSState)
    (hdfs : ∀ Y st st', dfs Y st = .ok st' → CacheWritten c0 st.cache →
      CacheWritten c0 st'.cache) :
    ∀ (l : List Nat) (st st' : DFSState), futureLoop dfs l st = .ok st' →
      CacheWritten c0 st.cache → CacheWritten c0 st'.cache := by
  intro l
  induction l with
  | nil =>
    intro st st' h hc
    simp only [futureLoop] at h
    cases h
    exact hc
  | cons id rest ih =>
    intro st st' h hc
    unfold futureLoop at h
    cases hd : dfs id st with
    | error e => simp [hd] at h
    | ok st1 =>
      simp only [hd] at h
      exact ih _ _ h (hdfs id st st1 hd hc)

/-- Whatever `cacheDFS` is called on, the cache map it returns comes from the one it
was given by writes of `addToCache`. -/
theorem cacheDFS_written (c0 : NativeKeyManagement) (d : Direction) (scc : IdMap)
    (children parents : NativeKeyManagement) (m : NodeMap) :
    ∀ (fuel X : Nat) (st st' : DFSState),
      cacheDFS d scc children parents m fuel X st = .ok st' →
      CacheWritten c0 st.cache → CacheWritten c0 st'.cache := by
  intro fuel
  induction fuel with
  | zero =>
    intro X st st' h
    simp [cacheDFS] at h
  | succ fuel ih =>
    intro X st st' h hc
    unfold cacheDFS at h
    cases hnd : NodeMap.get? m X with
    | none => simp [hnd] at h
    | some nd =>
      simp only [hnd] at h
      split_ifs at h with hmark
      · cases h
        exact hc
      · cases hg : getTodoAndFutureNodes children parents nd d with
        | error e => simp [hg] at h
        | ok tf =>
          obtain ⟨todo, future⟩ := tf
          simp only [hg] at h
          cases ht : todoLoop (cacheDFS d scc children parents m fuel) scc nd.ID X todo st with
          | error e => simp [ht] at h
          | ok st1 =>
            simp only [ht] at h
            have h1 := todoLoop_written c0 _ ih scc nd.ID X todo st st1 ht hc
            exact futureLoop_written c0 _ ih future _ st' h h1

/-- The map `buildCache` returns comes from the seeded cache map by writes of
`addToCache`. -/
theorem buildCache_written (ord : RangeOrder) (fuel : Nat) (unc : List Nat) (d : Direction)
    (scc : IdMap) (m : NodeMap) (km : NativeKeyManagement)
    (h : buildCache ord fuel unc d scc m = .ok km) (M : BindMaps)
    (hM : addCyclesToBindMap ord scc
      { cache := NativeKeyManagement.New, children := NativeKeyManagement.New,
        parents := NativeKeyManagement.New } m = .ok M) :
    CacheWritten M.cache km := by
  unfold buildCache at h
  rw [hM] at h
  simp only at h
  cases hf : futureLoop (cacheDFS d scc M.children M.parents m fuel) unc
      { alreadyCached := Bitmap.New, cache := M.cache } with
  | error e => simp [hf] at h
  | ok st =>
    simp only [hf] at h
    cases h
    exact futureLoop_written M.cache _ (cacheDFS_written M.cache d scc M.children M.parents m fuel)
      unc _ st hf CacheWritten.start

/-! ## The batch `Cache` saves -/

/-- Every batch `Cache` passes to `SaveCaches` is what `computeCaches` returned for the
to-be-cached list, the number of keys and the node map the storage gave. -/
theorem Cache_saved_batch (ord : Direction → RangeOrder) {σ : Type} (st : Storage σ)
    (fuel : Nat) (s : σ) :
    ∀ c ∈ (Cache ord st.traced fuel (s, [])).2.2, c.op = .SaveCaches →
      ∃ unc s1 keys s2 m s3, st.ToBeCached s = (.ok unc, s1) ∧ unc ≠ [] ∧
        st.GetAllKeys s1 = (.ok keys, s2) ∧ st.GetNodes keys s2 = (.ok m, s3) ∧
        computeCaches ord fuel unc keys.length m = .ok c.saved := by
  simp only [Cache, Storage.traced]
  rcases h1 : st.ToBeCached s with ⟨r1, s1⟩
  cases r1 with
  | error e => simp
  | ok unc =>
    by_cases hu : unc.length = 0
    · simp [hu]
    · have hne : unc ≠ [] := fun e => hu (by rw [e]; rfl)
      simp only [hu, if_false]
      rcases h2 : st.GetAllKeys s1 with ⟨r2, s2⟩
      cases r2 with
      | error e => simp [h2]
      | ok keys =>
        rcases h3 : st.GetNodes keys s2 with ⟨r3, s3⟩
        cases r3 with
        | error e => simp [h2, h3]
        | ok allNodes =>
          cases h4 : computeCaches ord fuel unc keys.length allNodes with
          | error e => simp [h2, h3, h4]
          | ok caches =>
            have hgoal : ∃ (unc' : List Nat) (s1' : σ) (keys' : List Nat) (s2' : σ)
                (m : NodeMap) (s3' : σ),
                ((Except.ok unc : Except Error (List Nat)), s1) = (Except.ok unc', s1') ∧
                unc' ≠ [] ∧ st.GetAllKeys s1' = (.ok keys', s2') ∧
                st.GetNodes keys' s2' = (.ok m, s3') ∧
                computeCaches ord fuel unc' keys'.length m = .ok caches :=
              ⟨unc, s1, keys, s2, allNodes, s3, rfl, hne, h2, h3, h4⟩
            rcases h5 : st.SaveCaches caches s3 with ⟨r5, s5⟩
            cases r5 with
            | some e => simpa [h2, h3, h4, h5] using hgoal
            | none =>
              rcases h6 : st.ClearCacheStack s5 with ⟨r6, s6⟩
              simpa [h2, h3, h4, h5, h6] using hgoal

/-- What the in-memory storage returns to `Cache` when its node map has keys `1..N`:
`N` keys and the node map itself. -/
theorem MemStorage.run_nodes (s : MemStorage) (N : Nat) (hk : KeysInRange N s.nodes) :
    ∀ unc s1 keys s2 m s3, MemStorage.ops.ToBeCached s = (.ok unc, s1) →
      MemStorage.ops.GetAllKeys s1 = (.ok keys, s2) →
      MemStorage.ops.GetNodes keys s2 = (.ok m, s3) →
      keys.length = N ∧ m = s.nodes ∧ unc = s.toBeCached := by
  intro unc s1 keys s2 m s3 h1 h2 h3
  simp only [MemStorage.ops] at h1 h2 h3
  cases hf1 : s.fault .ToBeCached with
  | some e => simp [hf1] at h1
  | none =>
    simp only [hf1, Prod.mk.injEq, Except.ok.injEq] at h1
    obtain ⟨e1, e2⟩ := h1
    subst e1 e2
    cases hf2 : s.fault .GetAllKeys with
    | some e => simp [hf2] at h2
    | none =>
      simp only [hf2, Prod.mk.injEq, Except.ok.injEq] at h2
      obtain ⟨e3, e4⟩ := h2
      subst e3 e4
      cases hf3 : s.fault .GetNodes with
      | some e => simp [hf3] at h3
      | none =>
        simp only [hf3, Prod.mk.injEq, Except.ok.injEq] at h3
        obtain ⟨e5, -⟩ := h3
        rw [MemStorage.getNodes_all hk] at e5
        subst e5
        refine ⟨?_, rfl, rfl⟩
        rw [hk.1]
        simp

/-- On a well-formed node map the components of the two directions are the same. -/
theorem SameSCC.any_direction {N : Nat} {m : NodeMap} (hw : WellFormed N m) {d : Direction}
    {a b : Nat} (h : SameSCC d m a b) (d2 : Direction) : SameSCC d2 m a b := by
  have ho : SameSCC d.opposite m a b :=
    ⟨Reach.opposite_reach hw h.2, Reach.opposite_reach hw h.1⟩
  cases d <;> cases d2
  · exact h
  · exact ho
  · exact ho
  · exact h

theorem record_closure_le {N : Nat} {m : NodeMap} (hw : WellFormed N m) (unc : List Nat)
    {d : Direction} {u v : Nat} (h : SameSCC d m u v) (A B : Bitmap)
    (hA : ∀ x, x ∈ A ↔ x ≠ u ∧ ((NearUncached m unc u ∧ Reach d m u x) ∨
      (¬ NearUncached m unc u ∧ SameSCC d m u x)))
    (hB : ∀ x, x ∈ B ↔ x ≠ v ∧ ((NearUncached m unc v ∧ Reach d m v x) ∨
      (¬ NearUncached m unc v ∧ SameSCC d m v x))) :
    ∀ x, (x ∈ A ∨ x = u) → (x ∈ B ∨ x = v) := by
  have hn : NearUncached m unc u ↔ NearUncached m unc v :=
    ⟨fun a => a.of_connected (Reach.connected_of_reach hw h.1),
      fun a => a.of_connected (Reach.connected_of_reach hw h.2)⟩
  intro x hx
  by_cases hxv : x = v
  · exact Or.inr hxv
  · left
    rw [hB]
    refine ⟨hxv, ?_⟩
    rcases hx with hx | hx
    · obtain ⟨-, ⟨hnear, hr⟩ | ⟨hnn, hs⟩⟩ := (hA x).mp hx
      · exact Or.inl ⟨hn.mp hnear, h.2.trans hr⟩
      · exact Or.inr ⟨fun a => hnn (hn.mpr a), h.symm_scc.trans_scc hs⟩
    · subst hx
      by_cases hv : NearUncached m unc v
      · exact Or.inl ⟨hv, h.2⟩
      · exact Or.inr ⟨hv, h.symm_scc⟩

/-- Two nodes of one component: the reachability parts of their records differ only
in the node that is left out. -/
theorem record_closure_of_peers {N : Nat} {m : NodeMap} (hw : WellFormed N m) (unc : List Nat)
    {d : Direction} {u v : Nat} (h : SameSCC d m u v) (A B : Bitmap)
    (hA : ∀ x, x ∈ A ↔ x ≠ u ∧ ((NearUncached m unc u ∧ Reach d m u x) ∨
      (¬ NearUncached m unc u ∧ SameSCC d m u x)))
    (hB : ∀ x, x ∈ B ↔ x ≠ v ∧ ((NearUncached m unc v ∧ Reach d m v x) ∨
      (¬ NearUncached m unc v ∧ SameSCC d m v x))) :
    ∀ x, (x ∈ A ∨ x = u) ↔ (x ∈ B ∨ x = v) :=
  fun x => ⟨record_closure_le hw unc h A B hA hB x,
    record_closure_le hw unc h.symm_scc B A hB hA x⟩

/-! ## Shared slots of a component -/

/-- C21: on a well-formed node map, for either direction, with `scc` computed by
`findCycles` and the maps seeded by `addCyclesToBindMap`: in every cache map that the
writes of `cacheDFS` lead to from the seeded one, two nodes `u`, `v` with
`scc[u] = scc[v]` read the same bitmap, and a value written through `u` is read
through `v`; the map `buildCache` returns is such a map (and `buildCache` returns
one for every uncached list of node ids); and in every batch `Cache` passes to
`SaveCaches`, two records whose nodes have the same `scc` value satisfy
`allChildren(u) ∪ {u} = allChildren(v) ∪ {v}` and
`allParents(u) ∪ {u} = allParents(v) ∪ {v}`. -/
theorem buildCache_component_shares_slot (ord : Direction → RangeOrder) {σ : Type}
    (st : Storage σ) (s : σ) (m : NodeMap) (N : Nat) (hw : WellFormed N m)
    (hst : ∀ unc s1 keys s2 m1 s3, st.ToBeCached s = (.ok unc, s1) →
      st.GetAllKeys s1 = (.ok keys, s2) → st.GetNodes keys s2 = (.ok m1, s3) →
      keys.length = N ∧ m1 = m)
    (fuel : Nat) (hfuel : (N + 1) * (N + 1) ≤ fuel) (d : Direction) :
    ∃ scc M, findCycles fuel d N m = .ok scc ∧
      addCyclesToBindMap (ord d) scc
        { cache := NativeKeyManagement.New, children := NativeKeyManagement.New,
          parents := NativeKeyManagement.New } m = .ok M ∧
      (∀ c, CacheWritten M.cache c → ∀ u v, 1 ≤ u → u ≤ N → 1 ≤ v → v ≤ N →
        IdMap.get scc u = IdMap.get scc v →
        c.Get (Itoa u) = c.Get (Itoa v) ∧
        ∀ value, ∃ c1, c.Set (Itoa u) value = .ok c1 ∧ c1.Get (Itoa v) = .ok value) ∧
      (∀ unc,
        (∀ km, buildCache (ord d) fuel unc d scc m = .ok km → CacheWritten M.cache km) ∧
        ((∀ u ∈ unc, 1 ≤ u ∧ u ≤ N) → ∃ km, buildCache (ord d) fuel unc d scc m = .ok km)) ∧
      (∀ c ∈ (Cache ord st.traced fuel (s, [])).2.2, c.op = .SaveCaches →
        ∀ cu ∈ c.saved, ∀ cv ∈ c.saved,
          IdMap.get scc cu.nodeID = IdMap.get scc cv.nodeID →
          (∀ x, (x ∈ cu.allChildren ∨ x = cu.nodeID) ↔
            (x ∈ cv.allChildren ∨ x = cv.nodeID)) ∧
          (∀ x, (x ∈ cu.allParents ∨ x = cu.nodeID) ↔
            (x ∈ cv.allParents ∨ x = cv.nodeID))) := by
  have hN : N < fuel := by
    have : (N + 1) * (N + 1) = N * N + 2 * N + 1 := by ring
    omega
  obtain ⟨scc, c1, c2, c3, c4, c5⟩ := findCycles_spec (d := d) hw.1 fuel hN
  have hdom : ∀ u, (IdMap.get? scc u).isSome = true ↔ (1 ≤ u ∧ u ≤ N) :=
    fun u => ⟨c3 u, fun h => c2 u h.1 h.2⟩
  obtain ⟨M, hM, hseed⟩ := addCyclesToBindMap_spec (ord d) hw.1 scc c4 hdom
  refine ⟨scc, M, c1, hM, ?_, ?_, ?_⟩
  · intro c hc u v hu1 hu2 hv1 hv2 e
    have hcan : c.canonical (Itoa u) = c.canonical (Itoa v) := by
      rw [hc.canonical_written, hc.canonical_written]
      exact (hseed.canon u v hu1 hu2 hv1 hv2).mpr e
    constructor
    · rw [NativeKeyManagement.Get_eq, NativeKeyManagement.Get_eq]
      unfold NativeKeyManagement.view
      rw [hcan]
    · intro value
      refine ⟨_, NativeKeyManagement.Set_eq c (Itoa u) value, ?_⟩
      rw [NativeKeyManagement.Get_eq, NativeKeyManagement.view_Set, if_pos hcan]
  · intro unc
    exact ⟨fun km hkm => buildCache_written (ord d) fuel unc d scc m km hkm M hM,
      fun hunc => buildCache_total (ord d) hw.1 scc c4 hdom c5 unc hunc fuel hfuel⟩
  · intro c hc hop cu hcu cv hcv e
    obtain ⟨unc, s1, keys, s2, m1, s3, h1, -, h2, h3, h4⟩ :=
      Cache_saved_batch ord st fuel s c hc hop
    obtain ⟨hlen, hm⟩ := hst unc s1 keys s2 m1 s3 h1 h2 h3
    subst hm
    rw [hlen] at h4
    by_cases hunc : ∀ u ∈ unc, 1 ≤ u ∧ u ≤ N
    · obtain ⟨caches, ids, e1, hids, hmap, hchar⟩ := computeCaches_spec ord hw unc hunc fuel hfuel
      rw [h4] at e1
      cases e1
      have hr : ∀ r ∈ c.saved, 1 ≤ r.nodeID ∧ r.nodeID ≤ N := by
        intro r hr
        apply (hids r.nodeID).mp
        rw [← hmap]
        exact List.mem_map_of_mem _ hr
      have hsame : SameSCC d m1 cu.nodeID cv.nodeID :=
        (c5 _ _ (hr cu hcu).1 (hr cu hcu).2 (hr cv hcv).1 (hr cv hcv).2).mp e
      exact ⟨record_closure_of_peers hw unc (hsame.any_direction hw .ChildrenDirection) _ _
          (hchar cu hcu).1 (hchar cv hcv).1,
        record_closure_of_peers hw unc (hsame.any_direction hw .ParentsDirection) _ _
          (hchar cu hcu).2 (hchar cv hcv).2⟩
    · exfalso
      simp only [not_forall, exists_prop] at hunc
      obtain ⟨u, hu, hbad⟩ := hunc
      obtain ⟨e, he⟩ := computeCaches_bad_id ord hw unc ⟨u, hu, hbad⟩ fuel hfuel
      rw [h4] at he
      cases he

/-- Witness for C21: the cycle `1 → 2 → 1`. The two nodes get the same `scc` value,
and in every cache map of the build they read the same bitmap. -/
theorem buildCache_component_shares_slot_witness :
    WellFormed 2 cycleStorage.nodes ∧ (2 + 1) * (2 + 1) ≤ 9 ∧
    ∃ scc M, findCycles 9 .ChildrenDirection 2 cycleStorage.nodes = .ok scc ∧
      IdMap.get scc 1 = IdMap.get scc 2 ∧
      addCyclesToBindMap RangeOrder.listed scc
        { cache := NativeKeyManagement.New, children := NativeKeyManagement.New,
          parents := NativeKeyManagement.New } cycleStorage.nodes = .ok M ∧
      (∀ c, CacheWritten M.cache c → c.Get (Itoa 1) = c.Get (Itoa 2)) ∧
      ∃ km, buildCache RangeOrder.listed 9 [1, 2] .ChildrenDirection scc cycleStorage.nodes =
        .ok km ∧ CacheWritten M.cache km := by
  obtain ⟨scc, M, h1, h2, h3, h4, -⟩ :=
    buildCache_component_shares_slot RangeOrder.listedBoth MemStorage.ops cycleStorage
      cycleStorage.nodes 2 (by decide)
      (fun unc s1 keys s2 m1 s3 a b c =>
        ⟨(MemStorage.run_nodes cycleStorage 2 (by decide) unc s1 keys s2 m1 s3 a b c).1,
          (MemStorage.run_nodes cycleStorage 2 (by decide) unc s1 keys s2 m1 s3 a b c).2.1⟩)
      9 (by decide) .ChildrenDirection
  have e : findCycles 9 .ChildrenDirection 2 cycleStorage.nodes = .ok [(1, 1), (2, 1)] := rfl
  have hs : scc = [(1, 1), (2, 1)] := by
    rw [e] at h1
    cases h1
    rfl
  have h12 : IdMap.get scc 1 = IdMap.get scc 2 := by
    rw [hs]
    rfl
  obtain ⟨km, hkm⟩ := (h4 [1, 2]).2 (by decide)
  exact ⟨by decide, by decide, scc, M, h1, h12, h2,
    fun c hc => (h3 c hc 1 2 (by decide) (by decide) (by decide) (by decide) h12).1,
    km, hkm, (h4 [1, 2]).1 km hkm⟩

/-- What `addCyclesToBindMap` returned, for the map `findCycles` returned on a node
map with keys `1..N`, is seeded as `SeededMaps` says. -/
theorem SeededMaps.of_seeding (ord : RangeOrder) {d : Direction} {m : NodeMap} {N : Nat}
    (hk : KeysInRange N m) (fuelT : Nat) (hfT : N < fuelT) {scc : IdMap}
    (hsc : findCycles fuelT d N m = .ok scc) {M : BindMaps}
    (hM : addCyclesToBindMap ord scc
      { cache := NativeKeyManagement.New, children := NativeKeyManagement.New,
        parents := NativeKeyManagement.New } m = .ok M) :
    SeededMaps m N scc M := by
  obtain ⟨scc', c1, c2, c3, c4, -⟩ := findCycles_spec (d := d) hk fuelT hfT
  have e : scc' = scc := by
    rw [hsc] at c1
    cases c1
    rfl
  subst e
  obtain ⟨M', hM', hseed⟩ := addCyclesToBindMap_spec ord hk scc' c4
    (fun u => ⟨c3 u, fun h => c2 u h.1 h.2⟩)
  have e2 : M' = M := by
    rw [hM] at hM'
    cases hM'
    rfl
  subst e2
  exact hseed

/-- In the seeded cache map, a key that shares its slot with the key of a node is the
key of a node of the same group. -/
theorem SeededMaps.same_slot_key {m : NodeMap} {N : Nat} {scc : IdMap} {M : BindMaps}
    (hs : SeededMaps m N scc M) {cur : Nat} (h1 : 1 ≤ cur) (h2 : cur ≤ N) (key : String)
    (h : M.cache.canonical (Itoa cur) = M.cache.canonical key) :
    ∃ v, 1 ≤ v ∧ v ≤ N ∧ IdMap.get scc v = IdMap.get scc cur ∧ key = Itoa v := by
  have hb := (hs.bound (Itoa cur)).mpr ⟨cur, h1, h2, rfl⟩
  obtain ⟨cc, hcc⟩ := Option.isSome_iff_exists.mp hb
  have hcan : M.cache.canonical (Itoa cur) = cc :=
    NativeKeyManagement.canonical_of_binding _ _ _ hcc
  have hself := hs.closed.cache.canon_self _ _ hcc
  cases hkey : NativeKeyManagement.lookupBinding M.cache.bindings key with
  | some ck =>
    obtain ⟨w, hw1, hw2, e⟩ := (hs.bound key).mp (by rw [hkey]; rfl)
    subst e
    exact ⟨w, hw1, hw2, ((hs.canon w cur hw1 hw2 h1 h2).mp h.symm), rfl⟩
  | none =>
    have hk : M.cache.canonical key = key := by
      unfold NativeKeyManagement.canonical
      rw [hkey]
      rfl
    rw [hcan, hk] at h
    subst h
    rw [hself] at hkey
    cases hkey

/-- C22: on a node map with keys `1..N` and adjacency ids in `1..N`, with `scc`
computed by `findCycles` and the maps seeded by `addCyclesToBindMap`, in every cache
map `c` that the writes of the build lead to, for a node `cur` and an id `todo` of
its `todoNodes`: `addToCache(c, cur, todo)` returns, the slot of `cur` becomes
`Or` of its old slot and the old slot of `todo` with the id of `cur` added, which as
a set is the old slot of `cur`, the old slot of `todo` and the id of `todo`; and
every key that is not the key of a node of the group of `cur` reads what it read
before. -/
theorem addToCache_unions_todo_slot (ord : RangeOrder) (d : Direction) (m : NodeMap)
    (N : Nat) (hk : KeysInRange N m) (fuelT : Nat) (hfT : N < fuelT) (scc : IdMap)
    (hsc : findCycles fuelT d N m = .ok scc) (M : BindMaps)
    (hM : addCyclesToBindMap ord scc
      { cache := NativeKeyManagement.New, children := NativeKeyManagement.New,
        parents := NativeKeyManagement.New } m = .ok M)
    (c : NativeKeyManagement) (hc : CacheWritten M.cache c) (cur : Nat) (nd : Node)
    (hnd : NodeMap.get? m cur = some nd) (todoNodes futureNodes : List Nat)
    (hget : getTodoAndFutureNodes M.children M.parents nd d = .ok (todoNodes, futureNodes))
    (todo : Nat) (htodo : todo ∈ todoNodes) :
    ∃ c1 oldCur oldTodo newCur, c.Get (Itoa cur) = .ok oldCur ∧
      c.Get (Itoa todo) = .ok oldTodo ∧ addToCache c cur todo = .ok c1 ∧
      CacheWritten M.cache c1 ∧ c1.Get (Itoa cur) = .ok newCur ∧
      newCur = Bitmap.Add (Bitmap.Or oldCur oldTodo) cur ∧
      (∀ x, x ∈ newCur ↔ (x ∈ oldCur ∨ x ∈ oldTodo ∨ x = todo)) ∧
      (∀ key, (∀ v, 1 ≤ v → v ≤ N → IdMap.get scc v = IdMap.get scc cur → key ≠ Itoa v) →
        c1.Get key = c.Get key) := by
  have hseed := SeededMaps.of_seeding ord hk fuelT hfT hsc hM
  have hcur := hk.key_range hnd
  obtain ⟨nd', hnd', hid, -, -⟩ := hk.get? hcur.1 hcur.2
  rw [hnd] at hnd'
  cases hnd'
  obtain ⟨todo', future', g0, g1, -⟩ := getTodoAndFutureNodes_spec hseed d nd
    (by rw [hid]; exact hcur.1) (by rw [hid]; exact hcur.2)
  rw [hget] at g0
  cases g0
  obtain ⟨⟨v, -, -, -, hedge⟩, -⟩ := (g1 todo).mp htodo
  have htr := (Edge.range_edge hk hedge).2
  have hcurIn : cur ∈ c.view (Itoa cur) :=
    hc.view_mono _ _ ((hseed.cache_view cur hcur.1 hcur.2 cur).mpr ⟨hcur.1, hcur.2, rfl⟩)
  have htodoIn : todo ∈ c.view (Itoa todo) :=
    hc.view_mono _ _ ((hseed.cache_view todo htr.1 htr.2 todo).mpr ⟨htr.1, htr.2, rfl⟩)
  refine ⟨_, c.view (Itoa cur), c.view (Itoa todo), _, rfl, rfl, addToCache_eq c cur todo,
    CacheWritten.write c _ cur todo hc (addToCache_eq c cur todo), ?_, rfl, ?_, ?_⟩
  · rw [NativeKeyManagement.Get_eq, NativeKeyManagement.view_Set, if_pos rfl]
  · intro x
    rw [Bitmap.mem_Add, Bitmap.mem_Or]
    constructor
    · rintro (rfl | h | h)
      · exact Or.inl hcurIn
      · exact Or.inl h
      · exact Or.inr (Or.inl h)
    · rintro (h | h | rfl)
      · exact Or.inr (Or.inl h)
      · exact Or.inr (Or.inr h)
      · exact Or.inr (Or.inr htodoIn)
  · intro key hkey
    rw [NativeKeyManagement.Get_eq, NativeKeyManagement.Get_eq, NativeKeyManagement.view_Set]
    rw [if_neg]
    intro hcan
    rw [hc.canonical_written, hc.canonical_written] at hcan
    obtain ⟨v, hv1, hv2, e, rfl⟩ := hseed.same_slot_key hcur.1 hcur.2 key hcan
    exact hkey v hv1 hv2 e rfl

/-- Witness for C22: the chain `1 → 2` with node 1 uncached. The build calls
`addToCache(cache, 1, 2)` on the seeded cache map, when `cacheDFS` re-enters node 1
from the marked node 2. -/
theorem addToCache_unions_todo_slot_witness :
    KeysInRange 2 chainNodes ∧ 2 < 3 ∧
    findCycles 3 .ChildrenDirection 2 chainNodes = .ok [(1, 1), (2, 2)] ∧
    addCyclesToBindMap RangeOrder.listed [(1, 1), (2, 2)]
      { cache := NativeKeyManagement.New, children := NativeKeyManagement.New,
        parents := NativeKeyManagement.New } chainNodes = .ok chainSeed ∧
    NodeMap.get? chainNodes 1 = some ⟨1, [2], []⟩ ∧
    getTodoAndFutureNodes chainSeed.children chainSeed.parents ⟨1, [2], []⟩
      .ChildrenDirection = .ok ([2], []) ∧
    ∃ c1 oldCur oldTodo newCur, chainSeed.cache.Get (Itoa 1) = .ok oldCur ∧
      chainSeed.cache.Get (Itoa 2) = .ok oldTodo ∧
      addToCache chainSeed.cache 1 2 = .ok c1 ∧
      CacheWritten chainSeed.cache c1 ∧ c1.Get (Itoa 1) = .ok newCur ∧
      newCur = Bitmap.Add (Bitmap.Or oldCur oldTodo) 1 ∧
      (∀ x, x ∈ newCur ↔ (x ∈ oldCur ∨ x ∈ oldTodo ∨ x = 2)) ∧
      (∀ key, (∀ v, 1 ≤ v → v ≤ 2 →
          IdMap.get [(1, 1), (2, 2)] v = IdMap.get [(1, 1), (2, 2)] 1 → key ≠ Itoa v) →
        c1.Get key = chainSeed.cache.Get key) :=
  ⟨by decide, by decide, rfl, rfl, rfl, rfl,
    addToCache_unions_todo_slot RangeOrder.listed .ChildrenDirection chainNodes 2 (by decide) 3
      (by decide) [(1, 1), (2, 2)] rfl chainSeed rfl chainSeed.cache CacheWritten.start 1
      ⟨1, [2], []⟩ rfl [2] [] rfl 2 (by simp)⟩

/-! ## More recursion budget does not change a result -/

theorem todoLoop_fuel_mono (dfs dfs2 : Nat → DFSState → Except Error DFSState)
    (hdfs : ∀ Y st r, dfs Y st = r → r ≠ .error .outOfFuel → dfs2 Y st = r)
    (scc : IdMap) (curID nodeID : Nat) :
    ∀ (rest : List Nat) (st : DFSState) (r : Except Error DFSState),
      todoLoop dfs scc curID nodeID rest st = r → r ≠ .error .outOfFuel →
      todoLoop dfs2 scc curID nodeID rest st = r := by
  intro rest
  induction rest with
  | nil =>
    intro st r h _
    simpa [todoLoop] using h
  | cons id rest ih =>
    intro st r h hr
    unfold todoLoop at h ⊢
    by_cases h1 : IdMap.get scc curID = IdMap.get scc id
    · rw [if_neg (not_not.mpr h1)] at h ⊢
      exact ih st r h hr
    · rw [if_pos h1] at h ⊢
      by_cases h2 : Bitmap.Contains st.alreadyCached id = true
      · rw [if_pos h2] at h ⊢
        cases ha : addToCache st.cache nodeID id with
        | error e =>
          simp only [ha] at h ⊢
          exact h
        | ok c1 =>
          simp only [ha] at h ⊢
          exact ih _ r h hr
      · rw [if_neg h2] at h ⊢
        cases hd : dfs id st with
        | error e =>
          simp only [hd] at h
          subst h
          rw [hdfs id st _ hd hr]
        | ok st1 =>
          simp only [hd] at h
          rw [hdfs id st _ hd (by simp)]
          exact ih st1 r h hr

theorem futureLoop_fuel_mono (dfs dfs2 : Nat → DFSState → Except Error DFSState)
    (hdfs : ∀ Y st r, dfs Y st = r → r ≠ .error .outOfFuel → dfs2 Y st = r) :
    ∀ (l : List Nat) (st : DFSState) (r : Except Error DFSState),
      futureLoop dfs l st = r → r ≠ .error .outOfFuel → futureLoop dfs2 l st = r := by
  intro l
  induction l with
  | nil =>
    intro st r h _
    simpa [futureLoop] using h
  | cons id rest ih =>
    intro st r h hr
    unfold futureLoop at h ⊢
    cases hd : dfs id st with
    | error e =>
      simp only [hd] at h
      subst h
      rw [hdfs id st _ hd hr]
    | ok st1 =>
      simp only [hd] at h
      rw [hdfs id st _ hd (by simp)]
      exact ih st1 r h hr

/-- A call of `cacheDFS` that did not run out of its recursion budget returns the
same with any larger budget. -/
theorem cacheDFS_fuel_mono (d : Direction) (scc : IdMap)
    (children parents : NativeKeyManagement) (m : NodeMap) :
    ∀ (fuel X : Nat) (st : DFSState) (r : Except Error DFSState),
      cacheDFS d scc children parents m fuel X st = r → r ≠ .error .outOfFuel →
      ∀ fuel2, fuel ≤ fuel2 → cacheDFS d scc children parents m fuel2 X st = r := by
  intro fuel
  induction fuel with
  | zero =>
    intro X st r h hr
    simp only [cacheDFS] at h
    exact absurd h.symm hr
  | succ fuel ih =>
    intro X st r h hr fuel2 hf
    obtain ⟨f2, rfl⟩ : ∃ f2, fuel2 = f2 + 1 := ⟨fuel2 - 1, by omega⟩
    have hstep : ∀ Y st r, cacheDFS d scc children parents m fuel Y st = r →
        r ≠ .error .outOfFuel → cacheDFS d scc children parents m f2 Y st = r :=
      fun Y st r a b => ih Y st r a b f2 (by omega)
    unfold cacheDFS at h ⊢
    cases hnd : NodeMap.get? m X with
    | none =>
      simp only [hnd] at h ⊢
      exact h
    | some nd =>
      simp only [hnd] at h ⊢
      by_cases hmark : Bitmap.Contains st.alreadyCached nd.ID = true
      · rw [if_pos hmark] at h ⊢
        exact h
      · rw [if_neg hmark] at h ⊢
        cases hg : getTodoAndFutureNodes children parents nd d with
        | error e =>
          simp only [hg] at h ⊢
          exact h
        | ok tf =>
          obtain ⟨todo, future⟩ := tf
          simp only [hg] at h ⊢
          cases ht : todoLoop (cacheDFS d scc children parents m fuel) scc nd.ID X todo st with
          | error e =>
            simp only [ht] at h
            subst h
            rw [todoLoop_fuel_mono _ _ hstep scc nd.ID X todo st _ ht hr]
          | ok st1 =>
            simp only [ht] at h
            rw [todoLoop_fuel_mono _ _ hstep scc nd.ID X todo st _ ht (by simp)]
            exact futureLoop_fuel_mono _ _ hstep future _ r h hr

/-- A run of `buildCache` that did not run out of its recursion budget returns the
same with any larger budget. -/
theorem buildCache_fuel_mono (ord : RangeOrder) (unc : List Nat) (d : Direction) (scc : IdMap)
    (m : NodeMap) (fuel : Nat) (r : Except Error NativeKeyManagement)
    (h : buildCache ord fuel unc d scc m = r) (hr : r ≠ .error .outOfFuel) (fuel2 : Nat)
    (hf : fuel ≤ fuel2) : buildCache ord fuel2 unc d scc m = r := by
  unfold buildCache at h ⊢
  cases hM : addCyclesToBindMap ord scc
      { cache := NativeKeyManagement.New, children := NativeKeyManagement.New,
        parents := NativeKeyManagement.New } m with
  | error e =>
    simp only [hM] at h ⊢
    exact h
  | ok M =>
    simp only [hM] at h ⊢
    cases hl : futureLoop (cacheDFS d scc M.children M.parents m fuel) unc
        { alreadyCached := Bitmap.New, cache := M.cache } with
    | error e =>
      simp only [hl] at h
      subst h
      rw [futureLoop_fuel_mono _ _
        (fun Y st r a b => cacheDFS_fuel_mono d scc M.children M.parents m fuel Y st r a b
          fuel2 hf) unc _ _ hl (fun a => hr (by cases a; rfl))]
    | ok st =>
      simp only [hl] at h
      rw [futureLoop_fuel_mono _ _
        (fun Y st r a b => cacheDFS_fuel_mono d scc M.children M.parents m fuel Y st r a b
          fuel2 hf) unc _ _ hl (by simp)]
      exact h

theorem futureLoop_append (dfs : Nat → DFSState → Except Error DFSState) :
    ∀ (a b : List Nat) (st : DFSState),
      futureLoop dfs (a ++ b) st =
        match futureLoop dfs a st with
        | .error e => .error e
        | .ok st1 => futureLoop dfs b st1 := by
  intro a
  induction a with
  | nil =>
    intro b st
    simp [futureLoop]
  | cons x a ih =>
    intro b st
    simp only [List.cons_append, futureLoop]
    cases dfs x st with
    | error e => rfl
    | ok st1 => exact ih b st1

/-- A list with an id outside `1..N` splits at the first such id. -/
theorem exists_first_outside (N : Nat) :
    ∀ l : List Nat, (∃ u ∈ l, ¬ (1 ≤ u ∧ u ≤ N)) →
      ∃ good bad rest, l = good ++ bad :: rest ∧ (∀ u ∈ good, 1 ≤ u ∧ u ≤ N) ∧
        ¬ (1 ≤ bad ∧ bad ≤ N) := by
  intro l
  induction l with
  | nil =>
    rintro ⟨u, hu, -⟩
    cases hu
  | cons x l ih =>
    intro h
    by_cases hx : 1 ≤ x ∧ x ≤ N
    · obtain ⟨u, hu, hbad⟩ := h
      have hul : u ∈ l := by
        rcases List.mem_cons.mp hu with e | e
        · subst e
          exact absurd hx hbad
        · exact e
      obtain ⟨good, bad, rest, e, hg, hb⟩ := ih ⟨u, hul, hbad⟩
      refine ⟨x :: good, bad, rest, by rw [e]; rfl, ?_, hb⟩
      intro v hv
      rcases List.mem_cons.mp hv with e | e
      · subst e
        exact hx
      · exact hg v e
    · exact ⟨[], x, l, rfl, (fun u hu => by cases hu), hx⟩

/-- The number of nodes reachable from a node goes down along a collapsed edge, on
any node map with keys `1..N`. -/
theorem exists_rank_of_scc {d : Direction} {m : NodeMap} {N : Nat} (hk : KeysInRange N m)
    (scc : IdMap)
    (hscc : ∀ u v, 1 ≤ u → u ≤ N → 1 ≤ v → v ≤ N →
      (IdMap.get scc u = IdMap.get scc v ↔ SameSCC d m u v)) :
    ∃ rank : Nat → Nat, (∀ u, rank u ≤ N) ∧
      ∀ u t, (1 ≤ u ∧ u ≤ N) → GroupEdge d m N scc u t → rank t < rank u := by
  classical
  refine ⟨fun u => ((Finset.Icc 1 N).filter (fun v => Reach d m u v)).card, ?_, ?_⟩
  · intro u
    have := Finset.card_filter_le (Finset.Icc 1 N) (fun v => Reach d m u v)
    simpa using this
  · intro u t hu he
    obtain ⟨⟨v, hv1, hv2, hv3, hedge⟩, hne⟩ := he
    have hut : Reach d m u t := ((hscc u v hu.1 hu.2 hv1 hv2).mp hv3.symm).1.tail hedge
    have htr := (Edge.range_edge hk hedge).2
    apply Finset.card_lt_card
    rw [Finset.ssubset_iff_of_subset]
    · refine ⟨u, ?_, ?_⟩
      · simp [hu.1, hu.2, Reach, Relation.ReflTransGen.refl]
      · intro hmem
        simp only [Finset.mem_filter, Finset.mem_Icc] at hmem
        exact hne ((hscc t u htr.1 htr.2 hu.1 hu.2).mpr ⟨hmem.2, hut⟩)
    · intro v hv
      simp only [Finset.mem_filter, Finset.mem_Icc] at hv ⊢
      exact ⟨hv.1, hut.trans hv.2⟩

/-- With an id in the uncached list that is not a node, `buildCache` ends in the nil
dereference of `cacheDFS`, after the calls for the ids in front of it returned. -/
theorem buildCache_stale_id (ord : RangeOrder) {d : Direction} {m : NodeMap} {N : Nat}
    (hk : KeysInRange N m) (scc : IdMap) (hn : (scc.map Prod.fst).Nodup)
    (hdom : ∀ u, (IdMap.get? scc u).isSome = true ↔ (1 ≤ u ∧ u ≤ N))
    (hscc : ∀ u v, 1 ≤ u → u ≤ N → 1 ≤ v → v ≤ N →
      (IdMap.get scc u = IdMap.get scc v ↔ SameSCC d m u v))
    (unc : List Nat) (hbad : ∃ u ∈ unc, ¬ (1 ≤ u ∧ u ≤ N)) (fuel : Nat)
    (hfuel : (N + 1) * (N + 1) ≤ fuel) :
    buildCache ord fuel unc d scc m = .error .nilDereference := by
  obtain ⟨M, hM, hseed⟩ := addCyclesToBindMap_spec ord hk scc hn hdom
  obtain ⟨rank, hrankN, hrank⟩ := exists_rank_of_scc hk scc hscc
  obtain ⟨good, bad, rest, e, hgood, hb⟩ := exists_first_outside N unc hbad
  have hinv0 : BuildInv N M.cache { alreadyCached := Bitmap.New, cache := M.cache } :=
    ⟨rfl, hseed.closed.cache, by intro u hu; simp [Bitmap.New] at hu⟩
  have hcount : ({ alreadyCached := Bitmap.New, cache := M.cache } : DFSState).unmarked N ≤ N := by
    unfold DFSState.unmarked
    have := List.length_filter_le
      (fun v => !Bitmap.Contains Bitmap.New v) (List.range' 1 N)
    simpa using this
  have hfuel0 : ({ alreadyCached := Bitmap.New, cache := M.cache } : DFSState).unmarked N *
      (N + 1) + N < fuel := by
    have := Nat.mul_le_mul_right (N + 1) hcount
    have e : (N + 1) * (N + 1) = N * (N + 1) + N + 1 := by ring
    omega
  obtain ⟨st, s1, -, -⟩ := futureLoop_total rank hrankN fuel
    (cacheDFS d scc M.children M.parents m fuel)
    (cacheDFS_total hk hseed rank hrankN hrank fuel) good
    { alreadyCached := Bitmap.New, cache := M.cache } hinv0 hgood hfuel0
  have hpos : 0 < fuel := by
    have : 0 < (N + 1) * (N + 1) := Nat.mul_pos (Nat.succ_pos N) (Nat.succ_pos N)
    omega
  unfold buildCache
  rw [hM]
  simp only
  rw [e, futureLoop_append, s1]
  simp only [futureLoop]
  rw [cacheDFS_bad_id hk scc M.children M.parents fuel hpos bad hb st]

/-! ## Termination of `buildCache` -/

/-- C23: on a node map with keys `1..N` and adjacency ids in `1..N` (the node
invariant is not needed), for either direction, with `scc` computed by `findCycles`,
and for every uncached list: `buildCache` terminates. With any recursion budget of
at least `(N + 1) * (N + 1)` it gives one and the same result, which is not the
exhaustion of the budget: the built map when the list holds node ids only, the nil
dereference of `cacheDFS` when it holds an id that is not a node. -/
theorem buildCache_terminates (ord : RangeOrder) (d : Direction) (m : NodeMap) (N : Nat)
    (hk : KeysInRange N m) (fuelT : Nat) (hfT : N < fuelT) (scc : IdMap)
    (hsc : findCycles fuelT d N m = .ok scc) (unc : List Nat) :
    ∃ r, r ≠ .error .outOfFuel ∧
      (∀ fuel, (N + 1) * (N + 1) ≤ fuel → buildCache ord fuel unc d scc m = r) ∧
      ((∀ u ∈ unc, 1 ≤ u ∧ u ≤ N) → ∃ km, r = .ok km) ∧
      ((∃ u ∈ unc, ¬ (1 ≤ u ∧ u ≤ N)) → r = .error .nilDereference) := by
  obtain ⟨scc', c1, c2, c3, c4, c5⟩ := findCycles_spec (d := d) hk fuelT hfT
  have e : scc' = scc := by
    rw [hsc] at c1
    cases c1
    rfl
  subst e
  have hdom : ∀ u, (IdMap.get? scc' u).isSome = true ↔ (1 ≤ u ∧ u ≤ N) :=
    fun u => ⟨c3 u, fun h => c2 u h.1 h.2⟩
  by_cases hunc : ∀ u ∈ unc, 1 ≤ u ∧ u ≤ N
  · obtain ⟨km, hkm⟩ := buildCache_total ord hk scc' c4 hdom c5 unc hunc _ (le_refl _)
    refine ⟨.ok km, by simp, ?_, fun _ => ⟨km, rfl⟩, ?_⟩
    · intro fuel hf
      exact buildCache_fuel_mono ord unc d scc' m _ _ hkm (by simp) fuel hf
    · rintro ⟨u, hu, hbad⟩
      exact absurd (hunc u hu) hbad
  · simp only [not_forall, exists_prop] at hunc
    refine ⟨.error .nilDereference, by simp, ?_, ?_, fun _ => rfl⟩
    · intro fuel hf
      exact buildCache_stale_id ord hk scc' c4 hdom c5 unc hunc fuel hf
    · intro h
      obtain ⟨u, hu, hbad⟩ := hunc
      exact absurd (h u hu) hbad

/-- Witness for C23: the cycle `1 → 2 → 3 → 1` with node 2 uncached, in the children
direction. -/
theorem buildCache_terminates_witness :
    KeysInRange 3 triangleNodes ∧ 3 < 4 ∧
    findCycles 4 .ChildrenDirection 3 triangleNodes = .ok [(1, 1), (2, 1), (3, 1)] ∧
    ∃ r, r ≠ .error .outOfFuel ∧
      (∀ fuel, (3 + 1) * (3 + 1) ≤ fuel →
        buildCache RangeOrder.listed fuel [2] .ChildrenDirection [(1, 1), (2, 1), (3, 1)]
          triangleNodes = r) ∧
      ((∀ u ∈ [2], 1 ≤ u ∧ u ≤ 3) → ∃ km, r = .ok km) ∧
      ((∃ u ∈ [2], ¬ (1 ≤ u ∧ u ≤ 3)) → r = .error .nilDereference) :=
  ⟨by decide, by decide, rfl,
    buildCache_terminates RangeOrder.listed .ChildrenDirection triangleNodes 3 (by decide) 4
      (by decide) [(1, 1), (2, 1), (3, 1)] rfl [2]⟩

/-! ## Soundness of the saved records -/

/-- C24: on a well-formed node map, whatever the to-be-cached list, in every batch
`Cache` passes to `SaveCaches` every id in the `allChildren` of a record is a proper
descendant of the record's node (different from it and reachable from it by one or
more child edges), and every id in its `allParents` is a proper ancestor (different
from it, reachable from it by one or more parent edges, and the node is reachable
from the id by one or more child edges). This holds for the record of every node,
visited by `cacheDFS` or not. -/
theorem Cache_reports_only_reachable (ord : Direction → RangeOrder) {σ : Type}
    (st : Storage σ) (s : σ) (m : NodeMap) (N : Nat) (hw : WellFormed N m)
    (hst : ∀ unc s1 keys s2 m1 s3, st.ToBeCached s = (.ok unc, s1) →
      st.GetAllKeys s1 = (.ok keys, s2) → st.GetNodes keys s2 = (.ok m1, s3) →
      keys.length = N ∧ m1 = m)
    (fuel : Nat) (hfuel : (N + 1) * (N + 1) ≤ fuel) :
    ∀ c ∈ (Cache ord st.traced fuel (s, [])).2.2, c.op = .SaveCaches →
      ∀ r ∈ c.saved,
        (∀ x ∈ r.allChildren, x ≠ r.nodeID ∧ ReachPlus .ChildrenDirection m r.nodeID x) ∧
        (∀ x ∈ r.allParents, x ≠ r.nodeID ∧ ReachPlus .ParentsDirection m r.nodeID x ∧
          ReachPlus .ChildrenDirection m x r.nodeID) := by
  intro c hc hop r hr
  obtain ⟨unc, s1, keys, s2, m1, s3, h1, -, h2, h3, h4⟩ :=
    Cache_saved_batch ord st fuel s c hc hop
  obtain ⟨hlen, hm⟩ := hst unc s1 keys s2 m1 s3 h1 h2 h3
  subst hm
  rw [hlen] at h4
  by_cases hunc : ∀ u ∈ unc, 1 ≤ u ∧ u ≤ N
  · obtain ⟨caches, ids, e1, -, -, hchar⟩ := computeCaches_spec ord hw unc hunc fuel hfuel
    rw [h4] at e1
    cases e1
    have hreach : ∀ (d : Direction) (x : Nat),
        ((NearUncached m1 unc r.nodeID ∧ Reach d m1 r.nodeID x) ∨
          (¬ NearUncached m1 unc r.nodeID ∧ SameSCC d m1 r.nodeID x)) →
        Reach d m1 r.nodeID x := by
      intro d x h
      rcases h with h | h
      · exact h.2
      · exact h.2.1
    constructor
    · intro x hx
      obtain ⟨hne, h⟩ := ((hchar r hr).1 x).mp hx
      exact ⟨hne, ((reach_ne_iff _ _ _ _).mp ⟨hne, hreach _ x h⟩).1⟩
    · intro x hx
      obtain ⟨hne, h⟩ := ((hchar r hr).2 x).mp hx
      have hp := hreach .ParentsDirection x h
      have hcd : Reach .ChildrenDirection m1 x r.nodeID := Reach.opposite_reach hw hp
      exact ⟨hne, ((reach_ne_iff _ _ _ _).mp ⟨hne, hp⟩).1,
        ((reach_ne_iff _ _ _ _).mp ⟨Ne.symm hne, hcd⟩).1⟩
  · exfalso
    simp only [not_forall, exists_prop] at hunc
    obtain ⟨e, he⟩ := computeCaches_bad_id ord hw unc hunc fuel hfuel
    rw [h4] at he
    cases he

theorem exampleChain_trace :
    (Cache RangeOrder.listedBoth MemStorage.ops.traced 16
        ({ nodes := exampleNodes, caches := [], toBeCached := [3], faults := [] }, [])).2.2 =
      [⟨.ToBeCached, false, []⟩, ⟨.GetAllKeys, false, []⟩, ⟨.GetNodes, false, []⟩,
        ⟨.SaveCaches, false, [⟨1, [], []⟩, ⟨2, [], [3]⟩, ⟨3, [2], []⟩]⟩,
        ⟨.ClearCacheStack, false, []⟩] := by
  rfl

/-- Witness for C24: three nodes with the edge `2 → 3` and only node 3 uncached. The
batch is saved; it holds the record of node 1, which `cacheDFS` never visits, and
the records of nodes 2 and 3, which name each other. -/
theorem Cache_reports_only_reachable_witness :
    WellFormed 3 exampleNodes ∧ (3 + 1) * (3 + 1) ≤ 16 ∧
    (⟨.SaveCaches, false, [⟨1, [], []⟩, ⟨2, [], [3]⟩, ⟨3, [2], []⟩]⟩ : StorageCall) ∈
      (Cache RangeOrder.listedBoth MemStorage.ops.traced 16
        ({ nodes := exampleNodes, caches := [], toBeCached := [3], faults := [] }, [])).2.2 ∧
    ∀ c ∈ (Cache RangeOrder.listedBoth MemStorage.ops.traced 16
        ({ nodes := exampleNodes, caches := [], toBeCached := [3], faults := [] }, [])).2.2,
      c.op = .SaveCaches → ∀ r ∈ c.saved,
        (∀ x ∈ r.allChildren, x ≠ r.nodeID ∧
          ReachPlus .ChildrenDirection exampleNodes r.nodeID x) ∧
        (∀ x ∈ r.allParents, x ≠ r.nodeID ∧
          ReachPlus .ParentsDirection exampleNodes r.nodeID x ∧
          ReachPlus .ChildrenDirection exampleNodes x r.nodeID) :=
  ⟨by decide, by decide, by rw [exampleChain_trace]; simp,
    Cache_reports_only_reachable RangeOrder.listedBoth MemStorage.ops
      { nodes := exampleNodes, caches := [], toBeCached := [3], faults := [] } exampleNodes 3
      (by decide)
      (fun unc s1 keys s2 m1 s3 a b c =>
        ⟨(MemStorage.run_nodes
            { nodes := exampleNodes, caches := [], toBeCached := [3], faults := [] } 3
            (by decide) unc s1 keys s2 m1 s3 a b c).1,
          (MemStorage.run_nodes
            { nodes := exampleNodes, caches := [], toBeCached := [3], faults := [] } 3
            (by decide) unc s1 keys s2 m1 s3 a b c).2.1⟩)
      16 (by decide)⟩

/-! ## Ascending bitmaps through the build -/

theorem addToCache_ascending (c c1 : NativeKeyManagement) (cur todo : Nat)
    (h : addToCache c cur todo = .ok c1) (ha : c.Ascending) : c1.Ascending := by
  rw [addToCache_eq] at h
  cases h
  exact ascending_setValue c.values ha _ _
    (Bitmap.Add_ascending _ _ (Bitmap.Or_ascending _ _ (ha.view _)))

theorem CacheWritten.ascending {c0 c : NativeKeyManagement} (h : CacheWritten c0 c)
    (h0 : c0.Ascending) : c.Ascending := by
  induction h with
  | start => exact h0
  | write c c1 cur todo _ hw ih => exact addToCache_ascending c c1 cur todo hw ih

/-- Every bitmap of the map `buildCache` returns lists its ids in ascending order. -/
theorem buildCache_ascending (ord : RangeOrder) (fuel : Nat) (unc : List Nat) (d : Direction)
    (scc : IdMap) (m : NodeMap) (km : NativeKeyManagement)
    (h : buildCache ord fuel unc d scc m = .ok km) : km.Ascending := by
  cases hM : addCyclesToBindMap ord scc
      { cache := NativeKeyManagement.New, children := NativeKeyManagement.New,
        parents := NativeKeyManagement.New } m with
  | error e =>
    unfold buildCache at h
    rw [hM] at h
    cases h
  | ok M =>
    exact (buildCache_written ord fuel unc d scc m km h M hM).ascending
      (addCyclesToBindMap_ascending ord scc m M hM).1

theorem Bitmap.Remove_ascending (b : Bitmap) (x : Nat) (h : b.Pairwise (· < ·)) :
    (Bitmap.Remove b x).Pairwise (· < ·) :=
  List.Pairwise.sublist (List.filter_sublist _) h

/-- The bitmaps of the records `Cache` computes list their ids in ascending order. -/
theorem computeCaches_ascending (ord : Direction → RangeOrder) {m : NodeMap} {N : Nat}
    (hk : KeysInRange N m) (unc : List Nat) (fuel : Nat) (hfuel : N < fuel)
    (caches : List NodeCache) (h : computeCaches ord fuel unc N m = .ok caches) :
    ∀ c ∈ caches, c.allChildren.Pairwise (· < ·) ∧ c.allParents.Pairwise (· < ·) := by
  obtain ⟨sc, c1, c2, c3, c4, -⟩ := findCycles_spec (d := .ChildrenDirection) hk fuel hfuel
  unfold computeCaches at h
  simp only [c1] at h
  cases hb : buildCache (ord .ChildrenDirection) fuel unc .ChildrenDirection sc m with
  | error e => simp [hb] at h
  | ok kc =>
    simp only [hb] at h
    obtain ⟨-, k2⟩ := buildCache_keys (ord .ChildrenDirection) hk sc c4
      (fun u => ⟨c3 u, fun h => c2 u h.1 h.2⟩) unc fuel kc hb
    cases hf : findCycles fuel .ParentsDirection N m with
    | error e => simp [hf] at h
    | ok sp =>
      simp only [hf] at h
      cases hp : buildCache (ord .ParentsDirection) fuel unc .ParentsDirection sp m with
      | error e => simp [hp] at h
      | ok kp =>
        simp only [hp, GetAllKeysAndValues_eq] at h
        obtain ⟨ids, hids⟩ := exists_ids_of_keys kc.allKeys (fun key hkey => by
          obtain ⟨u, -, -, e⟩ := (k2 key).mp hkey
          exact ⟨u, e⟩)
        rw [hids, assembleCaches_spec kp kc ids []] at h
        cases h
        have hac := buildCache_ascending _ _ _ _ _ _ _ hb
        have hap := buildCache_ascending _ _ _ _ _ _ _ hp
        intro c hc
        simp only [List.nil_append, List.mem_map] at hc
        obtain ⟨u, -, rfl⟩ := hc
        exact ⟨Bitmap.Remove_ascending _ _ (hac.view _), Bitmap.Remove_ascending _ _ (hap.view _)⟩

/-! ## The uncached list counts as a set -/

/-- Two uncached lists with the same ids: the records computed for a node are
equal. -/
theorem computeCaches_same_set (ord ord2 : Direction → RangeOrder) {m : NodeMap} {N : Nat}
    (hw : WellFormed N m) (l1 l2 : List Nat) (hset : ∀ u, u ∈ l1 ↔ u ∈ l2)
    (fuel fuel2 : Nat) (hfuel : (N + 1) * (N + 1) ≤ fuel)
    (hfuel2 : (N + 1) * (N + 1) ≤ fuel2) (b1 b2 : List NodeCache)
    (h1 : computeCaches ord fuel l1 N m = .ok b1)
    (h2 : computeCaches ord2 fuel2 l2 N m = .ok b2) :
    (∀ n, 1 ≤ n → n ≤ N → ∃ r, r ∈ b1 ∧ r ∈ b2 ∧ r.nodeID = n) ∧
    (∀ r ∈ b1, ∀ r2 ∈ b2, r.nodeID = r2.nodeID → r = r2) := by
  have hN : N < fuel := by
    have : (N + 1) * (N + 1) = N * N + 2 * N + 1 := by ring
    omega
  have hN2 : N < fuel2 := by
    have : (N + 1) * (N + 1) = N * N + 2 * N + 1 := by ring
    omega
  have hunc1 : ∀ u ∈ l1, 1 ≤ u ∧ u ≤ N := by
    by_contra hb
    simp only [not_forall, exists_prop] at hb
    obtain ⟨e, he⟩ := computeCaches_bad_id ord hw l1 hb fuel hfuel
    rw [h1] at he
    cases he
  have hunc2 : ∀ u ∈ l2, 1 ≤ u ∧ u ≤ N := fun u hu => hunc1 u ((hset u).mpr hu)
  obtain ⟨c1, ids1, e1, hids1, hmap1, hchar1⟩ := computeCaches_spec ord hw l1 hunc1 fuel hfuel
  obtain ⟨c2, ids2, e2, hids2, hmap2, hchar2⟩ := computeCaches_spec ord2 hw l2 hunc2 fuel2 hfuel2
  rw [h1] at e1
  cases e1
  rw [h2] at e2
  cases e2
  have hasc1 := computeCaches_ascending ord hw.1 l1 fuel hN b1 h1
  have hasc2 := computeCaches_ascending ord2 hw.1 l2 fuel2 hN2 b2 h2
  have hnear : ∀ n, NearUncached m l1 n ↔ NearUncached m l2 n := by
    intro n
    constructor
    · rintro ⟨u, hu, hc⟩
      exact ⟨u, (hset u).mp hu, hc⟩
    · rintro ⟨u, hu, hc⟩
      exact ⟨u, (hset u).mpr hu, hc⟩
  have heq : ∀ r ∈ b1, ∀ r2 ∈ b2, r.nodeID = r2.nodeID → r = r2 := by
    intro r hr r2 hr2 e
    have hc : r.allChildren = r2.allChildren := by
      apply Bitmap.eq_of_mem_iff _ _ (hasc1 r hr).1 (hasc2 r2 hr2).1
      intro x
      rw [(hchar1 r hr).1 x, (hchar2 r2 hr2).1 x, e, hnear]
    have hp : r.allParents = r2.allParents := by
      apply Bitmap.eq_of_mem_iff _ _ (hasc1 r hr).2 (hasc2 r2 hr2).2
      intro x
      rw [(hchar1 r hr).2 x, (hchar2 r2 hr2).2 x, e, hnear]
    cases r
    cases r2
    simp only at e hc hp
    subst e hc hp
    rfl
  refine ⟨?_, heq⟩
  intro n hn1 hn2
  have m1 : n ∈ b1.map NodeCache.nodeID := by
    rw [hmap1]
    exact (hids1 n).mpr ⟨hn1, hn2⟩
  have m2 : n ∈ b2.map NodeCache.nodeID := by
    rw [hmap2]
    exact (hids2 n).mpr ⟨hn1, hn2⟩
  obtain ⟨r, hr, er⟩ := List.mem_map.mp m1
  obtain ⟨r2, hr2, er2⟩ := List.mem_map.mp m2
  have := heq r hr r2 hr2 (by rw [er, er2])
  subst this
  exact ⟨r, hr, hr2, er⟩

/-- C26: on a well-formed node map, two runs of `Cache` whose to-be-cached lists hold
the same ids (in any order, with any repetitions; the two runs may visit the maps in
different orders) save the same record for every node: whenever both runs pass a
batch to `SaveCaches`, each node `1..N` has one and the same record in both
batches, and two records of the two batches with the same node id are equal. -/
theorem Cache_depends_on_uncached_set (ord ord2 : Direction → RangeOrder) {σ σ2 : Type}
    (st : Storage σ) (s : σ) (st2 : Storage σ2) (s2 : σ2) (m : NodeMap) (N : Nat)
    (hw : WellFormed N m) (l1 l2 : List Nat) (hset : ∀ u, u ∈ l1 ↔ u ∈ l2)
    (hst : ∀ unc s1 keys t m1 s3, st.ToBeCached s = (.ok unc, s1) →
      st.GetAllKeys s1 = (.ok keys, t) → st.GetNodes keys t = (.ok m1, s3) →
      keys.length = N ∧ m1 = m ∧ unc = l1)
    (hst2 : ∀ unc s1 keys t m1 s3, st2.ToBeCached s2 = (.ok unc, s1) →
      st2.GetAllKeys s1 = (.ok keys, t) → st2.GetNodes keys t = (.ok m1, s3) →
      keys.length = N ∧ m1 = m ∧ unc = l2)
    (fuel fuel2 : Nat) (hfuel : (N + 1) * (N + 1) ≤ fuel)
    (hfuel2 : (N + 1) * (N + 1) ≤ fuel2) :
    ∀ c ∈ (Cache ord st.traced fuel (s, [])).2.2, c.op = .SaveCaches →
      ∀ c2 ∈ (Cache ord2 st2.traced fuel2 (s2, [])).2.2, c2.op = .SaveCaches →
        (∀ n, 1 ≤ n → n ≤ N → ∃ r, r ∈ c.saved ∧ r ∈ c2.saved ∧ r.nodeID = n) ∧
        (∀ r ∈ c.saved, ∀ r2 ∈ c2.saved, r.nodeID = r2.nodeID → r = r2) := by
  intro c hc hop c2 hc2 hop2
  obtain ⟨unc, s1, keys, t, m1, s3, a1, -, a2, a3, a4⟩ :=
    Cache_saved_batch ord st fuel s c hc hop
  obtain ⟨hlen, hm, hu⟩ := hst unc s1 keys t m1 s3 a1 a2 a3
  subst hm hu
  rw [hlen] at a4
  obtain ⟨unc2, s1', keys', t', m2, s3', b1, -, b2, b3, b4⟩ :=
    Cache_saved_batch ord2 st2 fuel2 s2 c2 hc2 hop2
  obtain ⟨hlen2, hm2, hu2⟩ := hst2 unc2 s1' keys' t' m2 s3' b1 b2 b3
  subst hm2 hu2
  rw [hlen2] at b4
  exact computeCaches_same_set ord ord2 hw unc unc2 hset fuel fuel2 hfuel hfuel2 _ _ a4 b4

theorem tailedStorage_traces :
    (Cache RangeOrder.listedBoth MemStorage.ops.traced 16 (tailedStorage [3, 1], [])).2.2 =
      [⟨.ToBeCached, false, []⟩, ⟨.GetAllKeys, false, []⟩, ⟨.GetNodes, false, []⟩,
        ⟨.SaveCaches, false, [⟨1, [2], [2, 3]⟩, ⟨2, [1], [1, 3]⟩, ⟨3, [1, 2], []⟩]⟩,
        ⟨.ClearCacheStack, false, []⟩] ∧
    (Cache (fun _ => RangeOrder.reversed) MemStorage.ops.traced 16
        (tailedStorage [1, 3, 3, 1], [])).2.2 =
      [⟨.ToBeCached, false, []⟩, ⟨.GetAllKeys, false, []⟩, ⟨.GetNodes, false, []⟩,
        ⟨.SaveCaches, false, [⟨2, [1], [1, 3]⟩, ⟨1, [2], [2, 3]⟩, ⟨3, [1, 2], []⟩]⟩,
        ⟨.ClearCacheStack, false, []⟩] :=
  ⟨rfl, rfl⟩

/-- Witness for C26: nodes 1 and 2 on a cycle, node 3 below node 2; the first run has
the to-be-cached list `[3, 1]`, the second `[1, 3, 3, 1]` and visits the maps in the
reverse order. Both runs save a batch, with the same three records in a different
order. -/
theorem Cache_depends_on_uncached_set_witness :
    WellFormed 3 tailedCycleNodes ∧ (∀ u, u ∈ [3, 1] ↔ u ∈ [1, 3, 3, 1]) ∧
    (3 + 1) * (3 + 1) ≤ 16 ∧
    (⟨.SaveCaches, false, [⟨1, [2], [2, 3]⟩, ⟨2, [1], [1, 3]⟩, ⟨3, [1, 2], []⟩]⟩ :
        StorageCall) ∈
      (Cache RangeOrder.listedBoth MemStorage.ops.traced 16 (tailedStorage [3, 1], [])).2.2 ∧
    (⟨.SaveCaches, false, [⟨2, [1], [1, 3]⟩, ⟨1, [2], [2, 3]⟩, ⟨3, [1, 2], []⟩]⟩ :
        StorageCall) ∈
      (Cache (fun _ => RangeOrder.reversed) MemStorage.ops.traced 16
        (tailedStorage [1, 3, 3, 1], [])).2.2 ∧
    ∀ c ∈ (Cache RangeOrder.listedBoth MemStorage.ops.traced 16
        (tailedStorage [3, 1], [])).2.2, c.op = .SaveCaches →
      ∀ c2 ∈ (Cache (fun _ => RangeOrder.reversed) MemStorage.ops.traced 16
          (tailedStorage [1, 3, 3, 1], [])).2.2, c2.op = .SaveCaches →
        (∀ n, 1 ≤ n → n ≤ 3 → ∃ r, r ∈ c.saved ∧ r ∈ c2.saved ∧ r.nodeID = n) ∧
        (∀ r ∈ c.saved, ∀ r2 ∈ c2.saved, r.nodeID = r2.nodeID → r = r2) :=
  ⟨by decide, fun u => by simp only [List.mem_cons, List.mem_singleton, List.not_mem_nil]; tauto,
    by decide, by rw [tailedStorage_traces.1]; simp,
    by rw [tailedStorage_traces.2]; simp,
    Cache_depends_on_uncached_set RangeOrder.listedBoth (fun _ => RangeOrder.reversed)
      MemStorage.ops (tailedStorage [3, 1]) MemStorage.ops (tailedStorage [1, 3, 3, 1])
      tailedCycleNodes 3 (by decide) [3, 1] [1, 3, 3, 1]
      (fun u => by simp only [List.mem_cons, List.mem_singleton, List.not_mem_nil]; tauto)
      (MemStorage.run_nodes (tailedStorage [3, 1]) 3 (by decide))
      (MemStorage.run_nodes (tailedStorage [1, 3, 3, 1]) 3 (by decide))
      16 16 (by decide) (by decide)⟩

/-! ## The transposed node map -/

theorem NodeMap.get?_transpose (m : NodeMap) (id : Nat) :
    NodeMap.get? (transpose m) id = (NodeMap.get? m id).map Node.swap := by
  induction m with
  | nil => rfl
  | cons p rest ih =>
    obtain ⟨k, nd⟩ := p
    simp only [transpose, List.map_cons, NodeMap.get?]
    split_ifs with h
    · rfl
    · exact ih

theorem Node.next_swap (nd : Node) (d : Direction) : nd.swap.next d = nd.next d.opposite := by
  cases d <;> rfl

/-- `tarjanDFS` on the transposed map is `tarjanDFS` in the other direction. -/
theorem tarjanDFS_transpose (d : Direction) (m : NodeMap) :
    ∀ (fuel x : Nat) (st : TarjanState),
      tarjanDFS d (transpose m) fuel x st = tarjanDFS d.opposite m fuel x st := by
  intro fuel
  induction fuel with
  | zero =>
    intro x st
    rfl
  | succ fuel ih =>
    intro x st
    have hf : tarjanDFS d (transpose m) fuel = tarjanDFS d.opposite m fuel := by
      funext y s
      exact ih y s
    unfold tarjanDFS
    rw [NodeMap.get?_transpose]
    cases hnd : NodeMap.get? m x with
    | none => rfl
    | some nd =>
      simp only [Option.map_some', Node.next_swap, hf]

theorem findCyclesLoop_transpose (d : Direction) (m : NodeMap) (fuel : Nat) :
    ∀ (l : List Nat) (st : TarjanState),
      findCyclesLoop d (transpose m) fuel l st = findCyclesLoop d.opposite m fuel l st := by
  intro l
  induction l with
  | nil =>
    intro st
    rfl
  | cons id rest ih =>
    intro st
    unfold findCyclesLoop
    rw [tarjanDFS_transpose]
    split_ifs with h
    · cases tarjanDFS d.opposite m fuel id st with
      | error e => rfl
      | ok st1 => exact ih st1
    · exact ih st

/-- `findCycles` on the transposed map is `findCycles` in the other direction. -/
theorem findCycles_transpose (fuel : Nat) (d : Direction) (N : Nat) (m : NodeMap) :
    findCycles fuel d N (transpose m) = findCycles fuel d.opposite N m := by
  unfold findCycles
  rw [findCyclesLoop_transpose]

theorem gatherGroup_transpose (m : NodeMap) :
    ∀ (ks : List String) (acc : GroupAcc),
      gatherGroup (transpose m) ks acc = (gatherGroup m ks acc.swap).map GroupAcc.swap := by
  intro ks
  induction ks with
  | nil =>
    intro acc
    rfl
  | cons key rest ih =>
    intro acc
    unfold gatherGroup
    cases hk : Atoi key with
    | error e => rfl
    | ok intkey =>
      simp only
      rw [NodeMap.get?_transpose]
      cases hnd : NodeMap.get? m intkey with
      | none => rfl
      | some nd =>
        simp only [Option.map_some']
        rw [ih]
        rfl

theorem addGroup_transpose (m : NodeMap) (ks : List String) (M : BindMaps) :
    addGroup (transpose m) ks M = (addGroup m ks M.swap).map BindMaps.swap := by
  unfold addGroup
  rw [gatherGroup_transpose]
  have hs : GroupAcc.swap
      { keycache := Bitmap.New, childrenCache := Bitmap.New, parentCache := Bitmap.New } =
      { keycache := Bitmap.New, childrenCache := Bitmap.New, parentCache := Bitmap.New } := rfl
  rw [hs]
  generalize gatherGroup m ks
    { keycache := Bitmap.New, childrenCache := Bitmap.New, parentCache := Bitmap.New } = g
  cases ks with
  | nil => cases g <;> rfl
  | cons first rest => cases g <;> rfl

theorem addGroups_transpose (m : NodeMap) :
    ∀ (G : List (Nat × List String)) (M : BindMaps),
      addGroups (transpose m) G M = (addGroups m G M.swap).map BindMaps.swap := by
  intro G
  induction G with
  | nil =>
    intro M
    rfl
  | cons p rest ih =>
    intro M
    obtain ⟨v, ks⟩ := p
    unfold addGroups
    rw [addGroup_transpose]
    cases addGroup m ks M.swap with
    | error e => rfl
    | ok M1 =>
      simp only [Except.map]
      rw [ih]
      rfl

/-- Seeding on the transposed map gives the seeded maps with `children` and
`parents` swapped. -/
theorem addCyclesToBindMap_transpose (ord : RangeOrder) (scc : IdMap) (m : NodeMap) :
    addCyclesToBindMap ord scc
        { cache := NativeKeyManagement.New, children := NativeKeyManagement.New,
          parents := NativeKeyManagement.New } (transpose m) =
      (addCyclesToBindMap ord scc
        { cache := NativeKeyManagement.New, children := NativeKeyManagement.New,
          parents := NativeKeyManagement.New } m).map BindMaps.swap := by
  unfold addCyclesToBindMap
  rw [addGroups_transpose]
  rfl

theorem getTodoAndFutureNodes_swap (ch pa : NativeKeyManagement) (nd : Node) (d : Direction) :
    getTodoAndFutureNodes ch pa nd.swap d = getTodoAndFutureNodes pa ch nd d.opposite := by
  cases d <;> rfl

/-- `cacheDFS` on the transposed map, with the seeded `children` and `parents`
swapped, is `cacheDFS` in the other direction. -/
theorem cacheDFS_transpose (d : Direction) (scc : IdMap) (ch pa : NativeKeyManagement)
    (m : NodeMap) :
    ∀ (fuel X : Nat) (st : DFSState),
      cacheDFS d scc ch pa (transpose m) fuel X st = cacheDFS d.opposite scc pa ch m fuel X st := by
  intro fuel
  induction fuel with
  | zero =>
    intro X st
    rfl
  | succ fuel ih =>
    intro X st
    have hf : cacheDFS d scc ch pa (transpose m) fuel = cacheDFS d.opposite scc pa ch m fuel := by
      funext y s
      exact ih y s
    unfold cacheDFS
    rw [NodeMap.get?_transpose]
    cases hnd : NodeMap.get? m X with
    | none => rfl
    | some nd =>
      simp only [Option.map_some', getTodoAndFutureNodes_swap, hf]
      rfl

/-- `buildCache` on the transposed map is `buildCache` in the other direction, when
both visit the maps in the same order. -/
theorem buildCache_transpose (ord : RangeOrder) (fuel : Nat) (unc : List Nat) (d : Direction)
    (scc : IdMap) (m : NodeMap) :
    buildCache ord fuel unc d scc (transpose m) = buildCache ord fuel unc d.opposite scc m := by
  unfold buildCache
  rw [addCyclesToBindMap_transpose]
  cases addCyclesToBindMap ord scc
      { cache := NativeKeyManagement.New, children := NativeKeyManagement.New,
        parents := NativeKeyManagement.New } m with
  | error e => rfl
  | ok M =>
    simp only [Except.map, BindMaps.swap]
    have hf : cacheDFS d scc M.parents M.children (transpose m) fuel =
        cacheDFS d.opposite scc M.children M.parents m fuel := by
      funext y s
      exact cacheDFS_transpose d scc M.parents M.children m fuel y s
    rw [hf]

/-! ## Runs on indistinguishable group maps -/

theorem addToCache_sameSlots (a b : NativeKeyManagement) (h : a.SameSlots b) (cur todo : Nat) :
    ∃ a1 b1, addToCache a cur todo = .ok a1 ∧ addToCache b cur todo = .ok b1 ∧
      a1.SameSlots b1 := by
  refine ⟨_, _, addToCache_eq a cur todo, addToCache_eq b cur todo, ?_, ?_⟩
  · intro key
    rw [NativeKeyManagement.view_Set, NativeKeyManagement.view_Set, h.1, h.1, h.1]
    by_cases hc : a.canonical (Itoa cur) = a.canonical key
    · rw [if_pos hc, if_pos ((h.2 _ _).mp hc)]
    · rw [if_neg hc, if_neg (fun e => hc ((h.2 _ _).mpr e))]
  · intro k k2
    exact h.2 k k2

theorem todoLoop_same (dfs dfs2 : Nat → DFSState → Except Error DFSState)
    (hdfs : ∀ Y s t, DFSState.Same s t → SameOutcome DFSState.Same (dfs Y s) (dfs2 Y t))
    (scc : IdMap) (curID nodeID : Nat) :
    ∀ (rest : List Nat) (s t : DFSState), DFSState.Same s t →
      SameOutcome DFSState.Same (todoLoop dfs scc curID nodeID rest s)
        (todoLoop dfs2 scc curID nodeID rest t) := by
  intro rest
  induction rest with
  | nil =>
    intro s t h
    exact h
  | cons id rest ih =>
    intro s t h
    unfold todoLoop
    by_cases h1 : IdMap.get scc curID = IdMap.get scc id
    · rw [if_neg (not_not.mpr h1), if_neg (not_not.mpr h1)]
      exact ih s t h
    · rw [if_pos h1, if_pos h1, ← h.1]
      by_cases h2 : Bitmap.Contains s.alreadyCached id = true
      · rw [if_pos h2, if_pos h2]
        obtain ⟨a1, b1, e1, e2, hs⟩ := addToCache_sameSlots s.cache t.cache h.2 nodeID id
        rw [e1, e2]
        exact ih _ _ ⟨rfl, hs⟩
      · rw [if_neg h2, if_neg h2]
        have hd := hdfs id s t h
        cases r1 : dfs id s with
        | error e =>
          cases r2 : dfs2 id t with
          | error e2 =>
            rw [r1, r2] at hd
            exact hd
          | ok t1 =>
            rw [r1, r2] at hd
            exact hd.elim
        | ok s1 =>
          cases r2 : dfs2 id t with
          | error e2 =>
            rw [r1, r2] at hd
            exact hd.elim
          | ok t1 =>
            rw [r1, r2] at hd
            exact ih s1 t1 hd

theorem futureLoop_same (dfs dfs2 : Nat → DFSState → Except Error DFSState)
    (hdfs : ∀ Y s t, DFSState.Same s t → SameOutcome DFSState.Same (dfs Y s) (dfs2 Y t)) :
    ∀ (l : List Nat) (s t : DFSState), DFSState.Same s t →
      SameOutcome DFSState.Same (futureLoop dfs l s) (futureLoop dfs2 l t) := by
  intro l
  induction l with
  | nil =>
    intro s t h
    exact h
  | cons id rest ih =>
    intro s t h
    unfold futureLoop
    have hd := hdfs id s t h
    cases r1 : dfs id s with
    | error e =>
      cases r2 : dfs2 id t with
      | error e2 =>
        rw [r1, r2] at hd
        exact hd
      | ok t1 =>
        rw [r1, r2] at hd
        exact hd.elim
    | ok s1 =>
      cases r2 : dfs2 id t with
      | error e2 =>
        rw [r1, r2] at hd
        exact hd.elim
      | ok t1 =>
        rw [r1, r2] at hd
        exact ih s1 t1 hd

theorem getTodoAndFutureNodes_same (ch pa ch2 pa2 : NativeKeyManagement)
    (hc : ∀ key, ch.view key = ch2.view key) (hp : ∀ key, pa.view key = pa2.view key)
    (nd : Node) (d : Direction) :
    getTodoAndFutureNodes ch pa nd d = getTodoAndFutureNodes ch2 pa2 nd d := by
  cases d <;>
    simp only [getTodoAndFutureNodes, NativeKeyManagement.Get_eq, hc, hp]

/-- `cacheDFS` on indistinguishable group maps: the two calls end the same way, in
states that are indistinguishable again. -/
theorem cacheDFS_same (d : Direction) (scc : IdMap) (ch pa ch2 pa2 : NativeKeyManagement)
    (hc : ∀ key, ch.view key = ch2.view key) (hp : ∀ key, pa.view key = pa2.view key)
    (m : NodeMap) :
    ∀ (fuel X : Nat) (s t : DFSState), DFSState.Same s t →
      SameOutcome DFSState.Same (cacheDFS d scc ch pa m fuel X s)
        (cacheDFS d scc ch2 pa2 m fuel X t) := by
  intro fuel
  induction fuel with
  | zero =>
    intro X s t _
    exact rfl
  | succ fuel ih =>
    intro X s t h
    unfold cacheDFS
    cases hnd : NodeMap.get? m X with
    | none => exact rfl
    | some nd =>
      simp only
      rw [← h.1, getTodoAndFutureNodes_same ch pa ch2 pa2 hc hp nd d]
      by_cases hm : Bitmap.Contains s.alreadyCached nd.ID = true
      · rw [if_pos hm, if_pos hm]
        exact h
      · rw [if_neg hm, if_neg hm]
        cases hg : getTodoAndFutureNodes ch2 pa2 nd d with
        | error e => exact rfl
        | ok tf =>
          obtain ⟨todo, future⟩ := tf
          simp only
          have ht := todoLoop_same _ _ ih scc nd.ID X todo s t h
          cases r1 : todoLoop (cacheDFS d scc ch pa m fuel) scc nd.ID X todo s with
          | error e =>
            cases r2 : todoLoop (cacheDFS d scc ch2 pa2 m fuel) scc nd.ID X todo t with
            | error e2 =>
              rw [r1, r2] at ht
              exact ht
            | ok t1 =>
              rw [r1, r2] at ht
              exact ht.elim
          | ok s1 =>
            cases r2 : todoLoop (cacheDFS d scc ch2 pa2 m fuel) scc nd.ID X todo t with
            | error e2 =>
              rw [r1, r2] at ht
              exact ht.elim
            | ok t1 =>
              rw [r1, r2] at ht
              simp only
              refine futureLoop_same _ _ ih future _ _ ⟨?_, ht.2⟩
              show Bitmap.Add s1.alreadyCached X = Bitmap.Add t1.alreadyCached X
              rw [ht.1]

/-! ## Seeding for any `scc` map -/

theorem IdMap.value_unique (scc : IdMap) (hn : (scc.map Prod.fst).Nodup) {k r r2 : Nat}
    (h1 : (k, r) ∈ scc) (h2 : (k, r2) ∈ scc) : r = r2 := by
  have a := IdMap.get?_of_pair_mem scc k r hn h1
  have b := IdMap.get?_of_pair_mem scc k r2 hn h2
  rw [a] at b
  exact Option.some.inj b

/-- Seeding for a map `scc` with distinct keys that are all node ids. -/
theorem addCyclesToBindMap_grouped (ord : RangeOrder) {N : Nat} {m : NodeMap}
    (hk : KeysInRange N m) (scc : IdMap) (hn : (scc.map Prod.fst).Nodup)
    (hsub : ∀ p ∈ scc, 1 ≤ p.1 ∧ p.1 ≤ N) :
    ∃ M, addCyclesToBindMap ord scc
        { cache := NativeKeyManagement.New, children := NativeKeyManagement.New,
          parents := NativeKeyManagement.New } m = .ok M ∧
      GroupedMaps m scc M := by
  obtain ⟨g1, g2, g3, g4⟩ := RangeOrder.groups_spec ord scc
  have hkeys' : ∀ p ∈ ord.groups (parentToKeys (ord.ids scc)), ∀ x, Itoa x ∈ p.2 ↔
      (x, p.1) ∈ scc := by
    intro p hp x
    rw [g2 p hp]
    constructor
    · rintro ⟨k, a, e⟩
      have := Itoa_injective e
      subst this
      exact a
    · intro a
      exact ⟨x, a, rfl⟩
  have hdisj : (ord.groups (parentToKeys (ord.ids scc))).Pairwise
      (fun p q => ∀ key ∈ p.2, key ∉ q.2) := by
    have hp : (ord.groups (parentToKeys (ord.ids scc))).Pairwise (fun p q => p.1 ≠ q.1) := by
      have := g1
      rw [List.Nodup, List.pairwise_map] at this
      exact this
    refine hp.imp_of_mem ?_
    intro p q hp' hq' hne key h1 h2
    obtain ⟨k, c, e⟩ := (g2 p hp' key).mp h1
    obtain ⟨k', c', e'⟩ := (g2 q hq' key).mp h2
    have : k = k' := Itoa_injective (e.symm.trans e')
    subst this
    exact hne (IdMap.value_unique scc hn c c')
  have hclosed : BindMaps.Closed
      { cache := NativeKeyManagement.New, children := NativeKeyManagement.New,
        parents := NativeKeyManagement.New } :=
    ⟨NativeKeyManagement.New_Closed, NativeKeyManagement.New_Closed,
      NativeKeyManagement.New_Closed, fun _ => rfl, fun _ => rfl⟩
  obtain ⟨M, f1, -, f3, f4⟩ := addGroups_spec hk (ord.groups (parentToKeys (ord.ids scc))) _
    hclosed
    (fun p hp => ⟨g3 p hp, fun key hkey => by
      obtain ⟨k, a, e⟩ := (g2 p hp key).mp hkey
      exact ⟨k, e, (hsub _ a).1, (hsub _ a).2⟩⟩) hdisj (fun p hp key hkey => rfl)
  refine ⟨M, f1, ?_, ?_⟩
  · intro key hkey
    have hnone : ∀ p ∈ ord.groups (parentToKeys (ord.ids scc)), key ∉ p.2 := by
      intro p hp hin
      obtain ⟨k, a, e⟩ := (g2 p hp key).mp hin
      exact hkey k p.1 a e
    obtain ⟨a, b, c, d⟩ := f3 key hnone
    exact ⟨a, b, c, d⟩
  · intro k r hkr
    obtain ⟨ks, hks⟩ := g4 k r hkr
    obtain ⟨c, hcin, hc⟩ := f4 (r, ks) hks
    have hin : Itoa k ∈ ks := (hkeys' (r, ks) hks k).mpr hkr
    obtain ⟨k2, a2, e2⟩ := (g2 (r, ks) hks c).mp hcin
    refine ⟨c, ⟨k2, a2, e2⟩, ?_, ?_, ?_, ?_⟩
    · intro k3 h3
      exact (hc _ ((hkeys' (r, ks) hks k3).mpr h3)).1
    · intro x
      rw [(hc _ hin).2.1 x]
      exact hkeys' (r, ks) hks x
    · intro x
      rw [(hc _ hin).2.2.1 x]
      constructor
      · rintro ⟨⟨k', nd, a1, a2, a3⟩, a4⟩
        exact ⟨⟨k', nd, (hkeys' (r, ks) hks k').mp a1, a2, a3⟩,
          fun e => a4 ((hkeys' (r, ks) hks x).mpr e)⟩
      · rintro ⟨⟨k', nd, a1, a2, a3⟩, a4⟩
        exact ⟨⟨k', nd, (hkeys' (r, ks) hks k').mpr a1, a2, a3⟩,
          fun e => a4 ((hkeys' (r, ks) hks x).mp e)⟩
    · intro x
      rw [(hc _ hin).2.2.2 x]
      constructor
      · rintro ⟨⟨k', nd, a1, a2, a3⟩, a4⟩
        exact ⟨⟨k', nd, (hkeys' (r, ks) hks k').mp a1, a2, a3⟩,
          fun e => a4 ((hkeys' (r, ks) hks x).mpr e)⟩
      · rintro ⟨⟨k', nd, a1, a2, a3⟩, a4⟩
        exact ⟨⟨k', nd, (hkeys' (r, ks) hks k').mpr a1, a2, a3⟩,
          fun e => a4 ((hkeys' (r, ks) hks x).mp e)⟩

/-- In the seeded cache map two keys share a slot exactly when they are the same key
or the keys of two ids with the same `scc` value. -/
theorem GroupedMaps.canonical_iff {m : NodeMap} {scc : IdMap} {M : BindMaps}
    (hn : (scc.map Prod.fst).Nodup) (h : GroupedMaps m scc M) (k1 k2 : String) :
    M.cache.canonical k1 = M.cache.canonical k2 ↔
      (k1 = k2 ∨ ∃ a b r, (a, r) ∈ scc ∧ (b, r) ∈ scc ∧ k1 = Itoa a ∧ k2 = Itoa b) := by
  have hb : ∀ a r, (a, r) ∈ scc → ∃ a2, (a2, r) ∈ scc ∧
      M.cache.canonical (Itoa a) = Itoa a2 := by
    intro a r ha
    obtain ⟨c, ⟨k2, hk2, e⟩, hc, -⟩ := h.bound a r ha
    exact ⟨k2, hk2, by rw [NativeKeyManagement.canonical_of_binding _ _ _ (hc a ha), e]⟩
  have hu : ∀ key, (∀ k r, (k, r) ∈ scc → key ≠ Itoa k) → M.cache.canonical key = key := by
    intro key hkey
    unfold NativeKeyManagement.canonical
    rw [(h.unbound key hkey).1]
    rfl
  constructor
  · intro e
    by_cases h1 : ∀ k r, (k, r) ∈ scc → k1 ≠ Itoa k
    · by_cases h2 : ∀ k r, (k, r) ∈ scc → k2 ≠ Itoa k
      · rw [hu k1 h1, hu k2 h2] at e
        exact Or.inl e
      · exfalso
        simp only [not_forall, not_not, exists_prop] at h2
        obtain ⟨b, r, hb1, rfl⟩ := h2
        obtain ⟨b2, hb2, e2⟩ := hb b r hb1
        rw [hu k1 h1, e2] at e
        exact h1 b2 r hb2 e
    · simp only [not_forall, not_not, exists_prop] at h1
      obtain ⟨a, r, ha1, rfl⟩ := h1
      obtain ⟨a2, ha2, e1⟩ := hb a r ha1
      by_cases h2 : ∀ k r, (k, r) ∈ scc → k2 ≠ Itoa k
      · exfalso
        rw [hu k2 h2, e1] at e
        exact h2 a2 r ha2 e.symm
      · simp only [not_forall, not_not, exists_prop] at h2
        obtain ⟨b, r2, hb1, rfl⟩ := h2
        obtain ⟨b2, hb2, e2⟩ := hb b r2 hb1
        rw [e1, e2] at e
        have := Itoa_injective e
        subst this
        have := IdMap.value_unique scc hn ha2 hb2
        subst this
        exact Or.inr ⟨a, b, r, ha1, hb1, rfl, rfl⟩
  · rintro (rfl | ⟨a, b, r, ha, hb', rfl, rfl⟩)
    · rfl
    · obtain ⟨c, -, hc, -⟩ := h.bound a r ha
      rw [NativeKeyManagement.canonical_of_binding _ _ _ (hc a ha),
        NativeKeyManagement.canonical_of_binding _ _ _ (hc b hb')]

/-- Two seedings of the same `scc` map with ascending bitmaps cannot be told apart. -/
theorem GroupedMaps.same {m : NodeMap} {scc : IdMap} {M M2 : BindMaps}
    (hn : (scc.map Prod.fst).Nodup) (h : GroupedMaps m scc M) (h2 : GroupedMaps m scc M2)
    (ha : M.cache.Ascending ∧ M.children.Ascending ∧ M.parents.Ascending)
    (ha2 : M2.cache.Ascending ∧ M2.children.Ascending ∧ M2.parents.Ascending) :
    M.cache.SameSlots M2.cache ∧ (∀ key, M.children.view key = M2.children.view key) ∧
      (∀ key, M.parents.view key = M2.parents.view key) := by
  have hview : ∀ key, M.cache.view key = M2.cache.view key ∧
      M.children.view key = M2.children.view key ∧
      M.parents.view key = M2.parents.view key := by
    intro key
    by_cases h1 : ∀ k r, (k, r) ∈ scc → key ≠ Itoa k
    · obtain ⟨-, a, b, c⟩ := h.unbound key h1
      obtain ⟨-, a2, b2, c2⟩ := h2.unbound key h1
      exact ⟨by rw [a, a2], by rw [b, b2], by rw [c, c2]⟩
    · simp only [not_forall, not_not, exists_prop] at h1
      obtain ⟨k, r, hkr, rfl⟩ := h1
      obtain ⟨c, -, -, v1, v2, v3⟩ := h.bound k r hkr
      obtain ⟨c', -, -, w1, w2, w3⟩ := h2.bound k r hkr
      refine ⟨?_, ?_, ?_⟩
      · exact Bitmap.eq_of_mem_iff _ _ (ha.1.view _) (ha2.1.view _)
          (fun x => by rw [v1 x, w1 x])
      · exact Bitmap.eq_of_mem_iff _ _ (ha.2.1.view _) (ha2.2.1.view _)
          (fun x => by rw [v2 x, w2 x])
      · exact Bitmap.eq_of_mem_iff _ _ (ha.2.2.view _) (ha2.2.2.view _)
          (fun x => by rw [v3 x, w3 x])
  refine ⟨⟨fun key => (hview key).1, ?_⟩, fun key => (hview key).2.1,
    fun key => (hview key).2.2⟩
  intro k k2
  rw [h.canonical_iff hn, h2.canonical_iff hn]

/-! ## Seeding with a key that is not a node -/

theorem gatherGroup_ok_or_nil (m : NodeMap) :
    ∀ (ks : List String) (acc : GroupAcc), (∀ key ∈ ks, ∃ k, key = Itoa k) →
      (∃ out, gatherGroup m ks acc = .ok out) ∨
        gatherGroup m ks acc = .error .nilDereference := by
  intro ks
  induction ks with
  | nil =>
    intro acc _
    exact Or.inl ⟨acc, rfl⟩
  | cons key rest ih =>
    intro acc hform
    obtain ⟨k, rfl⟩ := hform key (List.mem_cons_self _ _)
    unfold gatherGroup
    rw [Atoi_Itoa]
    simp only
    cases hnd : NodeMap.get? m k with
    | none => exact Or.inr rfl
    | some nd => exact ih _ (fun key hkey => hform key (List.mem_cons_of_mem _ hkey))

theorem gatherGroup_missing (m : NodeMap) :
    ∀ (ks : List String) (acc : GroupAcc), (∀ key ∈ ks, ∃ k, key = Itoa k) →
      (∃ k, Itoa k ∈ ks ∧ NodeMap.get? m k = none) →
      gatherGroup m ks acc = .error .nilDereference := by
  intro ks
  induction ks with
  | nil =>
    rintro acc - ⟨k, hk, -⟩
    cases hk
  | cons key rest ih =>
    intro acc hform hmiss
    obtain ⟨k, rfl⟩ := hform key (List.mem_cons_self _ _)
    unfold gatherGroup
    rw [Atoi_Itoa]
    simp only
    cases hnd : NodeMap.get? m k with
    | none => rfl
    | some nd =>
      apply ih _ (fun key hkey => hform key (List.mem_cons_of_mem _ hkey))
      obtain ⟨k2, h1, h2⟩ := hmiss
      rcases List.mem_cons.mp h1 with e | e
      · have := Itoa_injective e
        subst this
        rw [hnd] at h2
        cases h2
      · exact ⟨k2, e, h2⟩

/-- `addGroup` ends as its loop over the keys of the group does. -/
theorem addGroup_of_gather (m : NodeMap) (ks : List String) (M : BindMaps) :
    (∀ e, gatherGroup m ks
        { keycache := Bitmap.New, childrenCache := Bitmap.New, parentCache := Bitmap.New } =
          .error e → addGroup m ks M = .error e) ∧
    (∀ out, gatherGroup m ks
        { keycache := Bitmap.New, childrenCache := Bitmap.New, parentCache := Bitmap.New } =
          .ok out → ∃ M1, addGroup m ks M = .ok M1) := by
  constructor
  · intro e h
    unfold addGroup
    rw [h]
    cases ks <;> rfl
  · intro out h
    unfold addGroup
    rw [h]
    cases ks with
    | nil => exact ⟨_, rfl⟩
    | cons first rest => exact ⟨_, rfl⟩

theorem addGroups_missing (m : NodeMap) :
    ∀ (G : List (Nat × List String)) (M : BindMaps),
      (∀ p ∈ G, ∀ key ∈ p.2, ∃ k, key = Itoa k) →
      (∃ p ∈ G, ∃ k, Itoa k ∈ p.2 ∧ NodeMap.get? m k = none) →
      addGroups m G M = .error .nilDereference := by
  intro G
  induction G with
  | nil =>
    rintro M - ⟨p, hp, -⟩
    cases hp
  | cons q rest ih =>
    intro M hform hmiss
    obtain ⟨v, ks⟩ := q
    unfold addGroups
    have hfq : ∀ key ∈ ks, ∃ k, key = Itoa k := hform (v, ks) (List.mem_cons_self _ _)
    rcases gatherGroup_ok_or_nil m ks
      { keycache := Bitmap.New, childrenCache := Bitmap.New, parentCache := Bitmap.New }
      hfq with ⟨out, hout⟩ | herr
    · obtain ⟨M1, hM1⟩ := (addGroup_of_gather m ks M).2 out hout
      rw [hM1]
      simp only
      apply ih M1 (fun p hp => hform p (List.mem_cons_of_mem _ hp))
      obtain ⟨p, hp, k, h1, h2⟩ := hmiss
      rcases List.mem_cons.mp hp with e | e
      · exfalso
        subst e
        have := gatherGroup_missing m ks
          { keycache := Bitmap.New, childrenCache := Bitmap.New, parentCache := Bitmap.New }
          hfq ⟨k, h1, h2⟩
        rw [hout] at this
        cases this
      · exact ⟨p, e, k, h1, h2⟩
    · rw [(addGroup_of_gather m ks M).1 _ herr]

/-- With a key in `scc` that is not a node, seeding ends in the nil dereference of
`addCyclesToBindMap`, in whatever order the maps are visited. -/
theorem addCyclesToBindMap_missing (ord : RangeOrder) (scc : IdMap) (m : NodeMap)
    (M : BindMaps) (hmiss : ∃ p ∈ scc, NodeMap.get? m p.1 = none) :
    addCyclesToBindMap ord scc M m = .error .nilDereference := by
  obtain ⟨-, g2, -, g4⟩ := RangeOrder.groups_spec ord scc
  unfold addCyclesToBindMap
  apply addGroups_missing
  · intro p hp key hkey
    obtain ⟨k, -, e⟩ := (g2 p hp key).mp hkey
    exact ⟨k, e⟩
  · obtain ⟨p, hp, hnone⟩ := hmiss
    obtain ⟨ks, hks⟩ := g4 p.1 p.2 hp
    exact ⟨(p.2, ks), hks, p.1, (g2 (p.2, ks) hks _).mpr ⟨p.1, hp, rfl⟩, hnone⟩

/-! ## The order of the map iterations does not show -/

/-- Seeding in two orders: both end in the same error, or in maps that cannot be told
apart. -/
theorem addCyclesToBindMap_order (ord ord2 : RangeOrder) {N : Nat} {m : NodeMap}
    (hk : KeysInRange N m) (scc : IdMap) (hn : (scc.map Prod.fst).Nodup) :
    SameOutcome
      (fun M M2 : BindMaps => M.cache.SameSlots M2.cache ∧
        (∀ key, M.children.view key = M2.children.view key) ∧
        (∀ key, M.parents.view key = M2.parents.view key))
      (addCyclesToBindMap ord scc
        { cache := NativeKeyManagement.New, children := NativeKeyManagement.New,
          parents := NativeKeyManagement.New } m)
      (addCyclesToBindMap ord2 scc
        { cache := NativeKeyManagement.New, children := NativeKeyManagement.New,
          parents := NativeKeyManagement.New } m) := by
  by_cases hsub : ∀ p ∈ scc, 1 ≤ p.1 ∧ p.1 ≤ N
  · obtain ⟨M, hM, hg⟩ := addCyclesToBindMap_grouped ord hk scc hn hsub
    obtain ⟨M2, hM2, hg2⟩ := addCyclesToBindMap_grouped ord2 hk scc hn hsub
    rw [hM, hM2]
    exact GroupedMaps.same hn hg hg2 (addCyclesToBindMap_ascending ord scc m M hM)
      (addCyclesToBindMap_ascending ord2 scc m M2 hM2)
  · simp only [not_forall, exists_prop] at hsub
    obtain ⟨p, hp, hbad⟩ := hsub
    have hnone : NodeMap.get? m p.1 = none := by
      cases hnd : NodeMap.get? m p.1 with
      | none => rfl
      | some nd => exact absurd (hk.key_range hnd) hbad
    rw [addCyclesToBindMap_missing ord scc m _ ⟨p, hp, hnone⟩,
      addCyclesToBindMap_missing ord2 scc m _ ⟨p, hp, hnone⟩]
    exact rfl

/-- `buildCache` with the maps visited in two orders: both runs end in the same
error, or in cache maps that cannot be told apart. -/
theorem buildCache_order (ord ord2 : RangeOrder) {N : Nat} {m : NodeMap}
    (hk : KeysInRange N m) (scc : IdMap) (hn : (scc.map Prod.fst).Nodup) (fuel : Nat)
    (unc : List Nat) (d : Direction) :
    SameOutcome NativeKeyManagement.SameSlots (buildCache ord fuel unc d scc m)
      (buildCache ord2 fuel unc d scc m) := by
  have hs := addCyclesToBindMap_order ord ord2 hk scc hn
  unfold buildCache
  cases r1 : addCyclesToBindMap ord scc
      { cache := NativeKeyManagement.New, children := NativeKeyManagement.New,
        parents := NativeKeyManagement.New } m with
  | error e =>
    cases r2 : addCyclesToBindMap ord2 scc
        { cache := NativeKeyManagement.New, children := NativeKeyManagement.New,
          parents := NativeKeyManagement.New } m with
    | error e2 =>
      rw [r1, r2] at hs
      exact hs
    | ok M2 =>
      rw [r1, r2] at hs
      exact hs.elim
  | ok M =>
    cases r2 : addCyclesToBindMap ord2 scc
        { cache := NativeKeyManagement.New, children := NativeKeyManagement.New,
          parents := NativeKeyManagement.New } m with
    | error e2 =>
      rw [r1, r2] at hs
      exact hs.elim
    | ok M2 =>
      rw [r1, r2] at hs
      simp only
      have hl := futureLoop_same _ _
        (cacheDFS_same d scc M.children M.parents M2.children M2.parents hs.2.1 hs.2.2 m fuel)
        unc { alreadyCached := Bitmap.New, cache := M.cache }
        { alreadyCached := Bitmap.New, cache := M2.cache } ⟨rfl, hs.1⟩
      cases q1 : futureLoop (cacheDFS d scc M.children M.parents m fuel) unc
          { alreadyCached := Bitmap.New, cache := M.cache } with
      | error e =>
        cases q2 : futureLoop (cacheDFS d scc M2.children M2.parents m fuel) unc
            { alreadyCached := Bitmap.New, cache := M2.cache } with
        | error e2 =>
          rw [q1, q2] at hl
          exact hl
        | ok t =>
          rw [q1, q2] at hl
          exact hl.elim
      | ok s =>
        cases q2 : futureLoop (cacheDFS d scc M2.children M2.parents m fuel) unc
            { alreadyCached := Bitmap.New, cache := M2.cache } with
        | error e2 =>
          rw [q1, q2] at hl
          exact hl.elim
        | ok t =>
          rw [q1, q2] at hl
          exact hl.2

theorem SameOutcome.imp {α : Type} {R S : α → α → Prop} (h : ∀ a b, R a b → S a b)
    {x y : Except Error α} (hxy : SameOutcome R x y) : SameOutcome S x y := by
  cases x <;> cases y
  · exact hxy
  · exact hxy
  · exact hxy
  · exact h _ _ hxy

/-! ## Transposing the node map swaps the directions -/

/-- C25: for a node map `G` with keys `1..N` and adjacency ids in `1..N` and its
transpose (every node's `Children` and `Parents` swapped): `findCycles` in the
parents direction on `G` returns the same as `findCycles` in the children direction
on the transpose; for every `scc` map and uncached list `buildCache` in the parents
direction on `G` returns the same as `buildCache` in the children direction on the
transpose when both visit the maps in the same order; and when they visit the maps in
different orders (the `scc` map having distinct keys), both end in the same error or
return maps in which every key reads the same bitmap. -/
theorem transpose_swaps_directions (G : NodeMap) (N : Nat) (hk : KeysInRange N G) :
    (∀ fuel, findCycles fuel .ParentsDirection N G =
      findCycles fuel .ChildrenDirection N (transpose G)) ∧
    (∀ (ord : RangeOrder) (scc : IdMap) (unc : List Nat) (fuel : Nat),
      buildCache ord fuel unc .ParentsDirection scc G =
        buildCache ord fuel unc .ChildrenDirection scc (transpose G)) ∧
    (∀ (ord ord2 : RangeOrder) (scc : IdMap), (scc.map Prod.fst).Nodup →
      ∀ (unc : List Nat) (fuel : Nat),
        SameOutcome (fun km km2 : NativeKeyManagement => ∀ key, km.Get key = km2.Get key)
          (buildCache ord fuel unc .ParentsDirection scc G)
          (buildCache ord2 fuel unc .ChildrenDirection scc (transpose G))) := by
  refine ⟨?_, ?_, ?_⟩
  · intro fuel
    rw [findCycles_transpose]
    rfl
  · intro ord scc unc fuel
    rw [buildCache_transpose]
    rfl
  · intro ord ord2 scc hn unc fuel
    rw [buildCache_transpose]
    refine SameOutcome.imp ?_ (buildCache_order ord ord2 hk scc hn fuel unc .ParentsDirection)
    intro a b hab key
    rw [NativeKeyManagement.Get_eq, NativeKeyManagement.Get_eq, hab.1 key]

/-- Witness for C25: nodes 1 and 2 on a cycle, node 3 below node 2. The two
`findCycles` calls return the same map; the two `buildCache` calls, which visit the
maps in opposite orders, choose different canonical keys and every key reads the same
bitmap in both results. -/
theorem transpose_swaps_directions_witness :
    KeysInRange 3 tailedCycleNodes ∧
    findCycles 4 .ParentsDirection 3 tailedCycleNodes = .ok [(1, 1), (2, 1), (3, 3)] ∧
    findCycles 4 .ChildrenDirection 3 (transpose tailedCycleNodes) =
      .ok [(1, 1), (2, 1), (3, 3)] ∧
    buildCache RangeOrder.listed 16 [3] .ParentsDirection [(1, 1), (2, 1), (3, 3)]
        tailedCycleNodes =
      .ok { bindings := [("1", "1"), ("2", "1"), ("3", "3")],
            values := [("1", [1, 2]), ("3", [1, 2, 3])] } ∧
    buildCache RangeOrder.reversed 16 [3] .ChildrenDirection [(1, 1), (2, 1), (3, 3)]
        (transpose tailedCycleNodes) =
      .ok { bindings := [("2", "2"), ("1", "2"), ("3", "3")],
            values := [("2", [1, 2]), ("3", [1, 2, 3])] } ∧
    SameOutcome (fun km km2 : NativeKeyManagement => ∀ key, km.Get key = km2.Get key)
      (buildCache RangeOrder.listed 16 [3] .ParentsDirection [(1, 1), (2, 1), (3, 3)]
        tailedCycleNodes)
      (buildCache RangeOrder.reversed 16 [3] .ChildrenDirection [(1, 1), (2, 1), (3, 3)]
        (transpose tailedCycleNodes)) :=
  ⟨by decide, rfl, rfl, rfl, rfl,
    (transpose_swaps_directions tailedCycleNodes 3 (by decide)).2.2 RangeOrder.listed
      RangeOrder.reversed [(1, 1), (2, 1), (3, 3)] (by decide) [3] 16⟩

/-! ## The group map that checks its keys -/

/-- The two group maps differ: on a bound key without a stored bitmap `Get` returns
the empty bitmap and `GetStrict` fails, and on a key that was never bound `Set`
writes a slot and `SetStrict` fails. -/
theorem GetStrict_reports_missing :
    boundEmptyMap.Get "1" = .ok [] ∧
    boundEmptyMap.GetStrict "1" = .error (.missingKey "1") ∧
    (NativeKeyManagement.New.Set "1" [1]).toBool = true ∧
    NativeKeyManagement.New.SetStrict "1" [1] = .error (.missingKey "1") :=
  ⟨rfl, rfl, rfl, rfl⟩

theorem NativeKeyManagement.Filled.bindSet {m : NativeKeyManagement} (h : m.Filled)
    (first : String) (rest : List String) (v : Bitmap) : (m.bindSet first rest v).Filled := by
  intro key c hk
  have hk' : lookupBinding
      ((first :: rest).foldl (fun b k => setBinding b k first) m.bindings) key = some c := hk
  rw [lookupBinding_bind] at hk'
  show (lookupValue (setValue m.values first v) c).isSome = true
  rw [lookupValue_setValue]
  by_cases e : first = c
  · simp [e]
  · simp only [e, if_false]
    split_ifs at hk' with e'
    · cases hk'
      exact absurd rfl e
    · exact h key c hk'

theorem NativeKeyManagement.Filled.write {m : NativeKeyManagement} (h : m.Filled) (c : String)
    (v : Bitmap) :
    ({ m with values := setValue m.values c v } : NativeKeyManagement).Filled := by
  intro key c' hk
  show (lookupValue (setValue m.values c v) c').isSome = true
  rw [lookupValue_setValue]
  by_cases e : c = c'
  · simp [e]
  · simp only [e, if_false]
    exact h key c' hk

end Minefield
